import Mathlib

/-! BusTub buffer management core: LRU-K replacer, buffer pool manager, page guards,
persistent trie.

A shallow embedding of `src/buffer/lru_k_replacer.cpp`,
`src/buffer/buffer_pool_manager.cpp`, `src/storage/page/page_guard.cpp` and
`src/primer/trie.cpp`, followed by the properties established about them.

Conventions of the embedding.

* `std::list` is a `List` (front of the list first); an iterator into a list is
  the position of the first node carrying the frame id in question, which is the
  only such node whenever the frame ids in the replacer are pairwise distinct.
* `hash_cache_` maps a frame id to the position of its node; it is kept in step
  with the two node lists by every operation of the source (inserted together
  with the node, erased together with it), so the embedding looks a frame up in
  the lists themselves, `less_k_nodes_` first.
* A C++ exception is an `Except.error`; every `throw` of the replacer happens
  before the first mutation, so the state of a failing call is its input.
* `frame_id_t` and `page_id_t` are integers (`Int`); `size_t` counters that are
  decremented wrap at `2 ^ 64`; `current_timestamp_` only grows by one per
  recorded access and is a natural number (a run cannot reach `2 ^ 64` accesses).
  The allocation counter `next_page_id_` is an integer that only grows, the
  monotonic counter of the specification.
* A call on the buffer pool ends in an `Outcome`: it returns, it lets an
  exception of the replacer escape with the state reached so far, or it blocks
  for ever on `latch_.lock()` because the mutex is still held.
* The disk manager is the log of the reads and writes it has received.
-/

namespace bustub

/-! ## LRU-K replacer (`src/buffer/lru_k_replacer.cpp`) -/

/-- Value of `static_cast<int32_t>(n)` for a `size_t` value `n`. -/
def toInt32 (n : Nat) : Int :=
  if n % 2 ^ 32 < 2 ^ 31 then ((n % 2 ^ 32 : Nat) : Int) else ((n % 2 ^ 32 : Nat) : Int) - 2 ^ 32

/-- Decrement of a `size_t` (`x--`), wrapping at zero. -/
def decSizeT (n : Nat) : Nat := (n + 2 ^ 64 - 1) % 2 ^ 64

/-- Modelled from the spec: the declaration of `LRUKNode` (`lru_k_replacer.h`) is not
among the sources. The fields are the ones `lru_k_replacer.cpp` reads and writes;
`history_` holds timestamps newest first. -/
structure LRUKNode where
  history_ : List Nat
  fid_ : Int
  is_evictable_ : Bool
  over_k_ : Bool
  min_history_size_ : Nat
deriving DecidableEq, Repr

/-- Modelled from the spec: a default-constructed `LRUKNode` (the declaration with its
member initialisers is not among the sources): empty history, not evictable, not
over K. -/
def LRUKNode.fresh : LRUKNode :=
  { history_ := [], fid_ := 0, is_evictable_ := false, over_k_ := false, min_history_size_ := 0 }

/-- The exceptions thrown by the replacer. -/
inductive ReplacerException where
  | InvalidFrame
  | NotEvictable
deriving DecidableEq, Repr

/-- State of an `LRUKReplacer`. -/
structure LRUKReplacer where
  less_k_nodes_ : List LRUKNode
  over_k_nodes_ : List LRUKNode
  current_timestamp_ : Nat
  curr_size_ : Nat
  evictable_size_ : Nat
  replacer_size_ : Nat
  k_ : Nat
deriving DecidableEq, Repr

/-- The constructor `LRUKReplacer(num_frames, k)`. -/
def LRUKReplacer.new (num_frames k : Nat) : LRUKReplacer :=
  { less_k_nodes_ := [], over_k_nodes_ := [], current_timestamp_ := 0, curr_size_ := 0,
    evictable_size_ := 0, replacer_size_ := num_frames, k_ := k }

/-- Embedding of `InsertOrder`: insert `node` in front of the first node whose `min_history_size_`
is larger, or at the end. -/
def InsertOrder : List LRUKNode → LRUKNode → List LRUKNode
  | [], node => [node]
  | it :: rest, node =>
    if node.min_history_size_ < it.min_history_size_ then node :: it :: rest
    else it :: InsertOrder rest node

/-- Apply `f` to the first element satisfying `p` (a mutation through an iterator). -/
def modifyFirst {α : Type} (p : α → Bool) (f : α → α) : List α → List α
  | [] => []
  | a :: l => if p a then f a :: l else a :: modifyFirst p f l

/-- The nodes tracked by the replacer, `less_k_nodes_` first. -/
def LRUKReplacer.nodes (r : LRUKReplacer) : List LRUKNode :=
  r.less_k_nodes_ ++ r.over_k_nodes_

/-- The lookup `hash_cache_.find(frame_id)`: the node of `frame_id`, if tracked. -/
def LRUKReplacer.find (r : LRUKReplacer) (frame_id : Int) : Option LRUKNode :=
  match r.less_k_nodes_.find? (fun n => n.fid_ == frame_id) with
  | some n => some n
  | none => r.over_k_nodes_.find? (fun n => n.fid_ == frame_id)

/-- Mutation of the node of `frame_id` through its iterator `hash_cache_[frame_id]`. -/
def LRUKReplacer.modify (r : LRUKReplacer) (frame_id : Int) (f : LRUKNode → LRUKNode) :
    LRUKReplacer :=
  if r.less_k_nodes_.any (fun n => n.fid_ == frame_id) then
    { r with less_k_nodes_ := modifyFirst (fun n => n.fid_ == frame_id) f r.less_k_nodes_ }
  else
    { r with over_k_nodes_ := modifyFirst (fun n => n.fid_ == frame_id) f r.over_k_nodes_ }

/-- Embedding of `LRUKReplacer::Evict`: the first evictable node of `less_k_nodes_`, else the first
evictable node of `over_k_nodes_`, is erased and its frame id returned. -/
def LRUKReplacer.Evict (r : LRUKReplacer) : Option Int × LRUKReplacer :=
  match r.less_k_nodes_.find? (fun n => n.is_evictable_) with
  | some it =>
    (some it.fid_,
      { r with
        curr_size_ := decSizeT r.curr_size_
        evictable_size_ := decSizeT r.evictable_size_
        less_k_nodes_ := r.less_k_nodes_.eraseP (fun n => n.is_evictable_) })
  | none =>
    match r.over_k_nodes_.find? (fun n => n.is_evictable_) with
    | some it =>
      (some it.fid_,
        { r with
          curr_size_ := decSizeT r.curr_size_
          evictable_size_ := decSizeT r.evictable_size_
          over_k_nodes_ := r.over_k_nodes_.eraseP (fun n => n.is_evictable_) })
    | none => (none, r)

/-- Embedding of `LRUKReplacer::RecordAccess`. -/
def LRUKReplacer.RecordAccess (r : LRUKReplacer) (frame_id : Int) :
    Except ReplacerException LRUKReplacer :=
  if frame_id > toInt32 r.replacer_size_ then
    .error .InvalidFrame
  else
    let ts := r.current_timestamp_ + 1
    let r := { r with current_timestamp_ := ts }
    match r.find frame_id with
    | none =>
      let node := { LRUKNode.fresh with fid_ := frame_id, history_ := [ts] }
      .ok { r with less_k_nodes_ := r.less_k_nodes_ ++ [node], curr_size_ := r.curr_size_ + 1 }
    | some thisnode =>
      if thisnode.over_k_ then
        let history := (ts :: thisnode.history_).dropLast
        let node :=
          { thisnode with history_ := history, min_history_size_ := history.getLastD 0 }
        .ok { r with
              over_k_nodes_ :=
                InsertOrder (r.over_k_nodes_.eraseP (fun n => n.fid_ == frame_id)) node }
      else if thisnode.history_.length = decSizeT r.k_ then
        let history := ts :: thisnode.history_
        let node :=
          { thisnode with
            history_ := history, over_k_ := true, min_history_size_ := history.getLastD 0 }
        .ok { r with
              less_k_nodes_ := r.less_k_nodes_.eraseP (fun n => n.fid_ == frame_id)
              over_k_nodes_ := InsertOrder r.over_k_nodes_ node }
      else
        .ok (r.modify frame_id (fun n => { n with history_ := ts :: n.history_ }))

/-- Embedding of `LRUKReplacer::SetEvictable`. -/
def LRUKReplacer.SetEvictable (r : LRUKReplacer) (frame_id : Int) (set_evictable : Bool) :
    Except ReplacerException LRUKReplacer :=
  match r.find frame_id with
  | none => .error .InvalidFrame
  | some thisnode =>
    let r :=
      if thisnode.is_evictable_ && !set_evictable then
        { r with evictable_size_ := decSizeT r.evictable_size_ }
      else if !thisnode.is_evictable_ && set_evictable then
        { r with evictable_size_ := r.evictable_size_ + 1 }
      else r
    .ok (r.modify frame_id (fun n => { n with is_evictable_ := set_evictable }))

/-- Embedding of `LRUKReplacer::Remove`. -/
def LRUKReplacer.Remove (r : LRUKReplacer) (frame_id : Int) :
    Except ReplacerException LRUKReplacer :=
  match r.find frame_id with
  | none => .error .InvalidFrame
  | some thisnode =>
    if !thisnode.is_evictable_ then .error .NotEvictable
    else
      let r :=
        if thisnode.over_k_ then
          { r with over_k_nodes_ := r.over_k_nodes_.eraseP (fun n => n.fid_ == frame_id) }
        else
          { r with less_k_nodes_ := r.less_k_nodes_.eraseP (fun n => n.fid_ == frame_id) }
      .ok { r with
            evictable_size_ := decSizeT r.evictable_size_
            curr_size_ := decSizeT r.curr_size_ }

/-- Embedding of `LRUKReplacer::Size`. -/
def LRUKReplacer.Size (r : LRUKReplacer) : Nat := r.evictable_size_

/-! ## Buffer pool manager (`src/buffer/buffer_pool_manager.cpp`) -/

/-- Payload of a page: its bytes. -/
abbrev Payload := List Nat

/-- Modelled from the spec: `PAGE_SIZE = 4096` (`common/config.h` is not among the
sources). -/
def PAGE_SIZE : Nat := 4096

/-- Modelled from the spec: `INVALID_PAGE_ID = -1` (`common/config.h` is not among the
sources). -/
def INVALID_PAGE_ID : Int := -1

/-- The payload written by `Page::ResetMemory`: `PAGE_SIZE` zero bytes. -/
def zeroPayload : Payload := List.replicate PAGE_SIZE 0

/-- Modelled from the spec: a frame slot (`storage/page/page.h` is not among the
sources): payload, resident page id, pin count (a non-negative integer) and dirty
bit. The reader/writer latch of the page is not part of this state. -/
structure Page where
  data_ : Payload
  page_id_ : Int
  pin_count_ : Nat
  is_dirty_ : Bool
deriving DecidableEq, Repr

/-- Modelled from the spec: a default-constructed `Page`: zeroed payload, no resident
page, not pinned, clean. -/
def Page.fresh : Page :=
  { data_ := zeroPayload, page_id_ := INVALID_PAGE_ID, pin_count_ := 0, is_dirty_ := false }

/-- Embedding of `Page::ResetMemory`: zero the payload. -/
def Page.ResetMemory (p : Page) : Page := { p with data_ := zeroPayload }

/-- A call received by the disk manager. -/
inductive DiskOp where
  | read (page_id : Int)
  | write (page_id : Int) (data : Payload)
deriving DecidableEq, Repr

/-- Modelled from the spec: the Disk Manager, an external collaborator seen through
`read_page` and `write_page`. Its state is the sequence of calls it has received,
oldest first. -/
structure DiskManager where
  log : List DiskOp
deriving DecidableEq, Repr

/-- Modelled from the spec: `write_page(page_id, src_buffer)`. -/
def DiskManager.WritePage (d : DiskManager) (page_id : Int) (data : Payload) : DiskManager :=
  { log := d.log ++ [DiskOp.write page_id data] }

/-- The payload most recently written for `page_id`, zero bytes if there is none. -/
def DiskManager.content (d : DiskManager) (page_id : Int) : Payload :=
  d.log.foldl
    (fun acc op =>
      match op with
      | DiskOp.write p data => if p = page_id then data else acc
      | DiskOp.read _ => acc)
    zeroPayload

/-- Modelled from the spec: `read_page(page_id, dst_buffer)`; the buffer is filled with
the stored payload of the page. -/
def DiskManager.ReadPage (d : DiskManager) (page_id : Int) : Payload × DiskManager :=
  (d.content page_id, { log := d.log ++ [DiskOp.read page_id] })

/-- The page table `std::unordered_map<page_id_t, frame_id_t>` as an association list;
the order of the entries stands for the (unspecified) iteration order. -/
abbrev PageTable := List (Int × Int)

/-- Lookup `page_table_.find(page_id)`. -/
def PageTable.find (t : PageTable) (page_id : Int) : Option Int :=
  (List.find? (fun e => e.1 == page_id) t).map (fun e => e.2)

/-- Removal `page_table_.erase(page_id)`. -/
def PageTable.erase (t : PageTable) (page_id : Int) : PageTable :=
  List.filter (fun e => e.1 != page_id) t

/-- Assignment `page_table_[page_id] = frame_id`. -/
def PageTable.assign (t : PageTable) (page_id frame_id : Int) : PageTable :=
  if (List.any t (fun e => e.1 == page_id)) then
    List.map (fun e => if e.1 == page_id then (page_id, frame_id) else e) t
  else t ++ [(page_id, frame_id)]

/-- State of a `BufferPoolManager`. `latch_` is true while the mutex is held;
`next_page_id_` is the allocation counter. -/
structure BufferPoolManager where
  pool_size_ : Nat
  pages_ : List Page
  page_table_ : PageTable
  free_list_ : List Int
  replacer_ : LRUKReplacer
  next_page_id_ : Int
  disk_manager_ : DiskManager
  latch_ : Bool
deriving DecidableEq, Repr

/-- How a call on the buffer pool ends: it returns a value, it lets an exception of the
replacer escape, or it never returns because `latch_.lock()` finds the mutex held. -/
inductive Outcome (α : Type) where
  | returned (value : α) (s : BufferPoolManager)
  | threw (e : ReplacerException) (s : BufferPoolManager)
  | blocked
deriving DecidableEq, Repr

/-- The state a call leaves behind, if it ends. -/
def Outcome.post {α : Type} : Outcome α → Option BufferPoolManager
  | .returned _ s => some s
  | .threw _ s => some s
  | .blocked => none

/-- The value a call returns, if it returns. -/
def Outcome.value {α : Type} : Outcome α → Option α
  | .returned a _ => some a
  | .threw _ _ => none
  | .blocked => none

/-- The constructor: every frame is on the free list, in index order. -/
def BufferPoolManager.new (pool_size : Nat) (disk_manager : DiskManager) (replacer_k : Nat) :
    BufferPoolManager :=
  { pool_size_ := pool_size
    pages_ := List.replicate pool_size Page.fresh
    page_table_ := []
    free_list_ := (List.range pool_size).map (fun i => toInt32 i)
    replacer_ := LRUKReplacer.new pool_size replacer_k
    next_page_id_ := 0
    disk_manager_ := disk_manager
    latch_ := false }

/-- The frame `pages_[frame_id]`. -/
def BufferPoolManager.page (s : BufferPoolManager) (frame_id : Int) : Page :=
  s.pages_.getD frame_id.toNat Page.fresh

/-- A mutation of `pages_[frame_id]`. -/
def BufferPoolManager.setPage (s : BufferPoolManager) (frame_id : Int) (f : Page → Page) :
    BufferPoolManager :=
  { s with pages_ := s.pages_.set frame_id.toNat (f (s.page frame_id)) }

/-- The write-back `if (dirty) { WritePage(page id, data); is_dirty_ = false; }` of
`NewPage` and `FetchPage`. -/
def BufferPoolManager.writeBack (s : BufferPoolManager) (frame_id : Int) : BufferPoolManager :=
  if (s.page frame_id).is_dirty_ then
    let s :=
      { s with
        disk_manager_ :=
          s.disk_manager_.WritePage (s.page frame_id).page_id_ (s.page frame_id).data_ }
    s.setPage frame_id (fun p => { p with is_dirty_ := false })
  else s

/-- The flush `if (dirty) { is_dirty_ = false; WritePage(page id, data); }` of
`FlushPage`, `FlushAllPages` and `DeletePage`. -/
def BufferPoolManager.flushFrame (s : BufferPoolManager) (frame_id : Int) : BufferPoolManager :=
  if (s.page frame_id).is_dirty_ then
    let s := s.setPage frame_id (fun p => { p with is_dirty_ := false })
    { s with
      disk_manager_ :=
        s.disk_manager_.WritePage (s.page frame_id).page_id_ (s.page frame_id).data_ }
  else s

/-- The tail of `NewPage` and `FetchPage`: `RecordAccess` then `SetEvictable(false)`,
either of which may throw; `after` finishes the call. -/
def BufferPoolManager.touch {α : Type} (s : BufferPoolManager) (frame_id : Int)
    (after : BufferPoolManager → Outcome α) : Outcome α :=
  match s.replacer_.RecordAccess frame_id with
  | .error e => .threw e s
  | .ok r =>
    let s := { s with replacer_ := r }
    match s.replacer_.SetEvictable frame_id false with
    | .error e => .threw e s
    | .ok r => after { s with replacer_ := r }

/-- The frame acquisition of `NewPage`: the front of the free list, else a victim of
the replacer, written back if dirty, unmapped and zeroed; no frame if both fail. -/
def BufferPoolManager.newFrame (s : BufferPoolManager) : Option Int × BufferPoolManager :=
  match s.free_list_ with
  | new_frame_id :: rest => (some new_frame_id, { s with free_list_ := rest })
  | [] =>
    match s.replacer_.Evict with
    | (some new_frame_id, r) =>
      let s := { s with replacer_ := r }
      let s := s.writeBack new_frame_id
      let s := { s with page_table_ := s.page_table_.erase (s.page new_frame_id).page_id_ }
      let s := s.setPage new_frame_id Page.ResetMemory
      (some new_frame_id, s)
    | (none, r) => (none, { s with replacer_ := r })

/-- Embedding of `BufferPoolManager::NewPage`; the result is the new page id with the frame that
holds it, or `none` for a null pointer. -/
def BufferPoolManager.NewPage (s : BufferPoolManager) : Outcome (Option (Int × Int)) :=
  if s.latch_ then .blocked
  else
    let s := { s with latch_ := true }
    match s.newFrame with
    | (none, s) => .returned none { s with latch_ := false }
    | (some new_frame_id, s) =>
      let page_id := s.next_page_id_
      let s := { s with next_page_id_ := s.next_page_id_ + 1 }
      let s := { s with page_table_ := s.page_table_.assign page_id new_frame_id }
      let s := s.setPage new_frame_id (fun p => { p with page_id_ := page_id })
      let s := s.setPage new_frame_id (fun p => { p with pin_count_ := p.pin_count_ + 1 })
      s.touch new_frame_id
        (fun s => .returned (some (page_id, new_frame_id)) { s with latch_ := false })

/-- The frame acquisition of a `FetchPage` miss: the front of the free list, else a
victim of the replacer, written back if dirty and unmapped; no frame if both fail. -/
def BufferPoolManager.fetchFrame (s : BufferPoolManager) : Option Int × BufferPoolManager :=
  match s.free_list_ with
  | new_frame_id :: rest => (some new_frame_id, { s with free_list_ := rest })
  | [] =>
    match s.replacer_.Evict with
    | (some new_frame_id, r) =>
      let s := { s with replacer_ := r }
      let s := s.writeBack new_frame_id
      let s := { s with page_table_ := s.page_table_.erase (s.page new_frame_id).page_id_ }
      (some new_frame_id, s)
    | (none, r) => (none, { s with replacer_ := r })

/-- The end of `FetchPage`: record the access, mark the frame non-evictable, pin it. -/
def BufferPoolManager.fetchFinish (s : BufferPoolManager) (new_frame_id : Int) :
    Outcome (Option Int) :=
  s.touch new_frame_id
    (fun s =>
      let s := s.setPage new_frame_id (fun p => { p with pin_count_ := p.pin_count_ + 1 })
      .returned (some new_frame_id) { s with latch_ := false })

/-- Embedding of `BufferPoolManager::FetchPage`; the result is the frame that holds the page, or
`none` for a null pointer. -/
def BufferPoolManager.FetchPage (s : BufferPoolManager) (page_id : Int) : Outcome (Option Int) :=
  if s.latch_ then .blocked
  else
    let s := { s with latch_ := true }
    match s.page_table_.find page_id with
    | none =>
      match s.fetchFrame with
      | (none, s) => .returned none { s with latch_ := false }
      | (some new_frame_id, s) =>
        let s := { s with page_table_ := s.page_table_.assign page_id new_frame_id }
        let s := s.setPage new_frame_id (fun p => { p with page_id_ := page_id })
        let read := s.disk_manager_.ReadPage page_id
        let s := { s with disk_manager_ := read.2 }
        let s := s.setPage new_frame_id (fun p => { p with data_ := read.1 })
        s.fetchFinish new_frame_id
    | some new_frame_id => s.fetchFinish new_frame_id

/-- Embedding of `BufferPoolManager::UnpinPage`. -/
def BufferPoolManager.UnpinPage (s : BufferPoolManager) (page_id : Int) (is_dirty : Bool) :
    Outcome Bool :=
  if s.latch_ then .blocked
  else
    let s := { s with latch_ := true }
    match s.page_table_.find page_id with
    | none => .returned false { s with latch_ := false }
    | some frame_id =>
      if (s.page frame_id).pin_count_ = 0 then .returned false { s with latch_ := false }
      else
        let s := if is_dirty then s.setPage frame_id (fun p => { p with is_dirty_ := true }) else s
        let s := s.setPage frame_id (fun p => { p with pin_count_ := p.pin_count_ - 1 })
        if (s.page frame_id).pin_count_ = 0 then
          match s.replacer_.SetEvictable frame_id true with
          | .error e => .threw e s
          | .ok r => .returned true { s with replacer_ := r, latch_ := false }
        else .returned true { s with latch_ := false }

/-- Embedding of `BufferPoolManager::FlushPage`; the early return for an absent page id does not
unlock `latch_`. -/
def BufferPoolManager.FlushPage (s : BufferPoolManager) (page_id : Int) : Outcome Bool :=
  if s.latch_ then .blocked
  else
    let s := { s with latch_ := true }
    match s.page_table_.find page_id with
    | none => .returned false s
    | some frame_id =>
      let s := s.flushFrame frame_id
      .returned true { s with latch_ := false }

/-- Embedding of `BufferPoolManager::FlushAllPages`. -/
def BufferPoolManager.FlushAllPages (s : BufferPoolManager) : Outcome Unit :=
  if s.latch_ then .blocked
  else
    let s := { s with latch_ := true }
    let s := s.page_table_.foldl (fun s it => s.flushFrame it.2) s
    .returned () { s with latch_ := false }

/-- Embedding of `BufferPoolManager::DeletePage`; `DeallocatePage` does nothing. -/
def BufferPoolManager.DeletePage (s : BufferPoolManager) (page_id : Int) : Outcome Bool :=
  if s.latch_ then .blocked
  else
    let s := { s with latch_ := true }
    match s.page_table_.find page_id with
    | none => .returned true { s with latch_ := false }
    | some frame_id =>
      if (s.page frame_id).pin_count_ != 0 then .returned false { s with latch_ := false }
      else
        match s.replacer_.Remove frame_id with
        | .error e => .threw e s
        | .ok r =>
          let s := { s with replacer_ := r }
          let s := s.flushFrame frame_id
          let s := s.setPage frame_id (fun p => { p with page_id_ := INVALID_PAGE_ID })
          let s := s.setPage frame_id Page.ResetMemory
          let s := { s with free_list_ := s.free_list_ ++ [frame_id] }
          let s := { s with page_table_ := s.page_table_.erase page_id }
          .returned true { s with latch_ := false }

/-- A public call on the buffer pool. -/
inductive Call where
  | new_page
  | fetch_page (page_id : Int)
  | unpin_page (page_id : Int) (is_dirty : Bool)
  | flush_page (page_id : Int)
  | flush_all_pages
  | delete_page (page_id : Int)
deriving DecidableEq, Repr

/-- The state after a call, if the call ends (by a return or by an exception). -/
def BufferPoolManager.step (s : BufferPoolManager) : Call → Option BufferPoolManager
  | .new_page => s.NewPage.post
  | .fetch_page p => (s.FetchPage p).post
  | .unpin_page p d => (s.UnpinPage p d).post
  | .flush_page p => (s.FlushPage p).post
  | .flush_all_pages => s.FlushAllPages.post
  | .delete_page p => (s.DeletePage p).post

/-- The state after a sequence of calls, if every one of them ends. -/
def BufferPoolManager.run (s : BufferPoolManager) : List Call → Option BufferPoolManager
  | [] => some s
  | c :: cs => (s.step c).bind (fun s => s.run cs)

/-! ## Persistent trie (`src/primer/trie.cpp`) -/

/-- Modelled from the spec: a trie node (`primer/trie.h` is not among the sources). A
plain `TrieNode` has `value_ = none`; a `TrieNodeWithValue<T>` holding `v` has
`value_ = some (T, v)`, the first component being the runtime type that
`dynamic_cast` inspects. `children_` is the `std::map` from a key byte to a child. -/
inductive TrieNode (Tag V : Type) where
  | mk (children_ : List (Char × TrieNode Tag V)) (value_ : Option (Tag × V))

/-- The children of a node. -/
def TrieNode.children_ {Tag V : Type} : TrieNode Tag V → List (Char × TrieNode Tag V)
  | .mk c _ => c

/-- The typed value of a node, if it is a node with a value. -/
def TrieNode.value_ {Tag V : Type} : TrieNode Tag V → Option (Tag × V)
  | .mk _ v => v

/-- A trie: its root pointer, `none` for `nullptr`. -/
structure Trie (Tag V : Type) where
  root_ : Option (TrieNode Tag V)

/-- Undefined behaviour met by a trie operation. -/
inductive TrieFault where
  | nullDeref
  | outOfBounds
deriving DecidableEq, Repr

/-- The lookup `children_.find(c)` on a map of children. -/
def findChild {Tag V : Type} (c : Char) :
    List (Char × TrieNode Tag V) → Option (TrieNode Tag V)
  | [] => none
  | e :: rest => if e.1 = c then some e.2 else findChild c rest

/-- The assignment `children_[c] = node` on a map of children. -/
def assignChild {Tag V : Type} (c : Char) (node : TrieNode Tag V) :
    List (Char × TrieNode Tag V) → List (Char × TrieNode Tag V)
  | [] => [(c, node)]
  | e :: rest => if e.1 = c then (c, node) :: rest else e :: assignChild c node rest

/-- The node with `children_[c] = child` assigned; it keeps its own value, as a clone
does. -/
def TrieNode.setChild {Tag V : Type} (n : TrieNode Tag V) (c : Char) (child : TrieNode Tag V) :
    TrieNode Tag V :=
  .mk (assignChild c child n.children_) n.value_

/-- The walk of `Trie::Get` from a node along the key: `none` as soon as a child is
missing. -/
def TrieNode.walk {Tag V : Type} : TrieNode Tag V → List Char → Option (TrieNode Tag V)
  | node_cur, [] => some node_cur
  | node_cur, key_cur :: rest =>
    match findChild key_cur node_cur.children_ with
    | none => none
    | some child => child.walk rest

/-- The typed value stored at the node reached from `n` along `key`, if there is such a
node and it holds a value. -/
def TrieNode.valueAt {Tag V : Type} (n : TrieNode Tag V) (key : List Char) : Option (Tag × V) :=
  (n.walk key).bind TrieNode.value_

/-- Embedding of `Trie::Get<T>`: `T` is the requested value type. With a null root the loop
dereferences a null pointer as soon as the key has a first byte. -/
def Trie.Get {Tag V : Type} [DecidableEq Tag] (t : Trie Tag V) (T : Tag) (key : List Char) :
    Except TrieFault (Option V) :=
  match t.root_ with
  | none => if key.isEmpty then .ok none else .error .nullDeref
  | some root =>
    match root.walk key with
    | none => .ok none
    | some node_cur =>
      match node_cur.value_ with
      | some (ty, value) => if ty = T then .ok (some value) else .ok none
      | none => .ok none

/-- The descent of `Trie::Put` below the cloned node `node_cur` along a non-empty key:
every node on the path is cloned (or created when missing) and the last one is
replaced by a node with the value that keeps the children of the old one. -/
def TrieNode.put {Tag V : Type} (val : Tag × V) : TrieNode Tag V → List Char → TrieNode Tag V
  | node_cur, [] => node_cur
  | node_cur, [last_char] =>
    match findChild last_char node_cur.children_ with
    | none => node_cur.setChild last_char (.mk [] (some val))
    | some it => node_cur.setChild last_char (.mk it.children_ (some val))
  | node_cur, key_cur :: rest =>
    match findChild key_cur node_cur.children_ with
    | none => node_cur.setChild key_cur (TrieNode.put val (.mk [] none) rest)
    | some it => node_cur.setChild key_cur (TrieNode.put val it rest)

/-- Embedding of `Trie::Put<T>`. -/
def Trie.Put {Tag V : Type} (t : Trie Tag V) (T : Tag) (key : List Char) (value : V) :
    Trie Tag V :=
  let new_root : TrieNode Tag V :=
    match t.root_ with
    | none => .mk [] none
    | some root => root
  if key.isEmpty then { root_ := some (.mk new_root.children_ (some (T, value))) }
  else { root_ := some (new_root.put (T, value) key) }

/-- The descent of `Trie::Remove` below the cloned node `node_cur` along a non-empty
key: the walk stops at the first missing child; the last node is replaced by a
plain node with the same children. -/
def TrieNode.remove {Tag V : Type} : TrieNode Tag V → List Char → TrieNode Tag V
  | node_cur, [] => node_cur
  | node_cur, [last_char] =>
    match findChild last_char node_cur.children_ with
    | none => node_cur
    | some it => node_cur.setChild last_char (.mk it.children_ none)
  | node_cur, key_cur :: rest =>
    match findChild key_cur node_cur.children_ with
    | none => node_cur
    | some it => node_cur.setChild key_cur (TrieNode.remove it rest)

/-- Embedding of `Trie::Remove`. `root_->Clone()` dereferences a null root; with an empty key the
bound `key.size() - 1` of the loop wraps and `key[0]` is read out of bounds. -/
def Trie.Remove {Tag V : Type} (t : Trie Tag V) (key : List Char) :
    Except TrieFault (Trie Tag V) :=
  match t.root_ with
  | none => .error .nullDeref
  | some root =>
    if key.isEmpty then .error .outOfBounds
    else .ok { root_ := some (root.remove key) }

/-! ## Vocabulary of the properties -/

/-- A call on the replacer. -/
inductive ReplacerCall where
  | record_access (frame_id : Int)
  | set_evictable (frame_id : Int) (set_evictable : Bool)
  | evict
  | remove (frame_id : Int)
deriving DecidableEq, Repr

/-- The state of the replacer after a call; a call that throws leaves the state as it
was. -/
def LRUKReplacer.step (r : LRUKReplacer) : ReplacerCall → LRUKReplacer
  | .record_access f =>
    match r.RecordAccess f with
    | .ok r2 => r2
    | .error _ => r
  | .set_evictable f b =>
    match r.SetEvictable f b with
    | .ok r2 => r2
    | .error _ => r
  | .evict => r.Evict.2
  | .remove f =>
    match r.Remove f with
    | .ok r2 => r2
    | .error _ => r

/-- The state of the replacer after a sequence of calls. -/
def LRUKReplacer.run (r : LRUKReplacer) (calls : List ReplacerCall) : LRUKReplacer :=
  calls.foldl LRUKReplacer.step r

/-- The frame is tracked: it has a node in one of the two lists. -/
def LRUKReplacer.tracked (r : LRUKReplacer) (frame_id : Int) : Prop :=
  ∃ n ∈ r.nodes, n.fid_ = frame_id

instance (r : LRUKReplacer) (frame_id : Int) : Decidable (r.tracked frame_id) := by
  unfold LRUKReplacer.tracked; infer_instance

/-- The frame is tracked and its node is flagged evictable. -/
def LRUKReplacer.evictable (r : LRUKReplacer) (frame_id : Int) : Prop :=
  ∃ n ∈ r.nodes, n.fid_ = frame_id ∧ n.is_evictable_ = true

instance (r : LRUKReplacer) (frame_id : Int) : Decidable (r.evictable frame_id) := by
  unfold LRUKReplacer.evictable; infer_instance

/-- The timestamp of the oldest access in the history of a node. -/
def LRUKNode.oldest (n : LRUKNode) : Nat := n.history_.getLastD 0

/-- The timestamp of the `k`-th most recent access of a node (`0` if the history holds
fewer than `k` accesses). -/
def LRUKNode.kthRecent (n : LRUKNode) (k : Nat) : Nat := n.history_.getD (k - 1) 0

/-- Structural invariant of the replacer: no frame has two nodes, and `over_k_` tells
which list a node is in. -/
structure LRUKReplacer.Inv (r : LRUKReplacer) : Prop where
  nodup : (r.nodes.map (fun n => n.fid_)).Nodup
  less_flag : ∀ n ∈ r.less_k_nodes_, n.over_k_ = false
  over_flag : ∀ n ∈ r.over_k_nodes_, n.over_k_ = true

/-- Ordering invariant of the replacer: histories are non-empty, hold timestamps up to
`current_timestamp_`, and share no timestamp between two nodes; a node of
`less_k_nodes_` holds fewer than `k_` accesses and the list is in the order of the
oldest access; a node of `over_k_nodes_` holds exactly `k_` accesses, caches the
oldest of them in `min_history_size_`, and the list ascends strictly in it. -/
structure LRUKReplacer.OrdInv (r : LRUKReplacer) : Prop where
  k_pos : 1 ≤ r.k_
  k_lt : r.k_ < 2 ^ 64
  hist_ne : ∀ n ∈ r.nodes, n.history_ ≠ []
  ts_bound : ∀ n ∈ r.nodes, ∀ t ∈ n.history_, t ≤ r.current_timestamp_
  disjoint : ∀ a ∈ r.nodes, ∀ b ∈ r.nodes, a.fid_ ≠ b.fid_ → ∀ t ∈ a.history_, t ∉ b.history_
  less_len : ∀ n ∈ r.less_k_nodes_, 2 ≤ r.k_ → n.history_.length < r.k_
  less_sorted : r.less_k_nodes_.Pairwise (fun a b => a.oldest < b.oldest)
  over_len : ∀ n ∈ r.over_k_nodes_, n.history_.length = r.k_
  over_min : ∀ n ∈ r.over_k_nodes_, n.min_history_size_ = n.oldest
  over_sorted : r.over_k_nodes_.Pairwise (fun a b => a.min_history_size_ < b.min_history_size_)

/-- How an operation on frame `f` changes the set of nodes: the node of `f`, if any, is
taken out, and `node` is put in. -/
def ReplacedBy (r r2 : LRUKReplacer) (f : Int) (node : LRUKNode) : Prop :=
  node.fid_ = f ∧ ∀ m, m ∈ r2.nodes ↔ m = node ∨ (m ∈ r.nodes ∧ m.fid_ ≠ f)

/-- How an operation on frame `f` changes the set of nodes: the node of `f` is taken
out. -/
def RemovedFrom (r r2 : LRUKReplacer) (f : Int) : Prop :=
  ∀ m, m ∈ r2.nodes ↔ m ∈ r.nodes ∧ m.fid_ ≠ f


/-- The frame `pages_[frame_id]` of an array of frames. -/
def pageAt (pages : List Page) (frame_id : Int) : Page := pages.getD frame_id.toNat Page.fresh

/-- A frame that holds no page: not tracked by the replacer, not pinned, clean, and not
mapped by the page table. -/
def FrameIdle (pages : List Page) (table : PageTable) (r : LRUKReplacer) (f : Int) : Prop :=
  ¬ r.tracked f ∧ (pageAt pages f).pin_count_ = 0 ∧ (pageAt pages f).is_dirty_ = false ∧
    ∀ e ∈ table, e.2 ≠ f

/-- Invariant of the buffer pool over its components. The frame `hole`, if any, is the
one an operation has taken (off the free list or out of the replacer) and not yet
installed: it is idle and not on the free list. Every other frame is either on the
free list, idle and zeroed, or tracked by the replacer and evictable there exactly when its
pin count is zero. -/
structure PoolInv (pool_size : Nat) (pages : List Page) (table : PageTable)
    (free : List Int) (r : LRUKReplacer) (hole : Option Int) : Prop where
  size_lt : pool_size < 2 ^ 31
  pages_len : pages.length = pool_size
  rsize : r.replacer_size_ = pool_size
  rinv : r.Inv
  free_nodup : free.Nodup
  free_range : ∀ f ∈ free, 0 ≤ f ∧ f < pool_size
  tracked_range : ∀ f, r.tracked f → 0 ≤ f ∧ f < pool_size
  table_keys : (table.map Prod.fst).Nodup
  table_range : ∀ e ∈ table, 0 ≤ e.2 ∧ e.2 < pool_size
  table_page : ∀ e ∈ table, (pageAt pages e.2).page_id_ = e.1
  frame : ∀ f : Int, 0 ≤ f → f < pool_size → hole ≠ some f →
    (f ∈ free ∧ FrameIdle pages table r f ∧ (pageAt pages f).data_ = zeroPayload) ∨
    (f ∉ free ∧ r.tracked f ∧ (r.evictable f ↔ (pageAt pages f).pin_count_ = 0))
  hole_ok : ∀ h, hole = some h →
    0 ≤ h ∧ h < pool_size ∧ h ∉ free ∧ FrameIdle pages table r h

/-- Invariant of the buffer pool between two calls. -/
def BufferPoolManager.Inv (s : BufferPoolManager) : Prop :=
  PoolInv s.pool_size_ s.pages_ s.page_table_ s.free_list_ s.replacer_ none

/-- Invariant of the buffer pool while frame `h` is being installed. -/
def BufferPoolManager.InvHole (s : BufferPoolManager) (h : Int) : Prop :=
  PoolInv s.pool_size_ s.pages_ s.page_table_ s.free_list_ s.replacer_ (some h)

/-- Every page id in the page table is below the allocation counter, and every frame
that is not on the free list is mapped by the page table. -/
def BufferPoolManager.Mapped (s : BufferPoolManager) : Prop :=
  (∀ e ∈ s.page_table_, e.1 < s.next_page_id_) ∧
  (∀ f : Int, 0 ≤ f → f < s.pool_size_ → f ∉ s.free_list_ → ∃ e ∈ s.page_table_, e.2 = f)

/-- The call fetches only a page id below the allocation counter (every id that
`NewPage` has handed out is); calls other than `FetchPage` are not restricted. -/
def Call.fetchesAllocated (c : Call) (s : BufferPoolManager) : Bool :=
  match c with
  | .fetch_page p => decide (p < s.next_page_id_)
  | _ => true

/-- Every `FetchPage` of the sequence, at the time it is called, asks for a page id
below the allocation counter. -/
def BufferPoolManager.fetchesAllocated (s : BufferPoolManager) : List Call → Bool
  | [] => true
  | c :: cs =>
    c.fetchesAllocated s &&
      (match s.step c with
       | some s2 => s2.fetchesAllocated cs
       | none => true)

/-- The state of a pool over an empty disk after a sequence of calls (the fresh pool
itself if one of the calls does not end). -/
def BufferPoolManager.afterCalls (pool_size k : Nat) (calls : List Call) : BufferPoolManager :=
  ((BufferPoolManager.new pool_size ⟨[]⟩ k).run calls).getD
    (BufferPoolManager.new pool_size ⟨[]⟩ k)

/-- The calls that the buffer pool of the first scenario of the specification issues to
its replacer: frames 0, 1, 2 are each accessed, pinned and unpinned, then frame 0 is
accessed and pinned again. -/
def lruKScenario : List ReplacerCall :=
  [.record_access 0, .set_evictable 0 false, .set_evictable 0 true,
   .record_access 1, .set_evictable 1 false, .set_evictable 1 true,
   .record_access 2, .set_evictable 2 false, .set_evictable 2 true,
   .record_access 0, .set_evictable 0 false]

/-- The first scenario of the specification up to the last fetch: fetch pages 1, 2, 3
and unpin each, then fetch page 1 again. -/
def lruKPoolScenario : List Call :=
  [.fetch_page 1, .unpin_page 1 false, .fetch_page 2, .unpin_page 2 false,
   .fetch_page 3, .unpin_page 3 false, .fetch_page 1]


/-! ## Record of the calls of a run of the replacer -/

/-- The record of a run of the replacer, kept from its calls and their results alone.
`count` is the number of accesses recorded so far, and the `i`-th recorded access has
the timestamp `i`. `accesses f` lists the timestamps of the accesses recorded for frame
`f` since it was last taken out of the replacer (evicted or removed), newest first.
`evictable f` is the flag given by the last `SetEvictable` on `f` that returned since
the first of these accesses, false if there is none. -/
structure AccessLog where
  count : Nat
  accesses : Int → List Nat
  evictable : Int → Bool

/-- The record of a run without calls. -/
def AccessLog.empty : AccessLog :=
  { count := 0, accesses := fun _ => [], evictable := fun _ => false }

/-- One more access of `frame_id` is recorded. -/
def AccessLog.record (g : AccessLog) (frame_id : Int) : AccessLog :=
  { g with
    count := g.count + 1
    accesses := fun f => if f = frame_id then (g.count + 1) :: g.accesses f else g.accesses f }

/-- The flag of `frame_id` is set. -/
def AccessLog.flag (g : AccessLog) (frame_id : Int) (set_evictable : Bool) : AccessLog :=
  { g with evictable := fun f => if f = frame_id then set_evictable else g.evictable f }

/-- The frame `frame_id` is taken out of the replacer: its accesses and its flag are
forgotten. -/
def AccessLog.forget (g : AccessLog) (frame_id : Int) : AccessLog :=
  { g with
    accesses := fun f => if f = frame_id then [] else g.accesses f
    evictable := fun f => if f = frame_id then false else g.evictable f }

/-- The record after one more call, made in replacer state `r`: a `RecordAccess` that
returns records an access, a `SetEvictable` that returns sets the flag, an `Evict` that
returns a victim and a `Remove` that returns take the frame out; a call that throws, and
an `Evict` without a victim, change nothing. -/
def AccessLog.step (g : AccessLog) (r : LRUKReplacer) : ReplacerCall → AccessLog
  | .record_access f =>
    match r.RecordAccess f with
    | .ok _ => g.record f
    | .error _ => g
  | .set_evictable f b =>
    match r.SetEvictable f b with
    | .ok _ => g.flag f b
    | .error _ => g
  | .evict =>
    match r.Evict.1 with
    | some f => g.forget f
    | none => g
  | .remove f =>
    match r.Remove f with
    | .ok _ => g.forget f
    | .error _ => g

/-- The record `g` continued by the sequence of calls made from replacer state `r`. -/
def LRUKReplacer.accessLog (r : LRUKReplacer) (g : AccessLog) : List ReplacerCall → AccessLog
  | [] => g
  | c :: cs => (r.step c).accessLog (g.step r c) cs

/-- The replacer state `r` agrees with the record `g`: the clock is the number of
recorded accesses, the history of every node is the `k_` most recent recorded accesses
of its frame, its flag is the recorded one, and nothing is recorded for a frame that
has no node. -/
structure LogInv (r : LRUKReplacer) (g : AccessLog) : Prop where
  clock : r.current_timestamp_ = g.count
  hist : ∀ n ∈ r.nodes, n.history_ = (g.accesses n.fid_).take r.k_
  flag_eq : ∀ n ∈ r.nodes, n.is_evictable_ = g.evictable n.fid_
  untracked : ∀ f, ¬ r.tracked f → g.accesses f = [] ∧ g.evictable f = false

/-! ## Frames in use and the page table -/

/-- Every frame of the pool that is not on the free list is mapped by the page table. -/
def BufferPoolManager.Covered (s : BufferPoolManager) : Prop :=
  ∀ f : Int, 0 ≤ f → f < s.pool_size_ → f ∉ s.free_list_ → ∃ e ∈ s.page_table_, e.2 = f

/-- The call is not a `NewPage` that takes a frame `f` while the page id it allocates is
resident in another frame `g` (whose page-table entry the assignment
`page_table_[*page_id] = new_frame_id` would then overwrite); calls other than `NewPage`
are not restricted. -/
def Call.allocatesUnmapped (c : Call) (s : BufferPoolManager) : Bool :=
  match c with
  | .new_page =>
    match ({ s with latch_ := true } : BufferPoolManager).newFrame.1,
      s.page_table_.find s.next_page_id_ with
    | some f, some g => g == f
    | _, _ => true
  | _ => true

/-- No `NewPage` of the sequence, at the time it is called, takes a frame while the page
id it allocates is resident in another frame. -/
def BufferPoolManager.allocatesUnmapped (s : BufferPoolManager) : List Call → Bool
  | [] => true
  | c :: cs =>
    c.allocatesUnmapped s &&
      (match s.step c with
       | some s2 => s2.allocatesUnmapped cs
       | none => true)

/-! ## Vocabulary of the operation contracts -/

/-- The call is a `NewPage` that returns a page. -/
def Call.allocates (c : Call) (s : BufferPoolManager) : Bool :=
  match c with
  | .new_page =>
    match s.NewPage with
    | .returned (some _) _ => true
    | _ => false
  | _ => false

/-- The number of calls of the sequence that are a `NewPage` returning a page. -/
def BufferPoolManager.newPagesReturned (s : BufferPoolManager) : List Call → Nat
  | [] => 0
  | c :: cs =>
    (if c.allocates s then 1 else 0) +
      (match s.step c with
       | some s2 => s2.newPagesReturned cs
       | none => 0)


/-- The number of tracked nodes, over both lists, whose `is_evictable_` flag is set. -/
def LRUKReplacer.evictableCount (r : LRUKReplacer) : Nat :=
  r.nodes.countP (fun n => n.is_evictable_)

/-- Counting invariant of the replacer after `n` calls: `evictable_size_` is the number
of evictable nodes, there are no more nodes than recorded accesses, and no more
recorded accesses than calls. -/
structure LRUKReplacer.SizeInv (r : LRUKReplacer) (n : Nat) : Prop where
  size_eq : r.evictable_size_ = r.evictableCount
  nodes_le : r.nodes.length ≤ r.current_timestamp_
  ts_le : r.current_timestamp_ ≤ n

/-! ## Page guards (`src/storage/page/page_guard.cpp`) -/

/-- Modelled from the spec: the members of `BasicPageGuard` (`storage/page/page_guard.h`
is not among the sources). `bpm_` tells whether the pointer to the pool is non-null,
`page_` is the frame the guarded `Page *` points at (`none` for `nullptr`), and
`is_dirty_` is the flag the guard passes to `UnpinPage`. -/
structure BasicPageGuard where
  bpm_ : Bool
  page_ : Option Int
  is_dirty_ : Bool
deriving DecidableEq, Repr

/-- Modelled from the spec: a `ReadPageGuard` owns a `BasicPageGuard` (its member
`guard_`) and a reader latch on the page. -/
structure ReadPageGuard where
  guard_ : BasicPageGuard
deriving DecidableEq, Repr

/-- Modelled from the spec: a `WritePageGuard` owns a `BasicPageGuard` (its member
`guard_`) and the writer latch on the page. -/
structure WritePageGuard where
  guard_ : BasicPageGuard
deriving DecidableEq, Repr

/-- A call that a guard or a guard factory makes on the latch of a page (named by its
frame) or on the pool. -/
inductive GuardEvent where
  | RLatch (frame : Int)
  | RUnlatch (frame : Int)
  | WLatch (frame : Int)
  | WUnlatch (frame : Int)
  | UnpinPage (page_id : Int) (is_dirty : Bool)
deriving DecidableEq, Repr

/-- What guards act on: the buffer pool, and the trace, oldest first, of the calls made
on page latches and of the `UnpinPage` calls made on the pool. The reader/writer latch
of a page is not part of the state of the pool; a latch call is recorded and taken to
return. -/
structure GuardWorld where
  bpm : BufferPoolManager
  trace : List GuardEvent
deriving DecidableEq, Repr

/-- The world with one more recorded call. -/
def GuardWorld.emit (w : GuardWorld) (e : GuardEvent) : GuardWorld :=
  { w with trace := w.trace ++ [e] }

/-- Modelled from the spec: `BasicPageGuard::PageId()` (defined in the absent header),
the page id of the guarded page. -/
def GuardWorld.PageId (w : GuardWorld) (page : Int) : Int := (w.bpm.page page).page_id_

/-- Modelled from the spec: the constructor `BasicPageGuard(bpm, page)` (defined in the
absent header) on the pool of the world: it stores the two pointers, with a clear dirty
flag. -/
def BasicPageGuard.new (page : Option Int) : BasicPageGuard :=
  { bpm_ := true, page_ := page, is_dirty_ := false }

/-- Embedding of the move constructor `BasicPageGuard(BasicPageGuard &&that)`: the guard
constructed and the state left in `that` (an object under construction is never
`that`, so `this != &that` holds). -/
def BasicPageGuard.moveConstruct (that : BasicPageGuard) : BasicPageGuard × BasicPageGuard :=
  ({ is_dirty_ := that.is_dirty_, page_ := that.page_, bpm_ := that.bpm_ },
   { that with page_ := none, bpm_ := false, is_dirty_ := false })

/-- Embedding of `BasicPageGuard::Drop`. The result is `none` when the call does not return:
`bpm_->UnpinPage` dereferences a null `bpm_`, blocks on the mutex of the pool, or lets
an exception of the replacer escape. -/
def BasicPageGuard.Drop (g : BasicPageGuard) (w : GuardWorld) :
    Option (BasicPageGuard × GuardWorld) :=
  let dropped : BasicPageGuard := { g with page_ := none, is_dirty_ := false, bpm_ := false }
  match g.page_ with
  | some page =>
    let page_id := w.PageId page
    if page_id != INVALID_PAGE_ID then
      if g.bpm_ then
        match w.bpm.UnpinPage page_id g.is_dirty_ with
        | .returned _ s =>
          some (dropped, { bpm := s, trace := w.trace ++ [.UnpinPage page_id g.is_dirty_] })
        | _ => none
      else none
    else some (dropped, w)
  | none => some (dropped, w)

/-- Embedding of `BasicPageGuard::operator=(BasicPageGuard &&that)` for `this != &that`: the
assigned guard, the state left in `that`, and the world. (For `this == &that` the body
is skipped and nothing changes.) -/
def BasicPageGuard.moveAssign (this that : BasicPageGuard) (w : GuardWorld) :
    Option (BasicPageGuard × BasicPageGuard × GuardWorld) :=
  match this.Drop w with
  | none => none
  | some (_, w) =>
    some ({ is_dirty_ := that.is_dirty_, page_ := that.page_, bpm_ := that.bpm_ },
      { that with page_ := none, bpm_ := false, is_dirty_ := false }, w)

/-- Embedding of the destructor `~BasicPageGuard`: `Drop()`. -/
def BasicPageGuard.destroy (g : BasicPageGuard) (w : GuardWorld) : Option GuardWorld :=
  (g.Drop w).map (fun r => r.2)

/-- Embedding of the defaulted move constructor of `ReadPageGuard`: `guard_` is
move-constructed. -/
def ReadPageGuard.moveConstruct (that : ReadPageGuard) : ReadPageGuard × ReadPageGuard :=
  (⟨that.guard_.moveConstruct.1⟩, ⟨that.guard_.moveConstruct.2⟩)

/-- Embedding of `ReadPageGuard::operator=(ReadPageGuard &&that)` for `this != &that`. -/
def ReadPageGuard.moveAssign (this that : ReadPageGuard) (w : GuardWorld) :
    Option (ReadPageGuard × ReadPageGuard × GuardWorld) :=
  let w :=
    match this.guard_.page_ with
    | some page => w.emit (.RUnlatch page)
    | none => w
  match this.guard_.moveAssign that.guard_ w with
  | none => none
  | some (a, b, w) => some (⟨a⟩, ⟨b⟩, w)

/-- Embedding of `ReadPageGuard::Drop`. -/
def ReadPageGuard.Drop (g : ReadPageGuard) (w : GuardWorld) :
    Option (ReadPageGuard × GuardWorld) :=
  let w :=
    match g.guard_.page_ with
    | some page => w.emit (.RUnlatch page)
    | none => w
  match g.guard_.Drop w with
  | none => none
  | some (b, w) => some (⟨b⟩, w)

/-- Embedding of the destructor `~ReadPageGuard`: `Drop()` if a page is guarded, followed by the
destructor of the member `guard_`. -/
def ReadPageGuard.destroy (g : ReadPageGuard) (w : GuardWorld) : Option GuardWorld :=
  let body :=
    match g.guard_.page_ with
    | some _ => g.Drop w
    | none => some (g, w)
  match body with
  | none => none
  | some (g, w) => g.guard_.destroy w

/-- Embedding of the defaulted move constructor of `WritePageGuard`: `guard_` is
move-constructed. -/
def WritePageGuard.moveConstruct (that : WritePageGuard) : WritePageGuard × WritePageGuard :=
  (⟨that.guard_.moveConstruct.1⟩, ⟨that.guard_.moveConstruct.2⟩)

/-- Embedding of `WritePageGuard::operator=(WritePageGuard &&that)` for `this != &that`. -/
def WritePageGuard.moveAssign (this that : WritePageGuard) (w : GuardWorld) :
    Option (WritePageGuard × WritePageGuard × GuardWorld) :=
  let w :=
    match this.guard_.page_ with
    | some page => w.emit (.WUnlatch page)
    | none => w
  match this.guard_.moveAssign that.guard_ w with
  | none => none
  | some (a, b, w) => some (⟨a⟩, ⟨b⟩, w)

/-- Embedding of `WritePageGuard::Drop`. -/
def WritePageGuard.Drop (g : WritePageGuard) (w : GuardWorld) :
    Option (WritePageGuard × GuardWorld) :=
  let w :=
    match g.guard_.page_ with
    | some page => w.emit (.WUnlatch page)
    | none => w
  match g.guard_.Drop w with
  | none => none
  | some (b, w) => some (⟨b⟩, w)

/-- Embedding of the destructor `~WritePageGuard`: `Drop()` if a page is guarded, followed by the
destructor of the member `guard_`. -/
def WritePageGuard.destroy (g : WritePageGuard) (w : GuardWorld) : Option GuardWorld :=
  let body :=
    match g.guard_.page_ with
    | some _ => g.Drop w
    | none => some (g, w)
  match body with
  | none => none
  | some (g, w) => g.guard_.destroy w

/-- Embedding of `BufferPoolManager::FetchPageBasic`; `none` when `FetchPage` does not return. -/
def GuardWorld.FetchPageBasic (w : GuardWorld) (page_id : Int) :
    Option (BasicPageGuard × GuardWorld) :=
  match w.bpm.FetchPage page_id with
  | .returned page s => some (BasicPageGuard.new page, { w with bpm := s })
  | _ => none

/-- Embedding of `BufferPoolManager::FetchPageRead`; `none` when `FetchPage` does not return. -/
def GuardWorld.FetchPageRead (w : GuardWorld) (page_id : Int) :
    Option (ReadPageGuard × GuardWorld) :=
  match w.bpm.FetchPage page_id with
  | .returned none s => some (⟨BasicPageGuard.new none⟩, { w with bpm := s })
  | .returned (some page) s =>
    some (⟨BasicPageGuard.new (some page)⟩, { bpm := s, trace := w.trace ++ [.RLatch page] })
  | _ => none

/-- Embedding of `BufferPoolManager::FetchPageWrite`; `none` when `FetchPage` does not return. -/
def GuardWorld.FetchPageWrite (w : GuardWorld) (page_id : Int) :
    Option (WritePageGuard × GuardWorld) :=
  match w.bpm.FetchPage page_id with
  | .returned none s => some (⟨BasicPageGuard.new none⟩, { w with bpm := s })
  | .returned (some page) s =>
    some (⟨BasicPageGuard.new (some page)⟩, { bpm := s, trace := w.trace ++ [.WLatch page] })
  | _ => none

/-- A guard of one of the three classes. -/
inductive Guard where
  | basic (g : BasicPageGuard)
  | read (g : ReadPageGuard)
  | write (g : WritePageGuard)
deriving DecidableEq, Repr

/-- The `BasicPageGuard` inside a guard. -/
def Guard.inner : Guard → BasicPageGuard
  | .basic g => g
  | .read g => g.guard_
  | .write g => g.guard_

/-- Move construction of a guard of the same class. -/
def Guard.moveConstruct : Guard → Guard × Guard
  | .basic g => (.basic g.moveConstruct.1, .basic g.moveConstruct.2)
  | .read g => (.read g.moveConstruct.1, .read g.moveConstruct.2)
  | .write g => (.write g.moveConstruct.1, .write g.moveConstruct.2)

/-- Move assignment between two distinct guards of the same class; guards of different
classes cannot be assigned and are left as they are. -/
def Guard.moveAssign : Guard → Guard → GuardWorld → Option (Guard × Guard × GuardWorld)
  | .basic a, .basic b, w => (a.moveAssign b w).map (fun r => (.basic r.1, .basic r.2.1, r.2.2))
  | .read a, .read b, w => (a.moveAssign b w).map (fun r => (.read r.1, .read r.2.1, r.2.2))
  | .write a, .write b, w => (a.moveAssign b w).map (fun r => (.write r.1, .write r.2.1, r.2.2))
  | a, b, w => some (a, b, w)

/-- The call `Drop()` on a guard. -/
def Guard.Drop : Guard → GuardWorld → Option (Guard × GuardWorld)
  | .basic g, w => (g.Drop w).map (fun r => (.basic r.1, r.2))
  | .read g, w => (g.Drop w).map (fun r => (.read r.1, r.2))
  | .write g, w => (g.Drop w).map (fun r => (.write r.1, r.2))

/-- The destructor of a guard. -/
def Guard.destroy : Guard → GuardWorld → Option GuardWorld
  | .basic g, w => g.destroy w
  | .read g, w => g.destroy w
  | .write g, w => g.destroy w

/-- A statement of a program over guard variables, which are numbered in the order of
their construction: `T b(std::move(a))`, `a = std::move(b)`, `a.Drop()`, and the end of
the lifetime of `a`. -/
inductive GuardOp where
  | move_construct (src : Nat)
  | move_assign (dst src : Nat)
  | drop (i : Nat)
  | destroy (i : Nat)
deriving DecidableEq, Repr

/-- The guard variables of a scope (`none` once destroyed) and the world. -/
structure GuardState where
  vars : List (Option Guard)
  world : GuardWorld
deriving DecidableEq, Repr

/-- One statement. A statement on a variable that does not exist or is destroyed is not
a program and changes nothing; the result is `none` when a call does not return. -/
def GuardState.step (st : GuardState) : GuardOp → Option GuardState
  | .move_construct src =>
    match st.vars.getD src none with
    | some that =>
      some { st with
        vars := st.vars.set src (some that.moveConstruct.2) ++ [some that.moveConstruct.1] }
    | none => some st
  | .move_assign dst src =>
    if dst = src then some st
    else
      match st.vars.getD dst none, st.vars.getD src none with
      | some this, some that =>
        match this.moveAssign that st.world with
        | none => none
        | some (a, b, w) => some { vars := (st.vars.set dst (some a)).set src (some b), world := w }
      | _, _ => some st
  | .drop i =>
    match st.vars.getD i none with
    | some g =>
      match g.Drop st.world with
      | none => none
      | some (g, w) => some { vars := st.vars.set i (some g), world := w }
    | none => some st
  | .destroy i =>
    match st.vars.getD i none with
    | some g =>
      match g.destroy st.world with
      | none => none
      | some w => some { vars := st.vars.set i none, world := w }
    | none => some st

/-- A sequence of statements. -/
def GuardState.run (st : GuardState) : List GuardOp → Option GuardState
  | [] => some st
  | op :: ops => (st.step op).bind (fun st => st.run ops)

/-- The destructors of the given variables, in the order of the list. -/
def destroyAll : List (Option Guard) → GuardWorld → Option GuardWorld
  | [], w => some w
  | none :: rest, w => destroyAll rest w
  | some g :: rest, w =>
    match g.destroy w with
    | none => none
    | some w => destroyAll rest w

/-- The end of the scope: the variables still alive are destroyed in the reverse order
of their construction. -/
def GuardState.exitScope (st : GuardState) : Option GuardWorld :=
  destroyAll st.vars.reverse st.world

/-- The guard guards a page: `page_` is not null. -/
def Guard.holding (g : Guard) : Bool := g.inner.page_.isSome

/-- The guard holds nothing, or it points to the pool and guards a page whose page id in
the pool `s` is not `INVALID_PAGE_ID`. -/
def Guard.wellFormed (s : BufferPoolManager) (g : Guard) : Bool :=
  match g.inner.page_ with
  | none => true
  | some page => g.inner.bpm_ && (s.page page).page_id_ != INVALID_PAGE_ID

/-- The calls by which a guard releases what it holds: for a read or write guard the
release of the page latch, then `UnpinPage` with the page id of the page in `s` and the
dirty flag of the guard; nothing for a guard that guards no page. -/
def Guard.release (s : BufferPoolManager) (g : Guard) : List GuardEvent :=
  match g.inner.page_ with
  | none => []
  | some page =>
    (match g with
     | .basic _ => []
     | .read _ => [GuardEvent.RUnlatch page]
     | .write _ => [GuardEvent.WUnlatch page]) ++
    [GuardEvent.UnpinPage (s.page page).page_id_ g.inner.is_dirty_]

/-- The releases of a list of guards, one after the other. -/
def releaseAll (s : BufferPoolManager) : List Guard → List GuardEvent
  | [] => []
  | g :: rest => g.release s ++ releaseAll s rest

/-- The guard of a variable that is alive and guards a page. -/
def heldOf : Option Guard → List Guard
  | some g => if g.holding then [g] else []
  | none => []

/-- The guards of the variables that are alive and guard a page. -/
def heldGuards : List (Option Guard) → List Guard
  | [] => []
  | o :: rest => heldOf o ++ heldGuards rest

/-- The pool after `n` calls of `FetchPage(p)` that each return a page; `none` if one
of them does not. -/
def BufferPoolManager.fetchTimes (s : BufferPoolManager) (p : Int) :
    Nat → Option BufferPoolManager
  | 0 => some s
  | n + 1 =>
    match s.FetchPage p with
    | .returned (some _) s2 => s2.fetchTimes p n
    | _ => none

/-- The pool after the calls `UnpinPage(p, d)` for the flags `d` of the list, each of
which returns true; `none` if one of them does not. -/
def BufferPoolManager.unpinAll (s : BufferPoolManager) (p : Int) :
    List Bool → Option BufferPoolManager
  | [] => some s
  | d :: ds =>
    match s.UnpinPage p d with
    | .returned true s2 => s2.unpinAll p ds
    | _ => none

/-- The read guards obtained by `n` calls of `FetchPageRead(p)` that each return a guard
of a page, and the world after them; `none` if one of them does not. -/
def GuardWorld.fetchReads (w : GuardWorld) (p : Int) :
    Nat → Option (List ReadPageGuard × GuardWorld)
  | 0 => some ([], w)
  | n + 1 =>
    match w.FetchPageRead p with
    | some (g, w2) =>
      if g.guard_.page_.isSome then
        match w2.fetchReads p n with
        | some (gs, w3) => some (g :: gs, w3)
        | none => none
      else none
    | none => none

/-- The world after `Drop()` on each read guard of the list; `none` if one of the calls
does not return. -/
def GuardWorld.dropReads (w : GuardWorld) : List ReadPageGuard → Option GuardWorld
  | [] => some w
  | g :: gs =>
    match g.Drop w with
    | some (_, w2) => w2.dropReads gs
    | none => none

/-- The world is one in which guards can release: the pool satisfies its invariant, its
mutex is free, and every frame holds the page id it holds in `s`. -/
def GuardWorld.Ok (s : BufferPoolManager) (w : GuardWorld) : Prop :=
  w.bpm.Inv ∧ w.bpm.latch_ = false ∧ ∀ f, (w.bpm.page f).page_id_ = (s.page f).page_id_

/-- The page `p` is resident in frame `f` with pin count `c`, in a pool that satisfies its
invariant and whose mutex is free. -/
def BufferPoolManager.Pinned (s : BufferPoolManager) (p f : Int) (c : Nat) : Prop :=
  s.Inv ∧ s.latch_ = false ∧ s.page_table_.find p = some f ∧ (s.page f).pin_count_ = c

/-- Two guards over the pool that has fetched pages 5 and 6 into frames 0 and 1: a read
guard of frame 0 and a basic guard of frame 1 whose holder has written to the page. -/
def guardScenario : List Guard :=
  [.read ⟨⟨true, some 0, false⟩⟩, .basic ⟨true, some 1, true⟩]

/-- A program over the two guards and a third variable: the read guard is moved into a
new variable, the basic guard is assigned to itself, the read guard is moved back, and
dropped twice. -/
def guardProgram : List GuardOp :=
  [.move_construct 0, .move_assign 1 1, .move_assign 0 2, .drop 0, .drop 0]

/-- The call ended by letting an exception of the replacer escape. -/
def Outcome.threwException {α : Type} : Outcome α → Bool
  | .threw _ _ => true
  | _ => false

/-- The public call `c`, started in state `s`, lets an exception of the replacer
escape. -/
def BufferPoolManager.throws (s : BufferPoolManager) : Call → Bool
  | .new_page => s.NewPage.threwException
  | .fetch_page p => (s.FetchPage p).threwException
  | .unpin_page p d => (s.UnpinPage p d).threwException
  | .flush_page p => (s.FlushPage p).threwException
  | .flush_all_pages => s.FlushAllPages.threwException
  | .delete_page p => (s.DeletePage p).threwException

/-! # Properties -/

/-! ## Trie: `Put` and `Remove` observed through `Get` -/

theorem findChild_assignChild {Tag V : Type} (c d : Char) (node : TrieNode Tag V)
    (l : List (Char × TrieNode Tag V)) :
    findChild d (assignChild c node l) = if d = c then some node else findChild d l := by
  induction l with
  | nil =>
    by_cases h : d = c
    · simp [assignChild, findChild, h]
    · have h2 : ¬ c = d := fun h3 => h h3.symm
      simp [assignChild, findChild, h, h2]
  | cons e rest ih =>
    by_cases h1 : e.1 = c
    · by_cases h : d = c
      · simp [assignChild, findChild, h1, h]
      · have h2 : ¬ c = d := fun h3 => h h3.symm
        simp [assignChild, findChild, h1, h, h2]
    · by_cases h : d = c
      · subst h
        simp [assignChild, findChild, h1, ih]
      · simp [assignChild, findChild, h1, ih, h]

theorem walk_nil {Tag V : Type} (n : TrieNode Tag V) : n.walk [] = some n := by
  simp [TrieNode.walk]

theorem walk_cons {Tag V : Type} (n : TrieNode Tag V) (c : Char) (rest : List Char) :
    n.walk (c :: rest) = (findChild c n.children_).bind (fun child => child.walk rest) := by
  simp only [TrieNode.walk]
  cases findChild c n.children_ <;> rfl

theorem walk_setChild_cons {Tag V : Type} (n child : TrieNode Tag V) (c d : Char)
    (rest : List Char) :
    (n.setChild c child).walk (d :: rest)
      = if d = c then child.walk rest else n.walk (d :: rest) := by
  rw [walk_cons, walk_cons]
  simp only [TrieNode.setChild, TrieNode.children_, findChild_assignChild]
  by_cases h : d = c <;> simp [h]

/-- Below a first key byte, the walk sees only the children of a node. -/
theorem walk_mk_cons {Tag V : Type} (ch : List (Char × TrieNode Tag V))
    (v w : Option (Tag × V)) (c : Char) (rest : List Char) :
    (TrieNode.mk ch v).walk (c :: rest) = (TrieNode.mk ch w).walk (c :: rest) := by
  rw [walk_cons, walk_cons]; rfl

theorem walk_mk_nil_cons {Tag V : Type} (v : Option (Tag × V)) (c : Char) (rest : List Char) :
    (TrieNode.mk ([] : List (Char × TrieNode Tag V)) v).walk (c :: rest) = none := by
  rw [walk_cons]; rfl

theorem valueAt_nil {Tag V : Type} (n : TrieNode Tag V) : n.valueAt [] = n.value_ := by
  simp [TrieNode.valueAt, walk_nil]

theorem valueAt_setChild_nil {Tag V : Type} (n child : TrieNode Tag V) (c : Char) :
    (n.setChild c child).valueAt [] = n.valueAt [] := by
  simp [TrieNode.valueAt, walk_nil, TrieNode.setChild, TrieNode.value_]

theorem valueAt_setChild_cons {Tag V : Type} (n child : TrieNode Tag V) (c d : Char)
    (rest : List Char) :
    (n.setChild c child).valueAt (d :: rest)
      = if d = c then child.valueAt rest else n.valueAt (d :: rest) := by
  simp only [TrieNode.valueAt, walk_setChild_cons]
  by_cases h : d = c <;> simp [h]

theorem valueAt_cons_of_findChild {Tag V : Type} (n : TrieNode Tag V) (c : Char)
    (rest : List Char) :
    n.valueAt (c :: rest) = (findChild c n.children_).bind (fun child => child.valueAt rest) := by
  simp only [TrieNode.valueAt, walk_cons]
  cases findChild c n.children_ <;> rfl

theorem valueAt_mk_cons {Tag V : Type} (ch : List (Char × TrieNode Tag V))
    (v w : Option (Tag × V)) (c : Char) (rest : List Char) :
    (TrieNode.mk ch v).valueAt (c :: rest) = (TrieNode.mk ch w).valueAt (c :: rest) := by
  simp only [TrieNode.valueAt, walk_mk_cons ch v w]

theorem valueAt_mk_nil_cons {Tag V : Type} (v : Option (Tag × V)) (c : Char)
    (rest : List Char) :
    (TrieNode.mk ([] : List (Char × TrieNode Tag V)) v).valueAt (c :: rest) = none := by
  simp [TrieNode.valueAt, walk_mk_nil_cons]

theorem mk_children_value {Tag V : Type} (n : TrieNode Tag V) :
    TrieNode.mk n.children_ n.value_ = n := by
  cases n; rfl

/-- The last step of `Put` and `Remove`: the node at the end of the key is replaced by
one with the same children and the value `w`. -/
theorem valueAt_replace_last {Tag V : Type} (n : TrieNode Tag V) (c : Char)
    (w : Option (Tag × V)) (k : List Char) :
    (n.setChild c (.mk ((findChild c n.children_).elim [] TrieNode.children_) w)).valueAt k
      = if k = [c] then w else n.valueAt k := by
  cases k with
  | nil => simp [valueAt_setChild_nil]
  | cons d r =>
    rw [valueAt_setChild_cons]
    by_cases h : d = c
    · subst h
      cases r with
      | nil => simp [valueAt_nil, TrieNode.value_]
      | cons e r2 =>
        simp only [if_true, List.cons.injEq, true_and, reduceCtorEq, if_false]
        rw [valueAt_cons_of_findChild n d]
        cases hf : findChild d n.children_ with
        | none => simp [valueAt_mk_nil_cons]
        | some it =>
          simp only [Option.elim, Option.some_bind]
          rw [valueAt_mk_cons it.children_ w it.value_, mk_children_value]
    · simp [h]

theorem put_valueAt {Tag V : Type} (val : Tag × V) (k : List Char) (hk : k ≠ []) :
    ∀ (n : TrieNode Tag V) (q : List Char),
      (n.put val k).valueAt q = if q = k then some val else n.valueAt q := by
  induction k with
  | nil => exact absurd rfl hk
  | cons c rest ih =>
    intro n q
    cases rest with
    | nil =>
      have h := valueAt_replace_last n c (some val) q
      cases hf : findChild c n.children_ with
      | none => simpa [TrieNode.put, hf] using h
      | some it => simpa [TrieNode.put, hf] using h
    | cons d rest2 =>
      have ih2 := ih (by simp)
      have key : ∀ child : TrieNode Tag V,
          (∀ r, child.valueAt r = (findChild c n.children_).bind (fun x => x.valueAt r)) →
          (n.setChild c (TrieNode.put val child (d :: rest2))).valueAt q
            = if q = c :: d :: rest2 then some val else n.valueAt q := by
        intro child hchild
        cases q with
        | nil => simp [valueAt_setChild_nil]
        | cons e r =>
          rw [valueAt_setChild_cons]
          by_cases h : e = c
          · subst h
            simp only [if_true, List.cons.injEq, true_and]
            rw [ih2 child r, hchild r, valueAt_cons_of_findChild n e r]
          · simp [h]
      cases hf : findChild c n.children_ with
      | none =>
        simp only [TrieNode.put, hf]
        apply key
        intro r
        cases r with
        | nil => simp [hf, valueAt_nil, TrieNode.value_]
        | cons a r2 => simp [hf, valueAt_mk_nil_cons]
      | some it =>
        simp only [TrieNode.put, hf]
        apply key
        intro r
        simp [hf]

theorem remove_valueAt {Tag V : Type} (k : List Char) (hk : k ≠ []) :
    ∀ (n : TrieNode Tag V) (q : List Char),
      (n.remove k).valueAt q = if q = k then none else n.valueAt q := by
  induction k with
  | nil => exact absurd rfl hk
  | cons c rest ih =>
    intro n q
    cases rest with
    | nil =>
      cases hf : findChild c n.children_ with
      | none =>
        simp only [TrieNode.remove, hf]
        by_cases h : q = [c]
        · subst h
          simp [valueAt_cons_of_findChild, hf]
        · simp [h]
      | some it =>
        have h := valueAt_replace_last n c none q
        simpa [TrieNode.remove, hf] using h
    | cons d rest2 =>
      have ih2 := ih (by simp)
      cases hf : findChild c n.children_ with
      | none =>
        simp only [TrieNode.remove, hf]
        by_cases h : q = c :: d :: rest2
        · subst h
          simp [valueAt_cons_of_findChild, hf]
        · simp [h]
      | some it =>
        simp only [TrieNode.remove, hf]
        cases q with
        | nil => simp [valueAt_setChild_nil]
        | cons e r =>
          rw [valueAt_setChild_cons]
          by_cases h : e = c
          · subst h
            simp only [if_true, List.cons.injEq, true_and]
            rw [ih2 it r, valueAt_cons_of_findChild n e r, hf]
            rfl
          · simp [h]

theorem Get_of_root {Tag V : Type} [DecidableEq Tag] (root : TrieNode Tag V) (U : Tag)
    (q : List Char) :
    (Trie.mk (some root)).Get U q
      = .ok ((root.valueAt q).bind (fun x => if x.1 = U then some x.2 else none)) := by
  simp only [Trie.Get, TrieNode.valueAt]
  cases root.walk q with
  | none => rfl
  | some node =>
    cases hv : node.value_ with
    | none => simp [hv]
    | some x =>
      obtain ⟨ty, value⟩ := x
      by_cases h : ty = U <;> simp [hv, h]

/-- C7. `Put` is a point update as observed by `Get`: in the trie `t.Put T k v`, a lookup
of `k` at type `T` finds `v`, a lookup of `k` at any other type finds nothing, and a
lookup of any other key answers as in `t`, which for the empty trie (no root) means
that it finds nothing. -/
theorem trie_put_point_update {Tag V : Type} [DecidableEq Tag] (t : Trie Tag V) (T U : Tag)
    (k q : List Char) (v : V) :
    (t.Put T k v).Get U q =
      if q = k then .ok (if U = T then some v else none)
      else if t.root_.isSome then t.Get U q else .ok none := by
  obtain ⟨root⟩ := t
  have hroot : ∀ (n : TrieNode Tag V),
      (Trie.mk (some (if k.isEmpty then TrieNode.mk n.children_ (some (T, v))
          else n.put (T, v) k))).Get U q
        = if q = k then .ok (if U = T then some v else none)
          else (Trie.mk (some n)).Get U q := by
    intro n
    rw [Get_of_root, Get_of_root]
    cases k with
    | nil =>
      cases q with
      | nil =>
        by_cases h : T = U
        · subst h; simp [valueAt_nil, TrieNode.value_]
        · have h2 : ¬ U = T := fun h3 => h h3.symm
          simp [valueAt_nil, TrieNode.value_, h, h2]
      | cons c r =>
        simp only [List.isEmpty_nil, if_true, reduceCtorEq, if_false]
        rw [valueAt_mk_cons n.children_ (some (T, v)) n.value_, mk_children_value]
    | cons c r =>
      simp only [List.isEmpty_cons, Bool.false_eq_true, if_false]
      rw [put_valueAt (T, v) (c :: r) (by simp)]
      by_cases h : q = c :: r
      · by_cases h2 : T = U
        · subst h2; simp [h]
        · have h3 : ¬ U = T := fun h4 => h2 h4.symm
          simp [h, h2, h3]
      · simp [h]
  cases root with
  | none =>
    have h := hroot (TrieNode.mk [] none)
    have hnone : (Trie.mk (some (TrieNode.mk ([] : List (Char × TrieNode Tag V)) none))).Get U q
        = .ok none := by
      rw [Get_of_root]
      cases q with
      | nil => simp [valueAt_nil, TrieNode.value_]
      | cons c r => simp [valueAt_mk_nil_cons]
    rw [hnone] at h
    by_cases hk : k.isEmpty <;> simpa [Trie.Put, hk] using h
  | some n =>
    have h := hroot n
    by_cases hk : k.isEmpty <;> simpa [Trie.Put, hk] using h

/-- The scenario of the specification: `t1 = empty.put("ab", 1)`, `t2 = t1.put("ab", 2)`,
`t3 = t1.put("ac", 3)`; then `t1.get("ab") = 1`, `t2.get("ab") = 2`, `t3.get("ab") = 1`
and `t3.get("ac") = 3` (values of one type, tagged `0`). -/
theorem trie_put_point_update_witness :
    (((Trie.mk none : Trie Nat Nat).Put 0 ['a', 'b'] 1).Get 0 ['a', 'b'] = .ok (some 1)) ∧
    ((((Trie.mk none : Trie Nat Nat).Put 0 ['a', 'b'] 1).Put 0 ['a', 'b'] 2).Get 0 ['a', 'b']
      = .ok (some 2)) ∧
    ((((Trie.mk none : Trie Nat Nat).Put 0 ['a', 'b'] 1).Put 0 ['a', 'c'] 3).Get 0 ['a', 'b']
      = .ok (some 1)) ∧
    ((((Trie.mk none : Trie Nat Nat).Put 0 ['a', 'b'] 1).Put 0 ['a', 'c'] 3).Get 0 ['a', 'c']
      = .ok (some 3)) := by
  have h1 := trie_put_point_update (Trie.mk none : Trie Nat Nat) 0 0 ['a', 'b'] ['a', 'b'] 1
  have h2 := trie_put_point_update ((Trie.mk none : Trie Nat Nat).Put 0 ['a', 'b'] 1) 0 0
    ['a', 'b'] ['a', 'b'] 2
  have h3 := trie_put_point_update ((Trie.mk none : Trie Nat Nat).Put 0 ['a', 'b'] 1) 0 0
    ['a', 'c'] ['a', 'b'] 3
  have h4 := trie_put_point_update ((Trie.mk none : Trie Nat Nat).Put 0 ['a', 'b'] 1) 0 0
    ['a', 'c'] ['a', 'c'] 3
  refine ⟨by simpa using h1, by simpa using h2, ?_, by simpa using h4⟩
  rw [h3, h1]
  simp [Trie.Put]

/-- C8. `Remove` deletes exactly one key: for a trie with a root and a non-empty key
`c :: rest`, `Remove` returns a trie in which a lookup of that key finds nothing at any
type and a lookup of any other key answers as before; when the path of the key does
not exist, every lookup answers as before. -/
theorem trie_remove_deletes_one_key {Tag V : Type} [DecidableEq Tag] (root : TrieNode Tag V)
    (c : Char) (rest : List Char) :
    ∃ t : Trie Tag V, (Trie.mk (some root)).Remove (c :: rest) = .ok t ∧
      (∀ U : Tag, t.Get U (c :: rest) = .ok none) ∧
      (∀ (U : Tag) (q : List Char), q ≠ c :: rest →
        t.Get U q = (Trie.mk (some root)).Get U q) ∧
      (root.walk (c :: rest) = none →
        ∀ (U : Tag) (q : List Char), t.Get U q = (Trie.mk (some root)).Get U q) := by
  refine ⟨Trie.mk (some (root.remove (c :: rest))), by simp [Trie.Remove], ?_, ?_, ?_⟩
  · intro U
    rw [Get_of_root, remove_valueAt (c :: rest) (by simp)]
    simp
  · intro U q hq
    rw [Get_of_root, Get_of_root, remove_valueAt (c :: rest) (by simp)]
    simp [hq]
  · intro hw U q
    rw [Get_of_root, Get_of_root, remove_valueAt (c :: rest) (by simp)]
    by_cases hq : q = c :: rest
    · subst hq
      simp [TrieNode.valueAt, hw]
    · simp [hq]

/-- A trie holding "ab" and "ac": removing "ab" leaves "ac" in place, and removing the
absent key "b" changes no lookup. -/
theorem trie_remove_deletes_one_key_witness :
    (∃ t : Trie Nat Nat,
      (((Trie.mk none : Trie Nat Nat).Put 0 ['a', 'b'] 1).Put 0 ['a', 'c'] 3).Remove ['a', 'b']
        = .ok t ∧ t.Get 0 ['a', 'b'] = .ok none ∧ t.Get 0 ['a', 'c'] = .ok (some 3)) ∧
    (∃ t : Trie Nat Nat,
      ((Trie.mk none : Trie Nat Nat).Put 0 ['a', 'b'] 1).Remove ['b'] = .ok t ∧
        t.Get 0 ['a', 'b'] = .ok (some 1)) := by
  constructor
  · obtain ⟨t, h1, h2, h3, _⟩ := trie_remove_deletes_one_key
      ((TrieNode.mk [] none : TrieNode Nat Nat).put (0, 1) ['a', 'b'] |>.put (0, 3) ['a', 'c'])
      'a' ['b']
    refine ⟨t, ?_, h2 0, ?_⟩
    · simpa [Trie.Put] using h1
    · rw [h3 0 ['a', 'c'] (by decide)]
      rfl
  · obtain ⟨t, h1, _, _, h4⟩ := trie_remove_deletes_one_key
      ((TrieNode.mk [] none : TrieNode Nat Nat).put (0, 1) ['a', 'b']) 'b' []
    refine ⟨t, ?_, ?_⟩
    · simpa [Trie.Put] using h1
    · rw [h4 rfl 0 ['a', 'b']]
      rfl
/-! ## Replacer: list lemmas -/

theorem find_fid_some {l : List LRUKNode} {f : Int} {n : LRUKNode}
    (h : l.find? (fun n => n.fid_ == f) = some n) : n ∈ l ∧ n.fid_ = f := by
  refine ⟨List.mem_of_find?_eq_some h, ?_⟩
  have := List.find?_some h
  simpa using this

theorem find_fid_none {l : List LRUKNode} {f : Int}
    (h : l.find? (fun n => n.fid_ == f) = none) : ∀ n ∈ l, n.fid_ ≠ f := by
  intro n hn
  have := List.find?_eq_none.mp h n hn
  simpa using this

theorem find_fid_of_mem {l : List LRUKNode} (hnd : (l.map (fun n => n.fid_)).Nodup)
    {n : LRUKNode} (hn : n ∈ l) : l.find? (fun m => m.fid_ == n.fid_) = some n := by
  induction l with
  | nil => cases hn
  | cons a l ih =>
    simp only [List.map_cons, List.nodup_cons, List.mem_map, not_exists, not_and] at hnd
    rcases List.mem_cons.mp hn with rfl | hn2
    · simp
    · have hne : a.fid_ ≠ n.fid_ := fun h => hnd.1 n hn2 h.symm
      simp [List.find?_cons, hne, ih hnd.2 hn2]

theorem mem_eraseP_fid {l : List LRUKNode} (hnd : (l.map (fun n => n.fid_)).Nodup) (f : Int)
    (m : LRUKNode) : m ∈ l.eraseP (fun n => n.fid_ == f) ↔ m ∈ l ∧ m.fid_ ≠ f := by
  induction l with
  | nil => simp
  | cons a l ih =>
    simp only [List.map_cons, List.nodup_cons, List.mem_map, not_exists, not_and] at hnd
    by_cases ha : a.fid_ = f
    · have : (a.fid_ == f) = true := by simpa using ha
      have he : (a :: l).eraseP (fun n => n.fid_ == f) = l := by
        simp [List.eraseP_cons, ha]
      rw [he]
      constructor
      · intro hm
        refine ⟨List.mem_cons_of_mem _ hm, ?_⟩
        intro hmf
        exact hnd.1 m hm (hmf.trans ha.symm)
      · rintro ⟨hm, hmf⟩
        rcases List.mem_cons.mp hm with rfl | hm2
        · exact absurd ha hmf
        · exact hm2
    · have : ¬ (a.fid_ == f) = true := by simpa using ha
      have he : (a :: l).eraseP (fun n => n.fid_ == f)
          = a :: l.eraseP (fun n => n.fid_ == f) := by
        simp [List.eraseP_cons, ha]
      rw [he, List.mem_cons, ih hnd.2, List.mem_cons]
      constructor
      · rintro (rfl | ⟨h1, h2⟩)
        · exact ⟨Or.inl rfl, ha⟩
        · exact ⟨Or.inr h1, h2⟩
      · rintro ⟨rfl | h1, h2⟩
        · exact Or.inl rfl
        · exact Or.inr ⟨h1, h2⟩

theorem modifyFirst_fid_eq_map {l : List LRUKNode} (hnd : (l.map (fun n => n.fid_)).Nodup)
    (f : Int) (g : LRUKNode → LRUKNode) :
    modifyFirst (fun n => n.fid_ == f) g l = l.map (fun n => if n.fid_ = f then g n else n) := by
  induction l with
  | nil => rfl
  | cons a l ih =>
    simp only [List.map_cons, List.nodup_cons, List.mem_map, not_exists, not_and] at hnd
    by_cases ha : a.fid_ = f
    · have hrest : l.map (fun n => if n.fid_ = f then g n else n) = l := by
        conv_rhs => rw [← List.map_id l]
        apply List.map_congr_left
        intro n hn
        have : n.fid_ ≠ f := fun h => hnd.1 n hn (h.trans ha.symm)
        simp [this]
      simp [modifyFirst, ha, hrest]
    · simp [modifyFirst, ha, ih hnd.2]

theorem InsertOrder_perm (l : List LRUKNode) (node : LRUKNode) :
    (InsertOrder l node).Perm (node :: l) := by
  induction l with
  | nil => simp [InsertOrder]
  | cons a l ih =>
    simp only [InsertOrder]
    split
    · exact List.Perm.refl _
    · exact (List.Perm.cons a ih).trans (List.Perm.swap _ _ _)

theorem mem_InsertOrder (l : List LRUKNode) (node m : LRUKNode) :
    m ∈ InsertOrder l node ↔ m = node ∨ m ∈ l := by
  rw [(InsertOrder_perm l node).mem_iff, List.mem_cons]

theorem InsertOrder_sorted (l : List LRUKNode) (node : LRUKNode)
    (hs : l.Pairwise (fun a b => a.min_history_size_ < b.min_history_size_))
    (hne : ∀ a ∈ l, a.min_history_size_ ≠ node.min_history_size_) :
    (InsertOrder l node).Pairwise (fun a b => a.min_history_size_ < b.min_history_size_) := by
  induction l with
  | nil => simp [InsertOrder]
  | cons a l ih =>
    rw [List.pairwise_cons] at hs
    simp only [InsertOrder]
    split
    · rename_i hlt
      rw [List.pairwise_cons]
      refine ⟨?_, List.pairwise_cons.mpr hs⟩
      intro b hb
      rcases List.mem_cons.mp hb with rfl | hb2
      · exact hlt
      · exact lt_trans hlt (hs.1 b hb2)
    · rename_i hge
      rw [List.pairwise_cons]
      refine ⟨?_, ih hs.2 (fun b hb => hne b (List.mem_cons_of_mem _ hb))⟩
      intro b hb
      rcases (mem_InsertOrder l node b).mp hb with rfl | hb2
      · have := hne a (List.mem_cons_self _ _)
        omega
      · exact hs.1 b hb2
/-! ## Replacer: the shape of each operation -/

theorem find_eq_nodes_find (r : LRUKReplacer) (f : Int) :
    r.find f = r.nodes.find? (fun n => n.fid_ == f) := by
  simp only [LRUKReplacer.find, LRUKReplacer.nodes, List.find?_append]
  cases r.less_k_nodes_.find? (fun n => n.fid_ == f) <;> simp

theorem find_some_mem {r : LRUKReplacer} {f : Int} {n : LRUKNode} (h : r.find f = some n) :
    n ∈ r.nodes ∧ n.fid_ = f := by
  rw [find_eq_nodes_find] at h
  exact find_fid_some h

theorem find_none_iff {r : LRUKReplacer} {f : Int} : r.find f = none ↔ ¬ r.tracked f := by
  rw [find_eq_nodes_find]
  constructor
  · intro h ⟨n, hn, hf⟩
    exact find_fid_none h n hn hf
  · intro h
    rw [List.find?_eq_none]
    intro n hn
    simp only [beq_iff_eq]
    exact fun hf => h ⟨n, hn, hf⟩

theorem LRUKReplacer.Inv.less_nodup {r : LRUKReplacer} (h : r.Inv) :
    (r.less_k_nodes_.map (fun n => n.fid_)).Nodup := by
  have := h.nodup
  simp only [LRUKReplacer.nodes, List.map_append] at this
  exact (List.nodup_append.mp this).1

theorem LRUKReplacer.Inv.over_nodup {r : LRUKReplacer} (h : r.Inv) :
    (r.over_k_nodes_.map (fun n => n.fid_)).Nodup := by
  have := h.nodup
  simp only [LRUKReplacer.nodes, List.map_append] at this
  exact (List.nodup_append.mp this).2.1

theorem LRUKReplacer.Inv.less_over_ne {r : LRUKReplacer} (h : r.Inv) {a b : LRUKNode}
    (ha : a ∈ r.less_k_nodes_) (hb : b ∈ r.over_k_nodes_) : a.fid_ ≠ b.fid_ := by
  have := h.nodup
  simp only [LRUKReplacer.nodes, List.map_append] at this
  have hd := (List.nodup_append.mp this).2.2
  intro heq
  exact hd (List.mem_map.mpr ⟨a, ha, rfl⟩) (List.mem_map.mpr ⟨b, hb, heq.symm⟩)

theorem mem_nodes {r : LRUKReplacer} {n : LRUKNode} :
    n ∈ r.nodes ↔ n ∈ r.less_k_nodes_ ∨ n ∈ r.over_k_nodes_ := by
  simp [LRUKReplacer.nodes]

theorem LRUKReplacer.Inv.eq_of_fid {r : LRUKReplacer} (h : r.Inv) {a b : LRUKNode}
    (ha : a ∈ r.nodes) (hb : b ∈ r.nodes) (hf : a.fid_ = b.fid_) : a = b := by
  have h1 := find_fid_of_mem h.nodup ha
  have h2 := find_fid_of_mem h.nodup hb
  rw [hf, h2] at h1
  exact (Option.some.inj h1).symm

theorem LRUKReplacer.Inv.find_of_mem {r : LRUKReplacer} (h : r.Inv) {n : LRUKNode} (hn : n ∈ r.nodes) :
    r.find n.fid_ = some n := by
  rw [find_eq_nodes_find]
  exact find_fid_of_mem h.nodup hn

/-- Under the structural invariant a mutation through `hash_cache_[frame_id]` is a map
over both lists. -/
theorem modify_eq_map {r : LRUKReplacer} (h : r.Inv) (f : Int) (g : LRUKNode → LRUKNode) :
    r.modify f g =
      { r with
        less_k_nodes_ := r.less_k_nodes_.map (fun n => if n.fid_ = f then g n else n)
        over_k_nodes_ := r.over_k_nodes_.map (fun n => if n.fid_ = f then g n else n) } := by
  have idmap : ∀ l : List LRUKNode, (∀ n ∈ l, n.fid_ ≠ f) →
      l.map (fun n => if n.fid_ = f then g n else n) = l := by
    intro l hl
    conv_rhs => rw [← List.map_id l]
    apply List.map_congr_left
    intro n hn
    simp [hl n hn]
  unfold LRUKReplacer.modify
  split
  · rename_i hany
    obtain ⟨a, ha, haf⟩ := List.any_eq_true.mp hany
    have haf2 : a.fid_ = f := by simpa using haf
    have hover : ∀ n ∈ r.over_k_nodes_, n.fid_ ≠ f := by
      intro n hn hnf
      exact h.less_over_ne ha hn (haf2.trans hnf.symm)
    rw [modifyFirst_fid_eq_map h.less_nodup, idmap _ hover]
  · rename_i hany
    have hless : ∀ n ∈ r.less_k_nodes_, n.fid_ ≠ f := by
      intro n hn hnf
      apply hany
      exact List.any_eq_true.mpr ⟨n, hn, by simpa using hnf⟩
    rw [modifyFirst_fid_eq_map h.over_nodup, idmap _ hless]

/-- The four ways in which `RecordAccess` succeeds. -/
theorem RecordAccess_ok_cases {r r2 : LRUKReplacer} {f : Int} (hinv : r.Inv)
    (h : r.RecordAccess f = .ok r2) :
    ((¬ r.tracked f) ∧
      r2 = { r with
        current_timestamp_ := r.current_timestamp_ + 1
        less_k_nodes_ := r.less_k_nodes_ ++
          [{ LRUKNode.fresh with fid_ := f, history_ := [r.current_timestamp_ + 1] }]
        curr_size_ := r.curr_size_ + 1 }) ∨
    (∃ n ∈ r.over_k_nodes_, n.fid_ = f ∧
      r2 = { r with
        current_timestamp_ := r.current_timestamp_ + 1
        over_k_nodes_ := InsertOrder (r.over_k_nodes_.eraseP (fun m => m.fid_ == f))
          { n with
            history_ := ((r.current_timestamp_ + 1) :: n.history_).dropLast
            min_history_size_ := (((r.current_timestamp_ + 1) :: n.history_).dropLast).getLastD 0 } }) ∨
    (∃ n ∈ r.less_k_nodes_, n.fid_ = f ∧ n.history_.length = decSizeT r.k_ ∧
      r2 = { r with
        current_timestamp_ := r.current_timestamp_ + 1
        less_k_nodes_ := r.less_k_nodes_.eraseP (fun m => m.fid_ == f)
        over_k_nodes_ := InsertOrder r.over_k_nodes_
          { n with
            history_ := (r.current_timestamp_ + 1) :: n.history_
            over_k_ := true
            min_history_size_ := ((r.current_timestamp_ + 1) :: n.history_).getLastD 0 } }) ∨
    (∃ n ∈ r.less_k_nodes_, n.fid_ = f ∧ n.history_.length ≠ decSizeT r.k_ ∧
      r2 = { r with
        current_timestamp_ := r.current_timestamp_ + 1
        less_k_nodes_ := r.less_k_nodes_.map
          (fun m => if m.fid_ = f then
            { m with history_ := (r.current_timestamp_ + 1) :: m.history_ } else m) }) := by
  unfold LRUKReplacer.RecordAccess at h
  split at h
  · cases h
  · simp only at h
    have hfind : ∀ x, ({ r with current_timestamp_ := r.current_timestamp_ + 1 } :
        LRUKReplacer).find f = x → r.find f = x := fun x hx => hx
    split at h
    · rename_i hnone
      left
      refine ⟨find_none_iff.mp (hfind _ hnone), ?_⟩
      injection h with h
      exact h.symm
    · rename_i thisnode hsome
      obtain ⟨hmem, hfid⟩ := find_some_mem (hfind _ hsome)
      rcases mem_nodes.mp hmem with hl | ho
      · have hflag := hinv.less_flag _ hl
        simp only [hflag, Bool.false_eq_true, if_false] at h
        split at h
        · rename_i hlen
          right; right; left
          refine ⟨thisnode, hl, hfid, hlen, ?_⟩
          injection h with h
          exact h.symm
        · rename_i hlen
          right; right; right
          refine ⟨thisnode, hl, hfid, hlen, ?_⟩
          injection h with h
          rw [← h]
          have hinv2 : ({ r with current_timestamp_ := r.current_timestamp_ + 1 } :
              LRUKReplacer).Inv := ⟨hinv.nodup, hinv.less_flag, hinv.over_flag⟩
          rw [modify_eq_map hinv2]
          have idmap : r.over_k_nodes_.map
              (fun m => if m.fid_ = f then
                ({ m with history_ := (r.current_timestamp_ + 1) :: m.history_ } : LRUKNode)
                else m) = r.over_k_nodes_ := by
            conv_rhs => rw [← List.map_id r.over_k_nodes_]
            apply List.map_congr_left
            intro n hn
            have : n.fid_ ≠ f := fun hnf => hinv.less_over_ne hl hn (hfid.trans hnf.symm)
            simp [this]
          simp only [idmap]
      · have hflag := hinv.over_flag _ ho
        simp only [hflag, if_true] at h
        right; left
        refine ⟨thisnode, ho, hfid, ?_⟩
        injection h with h
        rw [hflag]
        exact h.symm

theorem RecordAccess_ok_of_le (r : LRUKReplacer) (f : Int) (h : f ≤ toInt32 r.replacer_size_) :
    ∃ r2, r.RecordAccess f = .ok r2 := by
  unfold LRUKReplacer.RecordAccess
  rw [if_neg (not_lt.mpr h)]
  simp only
  split
  · exact ⟨_, rfl⟩
  · split
    · exact ⟨_, rfl⟩
    · split <;> exact ⟨_, rfl⟩

theorem RecordAccess_error_iff (r : LRUKReplacer) (f : Int) :
    (∃ e, r.RecordAccess f = .error e) ↔ f > toInt32 r.replacer_size_ := by
  constructor
  · rintro ⟨e, he⟩
    by_contra hle
    obtain ⟨r2, h2⟩ := RecordAccess_ok_of_le r f (not_lt.mp hle)
    rw [h2] at he
    cases he
  · intro h
    exact ⟨.InvalidFrame, by simp [LRUKReplacer.RecordAccess, h]⟩

/-- The way in which `SetEvictable` succeeds. -/
theorem SetEvictable_ok_shape {r r2 : LRUKReplacer} {f : Int} {b : Bool} (hinv : r.Inv)
    (h : r.SetEvictable f b = .ok r2) :
    ∃ n ∈ r.nodes, n.fid_ = f ∧
      r2.less_k_nodes_ = r.less_k_nodes_.map
        (fun m => if m.fid_ = f then { m with is_evictable_ := b } else m) ∧
      r2.over_k_nodes_ = r.over_k_nodes_.map
        (fun m => if m.fid_ = f then { m with is_evictable_ := b } else m) ∧
      r2.current_timestamp_ = r.current_timestamp_ ∧ r2.k_ = r.k_ ∧
      r2.replacer_size_ = r.replacer_size_ ∧ r2.curr_size_ = r.curr_size_ ∧
      r2.evictable_size_ =
        (if n.is_evictable_ && !b then decSizeT r.evictable_size_
         else if !n.is_evictable_ && b then r.evictable_size_ + 1
         else r.evictable_size_) := by
  unfold LRUKReplacer.SetEvictable at h
  split at h
  · cases h
  · rename_i thisnode hsome
    obtain ⟨hmem, hfid⟩ := find_some_mem hsome
    refine ⟨thisnode, hmem, hfid, ?_⟩
    injection h with h
    subst h
    have key : ∀ r0 : LRUKReplacer, r0.less_k_nodes_ = r.less_k_nodes_ →
        r0.over_k_nodes_ = r.over_k_nodes_ →
        (r0.modify f (fun n => { n with is_evictable_ := b })).less_k_nodes_
          = r.less_k_nodes_.map (fun m => if m.fid_ = f then { m with is_evictable_ := b } else m)
        ∧ (r0.modify f (fun n => { n with is_evictable_ := b })).over_k_nodes_
          = r.over_k_nodes_.map (fun m => if m.fid_ = f then { m with is_evictable_ := b } else m)
        ∧ (r0.modify f (fun n => { n with is_evictable_ := b })).current_timestamp_
          = r0.current_timestamp_
        ∧ (r0.modify f (fun n => { n with is_evictable_ := b })).k_ = r0.k_
        ∧ (r0.modify f (fun n => { n with is_evictable_ := b })).replacer_size_
          = r0.replacer_size_
        ∧ (r0.modify f (fun n => { n with is_evictable_ := b })).curr_size_ = r0.curr_size_
        ∧ (r0.modify f (fun n => { n with is_evictable_ := b })).evictable_size_
          = r0.evictable_size_ := by
      intro r0 h1 h2
      have hinv0 : r0.Inv := by
        refine ⟨?_, ?_, ?_⟩
        · simpa [LRUKReplacer.nodes, h1, h2] using hinv.nodup
        · rw [h1]; exact hinv.less_flag
        · rw [h2]; exact hinv.over_flag
      rw [modify_eq_map hinv0, h1, h2]
      exact ⟨rfl, rfl, rfl, rfl, rfl, rfl, rfl⟩
    by_cases c1 : (thisnode.is_evictable_ && !b) = true
    · simp only [c1, if_true]
      exact key { r with evictable_size_ := decSizeT r.evictable_size_ } rfl rfl
    · by_cases c2 : (!thisnode.is_evictable_ && b) = true
      · simp only [c1, c2, if_true, if_false]
        exact key { r with evictable_size_ := r.evictable_size_ + 1 } rfl rfl
      · simp only [c1, c2, if_false]
        exact key r rfl rfl

theorem SetEvictable_ok_of_tracked {r : LRUKReplacer} {f : Int} (b : Bool) (h : r.tracked f) :
    ∃ r2, r.SetEvictable f b = .ok r2 := by
  unfold LRUKReplacer.SetEvictable
  split
  · rename_i hnone
    exact absurd h (find_none_iff.mp hnone)
  · exact ⟨_, rfl⟩

theorem eraseP_fid_of_not_mem {l : List LRUKNode} {f : Int} (h : ∀ n ∈ l, n.fid_ ≠ f) :
    l.eraseP (fun m => m.fid_ == f) = l := by
  apply List.eraseP_of_forall_not
  intro n hn
  simpa using h n hn

/-- Erasing the first node that satisfies `p` is erasing the node of its frame. -/
theorem eraseP_eq_eraseP_fid {l : List LRUKNode} (p : LRUKNode → Bool) {it : LRUKNode}
    (hfind : l.find? p = some it) :
    l.eraseP p = l.eraseP (fun m => m.fid_ == it.fid_) ∨ ¬ (l.map (fun n => n.fid_)).Nodup := by
  induction l with
  | nil => cases hfind
  | cons a l ih =>
    by_cases hpa : p a = true
    · have : a = it := by simpa [List.find?_cons, hpa] using hfind
      subst this
      left
      simp [List.eraseP_cons, hpa]
    · have hpa2 : p a = false := by simpa using hpa
      have hfind2 : l.find? p = some it := by simpa [List.find?_cons, hpa2] using hfind
      by_cases hfa : a.fid_ = it.fid_
      · right
        intro hnd
        simp only [List.map_cons, List.nodup_cons, List.mem_map, not_exists, not_and] at hnd
        exact hnd.1 it (List.mem_of_find?_eq_some hfind2) hfa.symm
      · rcases ih hfind2 with h1 | h2
        · left
          simp [List.eraseP_cons, hpa2, hfa, h1]
        · right
          intro hnd
          simp only [List.map_cons, List.nodup_cons] at hnd
          exact h2 hnd.2

/-- The way in which `Remove` succeeds. -/
theorem Remove_ok_shape {r r2 : LRUKReplacer} {f : Int} (hinv : r.Inv)
    (h : r.Remove f = .ok r2) :
    ∃ n ∈ r.nodes, n.fid_ = f ∧ n.is_evictable_ = true ∧
      r2 = { r with
        less_k_nodes_ := r.less_k_nodes_.eraseP (fun m => m.fid_ == f)
        over_k_nodes_ := r.over_k_nodes_.eraseP (fun m => m.fid_ == f)
        evictable_size_ := decSizeT r.evictable_size_
        curr_size_ := decSizeT r.curr_size_ } := by
  unfold LRUKReplacer.Remove at h
  split at h
  · cases h
  · rename_i thisnode hsome
    obtain ⟨hmem, hfid⟩ := find_some_mem hsome
    split at h
    · cases h
    · rename_i hev
      have hev2 : thisnode.is_evictable_ = true := by simpa using hev
      refine ⟨thisnode, hmem, hfid, hev2, ?_⟩
      injection h with h
      subst h
      rcases mem_nodes.mp hmem with hl | ho
      · have hover : ∀ n ∈ r.over_k_nodes_, n.fid_ ≠ f :=
          fun n hn hnf => hinv.less_over_ne hl hn (hfid.trans hnf.symm)
        simp [hinv.less_flag _ hl, eraseP_fid_of_not_mem hover]
      · have hless : ∀ n ∈ r.less_k_nodes_, n.fid_ ≠ f :=
          fun n hn hnf => hinv.less_over_ne hn ho (hnf.trans hfid.symm)
        simp [hinv.over_flag _ ho, eraseP_fid_of_not_mem hless]

theorem Remove_ok_of_evictable {r : LRUKReplacer} {f : Int} (hinv : r.Inv)
    (h : r.evictable f) : ∃ r2, r.Remove f = .ok r2 := by
  obtain ⟨n, hn, hf, he⟩ := h
  have hfind := hinv.find_of_mem hn
  rw [hf] at hfind
  unfold LRUKReplacer.Remove
  rw [hfind]
  simp [he]

/-- The ways in which `Evict` finds a victim. -/
theorem Evict_some_shape {r r2 : LRUKReplacer} {f : Int} (hinv : r.Inv)
    (h : r.Evict = (some f, r2)) :
    ∃ n ∈ r.nodes, n.fid_ = f ∧ n.is_evictable_ = true ∧
      (r.less_k_nodes_.find? (fun m => m.is_evictable_) = some n ∨
        (r.less_k_nodes_.find? (fun m => m.is_evictable_) = none ∧
          r.over_k_nodes_.find? (fun m => m.is_evictable_) = some n)) ∧
      r2 = { r with
        less_k_nodes_ := r.less_k_nodes_.eraseP (fun m => m.fid_ == f)
        over_k_nodes_ := r.over_k_nodes_.eraseP (fun m => m.fid_ == f)
        evictable_size_ := decSizeT r.evictable_size_
        curr_size_ := decSizeT r.curr_size_ } := by
  unfold LRUKReplacer.Evict at h
  split at h
  · rename_i it hit
    have hl := List.mem_of_find?_eq_some hit
    have hev : it.is_evictable_ = true := by simpa using List.find?_some hit
    simp only [Prod.mk.injEq, Option.some.injEq] at h
    obtain ⟨hf, hr⟩ := h
    refine ⟨it, mem_nodes.mpr (Or.inl hl), hf, hev, Or.inl hit, ?_⟩
    subst hr
    have hover : ∀ n ∈ r.over_k_nodes_, n.fid_ ≠ f :=
      fun n hn hnf => hinv.less_over_ne hl hn (hf.trans hnf.symm)
    rcases eraseP_eq_eraseP_fid _ hit with h1 | h2
    · rw [h1, eraseP_fid_of_not_mem hover, hf]
    · exact absurd hinv.less_nodup h2
  · rename_i hnone
    split at h
    · rename_i it hit
      have ho := List.mem_of_find?_eq_some hit
      have hev : it.is_evictable_ = true := by simpa using List.find?_some hit
      simp only [Prod.mk.injEq, Option.some.injEq] at h
      obtain ⟨hf, hr⟩ := h
      refine ⟨it, mem_nodes.mpr (Or.inr ho), hf, hev, Or.inr ⟨hnone, hit⟩, ?_⟩
      subst hr
      have hless : ∀ n ∈ r.less_k_nodes_, n.fid_ ≠ f :=
        fun n hn hnf => hinv.less_over_ne hn ho (hnf.trans hf.symm)
      rcases eraseP_eq_eraseP_fid _ hit with h1 | h2
      · rw [h1, eraseP_fid_of_not_mem hless, hf]
      · exact absurd hinv.over_nodup h2
    · simp at h

/-- Operation `Evict` finds no victim exactly when no node is evictable, and then changes
nothing. -/
theorem Evict_none_iff (r : LRUKReplacer) :
    r.Evict.1 = none ↔ ∀ n ∈ r.nodes, n.is_evictable_ = false := by
  unfold LRUKReplacer.Evict
  constructor
  · intro h n hn
    split at h
    · cases h
    · rename_i hl
      split at h
      · cases h
      · rename_i ho
        rcases mem_nodes.mp hn with h1 | h1
        · simpa using List.find?_eq_none.mp hl n h1
        · simpa using List.find?_eq_none.mp ho n h1
  · intro h
    have hl : r.less_k_nodes_.find? (fun m => m.is_evictable_) = none := by
      rw [List.find?_eq_none]
      intro n hn
      simp [h n (mem_nodes.mpr (Or.inl hn))]
    have ho : r.over_k_nodes_.find? (fun m => m.is_evictable_) = none := by
      rw [List.find?_eq_none]
      intro n hn
      simp [h n (mem_nodes.mpr (Or.inr hn))]
    simp [hl, ho]

theorem Evict_none_state {r : LRUKReplacer} (h : r.Evict.1 = none) : r.Evict = (none, r) := by
  unfold LRUKReplacer.Evict at h ⊢
  split at h
  · cases h
  · rename_i hl
    split at h
    · cases h
    · rename_i ho
      simp [hl, ho]
/-! ## Replacer: the tracked nodes after each operation -/

theorem LRUKReplacer.Inv.evictable_iff {r : LRUKReplacer} (h : r.Inv) {n : LRUKNode}
    (hn : n ∈ r.nodes) : r.evictable n.fid_ ↔ n.is_evictable_ = true := by
  constructor
  · rintro ⟨m, hm, hf, he⟩
    rw [← h.eq_of_fid hm hn hf]
    exact he
  · intro he
    exact ⟨n, hn, rfl, he⟩

theorem evictable_tracked {r : LRUKReplacer} {f : Int} (h : r.evictable f) : r.tracked f := by
  obtain ⟨n, hn, hf, _⟩ := h
  exact ⟨n, hn, hf⟩

theorem eraseP_fid_sublist (f : Int) (l : List LRUKNode) :
    (l.eraseP (fun m => m.fid_ == f)).Sublist l :=
  List.eraseP_sublist l

theorem nodup_fid_eraseP {l : List LRUKNode} (p : LRUKNode → Bool)
    (h : (l.map (fun n => n.fid_)).Nodup) : ((l.eraseP p).map (fun n => n.fid_)).Nodup :=
  h.sublist ((List.eraseP_sublist l).map _)

/-- Nodes taken from sublists of the two lists, together with one more node of a frame
that none of them carries, have pairwise distinct frames. -/
theorem nodup_fid_insert {r : LRUKReplacer} (hinv : r.Inv) {L O X : List LRUKNode}
    (node : LRUKNode) (hL : L.Sublist r.less_k_nodes_) (hO : O.Sublist r.over_k_nodes_)
    (hLf : ∀ m ∈ L, m.fid_ ≠ node.fid_) (hOf : ∀ m ∈ O, m.fid_ ≠ node.fid_)
    (hperm : X.Perm (node :: (L ++ O))) : (X.map (fun n => n.fid_)).Nodup := by
  rw [(hperm.map _).nodup_iff, List.map_cons, List.nodup_cons]
  constructor
  · rw [List.mem_map]
    rintro ⟨m, hm, hmf⟩
    rcases List.mem_append.mp hm with h1 | h1
    · exact hLf m h1 hmf
    · exact hOf m h1 hmf
  · exact hinv.nodup.sublist ((hL.append hO).map _)

theorem ReplacedBy.tracked_repl {r r2 : LRUKReplacer} {f : Int} {node : LRUKNode}
    (h : ReplacedBy r r2 f node) (g : Int) : r2.tracked g ↔ g = f ∨ r.tracked g := by
  obtain ⟨hf, hm⟩ := h
  constructor
  · rintro ⟨m, hmem, hg⟩
    rcases (hm m).mp hmem with rfl | ⟨h1, _⟩
    · exact Or.inl (hg.symm.trans hf)
    · exact Or.inr ⟨m, h1, hg⟩
  · rintro (rfl | ⟨m, hmem, hg⟩)
    · exact ⟨node, (hm node).mpr (Or.inl rfl), hf⟩
    · by_cases hgf : g = f
      · exact ⟨node, (hm node).mpr (Or.inl rfl), hf.trans hgf.symm⟩
      · exact ⟨m, (hm m).mpr (Or.inr ⟨hmem, fun h => hgf (hg.symm.trans h)⟩), hg⟩

theorem ReplacedBy.evictable_repl {r r2 : LRUKReplacer} {f : Int} {node : LRUKNode}
    (h : ReplacedBy r r2 f node) (g : Int) :
    r2.evictable g ↔ (g = f ∧ node.is_evictable_ = true) ∨ (g ≠ f ∧ r.evictable g) := by
  obtain ⟨hf, hm⟩ := h
  constructor
  · rintro ⟨m, hmem, hg, he⟩
    rcases (hm m).mp hmem with rfl | ⟨h1, h2⟩
    · exact Or.inl ⟨hg.symm.trans hf, he⟩
    · exact Or.inr ⟨fun h => h2 (hg.trans h), m, h1, hg, he⟩
  · rintro (⟨rfl, he⟩ | ⟨hgf, m, hmem, hg, he⟩)
    · exact ⟨node, (hm node).mpr (Or.inl rfl), hf, he⟩
    · exact ⟨m, (hm m).mpr (Or.inr ⟨hmem, fun h => hgf (hg.symm.trans h)⟩), hg, he⟩

theorem RemovedFrom.tracked_rm {r r2 : LRUKReplacer} {f : Int} (h : RemovedFrom r r2 f) (g : Int) :
    r2.tracked g ↔ g ≠ f ∧ r.tracked g := by
  constructor
  · rintro ⟨m, hmem, hg⟩
    obtain ⟨h1, h2⟩ := (h m).mp hmem
    exact ⟨fun hgf => h2 (hg.trans hgf), m, h1, hg⟩
  · rintro ⟨hgf, m, hmem, hg⟩
    exact ⟨m, (h m).mpr ⟨hmem, fun h => hgf (hg.symm.trans h)⟩, hg⟩

theorem RemovedFrom.evictable_rm {r r2 : LRUKReplacer} {f : Int} (h : RemovedFrom r r2 f)
    (g : Int) : r2.evictable g ↔ g ≠ f ∧ r.evictable g := by
  constructor
  · rintro ⟨m, hmem, hg, he⟩
    obtain ⟨h1, h2⟩ := (h m).mp hmem
    exact ⟨fun hgf => h2 (hg.trans hgf), m, h1, hg, he⟩
  · rintro ⟨hgf, m, hmem, hg, he⟩
    exact ⟨m, (h m).mpr ⟨hmem, fun h => hgf (hg.symm.trans h)⟩, hg, he⟩

theorem mem_map_replace {l : List LRUKNode} {f : Int} (g : LRUKNode → LRUKNode)
    (m : LRUKNode) :
    m ∈ l.map (fun n => if n.fid_ = f then g n else n) ↔
      (∃ n ∈ l, n.fid_ = f ∧ m = g n) ∨ (m ∈ l ∧ m.fid_ ≠ f) := by
  rw [List.mem_map]
  constructor
  · rintro ⟨n, hn, rfl⟩
    by_cases h : n.fid_ = f
    · exact Or.inl ⟨n, hn, h, by simp [h]⟩
    · exact Or.inr ⟨by simpa [h] using hn, by simp [h]⟩
  · rintro (⟨n, hn, h, rfl⟩ | ⟨hm, h⟩)
    · exact ⟨n, hn, by simp [h]⟩
    · exact ⟨m, hm, by simp [h]⟩

theorem map_fid_map_replace (l : List LRUKNode) (f : Int) (g : LRUKNode → LRUKNode)
    (hg : ∀ n, (g n).fid_ = n.fid_) :
    (l.map (fun n => if n.fid_ = f then g n else n)).map (fun n => n.fid_)
      = l.map (fun n => n.fid_) := by
  rw [List.map_map]
  apply List.map_congr_left
  intro n _
  by_cases h : n.fid_ = f <;> simp [h, hg]

/-- A map that rewrites the node of frame `f` keeps the structural invariant and
replaces the node of `f`. -/
theorem Inv_map_replace {r : LRUKReplacer} (r2 : LRUKReplacer) {f : Int} (hinv : r.Inv)
    (g : LRUKNode → LRUKNode) (hg : ∀ n, (g n).fid_ = n.fid_)
    (hgo : ∀ n, (g n).over_k_ = n.over_k_) {n : LRUKNode} (hn : n ∈ r.nodes) (hnf : n.fid_ = f)
    (hless : r2.less_k_nodes_ = r.less_k_nodes_.map (fun n => if n.fid_ = f then g n else n))
    (hover : r2.over_k_nodes_ = r.over_k_nodes_.map (fun n => if n.fid_ = f then g n else n)) :
    r2.Inv ∧ ReplacedBy r r2 f (g n) := by
  refine ⟨⟨?_, ?_, ?_⟩, ?_, ?_⟩
  · have : r2.nodes = r.nodes.map (fun n => if n.fid_ = f then g n else n) := by
      simp [LRUKReplacer.nodes, hless, hover]
    rw [this, map_fid_map_replace _ _ _ hg]
    exact hinv.nodup
  · intro m hm
    rw [hless, List.mem_map] at hm
    obtain ⟨a, ha, rfl⟩ := hm
    by_cases h : a.fid_ = f <;> simp [h, hgo, hinv.less_flag a ha]
  · intro m hm
    rw [hover, List.mem_map] at hm
    obtain ⟨a, ha, rfl⟩ := hm
    by_cases h : a.fid_ = f <;> simp [h, hgo, hinv.over_flag a ha]
  · rw [hg]; exact hnf
  · intro m
    have : r2.nodes = r.nodes.map (fun n => if n.fid_ = f then g n else n) := by
      simp [LRUKReplacer.nodes, hless, hover]
    rw [this, mem_map_replace g]
    constructor
    · rintro (⟨a, ha, haf, rfl⟩ | h)
      · left
        rw [hinv.eq_of_fid ha hn (haf.trans hnf.symm)]
      · exact Or.inr h
    · rintro (rfl | h)
      · exact Or.inl ⟨n, hn, hnf, rfl⟩
      · exact Or.inr h

/-- Erasing the node of frame `f` from both lists keeps the structural invariant and
removes the node of `f`. -/
theorem Inv_erase {r : LRUKReplacer} (r2 : LRUKReplacer) {f : Int} (hinv : r.Inv)
    (hless : r2.less_k_nodes_ = r.less_k_nodes_.eraseP (fun m => m.fid_ == f))
    (hover : r2.over_k_nodes_ = r.over_k_nodes_.eraseP (fun m => m.fid_ == f)) :
    r2.Inv ∧ RemovedFrom r r2 f := by
  refine ⟨⟨?_, ?_, ?_⟩, ?_⟩
  · simp only [LRUKReplacer.nodes, hless, hover]
    exact hinv.nodup.sublist
      (((List.eraseP_sublist _).append (List.eraseP_sublist _)).map _)
  · intro m hm
    rw [hless] at hm
    exact hinv.less_flag m ((List.eraseP_sublist _).subset hm)
  · intro m hm
    rw [hover] at hm
    exact hinv.over_flag m ((List.eraseP_sublist _).subset hm)
  · intro m
    rw [mem_nodes, hless, hover, mem_eraseP_fid hinv.less_nodup, mem_eraseP_fid hinv.over_nodup,
      mem_nodes]
    tauto

/-- Operation `RecordAccess` keeps the structural invariant; the node of the frame is replaced by
one with the same evictable flag, or a non-evictable node is added for a frame that
was not tracked. -/
theorem RecordAccess_nodes {r r2 : LRUKReplacer} {f : Int} (hinv : r.Inv)
    (h : r.RecordAccess f = .ok r2) :
    r2.Inv ∧ r2.replacer_size_ = r.replacer_size_ ∧ r2.k_ = r.k_ ∧
      ∃ node, ReplacedBy r r2 f node ∧ (node.is_evictable_ = true ↔ r.evictable f) := by
  rcases RecordAccess_ok_cases hinv h with
    ⟨hnt, rfl⟩ | ⟨n, hn, hnf, rfl⟩ | ⟨n, hn, hnf, _, rfl⟩ | ⟨n, hn, hnf, _, rfl⟩
  · have huntracked : ∀ m ∈ r.nodes, m.fid_ ≠ f := fun m hm hmf => hnt ⟨m, hm, hmf⟩
    refine ⟨⟨?_, ?_, ?_⟩, rfl, rfl,
      { LRUKNode.fresh with fid_ := f, history_ := [r.current_timestamp_ + 1] },
      ⟨rfl, ?_⟩, ?_⟩
    · apply nodup_fid_insert hinv
        { LRUKNode.fresh with fid_ := f, history_ := [r.current_timestamp_ + 1] }
        (List.Sublist.refl _) (List.Sublist.refl _)
      · exact fun m hm => huntracked m (mem_nodes.mpr (Or.inl hm))
      · exact fun m hm => huntracked m (mem_nodes.mpr (Or.inr hm))
      · simp only [LRUKReplacer.nodes, List.append_assoc, List.singleton_append]
        exact List.perm_middle
    · intro m hm
      rcases List.mem_append.mp hm with h1 | h1
      · exact hinv.less_flag m h1
      · rw [List.mem_singleton.mp h1]; rfl
    · exact hinv.over_flag
    · intro m
      simp only [LRUKReplacer.nodes, List.mem_append, List.mem_singleton]
      constructor
      · rintro ((h1 | h1) | h1)
        · exact Or.inr ⟨Or.inl h1, huntracked m (mem_nodes.mpr (Or.inl h1))⟩
        · exact Or.inl h1
        · exact Or.inr ⟨Or.inr h1, huntracked m (mem_nodes.mpr (Or.inr h1))⟩
      · rintro (h1 | ⟨h1 | h1, _⟩)
        · exact Or.inl (Or.inr h1)
        · exact Or.inl (Or.inl h1)
        · exact Or.inr h1
    · constructor
      · intro h1; cases h1
      · intro h1; exact absurd (evictable_tracked h1) hnt
  · have hnodes := mem_nodes.mpr (Or.inr hn)
    have hless : ∀ m ∈ r.less_k_nodes_, m.fid_ ≠ f :=
      fun m hm hmf => hinv.less_over_ne hm hn (hmf.trans hnf.symm)
    refine ⟨⟨?_, hinv.less_flag, ?_⟩, rfl, rfl,
      { n with
        history_ := ((r.current_timestamp_ + 1) :: n.history_).dropLast
        min_history_size_ := (((r.current_timestamp_ + 1) :: n.history_).dropLast).getLastD 0 },
      ⟨hnf, ?_⟩, ?_⟩
    · apply nodup_fid_insert hinv
        { n with
          history_ := ((r.current_timestamp_ + 1) :: n.history_).dropLast
          min_history_size_ :=
            (((r.current_timestamp_ + 1) :: n.history_).dropLast).getLastD 0 }
        (List.Sublist.refl _) (eraseP_fid_sublist f r.over_k_nodes_)
      · intro m hm; simpa [hnf] using hless m hm
      · intro m hm
        simpa [hnf] using ((mem_eraseP_fid hinv.over_nodup f m).mp hm).2
      · simp only [LRUKReplacer.nodes]
        exact ((InsertOrder_perm _ _).append_left _).trans List.perm_middle
    · intro m hm
      rcases (mem_InsertOrder _ _ m).mp hm with rfl | h1
      · exact hinv.over_flag n hn
      · exact hinv.over_flag m ((List.eraseP_sublist _).subset h1)
    · intro m
      simp only [LRUKReplacer.nodes, List.mem_append, mem_InsertOrder,
        mem_eraseP_fid hinv.over_nodup]
      constructor
      · rintro (h1 | h1 | ⟨h1, h2⟩)
        · exact Or.inr ⟨Or.inl h1, hless m h1⟩
        · exact Or.inl h1
        · exact Or.inr ⟨Or.inr h1, h2⟩
      · rintro (h1 | ⟨h1 | h1, h2⟩)
        · exact Or.inr (Or.inl h1)
        · exact Or.inl h1
        · exact Or.inr (Or.inr ⟨h1, h2⟩)
    · rw [← hnf, hinv.evictable_iff hnodes]
  · have hnodes := mem_nodes.mpr (Or.inl hn)
    have hover : ∀ m ∈ r.over_k_nodes_, m.fid_ ≠ f :=
      fun m hm hmf => hinv.less_over_ne hn hm (hnf.trans hmf.symm)
    refine ⟨⟨?_, ?_, ?_⟩, rfl, rfl,
      { n with
        history_ := (r.current_timestamp_ + 1) :: n.history_
        over_k_ := true
        min_history_size_ := ((r.current_timestamp_ + 1) :: n.history_).getLastD 0 },
      ⟨hnf, ?_⟩, ?_⟩
    · apply nodup_fid_insert hinv
        { n with
          history_ := (r.current_timestamp_ + 1) :: n.history_
          over_k_ := true
          min_history_size_ := ((r.current_timestamp_ + 1) :: n.history_).getLastD 0 }
        (eraseP_fid_sublist f r.less_k_nodes_) (List.Sublist.refl _)
      · intro m hm
        simpa [hnf] using ((mem_eraseP_fid hinv.less_nodup f m).mp hm).2
      · intro m hm; simpa [hnf] using hover m hm
      · simp only [LRUKReplacer.nodes]
        exact ((InsertOrder_perm _ _).append_left _).trans List.perm_middle
    · intro m hm
      exact hinv.less_flag m ((List.eraseP_sublist _).subset hm)
    · intro m hm
      rcases (mem_InsertOrder _ _ m).mp hm with rfl | h1
      · rfl
      · exact hinv.over_flag m h1
    · intro m
      simp only [LRUKReplacer.nodes, List.mem_append, mem_InsertOrder,
        mem_eraseP_fid hinv.less_nodup]
      constructor
      · rintro (⟨h1, h2⟩ | h1 | h1)
        · exact Or.inr ⟨Or.inl h1, h2⟩
        · exact Or.inl h1
        · exact Or.inr ⟨Or.inr h1, hover m h1⟩
      · rintro (h1 | ⟨h1 | h1, h2⟩)
        · exact Or.inr (Or.inl h1)
        · exact Or.inl ⟨h1, h2⟩
        · exact Or.inr (Or.inr h1)
    · rw [← hnf, hinv.evictable_iff hnodes]
  · have hnodes := mem_nodes.mpr (Or.inl hn)
    have hover : ∀ m ∈ r.over_k_nodes_, m.fid_ ≠ f :=
      fun m hm hmf => hinv.less_over_ne hn hm (hnf.trans hmf.symm)
    have idmap : r.over_k_nodes_ = r.over_k_nodes_.map
        (fun m => if m.fid_ = f then
          ({ m with history_ := (r.current_timestamp_ + 1) :: m.history_ } : LRUKNode)
          else m) := by
      conv_lhs => rw [← List.map_id r.over_k_nodes_]
      apply List.map_congr_left
      intro m hm
      simp [hover m hm]
    obtain ⟨h1, h2⟩ := Inv_map_replace { r with
        current_timestamp_ := r.current_timestamp_ + 1
        less_k_nodes_ := r.less_k_nodes_.map
          (fun m => if m.fid_ = f then
            { m with history_ := (r.current_timestamp_ + 1) :: m.history_ } else m) }
      hinv (fun m => { m with history_ := (r.current_timestamp_ + 1) :: m.history_ })
      (fun _ => rfl) (fun _ => rfl) hnodes hnf rfl idmap
    refine ⟨h1, rfl, rfl, _, h2, ?_⟩
    rw [← hnf, hinv.evictable_iff hnodes]

/-- Operation `SetEvictable` succeeds exactly on a tracked frame; it keeps the structural
invariant and replaces the node of the frame by one with the requested flag. -/
theorem SetEvictable_nodes {r r2 : LRUKReplacer} {f : Int} {b : Bool} (hinv : r.Inv)
    (h : r.SetEvictable f b = .ok r2) :
    r2.Inv ∧ r2.replacer_size_ = r.replacer_size_ ∧ r2.k_ = r.k_ ∧ r.tracked f ∧
      ∃ node, ReplacedBy r r2 f node ∧ node.is_evictable_ = b := by
  obtain ⟨n, hn, hnf, hl, ho, _, hk, hs, _, _⟩ := SetEvictable_ok_shape hinv h
  obtain ⟨h1, h2⟩ := Inv_map_replace r2 hinv (fun m => { m with is_evictable_ := b })
    (fun _ => rfl) (fun _ => rfl) hn hnf hl ho
  exact ⟨h1, hs, hk, ⟨n, hn, hnf⟩, _, h2, rfl⟩

/-- Operation `Remove` succeeds exactly on an evictable frame; it keeps the structural invariant
and removes the node of the frame. -/
theorem Remove_nodes {r r2 : LRUKReplacer} {f : Int} (hinv : r.Inv)
    (h : r.Remove f = .ok r2) :
    r2.Inv ∧ r2.replacer_size_ = r.replacer_size_ ∧ r2.k_ = r.k_ ∧ r.evictable f ∧
      RemovedFrom r r2 f := by
  obtain ⟨n, hn, hnf, hev, rfl⟩ := Remove_ok_shape hinv h
  obtain ⟨h1, h2⟩ := Inv_erase { r with
      less_k_nodes_ := r.less_k_nodes_.eraseP (fun m => m.fid_ == f)
      over_k_nodes_ := r.over_k_nodes_.eraseP (fun m => m.fid_ == f)
      evictable_size_ := decSizeT r.evictable_size_
      curr_size_ := decSizeT r.curr_size_ } hinv rfl rfl
  exact ⟨h1, rfl, rfl, ⟨n, hn, hnf, hev⟩, h2⟩

/-- A victim returned by `Evict` was evictable; `Evict` keeps the structural invariant
and removes the node of the victim. -/
theorem Evict_nodes {r r2 : LRUKReplacer} {f : Int} (hinv : r.Inv)
    (h : r.Evict = (some f, r2)) :
    r2.Inv ∧ r2.replacer_size_ = r.replacer_size_ ∧ r2.k_ = r.k_ ∧ r.evictable f ∧
      RemovedFrom r r2 f := by
  obtain ⟨n, hn, hnf, hev, _, rfl⟩ := Evict_some_shape hinv h
  obtain ⟨h1, h2⟩ := Inv_erase { r with
      less_k_nodes_ := r.less_k_nodes_.eraseP (fun m => m.fid_ == f)
      over_k_nodes_ := r.over_k_nodes_.eraseP (fun m => m.fid_ == f)
      evictable_size_ := decSizeT r.evictable_size_
      curr_size_ := decSizeT r.curr_size_ } hinv rfl rfl
  exact ⟨h1, rfl, rfl, ⟨n, hn, hnf, hev⟩, h2⟩

theorem Inv_new (num_frames k : Nat) : (LRUKReplacer.new num_frames k).Inv :=
  ⟨by simp [LRUKReplacer.new, LRUKReplacer.nodes], by simp [LRUKReplacer.new],
    by simp [LRUKReplacer.new]⟩
/-! ## Buffer pool: frames, page table -/

theorem pageAt_set_same {pages : List Page} {f : Int} (p : Page) (h0 : 0 ≤ f)
    (h1 : f < pages.length) : pageAt (pages.set f.toNat p) f = p := by
  have : f.toNat < pages.length := by omega
  simp [pageAt, List.getD_eq_getElem?_getD, List.getElem?_set, this]

theorem pageAt_set_other {pages : List Page} {f g : Int} (p : Page) (h0 : 0 ≤ f) (h1 : 0 ≤ g)
    (hne : g ≠ f) : pageAt (pages.set f.toNat p) g = pageAt pages g := by
  have : f.toNat ≠ g.toNat := by omega
  simp [pageAt, List.getD_eq_getElem?_getD, List.getElem?_set, this]

theorem page_eq_pageAt (s : BufferPoolManager) (f : Int) : s.page f = pageAt s.pages_ f := rfl

theorem PageTable.find_some {t : PageTable} {p f : Int} (h : t.find p = some f) :
    (p, f) ∈ t := by
  unfold PageTable.find at h
  cases hfind : List.find? (fun e => e.1 == p) t with
  | none => simp [hfind] at h
  | some e =>
    simp only [hfind, Option.map_some', Option.some.injEq] at h
    have h1 := List.mem_of_find?_eq_some hfind
    have h2 : e.1 = p := by simpa using List.find?_some hfind
    obtain ⟨e1, e2⟩ := e
    simp only at h h2
    subst h h2
    exact h1

theorem PageTable.find_none {t : PageTable} {p : Int} (h : t.find p = none) :
    ∀ e ∈ t, e.1 ≠ p := by
  unfold PageTable.find at h
  intro e he
  cases hfind : List.find? (fun e => e.1 == p) t with
  | none => simpa using List.find?_eq_none.mp hfind e he
  | some e => simp [hfind] at h

theorem PageTable.find_of_entry {t : PageTable} (hk : (t.map Prod.fst).Nodup) (p f : Int)
    (h : (p, f) ∈ t) : t.find p = some f := by
  induction t with
  | nil => cases h
  | cons a t ih =>
    simp only [List.map_cons, List.nodup_cons, List.mem_map, not_exists, not_and] at hk
    rcases List.mem_cons.mp h with rfl | h2
    · simp [PageTable.find]
    · have hne : a.1 ≠ p := fun heq => hk.1 (p, f) h2 heq.symm
      have := ih hk.2 h2
      simp only [PageTable.find] at this ⊢
      simp [List.find?_cons, hne, this]

theorem PageTable.mem_erase {t : PageTable} {p : Int} {e : Int × Int} :
    e ∈ t.erase p ↔ e ∈ t ∧ e.1 ≠ p := by
  simp [PageTable.erase, List.mem_filter]

theorem PageTable.erase_keys {t : PageTable} (p : Int) (hk : (t.map Prod.fst).Nodup) :
    ((t.erase p).map Prod.fst).Nodup :=
  hk.sublist ((List.filter_sublist t).map _)

theorem PageTable.mem_assign {t : PageTable} {p f : Int} {e : Int × Int} :
    e ∈ t.assign p f ↔ e = (p, f) ∨ (e ∈ t ∧ e.1 ≠ p) := by
  unfold PageTable.assign
  split
  · rename_i hany
    obtain ⟨a, ha, hap⟩ := List.any_eq_true.mp hany
    have hap2 : a.1 = p := by simpa using hap
    rw [List.mem_map]
    constructor
    · rintro ⟨b, hb, rfl⟩
      by_cases h : b.1 = p
      · left; simp [h]
      · right; simp [h, hb]
    · rintro (rfl | ⟨he, hne⟩)
      · exact ⟨a, ha, by simp [hap2]⟩
      · exact ⟨e, he, by simp [hne]⟩
  · rename_i hany
    have hnone : ∀ a ∈ t, a.1 ≠ p := by
      intro a ha hap
      exact hany (List.any_eq_true.mpr ⟨a, ha, by simpa using hap⟩)
    rw [List.mem_append, List.mem_singleton]
    constructor
    · rintro (h | h)
      · exact Or.inr ⟨h, hnone e h⟩
      · exact Or.inl h
    · rintro (h | ⟨h, _⟩)
      · exact Or.inr h
      · exact Or.inl h

theorem PageTable.assign_keys {t : PageTable} (p f : Int) (hk : (t.map Prod.fst).Nodup) :
    ((t.assign p f).map Prod.fst).Nodup := by
  unfold PageTable.assign
  split
  · have : (List.map (fun e => if (e.1 == p) = true then (p, f) else e) t).map Prod.fst
        = t.map Prod.fst := by
      rw [List.map_map]
      apply List.map_congr_left
      intro e _
      by_cases h : e.1 = p <;> simp [h]
    rw [this]
    exact hk
  · rename_i hany
    rw [List.map_append, List.nodup_append]
    refine ⟨hk, by simp, ?_⟩
    intro x hx hx2
    simp only [List.map_cons, List.map_nil, List.mem_singleton] at hx2
    subst hx2
    obtain ⟨a, ha, hap⟩ := List.mem_map.mp hx
    exact hany (List.any_eq_true.mpr ⟨a, ha, by simpa using hap⟩)

/-- An operation that touches the single frame `f` keeps the invariant of the pool when
every other frame keeps its page, its place on the free list and its node in the
replacer, the page table gains no entry for another frame, and `f` ends in a state
the invariant allows. -/
theorem PoolInv_step {P : Nat} {pages pages2 : List Page} {T T2 : PageTable}
    {F F2 : List Int} {r r2 : LRUKReplacer} {hole hole2 : Option Int} (f : Int)
    (hinv : PoolInv P pages T F r hole) (hf0 : 0 ≤ f) (hf1 : f < P)
    (hhole : hole = none ∨ hole = some f) (hhole2 : hole2 = none ∨ hole2 = some f)
    (hlen : pages2.length = pages.length)
    (hrs : r2.replacer_size_ = r.replacer_size_) (hrinv : r2.Inv)
    (hpages : ∀ g, g ≠ f → 0 ≤ g → pageAt pages2 g = pageAt pages g)
    (htr : ∀ g, g ≠ f → (r2.tracked g ↔ r.tracked g))
    (hev : ∀ g, g ≠ f → (r2.evictable g ↔ r.evictable g))
    (hfree : ∀ g, g ≠ f → (g ∈ F2 ↔ g ∈ F))
    (hFnodup : F2.Nodup)
    (hT : ∀ e ∈ T2, (e ∈ T ∧ e.2 ≠ f) ∨ e.2 = f)
    (hTkeys : (T2.map Prod.fst).Nodup)
    (hTf : ∀ e ∈ T2, e.2 = f → (pageAt pages2 f).page_id_ = e.1)
    (hfhole : hole2 = some f → f ∉ F2 ∧ FrameIdle pages2 T2 r2 f)
    (hfnone : hole2 = none →
      (f ∈ F2 ∧ FrameIdle pages2 T2 r2 f ∧ (pageAt pages2 f).data_ = zeroPayload) ∨
      (f ∉ F2 ∧ r2.tracked f ∧ (r2.evictable f ↔ (pageAt pages2 f).pin_count_ = 0))) :
    PoolInv P pages2 T2 F2 r2 hole2 := by
  have hidle : ∀ g, g ≠ f → 0 ≤ g → FrameIdle pages T r g → FrameIdle pages2 T2 r2 g := by
    intro g hg hg0 ⟨h1, h2, h3, h4⟩
    refine ⟨fun h => h1 ((htr g hg).mp h), ?_, ?_, ?_⟩
    · rw [hpages g hg hg0]; exact h2
    · rw [hpages g hg hg0]; exact h3
    · intro e he
      rcases hT e he with ⟨h5, _⟩ | h5
      · exact h4 e h5
      · rw [h5]; exact fun h => hg h.symm
  refine ⟨hinv.size_lt, hlen.trans hinv.pages_len, hrs.trans hinv.rsize, hrinv, hFnodup,
    ?_, ?_, hTkeys, ?_, ?_, ?_, ?_⟩
  · intro g hg
    by_cases hgf : g = f
    · subst hgf; exact ⟨hf0, hf1⟩
    · exact hinv.free_range g ((hfree g hgf).mp hg)
  · intro g hg
    by_cases hgf : g = f
    · subst hgf; exact ⟨hf0, hf1⟩
    · exact hinv.tracked_range g ((htr g hgf).mp hg)
  · intro e he
    rcases hT e he with ⟨h5, _⟩ | h5
    · exact hinv.table_range e h5
    · rw [h5]; exact ⟨hf0, hf1⟩
  · intro e he
    rcases hT e he with ⟨h5, h6⟩ | h5
    · rw [hpages e.2 h6 (hinv.table_range e h5).1]
      exact hinv.table_page e h5
    · rw [h5]; exact hTf e he h5
  · intro g hg0 hg1 hgh
    by_cases hgf : g = f
    · subst hgf
      rcases hhole2 with h | h
      · exact hfnone h
      · exact absurd h hgh
    · have hgh0 : hole ≠ some g := by
        rcases hhole with h | h
        · rw [h]; simp
        · rw [h]; simp only [ne_eq, Option.some.injEq]; exact fun h2 => hgf h2.symm
      rcases hinv.frame g hg0 hg1 hgh0 with ⟨h1, h2, hz⟩ | ⟨h1, h2, h3⟩
      · exact Or.inl ⟨(hfree g hgf).mpr h1, hidle g hgf hg0 h2, by rw [hpages g hgf hg0]; exact hz⟩
      · refine Or.inr ⟨fun h => h1 ((hfree g hgf).mp h), (htr g hgf).mpr h2, ?_⟩
        rw [hev g hgf, hpages g hgf hg0]
        exact h3
  · intro h hh
    rcases hhole2 with h2 | h2
    · rw [h2] at hh; cases hh
    · rw [h2] at hh
      cases hh
      obtain ⟨h3, h4⟩ := hfhole h2
      exact ⟨hf0, hf1, h3, h4⟩
/-! ## Buffer pool: mutations of one frame -/

theorem pageAt_setPage (s : BufferPoolManager) (f g : Int) (k : Page → Page) (h0 : 0 ≤ f)
    (h1 : f < s.pages_.length) (hg : 0 ≤ g) :
    pageAt (s.setPage f k).pages_ g = if g = f then k (pageAt s.pages_ f) else pageAt s.pages_ g := by
  simp only [BufferPoolManager.setPage, BufferPoolManager.page]
  by_cases h : g = f
  · subst h
    rw [if_pos rfl]
    exact pageAt_set_same _ h0 h1
  · rw [if_neg h]
    exact pageAt_set_other _ h0 hg h

theorem setPage_length (s : BufferPoolManager) (f : Int) (k : Page → Page) :
    (s.setPage f k).pages_.length = s.pages_.length := by
  simp [BufferPoolManager.setPage]

theorem pageAt_writeBack (s : BufferPoolManager) (f g : Int) (h0 : 0 ≤ f)
    (h1 : f < s.pages_.length) (hg : 0 ≤ g) :
    pageAt (s.writeBack f).pages_ g
      = if g = f then { pageAt s.pages_ f with is_dirty_ := false } else pageAt s.pages_ g := by
  unfold BufferPoolManager.writeBack
  split
  · exact pageAt_setPage
      { s with
        disk_manager_ :=
          s.disk_manager_.WritePage (s.page f).page_id_ (s.page f).data_ }
      f g (fun p => { p with is_dirty_ := false }) h0 h1 hg
  · rename_i hd
    by_cases h : g = f
    · subst h
      have hd2 : (pageAt s.pages_ g).is_dirty_ = false := by
        simpa [BufferPoolManager.page, pageAt] using hd
      rw [if_pos rfl, ← hd2]
    · rw [if_neg h]

theorem pageAt_flushFrame (s : BufferPoolManager) (f g : Int) (h0 : 0 ≤ f)
    (h1 : f < s.pages_.length) (hg : 0 ≤ g) :
    pageAt (s.flushFrame f).pages_ g
      = if g = f then { pageAt s.pages_ f with is_dirty_ := false } else pageAt s.pages_ g := by
  unfold BufferPoolManager.flushFrame
  split
  · exact pageAt_setPage s f g (fun p => { p with is_dirty_ := false }) h0 h1 hg
  · rename_i hd
    by_cases h : g = f
    · subst h
      have hd2 : (pageAt s.pages_ g).is_dirty_ = false := by
        simpa [BufferPoolManager.page, pageAt] using hd
      rw [if_pos rfl, ← hd2]
    · rw [if_neg h]

theorem writeBack_fields (s : BufferPoolManager) (f : Int) :
    (s.writeBack f).pool_size_ = s.pool_size_ ∧ (s.writeBack f).page_table_ = s.page_table_ ∧
    (s.writeBack f).free_list_ = s.free_list_ ∧ (s.writeBack f).replacer_ = s.replacer_ ∧
    (s.writeBack f).next_page_id_ = s.next_page_id_ ∧ (s.writeBack f).latch_ = s.latch_ ∧
    (s.writeBack f).pages_.length = s.pages_.length := by
  unfold BufferPoolManager.writeBack
  split <;> simp [BufferPoolManager.setPage]

theorem flushFrame_fields (s : BufferPoolManager) (f : Int) :
    (s.flushFrame f).pool_size_ = s.pool_size_ ∧ (s.flushFrame f).page_table_ = s.page_table_ ∧
    (s.flushFrame f).free_list_ = s.free_list_ ∧ (s.flushFrame f).replacer_ = s.replacer_ ∧
    (s.flushFrame f).next_page_id_ = s.next_page_id_ ∧ (s.flushFrame f).latch_ = s.latch_ ∧
    (s.flushFrame f).pages_.length = s.pages_.length := by
  unfold BufferPoolManager.flushFrame
  split <;> simp [BufferPoolManager.setPage]

/-- A frame mapped by the page table is in use: off the free list and tracked. -/
theorem PoolInv.mapped_used {P : Nat} {pages : List Page} {T : PageTable} {F : List Int}
    {r : LRUKReplacer} (h : PoolInv P pages T F r none) {e : Int × Int} (he : e ∈ T) :
    0 ≤ e.2 ∧ e.2 < P ∧ e.2 ∉ F ∧ r.tracked e.2 ∧
      (r.evictable e.2 ↔ (pageAt pages e.2).pin_count_ = 0) := by
  obtain ⟨h0, h1⟩ := h.table_range e he
  rcases h.frame e.2 h0 h1 (by simp) with ⟨_, ⟨_, _, _, h5⟩, _⟩ | ⟨h2, h3, h4⟩
  · exact absurd rfl (h5 e he)
  · exact ⟨h0, h1, h2, h3, h4⟩

/-- A tracked frame is in use. -/
theorem PoolInv.tracked_used {P : Nat} {pages : List Page} {T : PageTable} {F : List Int}
    {r : LRUKReplacer} (h : PoolInv P pages T F r none) {f : Int} (hf : r.tracked f) :
    0 ≤ f ∧ f < P ∧ f ∉ F ∧ (r.evictable f ↔ (pageAt pages f).pin_count_ = 0) := by
  obtain ⟨h0, h1⟩ := h.tracked_range f hf
  rcases h.frame f h0 h1 (by simp) with ⟨_, ⟨h2, _⟩, _⟩ | ⟨h2, _, h4⟩
  · exact absurd hf h2
  · exact ⟨h0, h1, h2, h4⟩

/-- A frame below the pool size passes the range check of `RecordAccess`. -/
theorem frame_le_toInt32 {P : Nat} {f : Int} (hP : P < 2 ^ 31) (hf : f < P) : f ≤ toInt32 P := by
  have h1 : P % 2 ^ 32 = P := Nat.mod_eq_of_lt (by omega)
  have h2 : P % 2 ^ 32 < 2 ^ 31 := by omega
  unfold toInt32
  rw [if_pos h2, h1]
  omega

/-- Changing the dirty bit of a frame in use, or clearing the dirty bit of any frame,
keeps the invariant. -/
theorem PoolInv_dirty {P : Nat} {pages pages2 : List Page} {T : PageTable} {F : List Int}
    {r : LRUKReplacer} {hole : Option Int} (hinv : PoolInv P pages T F r hole)
    (hlen : pages2.length = pages.length)
    (hpid : ∀ g, 0 ≤ g → (pageAt pages2 g).page_id_ = (pageAt pages g).page_id_)
    (hpin : ∀ g, 0 ≤ g → (pageAt pages2 g).pin_count_ = (pageAt pages g).pin_count_)
    (hdata : ∀ g, 0 ≤ g → (pageAt pages2 g).data_ = (pageAt pages g).data_)
    (hdirty : ∀ g, 0 ≤ g → (pageAt pages2 g).is_dirty_ = true →
      (pageAt pages g).is_dirty_ = true ∨ r.tracked g) :
    PoolInv P pages2 T F r hole := by
  have hidle : ∀ g, 0 ≤ g → FrameIdle pages T r g → FrameIdle pages2 T r g := by
    intro g hg0 ⟨h1, h2, h3, h4⟩
    refine ⟨h1, (hpin g hg0).trans h2, ?_, h4⟩
    by_contra hd
    have hd2 : (pageAt pages2 g).is_dirty_ = true := by simpa using hd
    rcases hdirty g hg0 hd2 with h5 | h5
    · rw [h3] at h5; cases h5
    · exact h1 h5
  refine ⟨hinv.size_lt, hlen.trans hinv.pages_len, hinv.rsize, hinv.rinv, hinv.free_nodup,
    hinv.free_range, hinv.tracked_range, hinv.table_keys, hinv.table_range, ?_, ?_, ?_⟩
  · intro e he
    rw [hpid e.2 (hinv.table_range e he).1]
    exact hinv.table_page e he
  · intro g hg0 hg1 hgh
    rcases hinv.frame g hg0 hg1 hgh with ⟨h1, h2, hz⟩ | ⟨h1, h2, h3⟩
    · exact Or.inl ⟨h1, hidle g hg0 h2, (hdata g hg0).trans hz⟩
    · exact Or.inr ⟨h1, h2, by rw [hpin g hg0]; exact h3⟩
  · intro h hh
    obtain ⟨h1, h2, h3, h4⟩ := hinv.hole_ok h hh
    exact ⟨h1, h2, h3, hidle h h1 h4⟩

/-- The flush of one frame keeps the invariant. -/
theorem Inv_flushFrame (s : BufferPoolManager) (hinv : s.Inv) (f : Int) (h0 : 0 ≤ f)
    (h1 : f < s.pool_size_) : (s.flushFrame f).Inv := by
  obtain ⟨e1, e2, e3, e4, _, _, e7⟩ := flushFrame_fields s f
  have hlen : (f : Int) < s.pages_.length := by rw [hinv.pages_len]; exact h1
  unfold BufferPoolManager.Inv
  rw [e1, e2, e3, e4]
  apply PoolInv_dirty hinv e7
  · intro g hg
    rw [pageAt_flushFrame s f g h0 hlen hg]
    split
    · rename_i h; subst h; rfl
    · rfl
  · intro g hg
    rw [pageAt_flushFrame s f g h0 hlen hg]
    split
    · rename_i h; subst h; rfl
    · rfl
  · intro g hg
    rw [pageAt_flushFrame s f g h0 hlen hg]
    split
    · rename_i h; subst h; rfl
    · rfl
  · intro g hg
    rw [pageAt_flushFrame s f g h0 hlen hg]
    split
    · intro h; cases h
    · exact fun h => Or.inl h

theorem ReplacedBy.tracked_ne {r r2 : LRUKReplacer} {f : Int} {node : LRUKNode}
    (h : ReplacedBy r r2 f node) (g : Int) (hg : g ≠ f) : r2.tracked g ↔ r.tracked g := by
  rw [h.tracked_repl g]
  constructor
  · rintro (h1 | h1)
    · exact absurd h1 hg
    · exact h1
  · exact fun h1 => Or.inr h1

theorem ReplacedBy.evictable_ne {r r2 : LRUKReplacer} {f : Int} {node : LRUKNode}
    (h : ReplacedBy r r2 f node) (g : Int) (hg : g ≠ f) : r2.evictable g ↔ r.evictable g := by
  rw [h.evictable_repl g]
  constructor
  · rintro (⟨h1, _⟩ | ⟨_, h1⟩)
    · exact absurd h1 hg
    · exact h1
  · exact fun h1 => Or.inr ⟨hg, h1⟩

theorem ReplacedBy.tracked_self {r r2 : LRUKReplacer} {f : Int} {node : LRUKNode}
    (h : ReplacedBy r r2 f node) : r2.tracked f :=
  (h.tracked_repl f).mpr (Or.inl rfl)

theorem ReplacedBy.evictable_self {r r2 : LRUKReplacer} {f : Int} {node : LRUKNode}
    (h : ReplacedBy r r2 f node) : r2.evictable f ↔ node.is_evictable_ = true := by
  rw [h.evictable_repl f]
  constructor
  · rintro (⟨_, h1⟩ | ⟨h1, _⟩)
    · exact h1
    · exact absurd rfl h1
  · exact fun h1 => Or.inl ⟨rfl, h1⟩

theorem RemovedFrom.tracked_other {r r2 : LRUKReplacer} {f : Int} (h : RemovedFrom r r2 f)
    (g : Int) (hg : g ≠ f) : r2.tracked g ↔ r.tracked g := by
  rw [h.tracked_rm g]
  exact ⟨fun h1 => h1.2, fun h1 => ⟨hg, h1⟩⟩

theorem RemovedFrom.evictable_other {r r2 : LRUKReplacer} {f : Int} (h : RemovedFrom r r2 f)
    (g : Int) (hg : g ≠ f) : r2.evictable g ↔ r.evictable g := by
  rw [h.evictable_rm g]
  exact ⟨fun h1 => h1.2, fun h1 => ⟨hg, h1⟩⟩

theorem RemovedFrom.not_tracked_self {r r2 : LRUKReplacer} {f : Int} (h : RemovedFrom r r2 f) :
    ¬ r2.tracked f := by
  rw [h.tracked_rm f]
  exact fun h1 => h1.1 rfl

/-- A frame in use stays in use when only its own page (but not its page id) and its
own node in the replacer change, as long as it ends evictable exactly when
unpinned. -/
theorem PoolInv_used_step {P : Nat} {pages pages2 : List Page} {T : PageTable}
    {F : List Int} {r r2 : LRUKReplacer} (f : Int)
    (hinv : PoolInv P pages T F r none) (hf0 : 0 ≤ f) (hf1 : f < P) (hnf : f ∉ F)
    (hlen : pages2.length = pages.length)
    (hrs : r2.replacer_size_ = r.replacer_size_) (hrinv : r2.Inv)
    (hpages : ∀ g, g ≠ f → 0 ≤ g → pageAt pages2 g = pageAt pages g)
    (hpid : (pageAt pages2 f).page_id_ = (pageAt pages f).page_id_)
    (htr : ∀ g, g ≠ f → (r2.tracked g ↔ r.tracked g))
    (hev : ∀ g, g ≠ f → (r2.evictable g ↔ r.evictable g))
    (htracked : r2.tracked f)
    (hiff : r2.evictable f ↔ (pageAt pages2 f).pin_count_ = 0) :
    PoolInv P pages2 T F r2 none := by
  apply PoolInv_step f hinv hf0 hf1 (Or.inl rfl) (Or.inl rfl) hlen hrs hrinv hpages htr hev
    (fun _ _ => Iff.rfl) hinv.free_nodup ?_ hinv.table_keys ?_ (by simp) ?_
  · intro e he
    by_cases h : e.2 = f
    · exact Or.inr h
    · exact Or.inl ⟨he, h⟩
  · intro e he hef
    rw [hpid, ← hef]
    exact hinv.table_page e he
  · intro _
    exact Or.inr ⟨hnf, htracked, hiff⟩

theorem pageAt_set_if (pages : List Page) (n : Nat) (p : Page) (g : Int) :
    pageAt (pages.set n p) g
      = if g.toNat = n ∧ n < pages.length then p else pageAt pages g := by
  by_cases h : g.toNat = n
  · by_cases h2 : n < pages.length
    · simp [pageAt, List.getD_eq_getElem?_getD, List.getElem?_set, h, h2]
    · have h3 : pages.length ≤ n := by omega
      simp [List.set_eq_of_length_le h3, h2]
  · have h3 : n ≠ g.toNat := fun h4 => h h4.symm
    simp [pageAt, List.getD_eq_getElem?_getD, List.getElem?_set, h, h3]

theorem pageAt_setPage_if (s : BufferPoolManager) (f g : Int) (k : Page → Page) :
    pageAt (s.setPage f k).pages_ g
      = if g.toNat = f.toNat ∧ f.toNat < s.pages_.length then k (pageAt s.pages_ f)
        else pageAt s.pages_ g := by
  simp only [BufferPoolManager.setPage, BufferPoolManager.page]
  exact pageAt_set_if _ _ _ _

theorem pageAt_eq_of_toNat {pages : List Page} {f g : Int} (h : g.toNat = f.toNat) :
    pageAt pages g = pageAt pages f := by
  simp [pageAt, h]

theorem pageAt_flushFrame_if (s : BufferPoolManager) (f g : Int) :
    pageAt (s.flushFrame f).pages_ g
      = if g.toNat = f.toNat ∧ f.toNat < s.pages_.length then
          { pageAt s.pages_ f with is_dirty_ := false }
        else pageAt s.pages_ g := by
  unfold BufferPoolManager.flushFrame
  split
  · exact pageAt_setPage_if s f g (fun p => { p with is_dirty_ := false })
  · rename_i hd
    have hd2 : (pageAt s.pages_ f).is_dirty_ = false := by
      simpa [BufferPoolManager.page, pageAt] using hd
    split
    · rename_i h
      rw [pageAt_eq_of_toNat h.1, ← hd2]
    · rfl

theorem pageAt_writeBack_if (s : BufferPoolManager) (f g : Int) :
    pageAt (s.writeBack f).pages_ g
      = if g.toNat = f.toNat ∧ f.toNat < s.pages_.length then
          { pageAt s.pages_ f with is_dirty_ := false }
        else pageAt s.pages_ g := by
  unfold BufferPoolManager.writeBack
  split
  · exact pageAt_setPage_if
      { s with
        disk_manager_ :=
          s.disk_manager_.WritePage (s.page f).page_id_ (s.page f).data_ }
      f g (fun p => { p with is_dirty_ := false })
  · rename_i hd
    have hd2 : (pageAt s.pages_ f).is_dirty_ = false := by
      simpa [BufferPoolManager.page, pageAt] using hd
    split
    · rename_i h
      rw [pageAt_eq_of_toNat h.1, ← hd2]
    · rfl

theorem flushFrame_pool_size (s : BufferPoolManager) (f : Int) :
    (s.flushFrame f).pool_size_ = s.pool_size_ := (flushFrame_fields s f).1

theorem flushFrame_page_table (s : BufferPoolManager) (f : Int) :
    (s.flushFrame f).page_table_ = s.page_table_ := (flushFrame_fields s f).2.1

theorem flushFrame_free_list (s : BufferPoolManager) (f : Int) :
    (s.flushFrame f).free_list_ = s.free_list_ := (flushFrame_fields s f).2.2.1

theorem flushFrame_replacer (s : BufferPoolManager) (f : Int) :
    (s.flushFrame f).replacer_ = s.replacer_ := (flushFrame_fields s f).2.2.2.1

theorem flushFrame_next_page_id (s : BufferPoolManager) (f : Int) :
    (s.flushFrame f).next_page_id_ = s.next_page_id_ := (flushFrame_fields s f).2.2.2.2.1

theorem flushFrame_latch (s : BufferPoolManager) (f : Int) :
    (s.flushFrame f).latch_ = s.latch_ := (flushFrame_fields s f).2.2.2.2.2.1

theorem flushFrame_length (s : BufferPoolManager) (f : Int) :
    (s.flushFrame f).pages_.length = s.pages_.length := (flushFrame_fields s f).2.2.2.2.2.2

theorem writeBack_pool_size (s : BufferPoolManager) (f : Int) :
    (s.writeBack f).pool_size_ = s.pool_size_ := (writeBack_fields s f).1

theorem writeBack_page_table (s : BufferPoolManager) (f : Int) :
    (s.writeBack f).page_table_ = s.page_table_ := (writeBack_fields s f).2.1

theorem writeBack_free_list (s : BufferPoolManager) (f : Int) :
    (s.writeBack f).free_list_ = s.free_list_ := (writeBack_fields s f).2.2.1

theorem writeBack_replacer (s : BufferPoolManager) (f : Int) :
    (s.writeBack f).replacer_ = s.replacer_ := (writeBack_fields s f).2.2.2.1

theorem writeBack_next_page_id (s : BufferPoolManager) (f : Int) :
    (s.writeBack f).next_page_id_ = s.next_page_id_ := (writeBack_fields s f).2.2.2.2.1

theorem writeBack_latch (s : BufferPoolManager) (f : Int) :
    (s.writeBack f).latch_ = s.latch_ := (writeBack_fields s f).2.2.2.2.2.1

theorem writeBack_length (s : BufferPoolManager) (f : Int) :
    (s.writeBack f).pages_.length = s.pages_.length := (writeBack_fields s f).2.2.2.2.2.2

theorem writeBack_disk (s : BufferPoolManager) (f : Int) :
    (s.writeBack f).disk_manager_.log = s.disk_manager_.log ++
      (if (pageAt s.pages_ f).is_dirty_ then
        [DiskOp.write (pageAt s.pages_ f).page_id_ (pageAt s.pages_ f).data_] else []) := by
  unfold BufferPoolManager.writeBack
  split
  · rename_i hd
    have hd2 : (pageAt s.pages_ f).is_dirty_ = true := hd
    rw [if_pos hd2]
    rfl
  · rename_i hd
    have hd2 : (pageAt s.pages_ f).is_dirty_ = false := by
      simpa [BufferPoolManager.page, pageAt] using hd
    simp [hd2]

theorem flushFrame_disk (s : BufferPoolManager) (f : Int) :
    (s.flushFrame f).disk_manager_.log = s.disk_manager_.log ++
      (if (pageAt s.pages_ f).is_dirty_ then
        [DiskOp.write (pageAt s.pages_ f).page_id_ (pageAt s.pages_ f).data_] else []) := by
  unfold BufferPoolManager.flushFrame
  split
  · rename_i hd
    have hd2 : (pageAt s.pages_ f).is_dirty_ = true := hd
    simp only [DiskManager.WritePage, hd2, if_true]
    by_cases h : f.toNat < s.pages_.length
    · have hp : (s.setPage f (fun p => { p with is_dirty_ := false })).page f
          = { pageAt s.pages_ f with is_dirty_ := false } := by
        rw [page_eq_pageAt, pageAt_setPage_if, if_pos ⟨rfl, h⟩]
      rw [hp]
      rfl
    · have hp : (s.setPage f (fun p => { p with is_dirty_ := false })).page f
          = pageAt s.pages_ f := by
        rw [page_eq_pageAt, pageAt_setPage_if, if_neg (fun h2 => h h2.2)]
      rw [hp]
      rfl
  · rename_i hd
    have hd2 : (pageAt s.pages_ f).is_dirty_ = false := by
      simpa [BufferPoolManager.page, pageAt] using hd
    simp [hd2]

theorem setPage_replacer (s : BufferPoolManager) (f : Int) (k : Page → Page) :
    (s.setPage f k).replacer_ = s.replacer_ := rfl

theorem setPage_page_table (s : BufferPoolManager) (f : Int) (k : Page → Page) :
    (s.setPage f k).page_table_ = s.page_table_ := rfl

theorem setPage_free_list (s : BufferPoolManager) (f : Int) (k : Page → Page) :
    (s.setPage f k).free_list_ = s.free_list_ := rfl

theorem setPage_pool_size (s : BufferPoolManager) (f : Int) (k : Page → Page) :
    (s.setPage f k).pool_size_ = s.pool_size_ := rfl

theorem setPage_next_page_id (s : BufferPoolManager) (f : Int) (k : Page → Page) :
    (s.setPage f k).next_page_id_ = s.next_page_id_ := rfl

theorem setPage_disk (s : BufferPoolManager) (f : Int) (k : Page → Page) :
    (s.setPage f k).disk_manager_ = s.disk_manager_ := rfl

theorem setPage_latch (s : BufferPoolManager) (f : Int) (k : Page → Page) :
    (s.setPage f k).latch_ = s.latch_ := rfl

theorem writeBack_page_id (s : BufferPoolManager) (f g : Int) :
    (pageAt (s.writeBack f).pages_ g).page_id_ = (pageAt s.pages_ g).page_id_ := by
  rw [pageAt_writeBack_if]
  split
  · rename_i h
    rw [pageAt_eq_of_toNat h.1]
  · rfl
/-! ## Buffer pool: `UnpinPage`, `FlushPage`, `FlushAllPages` -/

theorem latch_cycle (s : BufferPoolManager) (hl : s.latch_ = false) :
    ({ ({ s with latch_ := true } : BufferPoolManager) with latch_ := false } :
      BufferPoolManager) = s := by
  cases s
  simp only at hl
  subst hl
  rfl

theorem setPage_setPage (s : BufferPoolManager) (f : Int) (k1 k2 : Page → Page) :
    (s.setPage f k1).setPage f k2 = s.setPage f (fun p => k2 (k1 p)) := by
  simp only [BufferPoolManager.setPage, BufferPoolManager.page]
  congr 1
  by_cases h : f.toNat < s.pages_.length
  · simp [List.getD_eq_getElem?_getD, List.getElem?_set, h, List.set_set]
  · have h2 : s.pages_.length ≤ f.toNat := by omega
    simp [List.set_eq_of_length_le, h2]

/-- The state a successful `UnpinPage` of a page in frame `f` leaves: the dirty flag is
or-ed into the dirty bit of `f` and its pin count is decremented. -/
theorem UnpinPage_shape (s : BufferPoolManager) (p : Int) (d : Bool) (hl : s.latch_ = false) :
    (s.page_table_.find p = none → s.UnpinPage p d = .returned false s) ∧
    (∀ f, s.page_table_.find p = some f → (s.page f).pin_count_ = 0 →
      s.UnpinPage p d = .returned false s) ∧
    (∀ f, s.page_table_.find p = some f → (s.page f).pin_count_ ≠ 0 →
      0 ≤ f → f < s.pages_.length →
      let s2 := s.setPage f (fun q =>
        { q with is_dirty_ := q.is_dirty_ || d, pin_count_ := q.pin_count_ - 1 })
      (((s.page f).pin_count_ ≠ 1 → s.UnpinPage p d = .returned true s2) ∧
       ((s.page f).pin_count_ = 1 → ∀ r2, s.replacer_.SetEvictable f true = .ok r2 →
          s.UnpinPage p d = .returned true { s2 with replacer_ := r2 }) ∧
       ((s.page f).pin_count_ = 1 → ∀ e, s.replacer_.SetEvictable f true = .error e →
          ∃ s3, s.UnpinPage p d = .threw e s3))) := by
  refine ⟨?_, ?_, ?_⟩
  · intro hfind
    simp [BufferPoolManager.UnpinPage, hl, hfind, latch_cycle s hl]
  · intro f hfind hpin
    have hpin2 : (({ s with latch_ := true } : BufferPoolManager).page f).pin_count_ = 0 := hpin
    simp [BufferPoolManager.UnpinPage, hl, hfind, hpin2, latch_cycle s hl]
  · intro f hfind hpin h0 h1
    have hpin2 : ¬ (({ s with latch_ := true } : BufferPoolManager).page f).pin_count_ = 0 := hpin
    have hstate : ∀ x : BufferPoolManager,
        x = (if d = true then
            ({ s with latch_ := true } : BufferPoolManager).setPage f
              (fun p => { p with is_dirty_ := true })
          else { s with latch_ := true }) →
        x.setPage f (fun p => { p with pin_count_ := p.pin_count_ - 1 })
          = ({ s with latch_ := true } : BufferPoolManager).setPage f (fun q =>
            { q with is_dirty_ := q.is_dirty_ || d, pin_count_ := q.pin_count_ - 1 }) := by
      intro x hx
      subst hx
      cases d
      · simp
      · simp [setPage_setPage]
    have hpage : ((({ s with latch_ := true } : BufferPoolManager).setPage f (fun q =>
        { q with is_dirty_ := q.is_dirty_ || d, pin_count_ := q.pin_count_ - 1 })).page
          f).pin_count_ = (s.page f).pin_count_ - 1 := by
      rw [page_eq_pageAt,
        pageAt_setPage ({ s with latch_ := true } : BufferPoolManager) f f _ h0 h1 h0, if_pos rfl]
      rfl
    have hfinal : ∀ r2 : LRUKReplacer,
        ({ (({ s with latch_ := true } : BufferPoolManager).setPage f (fun q =>
            { q with is_dirty_ := q.is_dirty_ || d, pin_count_ := q.pin_count_ - 1 })) with
            replacer_ := r2, latch_ := false } : BufferPoolManager)
          = { (s.setPage f (fun q =>
            { q with is_dirty_ := q.is_dirty_ || d, pin_count_ := q.pin_count_ - 1 })) with
            replacer_ := r2 } := by
      intro r2
      cases s
      simp only at hl
      subst hl
      rfl
    have hfinal2 :
        ({ (({ s with latch_ := true } : BufferPoolManager).setPage f (fun q =>
            { q with is_dirty_ := q.is_dirty_ || d, pin_count_ := q.pin_count_ - 1 })) with
            latch_ := false } : BufferPoolManager)
          = s.setPage f (fun q =>
            { q with is_dirty_ := q.is_dirty_ || d, pin_count_ := q.pin_count_ - 1 }) := by
      cases s
      simp only at hl
      subst hl
      rfl
    simp only [BufferPoolManager.UnpinPage, hl, Bool.false_eq_true, if_false, hfind, hpin2]
    rw [hstate _ rfl, hpage]
    refine ⟨?_, ?_, ?_⟩
    · intro hne
      have : ¬ (s.page f).pin_count_ - 1 = 0 := by omega
      rw [if_neg this, hfinal2]
    · intro heq r2 hr2
      have : (s.page f).pin_count_ - 1 = 0 := by omega
      rw [if_pos this]
      have hrep : ((({ s with latch_ := true } : BufferPoolManager).setPage f (fun q =>
          { q with is_dirty_ := q.is_dirty_ || d, pin_count_ := q.pin_count_ - 1 })).replacer_)
          = s.replacer_ := rfl
      rw [hrep, hr2]
      simp only
      rw [hfinal r2]
    · intro heq e he
      have : (s.page f).pin_count_ - 1 = 0 := by omega
      rw [if_pos this]
      have hrep : ((({ s with latch_ := true } : BufferPoolManager).setPage f (fun q =>
          { q with is_dirty_ := q.is_dirty_ || d, pin_count_ := q.pin_count_ - 1 })).replacer_)
          = s.replacer_ := rfl
      rw [hrep, he]
      exact ⟨_, rfl⟩

theorem post_returned {α : Type} (a : α) (s : BufferPoolManager) :
    (Outcome.returned a s).post = some s := rfl

theorem post_threw {α : Type} (e : ReplacerException) (s : BufferPoolManager) :
    (Outcome.threw e s : Outcome α).post = some s := rfl

/-- Operation `UnpinPage` keeps the invariant of the pool, and under the invariant it returns. -/
theorem Inv_UnpinPage {s : BufferPoolManager} (hinv : s.Inv) (hl : s.latch_ = false) (p : Int)
    (d : Bool) : ∃ b s2, s.UnpinPage p d = .returned b s2 ∧ s2.Inv ∧ s2.latch_ = false ∧
      (s.Mapped → s2.Mapped) ∧ s2.pool_size_ = s.pool_size_ := by
  obtain ⟨h1, h2, h3⟩ := UnpinPage_shape s p d hl
  cases hfind : s.page_table_.find p with
  | none => exact ⟨false, s, h1 hfind, hinv, hl, id, rfl⟩
  | some f =>
    by_cases hpin : (s.page f).pin_count_ = 0
    · exact ⟨false, s, h2 f hfind hpin, hinv, hl, id, rfl⟩
    · obtain ⟨hf0, hf1, hnf, htr, hev⟩ := hinv.mapped_used (PageTable.find_some hfind)
      simp only at hf0 hf1 hnf htr hev
      have hlen : f < s.pages_.length := by rw [hinv.pages_len]; exact hf1
      obtain ⟨h4, h5, _⟩ := h3 f hfind hpin hf0 hlen
      have hpgs : ∀ g, g ≠ f → 0 ≤ g →
          pageAt (s.setPage f (fun q =>
            { q with is_dirty_ := q.is_dirty_ || d, pin_count_ := q.pin_count_ - 1 })).pages_ g
            = pageAt s.pages_ g := by
        intro g hg hg0
        rw [pageAt_setPage s f g _ hf0 hlen hg0, if_neg hg]
      have hpf : pageAt (s.setPage f (fun q =>
            { q with is_dirty_ := q.is_dirty_ || d, pin_count_ := q.pin_count_ - 1 })).pages_ f
          = { pageAt s.pages_ f with
              is_dirty_ := (pageAt s.pages_ f).is_dirty_ || d
              pin_count_ := (pageAt s.pages_ f).pin_count_ - 1 } := by
        rw [pageAt_setPage s f f _ hf0 hlen hf0, if_pos rfl]
      by_cases hone : (s.page f).pin_count_ = 1
      · obtain ⟨r2, hr2⟩ := SetEvictable_ok_of_tracked true htr
        obtain ⟨hrinv, hrs, _, _, node, hrep, hnode⟩ := SetEvictable_nodes hinv.rinv hr2
        refine ⟨true, _, h5 hone r2 hr2, ?_, hl, id, rfl⟩
        apply PoolInv_used_step f hinv hf0 hf1 hnf (setPage_length _ _ _) hrs hrinv hpgs
          (by rw [hpf]) (hrep.tracked_ne) (hrep.evictable_ne) hrep.tracked_self
        rw [hrep.evictable_self, hpf]
        simp only [hnode, true_iff]
        rw [page_eq_pageAt] at hone
        omega
      · refine ⟨true, _, h4 hone, ?_, hl, id, rfl⟩
        apply PoolInv_used_step f hinv hf0 hf1 hnf (setPage_length _ _ _) rfl hinv.rinv hpgs
          (by rw [hpf]) (fun _ _ => Iff.rfl) (fun _ _ => Iff.rfl) htr
        rw [hpf, hev]
        simp only
        rw [page_eq_pageAt] at hone hpin
        omega

theorem FlushPage_shape (s : BufferPoolManager) (p : Int) (hl : s.latch_ = false) :
    (s.page_table_.find p = none →
      s.FlushPage p = .returned false { s with latch_ := true }) ∧
    (∀ f, s.page_table_.find p = some f →
      s.FlushPage p = .returned true
        { (({ s with latch_ := true } : BufferPoolManager).flushFrame f) with
          latch_ := false }) := by
  constructor
  · intro hfind
    simp [BufferPoolManager.FlushPage, hl, hfind]
  · intro f hfind
    simp [BufferPoolManager.FlushPage, hl, hfind]

/-- Operation `FlushPage` returns and keeps the invariant of the pool. -/
theorem Inv_FlushPage {s : BufferPoolManager} (hinv : s.Inv) (hl : s.latch_ = false) (p : Int) :
    ∃ b s2, s.FlushPage p = .returned b s2 ∧ s2.Inv ∧ (s.Mapped → s2.Mapped) ∧
      s2.pool_size_ = s.pool_size_ := by
  obtain ⟨h1, h2⟩ := FlushPage_shape s p hl
  cases hfind : s.page_table_.find p with
  | none => exact ⟨false, _, h1 hfind, hinv, id, rfl⟩
  | some f =>
    obtain ⟨hf0, hf1, _⟩ := hinv.mapped_used (PageTable.find_some hfind)
    have h3 : (({ s with latch_ := true } : BufferPoolManager).flushFrame f).Inv :=
      Inv_flushFrame { s with latch_ := true } hinv f hf0 hf1
    refine ⟨true, _, h2 f hfind, h3, ?_, flushFrame_pool_size _ _⟩
    intro hm
    unfold BufferPoolManager.Mapped
    simp only [flushFrame_page_table, flushFrame_next_page_id, flushFrame_pool_size,
      flushFrame_free_list]
    exact hm

theorem Inv_flushAll (l : List (Int × Int)) :
    ∀ s : BufferPoolManager, s.Inv → (∀ e ∈ l, 0 ≤ e.2 ∧ e.2 < s.pool_size_) →
      (l.foldl (fun s it => s.flushFrame it.2) s).Inv := by
  induction l with
  | nil => intro s h _; exact h
  | cons a l ih =>
    intro s h hr
    simp only [List.foldl_cons]
    obtain ⟨h0, h1⟩ := hr a (List.mem_cons_self _ _)
    apply ih _ (Inv_flushFrame s h a.2 h0 h1)
    intro e he
    rw [flushFrame_pool_size]
    exact hr e (List.mem_cons_of_mem _ he)

theorem flushAll_fields (l : List (Int × Int)) :
    ∀ s : BufferPoolManager,
      (l.foldl (fun s it => s.flushFrame it.2) s).pool_size_ = s.pool_size_ ∧
      (l.foldl (fun s it => s.flushFrame it.2) s).page_table_ = s.page_table_ ∧
      (l.foldl (fun s it => s.flushFrame it.2) s).free_list_ = s.free_list_ ∧
      (l.foldl (fun s it => s.flushFrame it.2) s).replacer_ = s.replacer_ ∧
      (l.foldl (fun s it => s.flushFrame it.2) s).next_page_id_ = s.next_page_id_ ∧
      (l.foldl (fun s it => s.flushFrame it.2) s).latch_ = s.latch_ := by
  induction l with
  | nil => intro s; exact ⟨rfl, rfl, rfl, rfl, rfl, rfl⟩
  | cons a l ih =>
    intro s
    simp only [List.foldl_cons]
    obtain ⟨h1, h2, h3, h4, h5, h6⟩ := ih (s.flushFrame a.2)
    rw [h1, h2, h3, h4, h5, h6]
    exact ⟨flushFrame_pool_size _ _, flushFrame_page_table _ _, flushFrame_free_list _ _,
      flushFrame_replacer _ _, flushFrame_next_page_id _ _, flushFrame_latch _ _⟩

/-- Operation `FlushAllPages` returns, releases the latch and keeps the invariant of the pool. -/
theorem Inv_FlushAllPages {s : BufferPoolManager} (hinv : s.Inv) (hl : s.latch_ = false) :
    ∃ s2, s.FlushAllPages = .returned () s2 ∧ s2.Inv ∧ s2.latch_ = false ∧
      (s.Mapped → s2.Mapped) ∧ s2.pool_size_ = s.pool_size_ := by
  simp only [BufferPoolManager.FlushAllPages, hl, Bool.false_eq_true, if_false]
  refine ⟨_, rfl, ?_, rfl, ?_,
    (flushAll_fields s.page_table_ { s with latch_ := true }).1⟩
  · exact Inv_flushAll s.page_table_ { s with latch_ := true } hinv hinv.table_range
  · intro hm
    obtain ⟨h1, h2, h3, _, h5, _⟩ := flushAll_fields s.page_table_ { s with latch_ := true }
    unfold BufferPoolManager.Mapped
    simp only [h1, h2, h3, h5]
    exact hm

/-- The state `DeletePage` leaves when it frees frame `f`. -/
theorem DeletePage_shape (s : BufferPoolManager) (p : Int) (hl : s.latch_ = false) :
    (s.page_table_.find p = none → s.DeletePage p = .returned true s) ∧
    (∀ f, s.page_table_.find p = some f → (s.page f).pin_count_ ≠ 0 →
      s.DeletePage p = .returned false s) ∧
    (∀ f, s.page_table_.find p = some f → (s.page f).pin_count_ = 0 →
      (∀ e, s.replacer_.Remove f = .error e → ∃ s3, s.DeletePage p = .threw e s3) ∧
      (∀ r2, s.replacer_.Remove f = .ok r2 →
        ∃ s2, s.DeletePage p = .returned true s2 ∧
          s2.pool_size_ = s.pool_size_ ∧ s2.page_table_ = s.page_table_.erase p ∧
          s2.free_list_ = s.free_list_ ++ [f] ∧ s2.replacer_ = r2 ∧
          s2.next_page_id_ = s.next_page_id_ ∧ s2.latch_ = false ∧
          s2.pages_.length = s.pages_.length ∧
          s2.disk_manager_.log = s.disk_manager_.log ++
            (if (pageAt s.pages_ f).is_dirty_ then
              [DiskOp.write (pageAt s.pages_ f).page_id_ (pageAt s.pages_ f).data_] else []) ∧
          ∀ g, pageAt s2.pages_ g =
            if g.toNat = f.toNat ∧ f.toNat < s.pages_.length then
              { data_ := zeroPayload, page_id_ := INVALID_PAGE_ID,
                pin_count_ := (pageAt s.pages_ f).pin_count_, is_dirty_ := false }
            else pageAt s.pages_ g)) := by
  refine ⟨?_, ?_, ?_⟩
  · intro hfind
    simp [BufferPoolManager.DeletePage, hl, hfind, latch_cycle s hl]
  · intro f hfind hpin
    have hpin2 : ¬ (({ s with latch_ := true } : BufferPoolManager).page f).pin_count_ = 0 := hpin
    simp [BufferPoolManager.DeletePage, hl, hfind, hpin2, latch_cycle s hl]
  · intro f hfind hpin
    have hpin2 : (({ s with latch_ := true } : BufferPoolManager).page f).pin_count_ = 0 := hpin
    constructor
    · intro e he
      refine ⟨{ s with latch_ := true }, ?_⟩
      simp [BufferPoolManager.DeletePage, hl, hfind, hpin2, he]
    · intro r2 hr2
      simp only [BufferPoolManager.DeletePage, hl, Bool.false_eq_true, if_false,
        hfind, hpin2, bne_self_eq_false, hr2]
      refine ⟨_, rfl, ?_, ?_, ?_, ?_, ?_, rfl, ?_, ?_, ?_⟩
      · simp [BufferPoolManager.setPage, flushFrame_pool_size]
      · simp [BufferPoolManager.setPage, flushFrame_page_table]
      · simp [BufferPoolManager.setPage, flushFrame_free_list]
      · simp [BufferPoolManager.setPage, flushFrame_replacer]
      · simp [BufferPoolManager.setPage, flushFrame_next_page_id]
      · simp [BufferPoolManager.setPage, flushFrame_length]
      · simp only [BufferPoolManager.setPage]
        rw [flushFrame_disk]
      · intro g
        simp only [pageAt_setPage_if, pageAt_flushFrame_if, setPage_length, flushFrame_length,
          Page.ResetMemory]
        by_cases h : g.toNat = f.toNat ∧ f.toNat < s.pages_.length
        · simp [h]
        · simp [h]
/-! ## Buffer pool: `DeletePage` -/

theorem toNat_ne_of_ne {f g : Int} (h0 : 0 ≤ f) (h1 : 0 ≤ g) (h : g ≠ f) :
    ¬ (g.toNat = f.toNat ∧ f.toNat < n) := by
  intro h2
  apply h
  omega

/-- Operation `DeletePage` returns, releases the latch and keeps the invariant of the pool. -/
theorem Inv_DeletePage {s : BufferPoolManager} (hinv : s.Inv) (hl : s.latch_ = false) (p : Int) :
    ∃ b s2, s.DeletePage p = .returned b s2 ∧ s2.Inv ∧ s2.latch_ = false ∧
      (s.Mapped → s2.Mapped) ∧ s2.pool_size_ = s.pool_size_ := by
  obtain ⟨h1, h2, h3⟩ := DeletePage_shape s p hl
  cases hfind : s.page_table_.find p with
  | none => exact ⟨true, s, h1 hfind, hinv, hl, id, rfl⟩
  | some f =>
    by_cases hpin : (s.page f).pin_count_ = 0
    · have hmem := PageTable.find_some hfind
      obtain ⟨hf0, hf1, hnf, htr, hev⟩ := hinv.mapped_used hmem
      simp only at hf0 hf1 hnf htr hev
      have hlen : f.toNat < s.pages_.length := by
        have := hinv.pages_len
        omega
      have hevict : s.replacer_.evictable f := hev.mpr hpin
      obtain ⟨r2, hr2⟩ := Remove_ok_of_evictable hinv.rinv hevict
      obtain ⟨hrinv, hrs, _, _, hrem⟩ := Remove_nodes hinv.rinv hr2
      obtain ⟨s2, hs2, e1, e2, e3, e4, e5, e6, e7, _, e9⟩ := (h3 f hfind hpin).2 r2 hr2
      have hpf : (pageAt s.pages_ f).page_id_ = p := hinv.table_page _ hmem
      have hTf : ∀ e ∈ s.page_table_.erase p, e.2 ≠ f := by
        intro e he hef
        obtain ⟨he1, he2⟩ := PageTable.mem_erase.mp he
        apply he2
        rw [← hinv.table_page e he1, hef, hpf]
      refine ⟨true, s2, hs2, ?_, e6, ?_, e1⟩
      swap
      · rintro ⟨hm1, hm2⟩
        unfold BufferPoolManager.Mapped
        rw [e1, e2, e3, e5]
        refine ⟨fun e he => hm1 e (PageTable.mem_erase.mp he).1, ?_⟩
        intro g hg0 hg1 hgF
        have hgf : g ≠ f := fun h => hgF (by simp [h])
        have hgF2 : g ∉ s.free_list_ := fun h => hgF (by simp [h])
        obtain ⟨e, he, heg⟩ := hm2 g hg0 hg1 hgF2
        refine ⟨e, PageTable.mem_erase.mpr ⟨he, ?_⟩, heg⟩
        intro hep
        have h4 := PageTable.find_of_entry hinv.table_keys e.1 e.2 he
        rw [hep, hfind] at h4
        exact hgf (heg.symm.trans (Option.some.inj h4).symm)
      unfold BufferPoolManager.Inv
      rw [e1, e2, e3, e4]
      apply PoolInv_step f hinv hf0 hf1 (Or.inl rfl) (Or.inl rfl) e7 hrs hrinv
      · intro g hg hg0
        rw [e9 g, if_neg (toNat_ne_of_ne hf0 hg0 hg)]
      · exact hrem.tracked_other
      · exact hrem.evictable_other
      · intro g hg
        simp [hg]
      · rw [List.nodup_append]
        refine ⟨hinv.free_nodup, by simp, ?_⟩
        intro x hx hx2
        rw [List.mem_singleton] at hx2
        subst hx2
        exact hnf hx
      · intro e he
        exact Or.inl ⟨(PageTable.mem_erase.mp he).1, hTf e he⟩
      · exact PageTable.erase_keys p hinv.table_keys
      · intro e he hef
        exact absurd hef (hTf e he)
      · intro h; cases h
      · intro _
        left
        refine ⟨by simp, ⟨hrem.not_tracked_self, ?_, ?_, hTf⟩, ?_⟩
        · rw [e9 f, if_pos ⟨rfl, hlen⟩]
          exact hpin
        · rw [e9 f, if_pos ⟨rfl, hlen⟩]
        · rw [e9 f, if_pos ⟨rfl, hlen⟩]
    · exact ⟨false, s, h2 f hfind hpin, hinv, hl, id, rfl⟩
/-! ## Buffer pool: `NewPage` and `FetchPage` -/

theorem touch_eq {α : Type} (s : BufferPoolManager) (f : Int)
    (after : BufferPoolManager → Outcome α) (r1 r2 : LRUKReplacer)
    (h1 : s.replacer_.RecordAccess f = .ok r1) (h2 : r1.SetEvictable f false = .ok r2) :
    s.touch f after = after { s with replacer_ := r2 } := by
  simp [BufferPoolManager.touch, h1, h2]

/-- Operation `NewPage` with a frame on the free list. -/
theorem NewPage_free (s : BufferPoolManager) (hl : s.latch_ = false) (f : Int)
    (rest : List Int) (hfree : s.free_list_ = f :: rest) (r1 r2 : LRUKReplacer)
    (h1 : s.replacer_.RecordAccess f = .ok r1) (h2 : r1.SetEvictable f false = .ok r2) :
    ∃ s2, s.NewPage = .returned (some (s.next_page_id_, f)) s2 ∧
      s2.pool_size_ = s.pool_size_ ∧
      s2.page_table_ = s.page_table_.assign s.next_page_id_ f ∧
      s2.free_list_ = rest ∧ s2.replacer_ = r2 ∧
      s2.next_page_id_ = s.next_page_id_ + 1 ∧ s2.latch_ = false ∧
      s2.pages_.length = s.pages_.length ∧
      s2.disk_manager_ = s.disk_manager_ ∧
      ∀ g, pageAt s2.pages_ g =
        if g.toNat = f.toNat ∧ f.toNat < s.pages_.length then
          { pageAt s.pages_ f with
            page_id_ := s.next_page_id_, pin_count_ := (pageAt s.pages_ f).pin_count_ + 1 }
        else pageAt s.pages_ g := by
  simp only [BufferPoolManager.NewPage, hl, Bool.false_eq_true, if_false,
    BufferPoolManager.newFrame, hfree, BufferPoolManager.touch, setPage_replacer, h1, h2]
  refine ⟨_, rfl, rfl, rfl, rfl, rfl, rfl, rfl, ?_, rfl, ?_⟩
  · simp [setPage_length]
  · intro g
    simp only [pageAt_setPage_if, setPage_length]
    by_cases h : g.toNat = f.toNat ∧ f.toNat < s.pages_.length
    · simp [h]
    · simp [h]

/-- Operation `NewPage` with an empty free list and a victim `f` in the replacer. -/
theorem NewPage_evict (s : BufferPoolManager) (hl : s.latch_ = false) (f : Int)
    (hfree : s.free_list_ = []) (r0 r1 r2 : LRUKReplacer)
    (h0 : s.replacer_.Evict = (some f, r0))
    (h1 : r0.RecordAccess f = .ok r1) (h2 : r1.SetEvictable f false = .ok r2) :
    ∃ s2, s.NewPage = .returned (some (s.next_page_id_, f)) s2 ∧
      s2.pool_size_ = s.pool_size_ ∧
      s2.page_table_
        = (s.page_table_.erase (pageAt s.pages_ f).page_id_).assign s.next_page_id_ f ∧
      s2.free_list_ = [] ∧ s2.replacer_ = r2 ∧
      s2.next_page_id_ = s.next_page_id_ + 1 ∧ s2.latch_ = false ∧
      s2.pages_.length = s.pages_.length ∧
      s2.disk_manager_.log = s.disk_manager_.log ++
        (if (pageAt s.pages_ f).is_dirty_ then
          [DiskOp.write (pageAt s.pages_ f).page_id_ (pageAt s.pages_ f).data_] else []) ∧
      ∀ g, pageAt s2.pages_ g =
        if g.toNat = f.toNat ∧ f.toNat < s.pages_.length then
          { data_ := zeroPayload, page_id_ := s.next_page_id_,
            pin_count_ := (pageAt s.pages_ f).pin_count_ + 1, is_dirty_ := false }
        else pageAt s.pages_ g := by
  simp only [BufferPoolManager.NewPage, hl, Bool.false_eq_true, if_false,
    BufferPoolManager.newFrame, hfree, h0, BufferPoolManager.touch, setPage_replacer,
    writeBack_replacer, setPage_next_page_id, writeBack_next_page_id, h1, h2]
  refine ⟨_, rfl, ?_, ?_, ?_, rfl, rfl, rfl, ?_, ?_, ?_⟩
  · simp [setPage_pool_size, writeBack_pool_size]
  · simp [setPage_page_table, writeBack_page_table, page_eq_pageAt, writeBack_page_id]
  · simp [setPage_free_list, writeBack_free_list]
  · simp [setPage_length, writeBack_length]
  · simp only [setPage_disk]
    rw [writeBack_disk]
  · intro g
    simp only [pageAt_setPage_if, pageAt_writeBack_if, setPage_length, writeBack_length,
      Page.ResetMemory]
    by_cases h : g.toNat = f.toNat ∧ f.toNat < s.pages_.length
    · simp [h]
    · simp [h]

/-- Operation `NewPage` with an empty free list and no victim: a null result. -/
theorem NewPage_full (s : BufferPoolManager) (hl : s.latch_ = false)
    (hfree : s.free_list_ = []) (h0 : s.replacer_.Evict.1 = none) :
    s.NewPage = .returned none s := by
  have h1 := Evict_none_state h0
  simp only [BufferPoolManager.NewPage, hl, Bool.false_eq_true, if_false,
    BufferPoolManager.newFrame, hfree, h1]
  cases s
  simp only at hl hfree
  subst hl hfree
  rfl

/-- Operation `FetchPage` of a resident page. -/
theorem FetchPage_hit (s : BufferPoolManager) (hl : s.latch_ = false) (p f : Int)
    (hfind : s.page_table_.find p = some f) (r1 r2 : LRUKReplacer)
    (h1 : s.replacer_.RecordAccess f = .ok r1) (h2 : r1.SetEvictable f false = .ok r2) :
    ∃ s2, s.FetchPage p = .returned (some f) s2 ∧
      s2.pool_size_ = s.pool_size_ ∧ s2.page_table_ = s.page_table_ ∧
      s2.free_list_ = s.free_list_ ∧ s2.replacer_ = r2 ∧
      s2.next_page_id_ = s.next_page_id_ ∧ s2.latch_ = false ∧
      s2.pages_.length = s.pages_.length ∧
      s2.disk_manager_ = s.disk_manager_ ∧
      ∀ g, pageAt s2.pages_ g =
        if g.toNat = f.toNat ∧ f.toNat < s.pages_.length then
          { pageAt s.pages_ f with pin_count_ := (pageAt s.pages_ f).pin_count_ + 1 }
        else pageAt s.pages_ g := by
  simp only [BufferPoolManager.FetchPage, hl, Bool.false_eq_true, if_false, hfind,
    BufferPoolManager.fetchFinish, BufferPoolManager.touch, h1, h2]
  refine ⟨_, rfl, rfl, rfl, rfl, rfl, rfl, rfl, ?_, rfl, ?_⟩
  · simp [setPage_length]
  · intro g
    simp only [pageAt_setPage_if]

/-- Operation `FetchPage` of a page that is not resident, with a frame on the free list. -/
theorem FetchPage_free (s : BufferPoolManager) (hl : s.latch_ = false) (p f : Int)
    (hfind : s.page_table_.find p = none)
    (rest : List Int) (hfree : s.free_list_ = f :: rest) (r1 r2 : LRUKReplacer)
    (h1 : s.replacer_.RecordAccess f = .ok r1) (h2 : r1.SetEvictable f false = .ok r2) :
    ∃ s2, s.FetchPage p = .returned (some f) s2 ∧
      s2.pool_size_ = s.pool_size_ ∧ s2.page_table_ = s.page_table_.assign p f ∧
      s2.free_list_ = rest ∧ s2.replacer_ = r2 ∧
      s2.next_page_id_ = s.next_page_id_ ∧ s2.latch_ = false ∧
      s2.pages_.length = s.pages_.length ∧
      s2.disk_manager_.log = s.disk_manager_.log ++ [DiskOp.read p] ∧
      ∀ g, pageAt s2.pages_ g =
        if g.toNat = f.toNat ∧ f.toNat < s.pages_.length then
          { data_ := s.disk_manager_.content p, page_id_ := p,
            pin_count_ := (pageAt s.pages_ f).pin_count_ + 1,
            is_dirty_ := (pageAt s.pages_ f).is_dirty_ }
        else pageAt s.pages_ g := by
  simp only [BufferPoolManager.FetchPage, hl, Bool.false_eq_true, if_false, hfind,
    BufferPoolManager.fetchFrame, hfree,
    BufferPoolManager.fetchFinish, BufferPoolManager.touch, setPage_replacer, h1, h2]
  refine ⟨_, rfl, rfl, rfl, rfl, rfl, rfl, rfl, ?_, rfl, ?_⟩
  · simp [setPage_length]
  · intro g
    simp only [pageAt_setPage_if, setPage_length, setPage_disk, DiskManager.ReadPage]
    by_cases h : g.toNat = f.toNat ∧ f.toNat < s.pages_.length
    · simp [h]
    · simp [h]

/-- Operation `FetchPage` of a page that is not resident, with an empty free list and a victim `f`
in the replacer. -/
theorem FetchPage_evict (s : BufferPoolManager) (hl : s.latch_ = false) (p f : Int)
    (hfind : s.page_table_.find p = none)
    (hfree : s.free_list_ = []) (r0 r1 r2 : LRUKReplacer)
    (h0 : s.replacer_.Evict = (some f, r0))
    (h1 : r0.RecordAccess f = .ok r1) (h2 : r1.SetEvictable f false = .ok r2) :
    ∃ s2, s.FetchPage p = .returned (some f) s2 ∧
      s2.pool_size_ = s.pool_size_ ∧
      s2.page_table_ = (s.page_table_.erase (pageAt s.pages_ f).page_id_).assign p f ∧
      s2.free_list_ = [] ∧ s2.replacer_ = r2 ∧
      s2.next_page_id_ = s.next_page_id_ ∧ s2.latch_ = false ∧
      s2.pages_.length = s.pages_.length ∧
      s2.disk_manager_.log = (s.disk_manager_.log ++
        (if (pageAt s.pages_ f).is_dirty_ then
          [DiskOp.write (pageAt s.pages_ f).page_id_ (pageAt s.pages_ f).data_] else []))
        ++ [DiskOp.read p] ∧
      ∀ g, pageAt s2.pages_ g =
        if g.toNat = f.toNat ∧ f.toNat < s.pages_.length then
          { data_ := (DiskManager.mk (s.disk_manager_.log ++
              (if (pageAt s.pages_ f).is_dirty_ then
                [DiskOp.write (pageAt s.pages_ f).page_id_ (pageAt s.pages_ f).data_]
              else []))).content p,
            page_id_ := p,
            pin_count_ := (pageAt s.pages_ f).pin_count_ + 1,
            is_dirty_ := false }
        else pageAt s.pages_ g := by
  simp only [BufferPoolManager.FetchPage, hl, Bool.false_eq_true, if_false, hfind,
    BufferPoolManager.fetchFrame, hfree, h0,
    BufferPoolManager.fetchFinish, BufferPoolManager.touch, setPage_replacer,
    writeBack_replacer, h1, h2]
  refine ⟨_, rfl, ?_, ?_, ?_, rfl, ?_, rfl, ?_, ?_, ?_⟩
  · simp [setPage_pool_size, writeBack_pool_size]
  · simp [setPage_page_table, writeBack_page_table, page_eq_pageAt, writeBack_page_id]
  · simp [setPage_free_list, writeBack_free_list]
  · simp [setPage_next_page_id, writeBack_next_page_id]
  · simp [setPage_length, writeBack_length]
  · simp only [setPage_disk, DiskManager.ReadPage]
    rw [writeBack_disk]
  · intro g
    have hd : (({ s with latch_ := true, replacer_ := r0 } : BufferPoolManager).writeBack
        f).disk_manager_ = DiskManager.mk (s.disk_manager_.log ++
          (if (pageAt s.pages_ f).is_dirty_ then
            [DiskOp.write (pageAt s.pages_ f).page_id_ (pageAt s.pages_ f).data_]
          else [])) := by
      have := writeBack_disk ({ s with latch_ := true, replacer_ := r0 } : BufferPoolManager) f
      cases hdm : (({ s with latch_ := true, replacer_ := r0 } : BufferPoolManager).writeBack
        f).disk_manager_
      rw [hdm] at this
      simp only at this
      rw [this]
    simp only [pageAt_setPage_if, pageAt_writeBack_if, setPage_length, writeBack_length,
      setPage_disk, DiskManager.ReadPage]
    by_cases h : g.toNat = f.toNat ∧ f.toNat < s.pages_.length
    · simp only [h, and_self, if_true]
      simp only [hfree] at hd
      rw [hd]
    · simp [h]

/-- Operation `FetchPage` of a page that is not resident, with an empty free list and no victim: a
null result. -/
theorem FetchPage_full (s : BufferPoolManager) (hl : s.latch_ = false) (p : Int)
    (hfind : s.page_table_.find p = none)
    (hfree : s.free_list_ = []) (h0 : s.replacer_.Evict.1 = none) :
    s.FetchPage p = .returned none s := by
  have h1 := Evict_none_state h0
  simp only [BufferPoolManager.FetchPage, hl, Bool.false_eq_true, if_false, hfind,
    BufferPoolManager.fetchFrame, hfree, h1]
  cases s
  simp only at hl hfree
  subst hl hfree
  rfl
/-! ## Buffer pool: the invariant is kept by `NewPage` and `FetchPage` -/

/-- Operation `RecordAccess` followed by `SetEvictable(false)` succeeds on a frame that passes the
range check. -/
theorem touch_ok {r : LRUKReplacer} (hinv : r.Inv) {f : Int}
    (hle : f ≤ toInt32 r.replacer_size_) :
    ∃ r1 r2, r.RecordAccess f = .ok r1 ∧ r1.SetEvictable f false = .ok r2 := by
  obtain ⟨r1, h1⟩ := RecordAccess_ok_of_le r f hle
  obtain ⟨_, _, _, node, hrep, _⟩ := RecordAccess_nodes hinv h1
  obtain ⟨r2, h2⟩ := SetEvictable_ok_of_tracked false hrep.tracked_self
  exact ⟨r1, r2, h1, h2⟩

/-- Operation `RecordAccess` followed by `SetEvictable(false)` leaves the frame tracked and not
evictable, and every other frame as it was. -/
theorem touch_replacer {r r1 r2 : LRUKReplacer} {f : Int} (hinv : r.Inv)
    (h1 : r.RecordAccess f = .ok r1) (h2 : r1.SetEvictable f false = .ok r2) :
    r2.Inv ∧ r2.replacer_size_ = r.replacer_size_ ∧
      (∀ g, g ≠ f → (r2.tracked g ↔ r.tracked g)) ∧
      (∀ g, g ≠ f → (r2.evictable g ↔ r.evictable g)) ∧
      r2.tracked f ∧ ¬ r2.evictable f := by
  obtain ⟨hi1, hs1, _, n1, hrep1, _⟩ := RecordAccess_nodes hinv h1
  obtain ⟨hi2, hs2, _, _, n2, hrep2, hn2⟩ := SetEvictable_nodes hi1 h2
  refine ⟨hi2, hs2.trans hs1, ?_, ?_, hrep2.tracked_self, ?_⟩
  · intro g hg
    rw [hrep2.tracked_ne g hg, hrep1.tracked_ne g hg]
  · intro g hg
    rw [hrep2.evictable_ne g hg, hrep1.evictable_ne g hg]
  · rw [hrep2.evictable_self, hn2]
    simp

/-- Installing a page in frame `f`: the frame leaves the free list or the replacer, is
mapped by the page table under `pid`, pinned, and tracked as non-evictable. -/
theorem PoolInv_install {P : Nat} {pages pages2 : List Page} {T T0 : PageTable}
    {F F2 : List Int} {r r2 : LRUKReplacer} (f pid : Int)
    (hinv : PoolInv P pages T F r none) (hf0 : 0 ≤ f) (hf1 : f < P)
    (hT0 : ∀ e ∈ T0, e ∈ T ∧ e.2 ≠ f) (hT0k : (T0.map Prod.fst).Nodup)
    (hF2 : ∀ g, g ≠ f → (g ∈ F2 ↔ g ∈ F)) (hF2n : F2.Nodup) (hfF2 : f ∉ F2)
    (hrs : r2.replacer_size_ = r.replacer_size_) (hrinv : r2.Inv)
    (htr : ∀ g, g ≠ f → (r2.tracked g ↔ r.tracked g))
    (hev : ∀ g, g ≠ f → (r2.evictable g ↔ r.evictable g))
    (htracked : r2.tracked f) (hnev : ¬ r2.evictable f)
    (hlen : pages2.length = pages.length)
    (hpages : ∀ g, g ≠ f → 0 ≤ g → pageAt pages2 g = pageAt pages g)
    (hpid : (pageAt pages2 f).page_id_ = pid)
    (hpin : (pageAt pages2 f).pin_count_ ≠ 0) :
    PoolInv P pages2 (T0.assign pid f) F2 r2 none := by
  apply PoolInv_step f hinv hf0 hf1 (Or.inl rfl) (Or.inl rfl) hlen hrs hrinv hpages htr hev
    hF2 hF2n ?_ (PageTable.assign_keys pid f hT0k) ?_ (by simp) ?_
  · intro e he
    rcases PageTable.mem_assign.mp he with rfl | ⟨h1, _⟩
    · exact Or.inr rfl
    · exact Or.inl (hT0 e h1)
  · intro e he hef
    rcases PageTable.mem_assign.mp he with rfl | ⟨h1, _⟩
    · exact hpid
    · exact absurd hef (hT0 e h1).2
  · intro _
    refine Or.inr ⟨hfF2, htracked, ?_⟩
    constructor
    · intro h; exact absurd h hnev
    · intro h; exact absurd h hpin

/-- Installing a page in frame `f` keeps every other in-use frame mapped. -/
theorem Mapped_install {T T0 : PageTable} {F F2 : List Int} {P : Nat} {next next2 pid f : Int}
    (hm1 : ∀ e ∈ T, e.1 < next)
    (hm2 : ∀ g : Int, 0 ≤ g → g < P → g ∉ F → ∃ e ∈ T, e.2 = g)
    (hsub : ∀ e ∈ T0, e ∈ T) (hkeep : ∀ e ∈ T, e.2 ≠ f → e ∈ T0)
    (hpid : ∀ e ∈ T0, e.2 ≠ f → e.1 ≠ pid)
    (hF2 : ∀ g, g ≠ f → g ∉ F2 → g ∉ F)
    (hnext : next ≤ next2) (hpidlt : pid < next2) :
    (∀ e ∈ T0.assign pid f, e.1 < next2) ∧
    (∀ g : Int, 0 ≤ g → g < P → g ∉ F2 → ∃ e ∈ T0.assign pid f, e.2 = g) := by
  constructor
  · intro e he
    rcases PageTable.mem_assign.mp he with rfl | ⟨h1, _⟩
    · exact hpidlt
    · exact lt_of_lt_of_le (hm1 e (hsub e h1)) hnext
  · intro g hg0 hg1 hgF
    by_cases hgf : g = f
    · exact ⟨(pid, f), PageTable.mem_assign.mpr (Or.inl rfl), hgf.symm⟩
    · obtain ⟨e, he, heg⟩ := hm2 g hg0 hg1 (hF2 g hgf hgF)
      have hef : e.2 ≠ f := fun h => hgf (heg.symm.trans h)
      have he0 := hkeep e he hef
      exact ⟨e, PageTable.mem_assign.mpr (Or.inr ⟨he0, hpid e he0 hef⟩), heg⟩

/-- When every in-use frame is mapped, erasing the page id of frame `f` unmaps no other
frame. -/
theorem erase_keeps_others {P : Nat} {pages : List Page} {T : PageTable} {F : List Int}
    {r : LRUKReplacer} (hinv : PoolInv P pages T F r none) {f : Int}
    (hmapped : ∃ e ∈ T, e.2 = f) :
    ∀ e ∈ T, e.2 ≠ f → e ∈ T.erase (pageAt pages f).page_id_ := by
  intro e he hef
  refine PageTable.mem_erase.mpr ⟨he, ?_⟩
  intro hkey
  obtain ⟨e2, he2, he2f⟩ := hmapped
  have h1 := hinv.table_page e2 he2
  rw [he2f] at h1
  have h3 := PageTable.find_of_entry hinv.table_keys e.1 e.2 he
  have h4 := PageTable.find_of_entry hinv.table_keys e2.1 e2.2 he2
  rw [hkey, h1, h4] at h3
  exact hef ((Option.some.inj h3).symm.trans he2f)

/-- The frame at the front of the free list is idle. -/
theorem PoolInv.free_idle {P : Nat} {pages : List Page} {T : PageTable} {F : List Int}
    {r : LRUKReplacer} (h : PoolInv P pages T F r none) {f : Int} (hf : f ∈ F) :
    0 ≤ f ∧ f < P ∧ FrameIdle pages T r f ∧ (pageAt pages f).data_ = zeroPayload := by
  obtain ⟨h0, h1⟩ := h.free_range f hf
  rcases h.frame f h0 h1 (by simp) with ⟨_, h2, h3⟩ | ⟨h2, _⟩
  · exact ⟨h0, h1, h2, h3⟩
  · exact absurd hf h2

theorem toNat_cond {f : Int} {n P : Nat} (h0 : 0 ≤ f) (h1 : f < P) (hlen : n = P) :
    f.toNat = f.toNat ∧ f.toNat < n := by
  constructor
  · rfl
  · omega

/-- Operation `NewPage` returns, releases the latch and keeps the invariant of the pool. -/
theorem Inv_NewPage {s : BufferPoolManager} (hinv : s.Inv) (hl : s.latch_ = false) :
    ∃ v s2, s.NewPage = .returned v s2 ∧ s2.Inv ∧ s2.latch_ = false ∧
      (s.Mapped → s2.Mapped) ∧ s2.pool_size_ = s.pool_size_ := by
  cases hfree : s.free_list_ with
  | cons f rest =>
    have hfF : f ∈ s.free_list_ := by rw [hfree]; exact List.mem_cons_self _ _
    obtain ⟨hf0, hf1, ⟨hnt, hpin, hdirty, hTf⟩, _⟩ := hinv.free_idle hfF
    have hle : f ≤ toInt32 s.replacer_.replacer_size_ := by
      rw [hinv.rsize]; exact frame_le_toInt32 hinv.size_lt hf1
    obtain ⟨r1, r2, h1, h2⟩ := touch_ok hinv.rinv hle
    obtain ⟨hi, hs, htr, hev, htf, hnev⟩ := touch_replacer hinv.rinv h1 h2
    obtain ⟨s2, hs2, e1, e2, e3, e4, e5, e6, e7, _, e9⟩ := NewPage_free s hl f rest hfree r1 r2 h1 h2
    refine ⟨_, s2, hs2, ?_, e6, ?_, e1⟩
    swap
    · rintro ⟨hm1, hm2⟩
      unfold BufferPoolManager.Mapped
      rw [e1, e2, e3, e5]
      apply Mapped_install hm1 hm2 (fun e he => he) (fun e he _ => he)
        (fun e he _ => ne_of_lt (hm1 e he)) ?_ (by omega) (by omega)
      intro g hg hgr hgF
      rw [hfree] at hgF
      rcases List.mem_cons.mp hgF with h | h
      · exact hg h
      · exact hgr h
    have hnd := hinv.free_nodup
    rw [hfree, List.nodup_cons] at hnd
    have hc := toNat_cond hf0 hf1 hinv.pages_len
    unfold BufferPoolManager.Inv
    rw [e1, e2, e3, e4]
    apply PoolInv_install f s.next_page_id_ hinv hf0 hf1 (fun e he => ⟨he, hTf e he⟩)
      hinv.table_keys ?_ hnd.2 hnd.1 hs hi htr hev htf hnev e7 ?_ ?_ ?_
    · intro g hg
      rw [hfree]
      simp [hg]
    · intro g hg hg0
      rw [e9 g, if_neg (toNat_ne_of_ne hf0 hg0 hg)]
    · rw [e9 f, if_pos hc]
    · rw [e9 f, if_pos hc]
      simp
  | nil =>
    cases hev0 : s.replacer_.Evict with
    | mk v r0 =>
      cases v with
      | none =>
        have h0 : s.replacer_.Evict.1 = none := by rw [hev0]
        exact ⟨none, s, NewPage_full s hl hfree h0, hinv, hl, id, rfl⟩
      | some f =>
        obtain ⟨hi0, hs0, _, hevf, hrem⟩ := Evict_nodes hinv.rinv hev0
        obtain ⟨hf0, hf1, hnf, hiff⟩ := hinv.tracked_used (evictable_tracked hevf)
        have hle : f ≤ toInt32 r0.replacer_size_ := by
          rw [hs0, hinv.rsize]; exact frame_le_toInt32 hinv.size_lt hf1
        obtain ⟨r1, r2, h1, h2⟩ := touch_ok hi0 hle
        obtain ⟨hi, hs, htr, hev, htf, hnev⟩ := touch_replacer hi0 h1 h2
        obtain ⟨s2, hs2, e1, e2, e3, e4, e5, e6, e7, _, e9⟩ :=
          NewPage_evict s hl f hfree r0 r1 r2 hev0 h1 h2
        refine ⟨_, s2, hs2, ?_, e6, ?_, e1⟩
        swap
        · rintro ⟨hm1, hm2⟩
          unfold BufferPoolManager.Mapped
          rw [e1, e2, e3, e5]
          apply Mapped_install hm1 hm2 (fun e he => (PageTable.mem_erase.mp he).1)
            (erase_keeps_others hinv (hm2 f hf0 hf1 hnf))
            (fun e he _ => ne_of_lt (hm1 e (PageTable.mem_erase.mp he).1)) ?_
            (by omega) (by omega)
          intro g _ _
          rw [hfree]
          simp
        have hc := toNat_cond hf0 hf1 hinv.pages_len
        unfold BufferPoolManager.Inv
        rw [e1, e2, e3, e4]
        apply PoolInv_install f s.next_page_id_ hinv hf0 hf1 ?_
          (PageTable.erase_keys _ hinv.table_keys) ?_ List.nodup_nil (by simp)
          (hs.trans hs0) hi ?_ ?_ htf hnev e7 ?_ ?_ ?_
        · intro e he
          obtain ⟨he1, he2⟩ := PageTable.mem_erase.mp he
          refine ⟨he1, fun hef => he2 ?_⟩
          rw [← hinv.table_page e he1, hef]
        · intro g _
          rw [hfree]
        · intro g hg
          rw [htr g hg, hrem.tracked_other g hg]
        · intro g hg
          rw [hev g hg, hrem.evictable_other g hg]
        · intro g hg hg0
          rw [e9 g, if_neg (toNat_ne_of_ne hf0 hg0 hg)]
        · rw [e9 f, if_pos hc]
        · rw [e9 f, if_pos hc]
          simp

/-- Operation `FetchPage` returns, releases the latch and keeps the invariant of the pool. -/
theorem Inv_FetchPage {s : BufferPoolManager} (hinv : s.Inv) (hl : s.latch_ = false) (p : Int) :
    ∃ v s2, s.FetchPage p = .returned v s2 ∧ s2.Inv ∧ s2.latch_ = false ∧
      (s.Mapped → p < s.next_page_id_ → s2.Mapped) ∧ s2.pool_size_ = s.pool_size_ := by
  cases hfind : s.page_table_.find p with
  | some f =>
    obtain ⟨hf0, hf1, hnf, htrk, hiff⟩ := hinv.mapped_used (PageTable.find_some hfind)
    simp only at hf0 hf1 hnf htrk hiff
    have hle : f ≤ toInt32 s.replacer_.replacer_size_ := by
      rw [hinv.rsize]; exact frame_le_toInt32 hinv.size_lt hf1
    obtain ⟨r1, r2, h1, h2⟩ := touch_ok hinv.rinv hle
    obtain ⟨hi, hs, htr, hev, htf, hnev⟩ := touch_replacer hinv.rinv h1 h2
    obtain ⟨s2, hs2, e1, e2, e3, e4, e5, e6, e7, _, e9⟩ := FetchPage_hit s hl p f hfind r1 r2 h1 h2
    refine ⟨_, s2, hs2, ?_, e6, ?_, e1⟩
    swap
    · intro hm _
      unfold BufferPoolManager.Mapped
      rw [e1, e2, e3, e5]
      exact hm
    have hc := toNat_cond hf0 hf1 hinv.pages_len
    unfold BufferPoolManager.Inv
    rw [e1, e2, e3, e4]
    apply PoolInv_used_step f hinv hf0 hf1 hnf e7 hs hi ?_ ?_ htr hev htf ?_
    · intro g hg hg0
      rw [e9 g, if_neg (toNat_ne_of_ne hf0 hg0 hg)]
    · rw [e9 f, if_pos hc]
    · rw [e9 f, if_pos hc]
      simp [hnev]
  | none =>
    cases hfree : s.free_list_ with
    | cons f rest =>
      have hfF : f ∈ s.free_list_ := by rw [hfree]; exact List.mem_cons_self _ _
      obtain ⟨hf0, hf1, ⟨hnt, hpin, hdirty, hTf⟩, _⟩ := hinv.free_idle hfF
      have hle : f ≤ toInt32 s.replacer_.replacer_size_ := by
        rw [hinv.rsize]; exact frame_le_toInt32 hinv.size_lt hf1
      obtain ⟨r1, r2, h1, h2⟩ := touch_ok hinv.rinv hle
      obtain ⟨hi, hs, htr, hev, htf, hnev⟩ := touch_replacer hinv.rinv h1 h2
      obtain ⟨s2, hs2, e1, e2, e3, e4, e5, e6, e7, _, e9⟩ :=
        FetchPage_free s hl p f hfind rest hfree r1 r2 h1 h2
      refine ⟨_, s2, hs2, ?_, e6, ?_, e1⟩
      swap
      · rintro ⟨hm1, hm2⟩ hp
        unfold BufferPoolManager.Mapped
        rw [e1, e2, e3, e5]
        apply Mapped_install hm1 hm2 (fun e he => he) (fun e he _ => he)
          (fun e he _ => PageTable.find_none hfind e he) ?_ (le_refl _) hp
        intro g hg hgr hgF
        rw [hfree] at hgF
        rcases List.mem_cons.mp hgF with h | h
        · exact hg h
        · exact hgr h
      have hnd := hinv.free_nodup
      rw [hfree, List.nodup_cons] at hnd
      have hc := toNat_cond hf0 hf1 hinv.pages_len
      unfold BufferPoolManager.Inv
      rw [e1, e2, e3, e4]
      apply PoolInv_install f p hinv hf0 hf1 (fun e he => ⟨he, hTf e he⟩)
        hinv.table_keys ?_ hnd.2 hnd.1 hs hi htr hev htf hnev e7 ?_ ?_ ?_
      · intro g hg
        rw [hfree]
        simp [hg]
      · intro g hg hg0
        rw [e9 g, if_neg (toNat_ne_of_ne hf0 hg0 hg)]
      · rw [e9 f, if_pos hc]
      · rw [e9 f, if_pos hc]
        simp
    | nil =>
      cases hev0 : s.replacer_.Evict with
      | mk v r0 =>
        cases v with
        | none =>
          have h0 : s.replacer_.Evict.1 = none := by rw [hev0]
          exact ⟨none, s, FetchPage_full s hl p hfind hfree h0, hinv, hl, fun h _ => h, rfl⟩
        | some f =>
          obtain ⟨hi0, hs0, _, hevf, hrem⟩ := Evict_nodes hinv.rinv hev0
          obtain ⟨hf0, hf1, hnf, hiff⟩ := hinv.tracked_used (evictable_tracked hevf)
          have hle : f ≤ toInt32 r0.replacer_size_ := by
            rw [hs0, hinv.rsize]; exact frame_le_toInt32 hinv.size_lt hf1
          obtain ⟨r1, r2, h1, h2⟩ := touch_ok hi0 hle
          obtain ⟨hi, hs, htr, hev, htf, hnev⟩ := touch_replacer hi0 h1 h2
          obtain ⟨s2, hs2, e1, e2, e3, e4, e5, e6, e7, _, e9⟩ :=
            FetchPage_evict s hl p f hfind hfree r0 r1 r2 hev0 h1 h2
          refine ⟨_, s2, hs2, ?_, e6, ?_, e1⟩
          swap
          · rintro ⟨hm1, hm2⟩ hp
            unfold BufferPoolManager.Mapped
            rw [e1, e2, e3, e5]
            apply Mapped_install hm1 hm2 (fun e he => (PageTable.mem_erase.mp he).1)
              (erase_keeps_others hinv (hm2 f hf0 hf1 hnf))
              (fun e he _ => PageTable.find_none hfind e (PageTable.mem_erase.mp he).1) ?_
              (le_refl _) hp
            intro g _ _
            rw [hfree]
            simp
          have hc := toNat_cond hf0 hf1 hinv.pages_len
          unfold BufferPoolManager.Inv
          rw [e1, e2, e3, e4]
          apply PoolInv_install f p hinv hf0 hf1 ?_
            (PageTable.erase_keys _ hinv.table_keys) ?_ List.nodup_nil (by simp)
            (hs.trans hs0) hi ?_ ?_ htf hnev e7 ?_ ?_ ?_
          · intro e he
            obtain ⟨he1, he2⟩ := PageTable.mem_erase.mp he
            refine ⟨he1, fun hef => he2 ?_⟩
            rw [← hinv.table_page e he1, hef]
          · intro g _
            rw [hfree]
          · intro g hg
            rw [htr g hg, hrem.tracked_other g hg]
          · intro g hg
            rw [hev g hg, hrem.evictable_other g hg]
          · intro g hg hg0
            rw [e9 g, if_neg (toNat_ne_of_ne hf0 hg0 hg)]
          · rw [e9 f, if_pos hc]
          · rw [e9 f, if_pos hc]
            simp
/-! ## Buffer pool: reachable states -/

theorem step_of_latch_held {s : BufferPoolManager} (hl : s.latch_ = true) (c : Call) :
    s.step c = none := by
  cases c <;>
    simp [BufferPoolManager.step, BufferPoolManager.NewPage, BufferPoolManager.FetchPage,
      BufferPoolManager.UnpinPage, BufferPoolManager.FlushPage, BufferPoolManager.FlushAllPages,
      BufferPoolManager.DeletePage, hl, Outcome.post]

/-- A call that ends keeps the invariant of the pool; it keeps every in-use frame mapped
as long as a fetch asks for a page id below the allocation counter. -/
theorem Inv_step {s s2 : BufferPoolManager} (hinv : s.Inv) (c : Call)
    (h : s.step c = some s2) :
    s2.Inv ∧ s2.pool_size_ = s.pool_size_ ∧
      (s.Mapped → c.fetchesAllocated s = true → s2.Mapped) := by
  have hl : s.latch_ = false := by
    by_contra hl
    have hl2 : s.latch_ = true := by simpa using hl
    rw [step_of_latch_held hl2 c] at h
    cases h
  cases c with
  | new_page =>
    obtain ⟨v, s3, h1, h2, _, h4, h5⟩ := Inv_NewPage hinv hl
    simp only [BufferPoolManager.step, h1, Outcome.post, Option.some.injEq] at h
    subst h
    exact ⟨h2, h5, fun hm _ => h4 hm⟩
  | fetch_page p =>
    obtain ⟨v, s3, h1, h2, _, h4, h5⟩ := Inv_FetchPage hinv hl p
    simp only [BufferPoolManager.step, h1, Outcome.post, Option.some.injEq] at h
    subst h
    refine ⟨h2, h5, fun hm hc => h4 hm ?_⟩
    simpa [Call.fetchesAllocated] using hc
  | unpin_page p d =>
    obtain ⟨v, s3, h1, h2, _, h4, h5⟩ := Inv_UnpinPage hinv hl p d
    simp only [BufferPoolManager.step, h1, Outcome.post, Option.some.injEq] at h
    subst h
    exact ⟨h2, h5, fun hm _ => h4 hm⟩
  | flush_page p =>
    obtain ⟨v, s3, h1, h2, h4, h5⟩ := Inv_FlushPage hinv hl p
    simp only [BufferPoolManager.step, h1, Outcome.post, Option.some.injEq] at h
    subst h
    exact ⟨h2, h5, fun hm _ => h4 hm⟩
  | flush_all_pages =>
    obtain ⟨s3, h1, h2, _, h4, h5⟩ := Inv_FlushAllPages hinv hl
    simp only [BufferPoolManager.step, h1, Outcome.post, Option.some.injEq] at h
    subst h
    exact ⟨h2, h5, fun hm _ => h4 hm⟩
  | delete_page p =>
    obtain ⟨v, s3, h1, h2, _, h4, h5⟩ := Inv_DeletePage hinv hl p
    simp only [BufferPoolManager.step, h1, Outcome.post, Option.some.injEq] at h
    subst h
    exact ⟨h2, h5, fun hm _ => h4 hm⟩

theorem Inv_run (calls : List Call) :
    ∀ s s2 : BufferPoolManager, s.Inv → s.run calls = some s2 →
      s2.Inv ∧ s2.pool_size_ = s.pool_size_ ∧
        (s.Mapped → s.fetchesAllocated calls = true → s2.Mapped) := by
  induction calls with
  | nil =>
    intro s s2 hinv h
    simp only [BufferPoolManager.run, Option.some.injEq] at h
    subst h
    exact ⟨hinv, rfl, fun hm _ => hm⟩
  | cons c cs ih =>
    intro s s2 hinv h
    simp only [BufferPoolManager.run] at h
    cases hstep : s.step c with
    | none => simp [hstep] at h
    | some s1 =>
      simp only [hstep, Option.some_bind] at h
      obtain ⟨h1, h2, h3⟩ := Inv_step hinv c hstep
      obtain ⟨h4, h5, h6⟩ := ih s1 s2 h1 h
      refine ⟨h4, h5.trans h2, ?_⟩
      intro hm hf
      simp only [BufferPoolManager.fetchesAllocated, hstep, Bool.and_eq_true] at hf
      exact h6 (h3 hm hf.1) hf.2

theorem toInt32_of_lt {n : Nat} (h : n < 2 ^ 31) : toInt32 n = n := by
  have h1 : n % 2 ^ 32 = n := Nat.mod_eq_of_lt (by omega)
  unfold toInt32
  rw [h1, if_pos h]

theorem pageAt_replicate (n : Nat) (f : Int) :
    pageAt (List.replicate n Page.fresh) f = Page.fresh := by
  unfold pageAt
  by_cases h : f.toNat < n
  · simp [List.getD_eq_getElem?_getD, List.getElem?_replicate, h]
  · simp [List.getD_eq_getElem?_getD, List.getElem?_replicate, h]

theorem mem_free_new {pool_size : Nat} (hsize : pool_size < 2 ^ 31) (f : Int) :
    f ∈ (List.range pool_size).map (fun i => toInt32 i) ↔ 0 ≤ f ∧ f < pool_size := by
  rw [List.mem_map]
  constructor
  · rintro ⟨i, hi, rfl⟩
    rw [List.mem_range] at hi
    rw [toInt32_of_lt (by omega)]
    omega
  · rintro ⟨h0, h1⟩
    refine ⟨f.toNat, List.mem_range.mpr (by omega), ?_⟩
    rw [toInt32_of_lt (by omega)]
    omega

/-- A freshly constructed pool satisfies the invariant. -/
theorem Inv_new_pool (pool_size : Nat) (dm : DiskManager) (k : Nat)
    (hsize : pool_size < 2 ^ 31) :
    (BufferPoolManager.new pool_size dm k).Inv ∧
      (BufferPoolManager.new pool_size dm k).Mapped := by
  have hnt : ∀ f, ¬ (LRUKReplacer.new pool_size k).tracked f := by
    rintro f ⟨n, hn, _⟩
    simp [LRUKReplacer.new, LRUKReplacer.nodes] at hn
  constructor
  · refine ⟨hsize, by simp [BufferPoolManager.new], rfl, Inv_new pool_size k, ?_, ?_, ?_,
      by simp [BufferPoolManager.new], ?_, ?_, ?_, ?_⟩
    · simp only [BufferPoolManager.new]
      apply List.Nodup.map_on _ (List.nodup_range pool_size)
      intro a ha b hb hab
      rw [List.mem_range] at ha hb
      rw [toInt32_of_lt (by omega), toInt32_of_lt (by omega)] at hab
      exact_mod_cast hab
    · intro f hf
      exact (mem_free_new hsize f).mp hf
    · intro f hf
      exact absurd hf (hnt f)
    · intro e he
      simp [BufferPoolManager.new] at he
    · intro e he
      simp [BufferPoolManager.new] at he
    · intro f hf0 hf1 _
      left
      refine ⟨(mem_free_new hsize f).mpr ⟨hf0, hf1⟩, ⟨hnt f, ?_, ?_, ?_⟩, ?_⟩
      · simp only [BufferPoolManager.new]
        rw [pageAt_replicate]
        rfl
      · simp only [BufferPoolManager.new]
        rw [pageAt_replicate]
        rfl
      · intro e he
        simp [BufferPoolManager.new] at he
      · simp only [BufferPoolManager.new]
        rw [pageAt_replicate]
        rfl
    · intro h hh
      cases hh
  · constructor
    · intro e he
      simp [BufferPoolManager.new] at he
    · intro f hf0 hf1 hfF
      exact absurd ((mem_free_new hsize f).mpr ⟨hf0, hf1⟩) hfF
/-! ## Replacer: the ordering invariant -/

theorem getLastD_mem {l : List Nat} (h : l ≠ []) : l.getLastD 0 ∈ l := by
  induction l with
  | nil => exact absurd rfl h
  | cons a l ih =>
    cases l with
    | nil => simp [List.getLastD]
    | cons b l2 =>
      have := ih (by simp)
      simp only [List.getLastD_cons] at this ⊢
      exact List.mem_cons_of_mem _ this

theorem getLastD_cons_of_ne {l : List Nat} (a : Nat) (h : l ≠ []) :
    (a :: l).getLastD 0 = l.getLastD 0 := by
  cases l with
  | nil => exact absurd rfl h
  | cons b l2 => simp [List.getLastD_cons]

theorem dropLast_cons_ne_nil {l : List Nat} (a : Nat) (h : l ≠ []) : (a :: l).dropLast ≠ [] := by
  cases l with
  | nil => exact absurd rfl h
  | cons b l2 => simp [List.dropLast]

theorem length_dropLast_cons (l : List Nat) (a : Nat) : ((a :: l).dropLast).length = l.length := by
  simp [List.length_dropLast]

theorem mem_of_mem_dropLast_cons {l : List Nat} {a t : Nat} (h : t ∈ (a :: l).dropLast) :
    t = a ∨ t ∈ l := by
  have := List.dropLast_subset (a :: l) h
  simpa using this

theorem getD_last_of_length {l : List Nat} {k : Nat} (hk : 1 ≤ k) (h : l.length = k) :
    l.getD (k - 1) 0 = l.getLastD 0 := by
  have hne : l ≠ [] := by
    intro h0
    rw [h0] at h
    simp at h
    omega
  rw [List.getLastD_eq_getLast?, List.getLast?_eq_getElem?, List.getD_eq_getElem?_getD, h]

theorem decSizeT_of_pos {k : Nat} (h1 : 1 ≤ k) (h2 : k < 2 ^ 64) : decSizeT k = k - 1 := by
  unfold decSizeT
  omega

/-- The part of the ordering invariant that speaks of single nodes is kept when the node
of frame `f` is replaced by a node whose history is non-empty and holds, besides the
new timestamp, only timestamps of the old node. -/
theorem ord_nodes_step {r r2 : LRUKReplacer} {f : Int} {node : LRUKNode} (ho : r.OrdInv)
    (hrep : ReplacedBy r r2 f node)
    (hts : r2.current_timestamp_ = r.current_timestamp_ + 1)
    (hne : node.history_ ≠ [])
    (hsub : ∀ t ∈ node.history_, t = r.current_timestamp_ + 1 ∨
      ∃ n ∈ r.nodes, n.fid_ = f ∧ t ∈ n.history_) :
    (∀ n ∈ r2.nodes, n.history_ ≠ []) ∧
    (∀ n ∈ r2.nodes, ∀ t ∈ n.history_, t ≤ r2.current_timestamp_) ∧
    (∀ a ∈ r2.nodes, ∀ b ∈ r2.nodes, a.fid_ ≠ b.fid_ → ∀ t ∈ a.history_, t ∉ b.history_) := by
  obtain ⟨hnf, hmem⟩ := hrep
  have hbound : ∀ t ∈ node.history_, t ≤ r.current_timestamp_ + 1 := by
    intro t ht
    rcases hsub t ht with h | ⟨n, hn, _, htn⟩
    · omega
    · have := ho.ts_bound n hn t htn
      omega
  refine ⟨?_, ?_, ?_⟩
  · intro n hn
    rcases (hmem n).mp hn with rfl | ⟨h1, _⟩
    · exact hne
    · exact ho.hist_ne n h1
  · intro n hn t ht
    rw [hts]
    rcases (hmem n).mp hn with rfl | ⟨h1, _⟩
    · exact hbound t ht
    · have := ho.ts_bound n h1 t ht
      omega
  · intro a ha b hb hab t hta htb
    rcases (hmem a).mp ha with rfl | ⟨ha1, ha2⟩
    · rcases (hmem b).mp hb with rfl | ⟨hb1, hb2⟩
      · exact hab rfl
      · rcases hsub t hta with h | ⟨n, hn, hnf2, htn⟩
        · have := ho.ts_bound b hb1 t htb
          omega
        · exact ho.disjoint n hn b hb1 (by rw [hnf2]; exact fun h => hb2 h.symm) t htn htb
    · rcases (hmem b).mp hb with rfl | ⟨hb1, _⟩
      · rcases hsub t htb with h | ⟨n, hn, hnf2, htn⟩
        · have := ho.ts_bound a ha1 t hta
          omega
        · exact ho.disjoint a ha1 n hn (by rw [hnf2]; exact ha2) t hta htn
      · exact ho.disjoint a ha1 b hb1 hab t hta htb

/-- The ordering invariant is kept when nodes are erased from the lists. -/
theorem OrdInv_sublist {r : LRUKReplacer} (r2 : LRUKReplacer) (ho : r.OrdInv)
    (hl : r2.less_k_nodes_.Sublist r.less_k_nodes_)
    (hov : r2.over_k_nodes_.Sublist r.over_k_nodes_)
    (hk : r2.k_ = r.k_) (hts : r2.current_timestamp_ = r.current_timestamp_) : r2.OrdInv := by
  have hn : ∀ n ∈ r2.nodes, n ∈ r.nodes := by
    intro n hn
    rcases mem_nodes.mp hn with h | h
    · exact mem_nodes.mpr (Or.inl (hl.subset h))
    · exact mem_nodes.mpr (Or.inr (hov.subset h))
  refine ⟨by rw [hk]; exact ho.k_pos, by rw [hk]; exact ho.k_lt, ?_, ?_, ?_, ?_, ?_, ?_, ?_, ?_⟩
  · exact fun n h => ho.hist_ne n (hn n h)
  · intro n h t ht
    rw [hts]
    exact ho.ts_bound n (hn n h) t ht
  · exact fun a ha b hb => ho.disjoint a (hn a ha) b (hn b hb)
  · intro n h
    rw [hk]
    exact ho.less_len n (hl.subset h)
  · exact ho.less_sorted.sublist hl
  · intro n h
    rw [hk]
    exact ho.over_len n (hov.subset h)
  · exact fun n h => ho.over_min n (hov.subset h)
  · exact ho.over_sorted.sublist hov

/-- The ordering invariant is kept when only evictable flags change. -/
theorem OrdInv_flag {r : LRUKReplacer} (r2 : LRUKReplacer) (ho : r.OrdInv) (f : Int) (b : Bool)
    (hl : r2.less_k_nodes_ = r.less_k_nodes_.map
      (fun m => if m.fid_ = f then { m with is_evictable_ := b } else m))
    (hov : r2.over_k_nodes_ = r.over_k_nodes_.map
      (fun m => if m.fid_ = f then { m with is_evictable_ := b } else m))
    (hk : r2.k_ = r.k_) (hts : r2.current_timestamp_ = r.current_timestamp_) : r2.OrdInv := by
  have hG : ∀ m : LRUKNode,
      (if m.fid_ = f then ({ m with is_evictable_ := b } : LRUKNode) else m).history_ = m.history_
      ∧ (if m.fid_ = f then ({ m with is_evictable_ := b } : LRUKNode) else m).fid_ = m.fid_
      ∧ (if m.fid_ = f then ({ m with is_evictable_ := b } : LRUKNode) else m).min_history_size_
          = m.min_history_size_ := by
    intro m
    by_cases h : m.fid_ = f <;> simp [h]
  have hn : ∀ n ∈ r2.nodes, ∃ m ∈ r.nodes, n.history_ = m.history_ ∧ n.fid_ = m.fid_ := by
    intro n hn
    rcases mem_nodes.mp hn with h | h
    · rw [hl, List.mem_map] at h
      obtain ⟨m, hm, rfl⟩ := h
      exact ⟨m, mem_nodes.mpr (Or.inl hm), (hG m).1, (hG m).2.1⟩
    · rw [hov, List.mem_map] at h
      obtain ⟨m, hm, rfl⟩ := h
      exact ⟨m, mem_nodes.mpr (Or.inr hm), (hG m).1, (hG m).2.1⟩
  refine ⟨by rw [hk]; exact ho.k_pos, by rw [hk]; exact ho.k_lt, ?_, ?_, ?_, ?_, ?_, ?_, ?_, ?_⟩
  · intro n h
    obtain ⟨m, hm, h1, _⟩ := hn n h
    rw [h1]
    exact ho.hist_ne m hm
  · intro n h t ht
    obtain ⟨m, hm, h1, _⟩ := hn n h
    rw [hts]
    rw [h1] at ht
    exact ho.ts_bound m hm t ht
  · intro a ha c hc hac t hta htc
    obtain ⟨m, hm, h1, h2⟩ := hn a ha
    obtain ⟨m2, hm2, h3, h4⟩ := hn c hc
    rw [h1] at hta
    rw [h3] at htc
    rw [h2, h4] at hac
    exact ho.disjoint m hm m2 hm2 hac t hta htc
  · intro n h
    rw [hl, List.mem_map] at h
    obtain ⟨m, hm, rfl⟩ := h
    rw [(hG m).1, hk]
    exact ho.less_len m hm
  · rw [hl, List.pairwise_map]
    apply ho.less_sorted.imp
    intro a c hac
    simp only [LRUKNode.oldest, (hG a).1, (hG c).1]
    exact hac
  · intro n h
    rw [hov, List.mem_map] at h
    obtain ⟨m, hm, rfl⟩ := h
    rw [(hG m).1, hk]
    exact ho.over_len m hm
  · intro n h
    rw [hov, List.mem_map] at h
    obtain ⟨m, hm, rfl⟩ := h
    simp only [LRUKNode.oldest, (hG m).1, (hG m).2.2]
    exact ho.over_min m hm
  · rw [hov, List.pairwise_map]
    apply ho.over_sorted.imp
    intro a c hac
    rw [(hG a).2.2, (hG c).2.2]
    exact hac

theorem OrdInv_SetEvictable {r r2 : LRUKReplacer} {f : Int} {b : Bool} (hinv : r.Inv)
    (ho : r.OrdInv) (h : r.SetEvictable f b = .ok r2) : r2.OrdInv := by
  obtain ⟨_, _, _, hl, hov, hts, hk, _⟩ := SetEvictable_ok_shape hinv h
  exact OrdInv_flag r2 ho f b hl hov hk hts

theorem OrdInv_Remove {r r2 : LRUKReplacer} {f : Int} (hinv : r.Inv) (ho : r.OrdInv)
    (h : r.Remove f = .ok r2) : r2.OrdInv := by
  obtain ⟨_, _, _, _, rfl⟩ := Remove_ok_shape hinv h
  exact OrdInv_sublist _ ho (eraseP_fid_sublist f _) (eraseP_fid_sublist f _) rfl rfl

theorem OrdInv_Evict {r : LRUKReplacer} (ho : r.OrdInv) : r.Evict.2.OrdInv := by
  unfold LRUKReplacer.Evict
  split
  · exact OrdInv_sublist _ ho (List.eraseP_sublist _) (List.Sublist.refl _) rfl rfl
  · split
    · exact OrdInv_sublist _ ho (List.Sublist.refl _) (List.eraseP_sublist _) rfl rfl
    · exact ho

theorem Inv_Evict {r : LRUKReplacer} (hinv : r.Inv) : r.Evict.2.Inv := by
  cases h : r.Evict with
  | mk v r2 =>
    cases v with
    | none =>
      have h1 : r.Evict.1 = none := by rw [h]
      rw [Evict_none_state h1] at h
      simp only [Prod.mk.injEq, true_and] at h
      rw [← h]
      exact hinv
    | some f => exact (Evict_nodes hinv h).1

/-- Operation `RecordAccess` keeps the ordering invariant. -/
theorem OrdInv_RecordAccess {r r2 : LRUKReplacer} {f : Int} (hinv : r.Inv) (ho : r.OrdInv)
    (h : r.RecordAccess f = .ok r2) : r2.OrdInv := by
  obtain ⟨hi2, _, hk2, node, hrep, _⟩ := RecordAccess_nodes hinv h
  have hkd : decSizeT r.k_ = r.k_ - 1 := decSizeT_of_pos ho.k_pos ho.k_lt
  have hnode_eq : ∀ n2 : LRUKNode, n2 ∈ r2.nodes → n2.fid_ = f → node = n2 := by
    intro n2 hn2 hf2
    exact hi2.eq_of_fid ((hrep.2 node).mpr (Or.inl rfl)) hn2 (hrep.1.trans hf2.symm)
  have hold_lt : ∀ a ∈ r.nodes, a.oldest < r.current_timestamp_ + 1 := by
    intro a ha
    have := ho.ts_bound a ha a.oldest (getLastD_mem (ho.hist_ne a ha))
    omega
  rcases RecordAccess_ok_cases hinv h with
    ⟨hnt, hr2⟩ | ⟨n, hn, hnf, hr2⟩ | ⟨n, hn, hnf, hlen, hr2⟩ | ⟨n, hn, hnf, hlen, hr2⟩
  · -- a first access
    have hmem : ({ LRUKNode.fresh with fid_ := f, history_ := [r.current_timestamp_ + 1] } :
        LRUKNode) ∈ r2.nodes := by
      rw [hr2]; simp [LRUKReplacer.nodes]
    have hnd := hnode_eq _ hmem rfl
    obtain ⟨g1, g2, g3⟩ := ord_nodes_step ho hrep (by rw [hr2]) (by rw [hnd]; simp)
      (by rw [hnd]; intro t ht; left; simpa using ht)
    refine ⟨by rw [hk2]; exact ho.k_pos, by rw [hk2]; exact ho.k_lt, g1, g2, g3, ?_, ?_, ?_, ?_, ?_⟩
    · intro m hm hk
      rw [hr2] at hm
      simp only [List.mem_append, List.mem_singleton] at hm
      rw [hk2] at hk ⊢
      rcases hm with h1 | rfl
      · exact ho.less_len m h1 hk
      · simp only [List.length_singleton]; omega
    · rw [hr2]
      simp only
      rw [List.pairwise_append]
      refine ⟨ho.less_sorted, List.pairwise_singleton _ _, ?_⟩
      intro a ha b hb
      rw [List.mem_singleton.mp hb]
      simpa [LRUKNode.oldest] using hold_lt a (mem_nodes.mpr (Or.inl ha))
    · intro m hm
      rw [hr2] at hm
      rw [hk2]
      exact ho.over_len m hm
    · intro m hm
      rw [hr2] at hm
      exact ho.over_min m hm
    · rw [hr2]
      exact ho.over_sorted
  · -- an access to a node of over_k_nodes_
    have hnn := mem_nodes.mpr (Or.inr hn)
    have hmem : ({ n with
        history_ := ((r.current_timestamp_ + 1) :: n.history_).dropLast
        min_history_size_ := (((r.current_timestamp_ + 1) :: n.history_).dropLast).getLastD 0 } :
        LRUKNode) ∈ r2.nodes := by
      rw [hr2]; simp [LRUKReplacer.nodes, mem_InsertOrder]
    have hnd := hnode_eq _ hmem hnf
    have hne2 := dropLast_cons_ne_nil (r.current_timestamp_ + 1) (ho.hist_ne n hnn)
    obtain ⟨g1, g2, g3⟩ := ord_nodes_step ho hrep (by rw [hr2]) (by rw [hnd]; exact hne2)
      (by
        rw [hnd]
        intro t ht
        rcases mem_of_mem_dropLast_cons ht with h1 | h1
        · exact Or.inl h1
        · exact Or.inr ⟨n, hnn, hnf, h1⟩)
    refine ⟨by rw [hk2]; exact ho.k_pos, by rw [hk2]; exact ho.k_lt, g1, g2, g3, ?_, ?_, ?_, ?_, ?_⟩
    · intro m hm
      rw [hr2] at hm
      rw [hk2]
      exact ho.less_len m hm
    · rw [hr2]
      exact ho.less_sorted
    · intro m hm
      rw [hr2] at hm
      rw [hk2]
      rcases (mem_InsertOrder _ _ m).mp hm with rfl | h1
      · simp only [length_dropLast_cons]
        exact ho.over_len n hn
      · exact ho.over_len m ((eraseP_fid_sublist f _).subset h1)
    · intro m hm
      rw [hr2] at hm
      rcases (mem_InsertOrder _ _ m).mp hm with rfl | h1
      · rfl
      · exact ho.over_min m ((eraseP_fid_sublist f _).subset h1)
    · rw [hr2]
      apply InsertOrder_sorted _ _ (ho.over_sorted.sublist (eraseP_fid_sublist f _))
      intro a ha heq
      have ha1 := (mem_eraseP_fid hinv.over_nodup f a).mp ha
      have ha2 : a ∈ r2.nodes := (hrep.2 a).mpr (Or.inr ⟨mem_nodes.mpr (Or.inr ha1.1), ha1.2⟩)
      have hamin : a.min_history_size_ ∈ a.history_ := by
        rw [ho.over_min a ha1.1]
        exact getLastD_mem (ho.hist_ne a (mem_nodes.mpr (Or.inr ha1.1)))
      refine g3 a ha2 _ hmem (by simpa [hnf] using ha1.2) _ hamin ?_
      rw [heq]
      exact getLastD_mem hne2
  · -- the access that completes K accesses
    have hnn := mem_nodes.mpr (Or.inl hn)
    have hmem : ({ n with
        history_ := (r.current_timestamp_ + 1) :: n.history_
        over_k_ := true
        min_history_size_ := ((r.current_timestamp_ + 1) :: n.history_).getLastD 0 } :
        LRUKNode) ∈ r2.nodes := by
      rw [hr2]; simp [LRUKReplacer.nodes, mem_InsertOrder]
    have hnd := hnode_eq _ hmem hnf
    obtain ⟨g1, g2, g3⟩ := ord_nodes_step ho hrep (by rw [hr2]) (by rw [hnd]; simp)
      (by
        rw [hnd]
        intro t ht
        rcases List.mem_cons.mp ht with h1 | h1
        · exact Or.inl h1
        · exact Or.inr ⟨n, hnn, hnf, h1⟩)
    have hpos : 0 < n.history_.length := List.length_pos.mpr (ho.hist_ne n hnn)
    refine ⟨by rw [hk2]; exact ho.k_pos, by rw [hk2]; exact ho.k_lt, g1, g2, g3, ?_, ?_, ?_, ?_, ?_⟩
    · intro m hm
      rw [hr2] at hm
      rw [hk2]
      exact ho.less_len m ((eraseP_fid_sublist f _).subset hm)
    · rw [hr2]
      exact ho.less_sorted.sublist (eraseP_fid_sublist f _)
    · intro m hm
      rw [hr2] at hm
      rw [hk2]
      rcases (mem_InsertOrder _ _ m).mp hm with rfl | h1
      · simp only [List.length_cons]
        rw [hlen, hkd]
        have := ho.k_pos
        omega
      · exact ho.over_len m h1
    · intro m hm
      rw [hr2] at hm
      rcases (mem_InsertOrder _ _ m).mp hm with rfl | h1
      · rfl
      · exact ho.over_min m h1
    · rw [hr2]
      apply InsertOrder_sorted _ _ ho.over_sorted
      intro a ha heq
      have hane : a.fid_ ≠ f := fun h1 => hinv.less_over_ne hn ha (hnf.trans h1.symm)
      have ha2 : a ∈ r2.nodes := (hrep.2 a).mpr (Or.inr ⟨mem_nodes.mpr (Or.inr ha), hane⟩)
      have hamin : a.min_history_size_ ∈ a.history_ := by
        rw [ho.over_min a ha]
        exact getLastD_mem (ho.hist_ne a (mem_nodes.mpr (Or.inr ha)))
      refine g3 a ha2 _ hmem (by simpa [hnf] using hane) _ hamin ?_
      rw [heq]
      exact getLastD_mem (by simp)
  · -- an access to a node that stays below K accesses
    have hnn := mem_nodes.mpr (Or.inl hn)
    have hmem : ({ n with history_ := (r.current_timestamp_ + 1) :: n.history_ } :
        LRUKNode) ∈ r2.nodes := by
      rw [hr2]
      apply mem_nodes.mpr
      left
      simp only
      rw [List.mem_map]
      exact ⟨n, hn, by simp [hnf]⟩
    have hnd := hnode_eq _ hmem hnf
    obtain ⟨g1, g2, g3⟩ := ord_nodes_step ho hrep (by rw [hr2]) (by rw [hnd]; simp)
      (by
        rw [hnd]
        intro t ht
        rcases List.mem_cons.mp ht with h1 | h1
        · exact Or.inl h1
        · exact Or.inr ⟨n, hnn, hnf, h1⟩)
    have hold : ∀ m : LRUKNode, m ∈ r.less_k_nodes_ →
        (if m.fid_ = f then
          ({ m with history_ := (r.current_timestamp_ + 1) :: m.history_ } : LRUKNode)
          else m).oldest = m.oldest := by
      intro m hm
      by_cases hmf : m.fid_ = f
      · simp only [hmf, if_true, LRUKNode.oldest]
        exact getLastD_cons_of_ne _ (ho.hist_ne m (mem_nodes.mpr (Or.inl hm)))
      · simp [hmf]
    refine ⟨by rw [hk2]; exact ho.k_pos, by rw [hk2]; exact ho.k_lt, g1, g2, g3, ?_, ?_, ?_, ?_, ?_⟩
    · intro m hm hk
      rw [hr2] at hm
      simp only [List.mem_map] at hm
      obtain ⟨a, ha, rfl⟩ := hm
      rw [hk2] at hk ⊢
      by_cases haf : a.fid_ = f
      · have : a = n := hinv.eq_of_fid (mem_nodes.mpr (Or.inl ha)) hnn (haf.trans hnf.symm)
        subst this
        simp only [haf, if_true, List.length_cons]
        have := ho.less_len a ha hk
        rw [hkd] at hlen
        omega
      · simp only [haf, if_false]
        exact ho.less_len a ha hk
    · rw [hr2]
      simp only
      rw [List.pairwise_map]
      apply ho.less_sorted.imp_of_mem
      intro a c ha hc hac
      rw [hold a ha, hold c hc]
      exact hac
    · intro m hm
      rw [hr2] at hm
      rw [hk2]
      exact ho.over_len m hm
    · intro m hm
      rw [hr2] at hm
      exact ho.over_min m hm
    · rw [hr2]
      exact ho.over_sorted

theorem OrdInv_new (num_frames k : Nat) (h1 : 1 ≤ k) (h2 : k < 2 ^ 64) :
    (LRUKReplacer.new num_frames k).OrdInv := by
  refine ⟨h1, h2, ?_, ?_, ?_, ?_, ?_, ?_, ?_, ?_⟩ <;>
    simp [LRUKReplacer.new, LRUKReplacer.nodes]

theorem k_RecordAccess {r r2 : LRUKReplacer} {f : Int} (h : r.RecordAccess f = .ok r2) :
    r2.k_ = r.k_ := by
  unfold LRUKReplacer.RecordAccess at h
  split at h
  · cases h
  · simp only at h
    split at h
    · injection h with h; rw [← h]
    · split at h
      · injection h with h; rw [← h]
      · split at h
        · injection h with h; rw [← h]
        · injection h with h
          rw [← h]
          unfold LRUKReplacer.modify
          split <;> rfl

theorem k_Evict (r : LRUKReplacer) : r.Evict.2.k_ = r.k_ := by
  unfold LRUKReplacer.Evict
  split
  · rfl
  · split <;> rfl

/-- A call keeps both invariants of the replacer and the parameter `k_`. -/
theorem replacer_inv_step {r : LRUKReplacer} (hinv : r.Inv) (ho : r.OrdInv) (c : ReplacerCall) :
    (r.step c).Inv ∧ (r.step c).OrdInv ∧ (r.step c).k_ = r.k_ := by
  cases c with
  | record_access f =>
    simp only [LRUKReplacer.step]
    cases h : r.RecordAccess f with
    | error e => exact ⟨hinv, ho, rfl⟩
    | ok r2 => exact ⟨(RecordAccess_nodes hinv h).1, OrdInv_RecordAccess hinv ho h, k_RecordAccess h⟩
  | set_evictable f b =>
    simp only [LRUKReplacer.step]
    cases h : r.SetEvictable f b with
    | error e => exact ⟨hinv, ho, rfl⟩
    | ok r2 =>
      exact ⟨(SetEvictable_nodes hinv h).1, OrdInv_SetEvictable hinv ho h,
        (SetEvictable_nodes hinv h).2.2.1⟩
  | evict =>
    simp only [LRUKReplacer.step]
    exact ⟨Inv_Evict hinv, OrdInv_Evict ho, k_Evict r⟩
  | remove f =>
    simp only [LRUKReplacer.step]
    cases h : r.Remove f with
    | error e => exact ⟨hinv, ho, rfl⟩
    | ok r2 =>
      exact ⟨(Remove_nodes hinv h).1, OrdInv_Remove hinv ho h, (Remove_nodes hinv h).2.2.1⟩

theorem replacer_inv_run (calls : List ReplacerCall) :
    ∀ r : LRUKReplacer, r.Inv → r.OrdInv →
      (r.run calls).Inv ∧ (r.run calls).OrdInv ∧ (r.run calls).k_ = r.k_ := by
  induction calls with
  | nil => intro r h1 h2; exact ⟨h1, h2, rfl⟩
  | cons c cs ih =>
    intro r h1 h2
    obtain ⟨g1, g2, g3⟩ := replacer_inv_step h1 h2 c
    obtain ⟨g4, g5, g6⟩ := ih (r.step c) g1 g2
    simp only [LRUKReplacer.run, List.foldl_cons] at g4 g5 g6 ⊢
    exact ⟨g4, g5, g6.trans g3⟩

/-- The first node of a list that satisfies `p` comes before every other node that
satisfies `p`. -/
theorem find_first_pairwise {l : List LRUKNode} {p : LRUKNode → Bool} {v : LRUKNode}
    {R : LRUKNode → LRUKNode → Prop} (hfind : l.find? p = some v) (hs : l.Pairwise R) :
    ∀ w ∈ l, p w = true → w ≠ v → R v w := by
  obtain ⟨_, as, bs, rfl, has⟩ := List.find?_eq_some.mp hfind
  intro w hw hpw hwv
  rw [List.pairwise_append, List.pairwise_cons] at hs
  rcases List.mem_append.mp hw with h1 | h1
  · have := has w h1
    rw [hpw] at this
    cases this
  · rcases List.mem_cons.mp h1 with h2 | h2
    · exact absurd h2 hwv
    · exact hs.2.1.1 w h2
/-! ## Buffer pool: pinned frames, frame partition -/

/-- C2. A pinned frame is never evictable. In every state reached from a freshly
constructed pool (of a size below `2 ^ 31`, so that frame ids fit `frame_id_t`) by a
sequence of `NewPage`, `FetchPage`, `UnpinPage`, `FlushPage`, `FlushAllPages` and
`DeletePage` calls, every frame with a positive pin count has a node in the replacer
that is flagged non-evictable, no node of that frame is evictable, and `Evict` does
not return it; and every node that the replacer holds as evictable belongs to a frame
with pin count zero. -/
theorem pinned_frame_never_evictable (pool_size k : Nat) (dm : DiskManager)
    (calls : List Call) (s : BufferPoolManager) (hsize : pool_size < 2 ^ 31)
    (hrun : (BufferPoolManager.new pool_size dm k).run calls = some s) :
    (∀ f : Int, 0 ≤ f → f < pool_size → 0 < (s.page f).pin_count_ →
      (∃ n ∈ s.replacer_.nodes, n.fid_ = f ∧ n.is_evictable_ = false) ∧
        ¬ s.replacer_.evictable f ∧ s.replacer_.Evict.1 ≠ some f) ∧
    (∀ n ∈ s.replacer_.nodes, n.is_evictable_ = true →
      0 ≤ n.fid_ ∧ n.fid_ < pool_size ∧ (s.page n.fid_).pin_count_ = 0) := by
  obtain ⟨hinv, hps, _⟩ := Inv_run calls _ s (Inv_new_pool pool_size dm k hsize).1 hrun
  have hps2 : s.pool_size_ = pool_size := hps
  constructor
  · intro f hf0 hf1 hpin
    rw [← hps2] at hf1
    rcases hinv.frame f hf0 hf1 (by simp) with ⟨_, ⟨_, h2, _⟩, _⟩ | ⟨_, h2, h3⟩
    · rw [page_eq_pageAt] at hpin
      omega
    · have hne : ¬ s.replacer_.evictable f := by
        rw [h3]
        rw [page_eq_pageAt] at hpin
        omega
      refine ⟨?_, hne, ?_⟩
      · obtain ⟨n, hn, hnf⟩ := h2
        refine ⟨n, hn, hnf, ?_⟩
        by_contra hflag
        exact hne ⟨n, hn, hnf, by simpa using hflag⟩
      · intro hev
        have hev2 : s.replacer_.Evict = (some f, s.replacer_.Evict.2) := by
          rw [← hev]
        exact hne (Evict_nodes hinv.rinv hev2).2.2.2.1
  · intro n hn hflag
    have htr : s.replacer_.tracked n.fid_ := ⟨n, hn, rfl⟩
    obtain ⟨h0, h1, _, h3⟩ := hinv.tracked_used htr
    rw [hps2] at h1
    exact ⟨h0, h1, h3.mp ⟨n, hn, rfl, hflag⟩⟩

/-- A pool of two frames after `new_page`, `new_page`, `unpin_page(0)`: frame 1 is pinned
and frame 0 is not; the theorem applies to this state. -/
theorem pinned_frame_never_evictable_witness :
    (BufferPoolManager.new 2 ⟨[]⟩ 2).run [.new_page, .new_page, .unpin_page 0 false]
      = some (BufferPoolManager.afterCalls 2 2 [.new_page, .new_page, .unpin_page 0 false]) ∧
    ((BufferPoolManager.afterCalls 2 2
      [.new_page, .new_page, .unpin_page 0 false]).page 1).pin_count_ = 1 ∧
    (∀ f : Int, 0 ≤ f → f < (2 : Nat) →
      0 < ((BufferPoolManager.afterCalls 2 2
        [.new_page, .new_page, .unpin_page 0 false]).page f).pin_count_ →
      (∃ n ∈ (BufferPoolManager.afterCalls 2 2
          [.new_page, .new_page, .unpin_page 0 false]).replacer_.nodes,
        n.fid_ = f ∧ n.is_evictable_ = false) ∧
      ¬ (BufferPoolManager.afterCalls 2 2
          [.new_page, .new_page, .unpin_page 0 false]).replacer_.evictable f ∧
      (BufferPoolManager.afterCalls 2 2
          [.new_page, .new_page, .unpin_page 0 false]).replacer_.Evict.1 ≠ some f) :=
  ⟨rfl, by decide,
    (pinned_frame_never_evictable 2 2 ⟨[]⟩ [.new_page, .new_page, .unpin_page 0 false]
      (BufferPoolManager.afterCalls 2 2 [.new_page, .new_page, .unpin_page 0 false])
      (by norm_num) rfl).1⟩

/-- C3, as stated, fails: in a pool of two frames, `fetch_page(0)` followed by
`new_page` (which allocates page id 0 again and overwrites the page-table entry)
leaves an empty free list and a page table with one entry. -/
theorem frame_partition_counterexample :
    (BufferPoolManager.new 2 ⟨[]⟩ 2).run [.fetch_page 0, .new_page]
      = some (BufferPoolManager.afterCalls 2 2 [.fetch_page 0, .new_page]) ∧
    (BufferPoolManager.afterCalls 2 2 [.fetch_page 0, .new_page]).free_list_.length
      + (BufferPoolManager.afterCalls 2 2 [.fetch_page 0, .new_page]).page_table_.length = 1 ∧
    (BufferPoolManager.afterCalls 2 2 [.fetch_page 0, .new_page]).pool_size_ = 2 :=
  ⟨rfl, by decide, by decide⟩

/-- A duplicate-free list of integers holding exactly the integers of `[0, n)` has `n`
elements. -/
theorem length_of_nodup_range {l : List Int} {n : Nat} (hnd : l.Nodup)
    (hmem : ∀ f : Int, f ∈ l ↔ 0 ≤ f ∧ f < n) : l.length = n := by
  have h1 : l.toFinset = Finset.Ico (0 : Int) n := by
    ext f
    rw [List.mem_toFinset, hmem f, Finset.mem_Ico]
  have h2 := List.toFinset_card_of_nodup hnd
  rw [h1, Int.card_Ico] at h2
  simp at h2
  exact h2.symm

/-- The page table maps distinct page ids to distinct frames. -/
theorem PoolInv.table_values_nodup {P : Nat} {pages : List Page} {T : PageTable}
    {F : List Int} {r : LRUKReplacer} {hole : Option Int} (h : PoolInv P pages T F r hole) :
    (T.map Prod.snd).Nodup := by
  apply List.Nodup.map_on _ (List.Nodup.of_map _ h.table_keys)
  intro a ha b hb hab
  have h1 := h.table_page a ha
  have h2 := h.table_page b hb
  rw [hab, h2] at h1
  exact Prod.ext h1.symm hab

/-! ## Buffer pool: eviction, unpin, full pool -/

theorem PageTable.find_eq_none {t : PageTable} {p : Int} (h : ∀ e ∈ t, e.1 ≠ p) :
    t.find p = none := by
  unfold PageTable.find
  have : List.find? (fun e => e.1 == p) t = none := by
    rw [List.find?_eq_none]
    intro e he
    simpa using h e he
  rw [this]
  rfl

/-- After the entry of `old` is erased and `pid` is assigned, `old` is no longer mapped
unless it is `pid` itself. -/
theorem PageTable.find_erase_assign {t : PageTable} {old pid f : Int} (h : old ≠ pid) :
    ((t.erase old).assign pid f).find old = none := by
  apply PageTable.find_eq_none
  intro e he
  rcases PageTable.mem_assign.mp he with rfl | ⟨h1, _⟩
  · exact fun h2 => h h2.symm
  · exact (PageTable.mem_erase.mp h1).2

/-- C4. Dirty write-back on eviction. In a state reached from a freshly constructed pool
(of a size below `2 ^ 31`) with the latch free, an empty free list and `f` the victim
that the replacer evicts: `NewPage` returns the next page id in frame `f`, and a
`FetchPage` of a page id that is not resident returns frame `f`; in both cases the
disk manager receives exactly one `write_page` if the victim was dirty and none if it
was clean, the write carries the page id and the payload that the frame held before
the call (for `FetchPage` it precedes the read of the fetched page), the dirty bit of
the frame is clear afterwards, and the page table is the old one with the entry of
the evicted page id erased and the new page id assigned to `f`, so the evicted page
id is no longer mapped unless it is the new page id itself. -/
theorem dirty_write_back_on_eviction (pool_size k : Nat) (dm : DiskManager)
    (calls : List Call) (s : BufferPoolManager) (hsize : pool_size < 2 ^ 31)
    (hrun : (BufferPoolManager.new pool_size dm k).run calls = some s)
    (hl : s.latch_ = false) (hfree : s.free_list_ = []) (f : Int)
    (hvictim : s.replacer_.Evict.1 = some f) :
    (∃ s2, s.NewPage = .returned (some (s.next_page_id_, f)) s2 ∧
      s2.disk_manager_.log = s.disk_manager_.log ++
        (if (s.page f).is_dirty_ then
          [DiskOp.write (s.page f).page_id_ (s.page f).data_] else []) ∧
      (s2.page f).is_dirty_ = false ∧
      s2.page_table_ = (s.page_table_.erase (s.page f).page_id_).assign s.next_page_id_ f ∧
      ((s.page f).page_id_ ≠ s.next_page_id_ →
        s2.page_table_.find (s.page f).page_id_ = none)) ∧
    (∀ p, s.page_table_.find p = none →
      ∃ s2, s.FetchPage p = .returned (some f) s2 ∧
        s2.disk_manager_.log = (s.disk_manager_.log ++
          (if (s.page f).is_dirty_ then
            [DiskOp.write (s.page f).page_id_ (s.page f).data_] else [])) ++ [DiskOp.read p] ∧
        (s2.page f).is_dirty_ = false ∧
        s2.page_table_ = (s.page_table_.erase (s.page f).page_id_).assign p f ∧
        ((s.page f).page_id_ ≠ p → s2.page_table_.find (s.page f).page_id_ = none)) := by
  obtain ⟨hinv, _, _⟩ := Inv_run calls _ s (Inv_new_pool pool_size dm k hsize).1 hrun
  have hev0 : s.replacer_.Evict = (some f, s.replacer_.Evict.2) := by rw [← hvictim]
  obtain ⟨hi0, hs0, _, hevf, _⟩ := Evict_nodes hinv.rinv hev0
  obtain ⟨hf0, hf1, _, _⟩ := hinv.tracked_used (evictable_tracked hevf)
  have hle : f ≤ toInt32 s.replacer_.Evict.2.replacer_size_ := by
    rw [hs0, hinv.rsize]; exact frame_le_toInt32 hinv.size_lt hf1
  obtain ⟨r1, r2, h1, h2⟩ := touch_ok hi0 hle
  have hc := toNat_cond hf0 hf1 hinv.pages_len
  constructor
  · obtain ⟨s2, hs2, _, e2, _, _, _, _, _, e8, e9⟩ :=
      NewPage_evict s hl f hfree _ r1 r2 hev0 h1 h2
    refine ⟨s2, hs2, e8, ?_, e2, ?_⟩
    · rw [page_eq_pageAt, e9 f, if_pos hc]
    · intro hne
      rw [e2]
      exact PageTable.find_erase_assign hne
  · intro p hfind
    obtain ⟨s2, hs2, _, e2, _, _, _, _, _, e8, e9⟩ :=
      FetchPage_evict s hl p f hfind hfree _ r1 r2 hev0 h1 h2
    refine ⟨s2, hs2, e8, ?_, e2, ?_⟩
    · rw [page_eq_pageAt, e9 f, if_pos hc]
    · intro hne
      rw [e2]
      exact PageTable.find_erase_assign hne

/-- The scenario of the specification: a pool of one frame, `new_page`, `unpin_page` with
the dirty flag, then `new_page` again: the second `new_page` evicts frame 0 and the
disk manager sees exactly one `write_page`, of page 0. -/
theorem dirty_write_back_on_eviction_witness :
    (BufferPoolManager.new 1 ⟨[]⟩ 2).run [.new_page, .unpin_page 0 true]
      = some (BufferPoolManager.afterCalls 1 2 [.new_page, .unpin_page 0 true]) ∧
    (BufferPoolManager.afterCalls 1 2 [.new_page, .unpin_page 0 true]).latch_ = false ∧
    (BufferPoolManager.afterCalls 1 2 [.new_page, .unpin_page 0 true]).free_list_ = [] ∧
    (BufferPoolManager.afterCalls 1 2 [.new_page, .unpin_page 0 true]).replacer_.Evict.1
      = some 0 ∧
    ((BufferPoolManager.afterCalls 1 2 [.new_page, .unpin_page 0 true]).page 0).is_dirty_
      = true ∧
    ((BufferPoolManager.afterCalls 1 2 [.new_page, .unpin_page 0 true]).page 0).page_id_ = 0 ∧
    (BufferPoolManager.afterCalls 1 2 [.new_page, .unpin_page 0 true]).disk_manager_.log
      = [] ∧
    (∃ s2, (BufferPoolManager.afterCalls 1 2 [.new_page, .unpin_page 0 true]).NewPage
        = .returned (some
          ((BufferPoolManager.afterCalls 1 2 [.new_page, .unpin_page 0 true]).next_page_id_,
            0)) s2 ∧
      s2.disk_manager_.log
        = (BufferPoolManager.afterCalls 1 2 [.new_page, .unpin_page 0 true]).disk_manager_.log
          ++ (if ((BufferPoolManager.afterCalls 1 2
                [.new_page, .unpin_page 0 true]).page 0).is_dirty_ then
              [DiskOp.write
                ((BufferPoolManager.afterCalls 1 2
                  [.new_page, .unpin_page 0 true]).page 0).page_id_
                ((BufferPoolManager.afterCalls 1 2
                  [.new_page, .unpin_page 0 true]).page 0).data_]
            else [])) := by
  refine ⟨rfl, by decide, by decide, by decide, by decide, by decide, by decide, ?_⟩
  obtain ⟨s2, h1, h2, _⟩ := (dirty_write_back_on_eviction 1 2 ⟨[]⟩
    [.new_page, .unpin_page 0 true]
    (BufferPoolManager.afterCalls 1 2 [.new_page, .unpin_page 0 true])
    (by norm_num) rfl (by decide) (by decide) 0 (by decide)).1
  exact ⟨s2, h1, h2⟩

/-- C6. A full pool is reported without side effects. In every state with the latch
free, an empty free list and no evictable node in the replacer, `NewPage` returns a
null result and so does `FetchPage` of every page id that is not resident, and both
leave the whole state as it was: page table, free list, frames, replacer, allocation
counter and the log of the disk manager (no read and no write is issued). -/
theorem full_reported_without_side_effects (s : BufferPoolManager) (hl : s.latch_ = false)
    (hfree : s.free_list_ = [])
    (hnone : ∀ n ∈ s.replacer_.nodes, n.is_evictable_ = false) :
    s.NewPage = .returned none s ∧
    (∀ p, s.page_table_.find p = none → s.FetchPage p = .returned none s) := by
  have h0 : s.replacer_.Evict.1 = none := (Evict_none_iff s.replacer_).mpr hnone
  exact ⟨NewPage_full s hl hfree h0, fun p hfind => FetchPage_full s hl p hfind hfree h0⟩

/-- The scenario of the specification for a pool of two frames: after `fetch_page(5)` and
`fetch_page(6)` without an unpin, a fetch of one more page id and a `new_page` both
return null and change nothing. -/
theorem full_reported_without_side_effects_witness :
    (BufferPoolManager.afterCalls 2 2 [.fetch_page 5, .fetch_page 6]).latch_ = false ∧
    (BufferPoolManager.afterCalls 2 2 [.fetch_page 5, .fetch_page 6]).free_list_ = [] ∧
    (∀ n ∈ (BufferPoolManager.afterCalls 2 2 [.fetch_page 5, .fetch_page 6]).replacer_.nodes,
      n.is_evictable_ = false) ∧
    (BufferPoolManager.afterCalls 2 2 [.fetch_page 5, .fetch_page 6]).page_table_.find 7
      = none ∧
    (BufferPoolManager.afterCalls 2 2 [.fetch_page 5, .fetch_page 6]).NewPage
      = .returned none (BufferPoolManager.afterCalls 2 2 [.fetch_page 5, .fetch_page 6]) ∧
    (BufferPoolManager.afterCalls 2 2 [.fetch_page 5, .fetch_page 6]).FetchPage 7
      = .returned none (BufferPoolManager.afterCalls 2 2 [.fetch_page 5, .fetch_page 6]) :=
  ⟨by decide, by decide, by decide, by decide,
    (full_reported_without_side_effects
      (BufferPoolManager.afterCalls 2 2 [.fetch_page 5, .fetch_page 6])
      (by decide) (by decide) (by decide)).1,
    (full_reported_without_side_effects
      (BufferPoolManager.afterCalls 2 2 [.fetch_page 5, .fetch_page 6])
      (by decide) (by decide) (by decide)).2 7 (by decide)⟩

/-- C5. The contract of `UnpinPage`. In a state reached from a freshly constructed pool
(of a size below `2 ^ 31`) with the latch free: `UnpinPage(p, d)` returns false and
leaves the state unchanged if `p` is not in the page table or the pin count of its
frame is zero; otherwise it returns true, and in the state it leaves the dirty bit of
the frame is the old one or-ed with `d`, the pin count is one less, the frame is
evictable in the replacer exactly when the new pin count is zero, page id and
payload of the frame are unchanged, and no other frame, no other node of the
replacer and no other component of the pool has changed. -/
theorem unpin_page_contract (pool_size k : Nat) (dm : DiskManager) (calls : List Call)
    (s : BufferPoolManager) (hsize : pool_size < 2 ^ 31)
    (hrun : (BufferPoolManager.new pool_size dm k).run calls = some s)
    (hl : s.latch_ = false) (p : Int) (d : Bool) :
    (s.page_table_.find p = none → s.UnpinPage p d = .returned false s) ∧
    (∀ f, s.page_table_.find p = some f → (s.page f).pin_count_ = 0 →
      s.UnpinPage p d = .returned false s) ∧
    (∀ f, s.page_table_.find p = some f → (s.page f).pin_count_ ≠ 0 →
      ∃ s2, s.UnpinPage p d = .returned true s2 ∧
        (s2.page f).is_dirty_ = ((s.page f).is_dirty_ || d) ∧
        (s2.page f).pin_count_ + 1 = (s.page f).pin_count_ ∧
        (s2.replacer_.evictable f ↔ (s2.page f).pin_count_ = 0) ∧
        (s2.page f).page_id_ = (s.page f).page_id_ ∧
        (s2.page f).data_ = (s.page f).data_ ∧
        (∀ g : Int, 0 ≤ g → g ≠ f → s2.page g = s.page g) ∧
        (∀ g : Int, g ≠ f →
          ((s2.replacer_.tracked g ↔ s.replacer_.tracked g) ∧
           (s2.replacer_.evictable g ↔ s.replacer_.evictable g))) ∧
        s2.page_table_ = s.page_table_ ∧ s2.free_list_ = s.free_list_ ∧
        s2.next_page_id_ = s.next_page_id_ ∧ s2.disk_manager_ = s.disk_manager_ ∧
        s2.pool_size_ = s.pool_size_ ∧ s2.latch_ = false) := by
  obtain ⟨hinv, _, _⟩ := Inv_run calls _ s (Inv_new_pool pool_size dm k hsize).1 hrun
  obtain ⟨h1, h2, h3⟩ := UnpinPage_shape s p d hl
  refine ⟨h1, h2, ?_⟩
  intro f hfind hpin
  obtain ⟨hf0, hf1, hnf, htr, hev⟩ := hinv.mapped_used (PageTable.find_some hfind)
  simp only at hf0 hf1 hnf htr hev
  have hlen : f < s.pages_.length := by rw [hinv.pages_len]; exact hf1
  obtain ⟨h4, h5, _⟩ := h3 f hfind hpin hf0 hlen
  have hpf : pageAt (s.setPage f (fun q =>
        { q with is_dirty_ := q.is_dirty_ || d, pin_count_ := q.pin_count_ - 1 })).pages_ f
      = { pageAt s.pages_ f with
          is_dirty_ := (pageAt s.pages_ f).is_dirty_ || d
          pin_count_ := (pageAt s.pages_ f).pin_count_ - 1 } := by
    rw [pageAt_setPage s f f _ hf0 hlen hf0, if_pos rfl]
  have hpg : ∀ g : Int, 0 ≤ g → g ≠ f →
      pageAt (s.setPage f (fun q =>
        { q with is_dirty_ := q.is_dirty_ || d, pin_count_ := q.pin_count_ - 1 })).pages_ g
        = pageAt s.pages_ g := by
    intro g hg0 hg
    rw [pageAt_setPage s f g _ hf0 hlen hg0, if_neg hg]
  have hpin2 : (pageAt s.pages_ f).pin_count_ ≠ 0 := hpin
  by_cases hone : (s.page f).pin_count_ = 1
  · obtain ⟨r2, hr2⟩ := SetEvictable_ok_of_tracked true htr
    obtain ⟨_, _, _, _, node, hrep, hnode⟩ := SetEvictable_nodes hinv.rinv hr2
    have hone2 : (pageAt s.pages_ f).pin_count_ = 1 := hone
    refine ⟨_, h5 hone r2 hr2, ?_, ?_, ?_, ?_, ?_, ?_, ?_, rfl, rfl, rfl, rfl, rfl, hl⟩
    · simp only [page_eq_pageAt]; rw [hpf]
    · simp only [page_eq_pageAt]; rw [hpf]; simp only; omega
    · simp only [page_eq_pageAt]
      rw [hpf, hrep.evictable_self, hnode]
      simp only [true_iff]
      omega
    · simp only [page_eq_pageAt]; rw [hpf]
    · simp only [page_eq_pageAt]; rw [hpf]
    · intro g hg0 hg
      simp only [page_eq_pageAt]
      exact hpg g hg0 hg
    · intro g hg
      exact ⟨hrep.tracked_ne g hg, hrep.evictable_ne g hg⟩
  · have hone2 : (pageAt s.pages_ f).pin_count_ ≠ 1 := hone
    have hnev : ¬ s.replacer_.evictable f := fun h => hpin2 (hev.mp h)
    refine ⟨_, h4 hone, ?_, ?_, ?_, ?_, ?_, ?_, ?_, rfl, rfl, rfl, rfl, rfl, hl⟩
    · simp only [page_eq_pageAt]; rw [hpf]
    · simp only [page_eq_pageAt]; rw [hpf]; simp only; omega
    · simp only [page_eq_pageAt]
      rw [hpf]
      constructor
      · intro h; exact absurd h hnev
      · intro h
        simp only at h
        omega
    · simp only [page_eq_pageAt]; rw [hpf]
    · simp only [page_eq_pageAt]; rw [hpf]
    · intro g hg0 hg
      simp only [page_eq_pageAt]
      exact hpg g hg0 hg
    · intro g _
      exact ⟨Iff.rfl, Iff.rfl⟩

/-- A pool of two frames after `new_page`, `fetch_page(0)`, `unpin_page(0, true)`: page 0
is pinned once and dirty; the contract applies, and a further `unpin_page(0, false)`
keeps the dirty bit and makes the frame evictable. -/
theorem unpin_page_contract_witness :
    (BufferPoolManager.new 2 ⟨[]⟩ 2).run [.new_page, .fetch_page 0, .unpin_page 0 true]
      = some (BufferPoolManager.afterCalls 2 2
        [.new_page, .fetch_page 0, .unpin_page 0 true]) ∧
    (BufferPoolManager.afterCalls 2 2
      [.new_page, .fetch_page 0, .unpin_page 0 true]).latch_ = false ∧
    (BufferPoolManager.afterCalls 2 2
      [.new_page, .fetch_page 0, .unpin_page 0 true]).page_table_.find 0 = some 0 ∧
    ((BufferPoolManager.afterCalls 2 2
      [.new_page, .fetch_page 0, .unpin_page 0 true]).page 0).pin_count_ = 1 ∧
    ((BufferPoolManager.afterCalls 2 2
      [.new_page, .fetch_page 0, .unpin_page 0 true]).page 0).is_dirty_ = true ∧
    (∃ s2, (BufferPoolManager.afterCalls 2 2
        [.new_page, .fetch_page 0, .unpin_page 0 true]).UnpinPage 0 false
          = .returned true s2 ∧
      (s2.page 0).is_dirty_ = true ∧ (s2.page 0).pin_count_ = 0 ∧
      s2.replacer_.evictable 0) := by
  refine ⟨rfl, by decide, by decide, by decide, by decide, ?_⟩
  obtain ⟨s2, h1, h2, h3, h4, _⟩ := (unpin_page_contract 2 2 ⟨[]⟩
    [.new_page, .fetch_page 0, .unpin_page 0 true]
    (BufferPoolManager.afterCalls 2 2 [.new_page, .fetch_page 0, .unpin_page 0 true])
    (by norm_num) rfl (by decide) 0 false).2.2 0 (by decide) (by decide)
  have hd : ((BufferPoolManager.afterCalls 2 2
      [.new_page, .fetch_page 0, .unpin_page 0 true]).page 0).is_dirty_ = true := by decide
  have hp : ((BufferPoolManager.afterCalls 2 2
      [.new_page, .fetch_page 0, .unpin_page 0 true]).page 0).pin_count_ = 1 := by decide
  rw [hd] at h2
  rw [hp] at h3
  have h5 : (s2.page 0).pin_count_ = 0 := by omega
  exact ⟨s2, h1, by simpa using h2, h5, h4.mpr h5⟩
/-! ## Replacer: range check, K = 1 -/

/-- C9 fails on the code at `frame_id = replacer_size`: the guard of `RecordAccess` is
`frame_id > replacer_size_`, so on a replacer of size 2 the call `RecordAccess(2)`
does not throw; it advances the timestamp and starts tracking frame 2, while
`RecordAccess(3)` throws. -/
theorem record_access_accepts_replacer_size :
    (LRUKReplacer.new 2 2).RecordAccess 2 = .ok
      { less_k_nodes_ :=
          [{ history_ := [1], fid_ := 2, is_evictable_ := false, over_k_ := false,
             min_history_size_ := 0 }]
        over_k_nodes_ := [], current_timestamp_ := 1, curr_size_ := 1, evictable_size_ := 0
        replacer_size_ := 2, k_ := 2 } ∧
    (LRUKReplacer.new 2 2).RecordAccess 3 = .error .InvalidFrame :=
  ⟨rfl, rfl⟩

/-- C10 fails on the code: with `K = 1` the node of a first access is appended to
`less_k_nodes_` and `over_k_nodes_` stays empty; later accesses only extend its
history, so it never moves. After the accesses 0, 1, 0 with both frames evictable,
frame 1 is the least recently used (last access at time 2, against 3 for frame 0),
yet `Evict` returns frame 0, the frame whose first access is the oldest. -/
theorem k_one_is_not_lru :
    ((LRUKReplacer.new 2 1).run [.record_access 0]).less_k_nodes_.map (fun n => n.fid_) = [0] ∧
    ((LRUKReplacer.new 2 1).run [.record_access 0]).over_k_nodes_ = [] ∧
    ((LRUKReplacer.new 2 1).run
      [.record_access 0, .record_access 1, .record_access 0, .set_evictable 0 true,
        .set_evictable 1 true]).nodes.map (fun n => (n.fid_, n.history_, n.is_evictable_))
      = [(0, [3, 1], true), (1, [2], true)] ∧
    ((LRUKReplacer.new 2 1).run
      [.record_access 0, .record_access 1, .record_access 0, .set_evictable 0 true,
        .set_evictable 1 true]).over_k_nodes_ = [] ∧
    ((LRUKReplacer.new 2 1).run
      [.record_access 0, .record_access 1, .record_access 0, .set_evictable 0 true,
        .set_evictable 1 true]).Evict.1 = some 0 := by
  decide

/-! ## Replacer: victim selection -/

/-- Victim selection among the nodes. For `2 ≤ K` (a `size_t`, so below `2 ^ 64`) and
every state `r` reached from a new replacer by `RecordAccess`, `SetEvictable`, `Evict`
and `Remove` calls: `Evict` returns nothing exactly when no node is evictable; if some
evictable node holds fewer than `K` accesses, `Evict` returns the frame of the evictable
node with fewer than `K` accesses whose oldest held access is strictly the earliest;
otherwise, if some node is evictable, every evictable node holds exactly `K` accesses
and `Evict` returns the frame of the one whose `K`-th most recent held access is
strictly the earliest. -/
theorem Evict_selects_among_nodes (num_frames K : Nat) (calls : List ReplacerCall)
    (r : LRUKReplacer) (hK : 2 ≤ K) (hK2 : K < 2 ^ 64)
    (hr : (LRUKReplacer.new num_frames K).run calls = r) :
    (r.Evict.1 = none ↔ ∀ n ∈ r.nodes, n.is_evictable_ = false) ∧
    ((∃ n ∈ r.nodes, n.is_evictable_ = true ∧ n.history_.length < K) →
      ∃ v ∈ r.nodes, r.Evict.1 = some v.fid_ ∧ v.is_evictable_ = true ∧
        v.history_.length < K ∧
        ∀ w ∈ r.nodes, w.is_evictable_ = true → w.history_.length < K → w ≠ v →
          v.oldest < w.oldest) ∧
    ((∃ n ∈ r.nodes, n.is_evictable_ = true) →
      (∀ n ∈ r.nodes, n.is_evictable_ = true → ¬ n.history_.length < K) →
      ∃ v ∈ r.nodes, r.Evict.1 = some v.fid_ ∧ v.is_evictable_ = true ∧
        v.history_.length = K ∧
        ∀ w ∈ r.nodes, w.is_evictable_ = true → w ≠ v →
          w.history_.length = K ∧ v.kthRecent K < w.kthRecent K) := by
  obtain ⟨hinv, ho, hk⟩ := replacer_inv_run calls _ (Inv_new num_frames K)
    (OrdInv_new num_frames K (by omega) hK2)
  rw [hr] at hinv ho hk
  have hk2 : r.k_ = K := hk
  have hless : ∀ n ∈ r.less_k_nodes_, n.history_.length < K := by
    intro n hn
    rw [← hk2]
    exact ho.less_len n hn (by rw [hk2]; exact hK)
  have hover : ∀ n ∈ r.over_k_nodes_, n.history_.length = K := by
    intro n hn
    rw [← hk2]
    exact ho.over_len n hn
  have hkth : ∀ n ∈ r.over_k_nodes_, n.kthRecent K = n.min_history_size_ := by
    intro n hn
    rw [ho.over_min n hn]
    exact getD_last_of_length (by omega) (hover n hn)
  refine ⟨Evict_none_iff r, ?_, ?_⟩
  · rintro ⟨n, hn, hev, hlen⟩
    have hnl : n ∈ r.less_k_nodes_ := by
      rcases mem_nodes.mp hn with h | h
      · exact h
      · have := hover n h
        omega
    have hsome : (r.less_k_nodes_.find? (fun m => m.is_evictable_)).isSome := by
      rw [List.find?_isSome]
      exact ⟨n, hnl, hev⟩
    obtain ⟨v, hv⟩ := Option.isSome_iff_exists.mp hsome
    have hvl := List.mem_of_find?_eq_some hv
    have hvev : v.is_evictable_ = true := by simpa using List.find?_some hv
    refine ⟨v, mem_nodes.mpr (Or.inl hvl), ?_, hvev, hless v hvl, ?_⟩
    · simp [LRUKReplacer.Evict, hv]
    · intro w hw hwev hwlen hwv
      have hwl : w ∈ r.less_k_nodes_ := by
        rcases mem_nodes.mp hw with h | h
        · exact h
        · have := hover w h
          omega
      exact find_first_pairwise hv ho.less_sorted w hwl hwev hwv
  · rintro ⟨n, hn, hev⟩ hall
    have hnone : r.less_k_nodes_.find? (fun m => m.is_evictable_) = none := by
      rw [List.find?_eq_none]
      intro m hm hmev
      exact hall m (mem_nodes.mpr (Or.inl hm)) hmev (hless m hm)
    have hno : n ∈ r.over_k_nodes_ := by
      rcases mem_nodes.mp hn with h | h
      · exact absurd (hless n h) (hall n hn hev)
      · exact h
    have hsome : (r.over_k_nodes_.find? (fun m => m.is_evictable_)).isSome := by
      rw [List.find?_isSome]
      exact ⟨n, hno, hev⟩
    obtain ⟨v, hv⟩ := Option.isSome_iff_exists.mp hsome
    have hvo := List.mem_of_find?_eq_some hv
    have hvev : v.is_evictable_ = true := by simpa using List.find?_some hv
    refine ⟨v, mem_nodes.mpr (Or.inr hvo), ?_, hvev, hover v hvo, ?_⟩
    · simp [LRUKReplacer.Evict, hnone, hv]
    · intro w hw hwev hwv
      have hwo : w ∈ r.over_k_nodes_ := by
        rcases mem_nodes.mp hw with h | h
        · exact absurd (hless w h) (hall w hw hwev)
        · exact h
      refine ⟨hover w hwo, ?_⟩
      rw [hkth v hvo, hkth w hwo]
      exact find_first_pairwise hv ho.over_sorted w hwo hwev hwv

/-! ## Buffer pool: the allocation counter and the postcondition of `NewPage` -/

theorem touch_post {α : Type} {s s2 : BufferPoolManager} {f : Int}
    {after : BufferPoolManager → Outcome α} (h : (s.touch f after).post = some s2) :
    ∃ r, s2 = { s with replacer_ := r } ∨ (after { s with replacer_ := r }).post = some s2 := by
  unfold BufferPoolManager.touch at h
  split at h
  · exact ⟨s.replacer_, Or.inl (by simpa [Outcome.post] using h.symm)⟩
  · rename_i r1 _
    simp only at h
    split at h
    · exact ⟨r1, Or.inl (by simpa [Outcome.post] using h.symm)⟩
    · rename_i r2 _
      exact ⟨r2, Or.inr h⟩

theorem fetchFrame_next_page_id (s : BufferPoolManager) :
    s.fetchFrame.2.next_page_id_ = s.next_page_id_ := by
  unfold BufferPoolManager.fetchFrame
  split
  · rfl
  · split
    · simp [setPage_next_page_id, writeBack_next_page_id]
    · rfl

theorem newFrame_next_page_id (s : BufferPoolManager) :
    s.newFrame.2.next_page_id_ = s.next_page_id_ := by
  unfold BufferPoolManager.newFrame
  split
  · rfl
  · split
    · simp [setPage_next_page_id, writeBack_next_page_id]
    · rfl

theorem FetchPage_next_page_id {s s2 : BufferPoolManager} {p : Int}
    (h : (s.FetchPage p).post = some s2) : s2.next_page_id_ = s.next_page_id_ := by
  unfold BufferPoolManager.FetchPage at h
  split at h
  · simp [Outcome.post] at h
  · simp only at h
    split at h
    · split at h
      · rename_i s1 hs1
        have := fetchFrame_next_page_id { s with latch_ := true }
        rw [hs1] at this
        simp only [Outcome.post, Option.some.injEq] at h
        subst h
        exact this
      · rename_i f s1 hs1
        have := fetchFrame_next_page_id { s with latch_ := true }
        rw [hs1] at this
        unfold BufferPoolManager.fetchFinish at h
        obtain ⟨r, h | h⟩ := touch_post h
        · subst h
          simpa [setPage_next_page_id] using this
        · simp only [Outcome.post, Option.some.injEq] at h
          subst h
          simpa [setPage_next_page_id] using this
    · unfold BufferPoolManager.fetchFinish at h
      obtain ⟨r, h | h⟩ := touch_post h
      · subst h; rfl
      · simp only [Outcome.post, Option.some.injEq] at h
        subst h
        simp [setPage_next_page_id]

theorem UnpinPage_next_page_id {s s2 : BufferPoolManager} {p : Int} {d : Bool}
    (h : (s.UnpinPage p d).post = some s2) : s2.next_page_id_ = s.next_page_id_ := by
  unfold BufferPoolManager.UnpinPage at h
  split at h
  · simp [Outcome.post] at h
  · cases d <;> simp only [if_true, Bool.false_eq_true, if_false] at h <;>
      (repeat' split at h) <;>
      (simp only [Outcome.post, Option.some.injEq] at h; subst h
       simp [setPage_next_page_id])

theorem FlushPage_next_page_id {s s2 : BufferPoolManager} {p : Int}
    (h : (s.FlushPage p).post = some s2) : s2.next_page_id_ = s.next_page_id_ := by
  unfold BufferPoolManager.FlushPage at h
  split at h
  · simp [Outcome.post] at h
  · simp only at h
    split at h
    · simp only [Outcome.post, Option.some.injEq] at h; subst h; rfl
    · simp only [Outcome.post, Option.some.injEq] at h; subst h
      simp [flushFrame_next_page_id]

theorem flushAll_next_page_id (l : PageTable) (s : BufferPoolManager) :
    (l.foldl (fun s it => s.flushFrame it.2) s).next_page_id_ = s.next_page_id_ := by
  induction l generalizing s with
  | nil => rfl
  | cons a l ih => simp only [List.foldl_cons]; rw [ih, flushFrame_next_page_id]

theorem FlushAllPages_next_page_id {s s2 : BufferPoolManager}
    (h : s.FlushAllPages.post = some s2) : s2.next_page_id_ = s.next_page_id_ := by
  unfold BufferPoolManager.FlushAllPages at h
  split at h
  · simp [Outcome.post] at h
  · simp only [Outcome.post, Option.some.injEq] at h; subst h
    simp [flushAll_next_page_id]

theorem DeletePage_next_page_id {s s2 : BufferPoolManager} {p : Int}
    (h : (s.DeletePage p).post = some s2) : s2.next_page_id_ = s.next_page_id_ := by
  unfold BufferPoolManager.DeletePage at h
  split at h
  · simp [Outcome.post] at h
  · simp only at h
    split at h
    · simp only [Outcome.post, Option.some.injEq] at h; subst h; rfl
    · split at h
      · simp only [Outcome.post, Option.some.injEq] at h; subst h; rfl
      · split at h
        · simp only [Outcome.post, Option.some.injEq] at h; subst h; rfl
        · simp only [Outcome.post, Option.some.injEq] at h; subst h
          simp [setPage_next_page_id, flushFrame_next_page_id]

/-- Operation `NewPage` on a pool that satisfies its invariant, with the latch free: either the
pool is full and nothing changes, or the page id is the allocation counter and the
frame is installed. -/
theorem NewPage_cases {s : BufferPoolManager} (hinv : s.Inv) (hl : s.latch_ = false) :
    (s.NewPage = .returned none s ∧ s.free_list_ = [] ∧ s.replacer_.Evict.1 = none) ∨
    ∃ f s2, s.NewPage = .returned (some (s.next_page_id_, f)) s2 ∧
      s2.next_page_id_ = s.next_page_id_ + 1 ∧
      (s.free_list_.head? = some f ∨ (s.free_list_ = [] ∧ s.replacer_.Evict.1 = some f)) ∧
      s2.page_table_.find s.next_page_id_ = some f ∧
      pageAt s2.pages_ f =
        { data_ := zeroPayload, page_id_ := s.next_page_id_, pin_count_ := 1,
          is_dirty_ := false } ∧
      s2.replacer_.tracked f ∧ ¬ s2.replacer_.evictable f := by
  obtain ⟨v, s3, hs3, hinv3, _, _, _⟩ := Inv_NewPage hinv hl
  cases hfree : s.free_list_ with
  | cons f rest =>
    right
    have hfF : f ∈ s.free_list_ := by rw [hfree]; exact List.mem_cons_self _ _
    obtain ⟨hf0, hf1, ⟨hnt, hpin, hdirty, hTf⟩, hzero⟩ := hinv.free_idle hfF
    have hle : f ≤ toInt32 s.replacer_.replacer_size_ := by
      rw [hinv.rsize]; exact frame_le_toInt32 hinv.size_lt hf1
    obtain ⟨r1, r2, h1, h2⟩ := touch_ok hinv.rinv hle
    obtain ⟨hi, hs, htr, hev, htf, hnev⟩ := touch_replacer hinv.rinv h1 h2
    obtain ⟨s2, hs2, e1, e2, e3, e4, e5, e6, e7, _, e9⟩ := NewPage_free s hl f rest hfree r1 r2 h1 h2
    have hc := toNat_cond hf0 hf1 hinv.pages_len
    have h32 : s3 = s2 := by
      rw [hs2] at hs3
      injection hs3 with _ h
      exact h.symm
    subst h32
    refine ⟨f, s3, hs2, e5, Or.inl (by simp), ?_, ?_, ?_, ?_⟩
    · apply PageTable.find_of_entry hinv3.table_keys
      rw [e2]
      exact PageTable.mem_assign.mpr (Or.inl rfl)
    · rw [e9 f, if_pos hc]
      cases hp : pageAt s.pages_ f with
      | mk d i c b =>
        rw [hp] at hpin hdirty hzero
        simp only at hpin hdirty hzero
        subst hpin hdirty hzero
        rfl
    · rw [e4]; exact htf
    · rw [e4]; exact hnev
  | nil =>
    cases hev0 : s.replacer_.Evict with
    | mk v0 r0 =>
      cases v0 with
      | none =>
        have h0 : s.replacer_.Evict.1 = none := by rw [hev0]
        exact Or.inl ⟨NewPage_full s hl hfree h0, rfl, rfl⟩
      | some f =>
        right
        obtain ⟨hi0, hs0, _, hevf, hrem⟩ := Evict_nodes hinv.rinv hev0
        obtain ⟨hf0, hf1, hnf, hiff⟩ := hinv.tracked_used (evictable_tracked hevf)
        have hle : f ≤ toInt32 r0.replacer_size_ := by
          rw [hs0, hinv.rsize]; exact frame_le_toInt32 hinv.size_lt hf1
        obtain ⟨r1, r2, h1, h2⟩ := touch_ok hi0 hle
        obtain ⟨hi, hs, htr, hev, htf, hnev⟩ := touch_replacer hi0 h1 h2
        obtain ⟨s2, hs2, e1, e2, e3, e4, e5, e6, e7, _, e9⟩ :=
          NewPage_evict s hl f hfree r0 r1 r2 hev0 h1 h2
        have hc := toNat_cond hf0 hf1 hinv.pages_len
        have h32 : s3 = s2 := by
          rw [hs2] at hs3
          injection hs3 with _ h
          exact h.symm
        subst h32
        refine ⟨f, s3, hs2, e5, Or.inr ⟨rfl, rfl⟩, ?_, ?_, ?_, ?_⟩
        · apply PageTable.find_of_entry hinv3.table_keys
          rw [e2]
          exact PageTable.mem_assign.mpr (Or.inl rfl)
        · rw [e9 f, if_pos hc, hiff.mp hevf]
        · rw [e4]; exact htf
        · rw [e4]; exact hnev

/-- A call that ends moves the allocation counter by one exactly when it is a `NewPage`
that returns a page. -/
theorem step_next_page_id {s s2 : BufferPoolManager} (hinv : s.Inv) (c : Call)
    (h : s.step c = some s2) :
    s2.next_page_id_ = s.next_page_id_ + ((if c.allocates s then 1 else 0 : Nat) : Int) := by
  have hl : s.latch_ = false := by
    by_contra hl
    have hl2 : s.latch_ = true := by simpa using hl
    rw [step_of_latch_held hl2 c] at h
    cases h
  cases c with
  | new_page =>
    rcases NewPage_cases hinv hl with ⟨h1, _, _⟩ | ⟨f, s3, h1, h2, _⟩
    · simp only [BufferPoolManager.step, h1, Outcome.post, Option.some.injEq] at h
      subst h
      simp [Call.allocates, h1]
    · simp only [BufferPoolManager.step, h1, Outcome.post, Option.some.injEq] at h
      subst h
      simp [Call.allocates, h1, h2]
  | fetch_page p => simpa [Call.allocates] using FetchPage_next_page_id h
  | unpin_page p d => simpa [Call.allocates] using UnpinPage_next_page_id h
  | flush_page p => simpa [Call.allocates] using FlushPage_next_page_id h
  | flush_all_pages => simpa [Call.allocates] using FlushAllPages_next_page_id h
  | delete_page p => simpa [Call.allocates] using DeletePage_next_page_id h

/-- The allocation counter after a sequence of calls is the counter before it plus the
number of `NewPage` calls that returned a page. -/
theorem run_next_page_id (calls : List Call) :
    ∀ s s2 : BufferPoolManager, s.Inv → s.run calls = some s2 →
      s2.next_page_id_ = s.next_page_id_ + (s.newPagesReturned calls : Int) := by
  induction calls with
  | nil =>
    intro s s2 _ h
    simp only [BufferPoolManager.run, Option.some.injEq] at h
    subst h
    simp [BufferPoolManager.newPagesReturned]
  | cons c cs ih =>
    intro s s2 hinv h
    simp only [BufferPoolManager.run] at h
    cases hstep : s.step c with
    | none => simp [hstep] at h
    | some s1 =>
      simp only [hstep, Option.some_bind] at h
      obtain ⟨h1, _, _⟩ := Inv_step hinv c hstep
      rw [ih s1 s2 h1 h, step_next_page_id hinv c hstep]
      simp only [BufferPoolManager.newPagesReturned, hstep]
      push_cast
      ring

/-- C11. The postcondition of `NewPage`. In a state reached from a freshly constructed
pool (of a size below `2 ^ 31`) by any sequence of public calls, a `NewPage` that returns
a page returns as its page id the number of `NewPage` calls of the sequence that
returned a page, and a frame, taken from the front of the free list or, the free list
being empty, chosen by the replacer, which the page table maps that id to, whose payload
is zeroed, whose page id is the new id, whose pin count is 1, whose dirty bit is clear,
and which the replacer tracks as non-evictable. With the latch free, `NewPage` does
return a page as soon as the free list is non-empty or some frame is evictable. -/
theorem new_page_postcondition (pool_size k : Nat) (dm : DiskManager) (calls : List Call)
    (s : BufferPoolManager) (hsize : pool_size < 2 ^ 31)
    (hrun : (BufferPoolManager.new pool_size dm k).run calls = some s) :
    (∀ page_id f s2, s.NewPage = .returned (some (page_id, f)) s2 →
      page_id = ((BufferPoolManager.new pool_size dm k).newPagesReturned calls : Int) ∧
      (s.free_list_.head? = some f ∨ (s.free_list_ = [] ∧ s.replacer_.Evict.1 = some f)) ∧
      s2.page_table_.find page_id = some f ∧
      (s2.page f).data_ = zeroPayload ∧ (s2.page f).page_id_ = page_id ∧
      (s2.page f).pin_count_ = 1 ∧ (s2.page f).is_dirty_ = false ∧
      s2.replacer_.tracked f ∧ ¬ s2.replacer_.evictable f) ∧
    (s.latch_ = false → (s.free_list_ ≠ [] ∨ ∃ f, s.replacer_.evictable f) →
      ∃ page_id f s2, s.NewPage = .returned (some (page_id, f)) s2) := by
  obtain ⟨hinv, _, _⟩ := Inv_run calls _ s (Inv_new_pool pool_size dm k hsize).1 hrun
  have hnext := run_next_page_id calls _ s (Inv_new_pool pool_size dm k hsize).1 hrun
  have hzero : (BufferPoolManager.new pool_size dm k).next_page_id_ = 0 := rfl
  rw [hzero, zero_add] at hnext
  constructor
  · intro page_id f s2 hnew
    have hl : s.latch_ = false := by
      by_contra hl
      have hl2 : s.latch_ = true := by simpa using hl
      simp [BufferPoolManager.NewPage, hl2] at hnew
    rcases NewPage_cases hinv hl with ⟨h1, _, _⟩ | ⟨g, s3, h1, _, h3, h4, h5, h6, h7⟩
    · rw [h1] at hnew
      cases hnew
    · rw [h1] at hnew
      injection hnew with hv hs
      injection hv with hv
      injection hv with hp hf
      subst hp hf hs
      simp only [page_eq_pageAt, h5]
      exact ⟨hnext, h3, h4, trivial, trivial, trivial, trivial, h6, h7⟩
  · intro hl hsome
    rcases NewPage_cases hinv hl with ⟨_, h2, h3⟩ | ⟨g, s3, h1, _⟩
    · exfalso
      rcases hsome with h | ⟨f, n, hn, _, hev⟩
      · exact h h2
      · have := (Evict_none_iff s.replacer_).mp h3 n hn
        rw [hev] at this
        cases this
    · exact ⟨_, g, s3, h1⟩

/-- A pool of one frame after `new_page` and `unpin_page(0, true)`: the next `NewPage`
evicts frame 0 and returns page id 1, the number of earlier successful calls, in a
zeroed, clean frame pinned once. -/
theorem new_page_postcondition_witness :
    (BufferPoolManager.new 1 ⟨[]⟩ 2).run [.new_page, .new_page, .unpin_page 0 true]
      = some (BufferPoolManager.afterCalls 1 2 [.new_page, .new_page, .unpin_page 0 true]) ∧
    (BufferPoolManager.afterCalls 1 2 [.new_page, .new_page, .unpin_page 0 true]).NewPage
      = .returned (some (1, 0))
        (BufferPoolManager.afterCalls 1 2
          [.new_page, .new_page, .unpin_page 0 true, .new_page]) ∧
    ((BufferPoolManager.afterCalls 1 2
      [.new_page, .new_page, .unpin_page 0 true, .new_page]).page 0).pin_count_ = 1 ∧
    ((BufferPoolManager.afterCalls 1 2
      [.new_page, .new_page, .unpin_page 0 true, .new_page]).page 0).data_ = zeroPayload ∧
    (BufferPoolManager.afterCalls 1 2
      [.new_page, .new_page, .unpin_page 0 true, .new_page]).page_table_.find 1 = some 0 := by
  have h := (new_page_postcondition 1 2 ⟨[]⟩ [.new_page, .new_page, .unpin_page 0 true]
    (BufferPoolManager.afterCalls 1 2 [.new_page, .new_page, .unpin_page 0 true])
    (by norm_num) rfl).1 1 0
    (BufferPoolManager.afterCalls 1 2 [.new_page, .new_page, .unpin_page 0 true, .new_page])
    rfl
  exact ⟨rfl, rfl, h.2.2.2.2.2.1, h.2.2.2.1, h.2.2.1⟩
/-! ## Buffer pool: the contracts of `DeletePage` and `FlushPage` -/

/-- C12. The contract of `DeletePage`. In a state reached from a freshly constructed pool
(of a size below `2 ^ 31`) by any sequence of public calls, with the latch free,
`DeletePage(p)` returns true and leaves the whole state unchanged when `p` is not
resident; returns false and leaves the whole state unchanged when `p` is resident in a
pinned frame; and otherwise returns true with the replacer being the result of
`Remove` on the frame (which is no longer tracked, every other frame being tracked and
evictable as before), the disk log extended by exactly one write of `p` with the old
payload if the frame was dirty and by nothing if not, the frame reset to page id
`INVALID_PAGE_ID`, zero payload and a clear dirty bit, every other frame untouched, the
frame appended at the back of the free list, and `p` erased from the page table. -/
theorem delete_page_contract (pool_size k : Nat) (dm : DiskManager) (calls : List Call)
    (s : BufferPoolManager) (hsize : pool_size < 2 ^ 31)
    (hrun : (BufferPoolManager.new pool_size dm k).run calls = some s)
    (hl : s.latch_ = false) (p : Int) :
    (s.page_table_.find p = none → s.DeletePage p = .returned true s) ∧
    (∀ f, s.page_table_.find p = some f → (s.page f).pin_count_ ≠ 0 →
      s.DeletePage p = .returned false s) ∧
    (∀ f, s.page_table_.find p = some f → (s.page f).pin_count_ = 0 →
      ∃ s2, s.DeletePage p = .returned true s2 ∧
        s.replacer_.Remove f = .ok s2.replacer_ ∧
        ¬ s2.replacer_.tracked f ∧
        (∀ g : Int, g ≠ f →
          ((s2.replacer_.tracked g ↔ s.replacer_.tracked g) ∧
           (s2.replacer_.evictable g ↔ s.replacer_.evictable g))) ∧
        s2.disk_manager_.log = s.disk_manager_.log ++
          (if (s.page f).is_dirty_ then [DiskOp.write p (s.page f).data_] else []) ∧
        s2.page f =
          { data_ := zeroPayload, page_id_ := INVALID_PAGE_ID, pin_count_ := 0,
            is_dirty_ := false } ∧
        (∀ g : Int, 0 ≤ g → g ≠ f → s2.page g = s.page g) ∧
        s2.free_list_ = s.free_list_ ++ [f] ∧
        s2.page_table_ = s.page_table_.erase p ∧ s2.page_table_.find p = none ∧
        s2.next_page_id_ = s.next_page_id_ ∧ s2.pool_size_ = s.pool_size_ ∧
        s2.latch_ = false) := by
  obtain ⟨hinv, _, _⟩ := Inv_run calls _ s (Inv_new_pool pool_size dm k hsize).1 hrun
  obtain ⟨h1, h2, h3⟩ := DeletePage_shape s p hl
  refine ⟨h1, h2, ?_⟩
  intro f hfind hpin
  have hmem := PageTable.find_some hfind
  obtain ⟨hf0, hf1, hnf, htr, hev⟩ := hinv.mapped_used hmem
  simp only at hf0 hf1 hnf htr hev
  have hevict : s.replacer_.evictable f := hev.mpr hpin
  obtain ⟨r2, hr2⟩ := Remove_ok_of_evictable hinv.rinv hevict
  obtain ⟨_, _, _, _, hrem⟩ := Remove_nodes hinv.rinv hr2
  obtain ⟨s2, hs2, e1, e2, e3, e4, e5, e6, e7, e8, e9⟩ := (h3 f hfind hpin).2 r2 hr2
  have hpf : (pageAt s.pages_ f).page_id_ = p := hinv.table_page _ hmem
  have hc := toNat_cond hf0 hf1 hinv.pages_len
  have hpin2 : (pageAt s.pages_ f).pin_count_ = 0 := hpin
  refine ⟨s2, hs2, ?_, ?_, ?_, ?_, ?_, ?_, e3, e2, ?_, e5, e1, e6⟩
  · rw [e4]; exact hr2
  · rw [e4]; exact hrem.not_tracked_self
  · intro g hg
    rw [e4]
    exact ⟨hrem.tracked_other g hg, hrem.evictable_other g hg⟩
  · rw [e8, hpf]
    rfl
  · rw [page_eq_pageAt, e9 f, if_pos hc, hpin2]
  · intro g hg0 hg
    rw [page_eq_pageAt, page_eq_pageAt, e9 g, if_neg (toNat_ne_of_ne hf0 hg0 hg)]
  · rw [e2]
    apply PageTable.find_eq_none
    intro e he
    exact (PageTable.mem_erase.mp he).2

/-- A pool of two frames after `new_page`, `unpin_page(0, true)`, `new_page`: page 0 is
resident, unpinned and dirty, page 1 is pinned, page 7 is not resident. Deleting page 0
writes it once and frees its frame. -/
theorem delete_page_contract_witness :
    (BufferPoolManager.new 2 ⟨[]⟩ 2).run [.new_page, .unpin_page 0 true, .new_page]
      = some (BufferPoolManager.afterCalls 2 2 [.new_page, .unpin_page 0 true, .new_page]) ∧
    (BufferPoolManager.afterCalls 2 2 [.new_page, .unpin_page 0 true, .new_page]).latch_
      = false ∧
    (BufferPoolManager.afterCalls 2 2
      [.new_page, .unpin_page 0 true, .new_page]).page_table_.find 0 = some 0 ∧
    ((BufferPoolManager.afterCalls 2 2
      [.new_page, .unpin_page 0 true, .new_page]).page 0).pin_count_ = 0 ∧
    (∃ s2, (BufferPoolManager.afterCalls 2 2
        [.new_page, .unpin_page 0 true, .new_page]).DeletePage 0 = .returned true s2 ∧
      s2.disk_manager_.log = [DiskOp.write 0 zeroPayload] ∧
      s2.free_list_ = [0] ∧ s2.page_table_.find 0 = none) := by
  refine ⟨rfl, by decide, by decide, by decide, ?_⟩
  obtain ⟨s2, h1, _, _, _, h5, _, _, h8, _, h10, _⟩ := (delete_page_contract 2 2 ⟨[]⟩
    [.new_page, .unpin_page 0 true, .new_page]
    (BufferPoolManager.afterCalls 2 2 [.new_page, .unpin_page 0 true, .new_page])
    (by norm_num) rfl (by decide) 0).2.2 0 (by decide) (by decide)
  exact ⟨s2, h1, h5, h8, h10⟩

theorem flushFrame_clean (s : BufferPoolManager) (f : Int)
    (h : (s.page f).is_dirty_ = false) : s.flushFrame f = s := by
  simp [BufferPoolManager.flushFrame, h]

/-- Operation `FlushPage` on a call started with the latch free. In a state reached from
a freshly constructed pool (of a size below `2 ^ 31`) by any sequence of public calls,
with the latch free: `FlushPage(p)` returns false exactly when `p` is not resident, and
then no frame, no entry of the page table, nothing in the replacer or the free list has
changed and nothing was written (the state it returns differs from the one it was
called in only in `latch_`); for `p` resident in frame `f` it returns true, the disk
log grows by exactly one write of `p` with the payload of `f` if the frame was dirty and
by nothing if not, the dirty bit of `f` ends clear, and the pin count, payload and page
id of `f`, every other frame, the page table, the replacer and the free list are
unchanged. Consequently a flush of a clean resident page leaves the whole state as it
was, and a second flush of a resident page right after the first returns true with the
state (disk log included) the first one left. -/
theorem FlushPage_contract (pool_size k : Nat) (dm : DiskManager) (calls : List Call)
    (s : BufferPoolManager) (hsize : pool_size < 2 ^ 31)
    (hrun : (BufferPoolManager.new pool_size dm k).run calls = some s)
    (hl : s.latch_ = false) (p : Int) :
    ((∃ s2, s.FlushPage p = .returned false s2) ↔ s.page_table_.find p = none) ∧
    (s.page_table_.find p = none →
      s.FlushPage p = .returned false { s with latch_ := true }) ∧
    (∀ f, s.page_table_.find p = some f →
      ∃ s2, s.FlushPage p = .returned true s2 ∧
        s2.disk_manager_.log = s.disk_manager_.log ++
          (if (s.page f).is_dirty_ then [DiskOp.write p (s.page f).data_] else []) ∧
        (s2.page f).is_dirty_ = false ∧
        (s2.page f).pin_count_ = (s.page f).pin_count_ ∧
        (s2.page f).data_ = (s.page f).data_ ∧
        (s2.page f).page_id_ = (s.page f).page_id_ ∧
        (∀ g : Int, 0 ≤ g → g ≠ f → s2.page g = s.page g) ∧
        s2.page_table_ = s.page_table_ ∧ s2.replacer_ = s.replacer_ ∧
        s2.free_list_ = s.free_list_ ∧ s2.next_page_id_ = s.next_page_id_ ∧
        s2.latch_ = false ∧
        ((s.page f).is_dirty_ = false → s2 = s) ∧
        s2.FlushPage p = .returned true s2) := by
  obtain ⟨hinv, _, _⟩ := Inv_run calls _ s (Inv_new_pool pool_size dm k hsize).1 hrun
  obtain ⟨h1, h2⟩ := FlushPage_shape s p hl
  refine ⟨?_, ?_, ?_⟩
  · constructor
    · rintro ⟨s2, hs2⟩
      cases hfind : s.page_table_.find p with
      | none => rfl
      | some f =>
        rw [h2 f hfind] at hs2
        injection hs2 with hb _
        cases hb
    · intro hfind
      exact ⟨_, h1 hfind⟩
  · exact h1
  · intro f hfind
    have hmem := PageTable.find_some hfind
    obtain ⟨hf0, hf1, _⟩ := hinv.mapped_used hmem
    simp only at hf0 hf1
    have hpf : (pageAt s.pages_ f).page_id_ = p := hinv.table_page _ hmem
    have hc := toNat_cond hf0 hf1 hinv.pages_len
    have hpage : ∀ g, pageAt (({ s with latch_ := true } : BufferPoolManager).flushFrame f).pages_ g
        = if g.toNat = f.toNat ∧ f.toNat < s.pages_.length then
            { pageAt s.pages_ f with is_dirty_ := false }
          else pageAt s.pages_ g :=
      fun g => pageAt_flushFrame_if { s with latch_ := true } f g
    have hclean : ((({ s with latch_ := true } : BufferPoolManager).flushFrame f).page f).is_dirty_
        = false := by
      rw [page_eq_pageAt, hpage f, if_pos hc]
    refine ⟨_, h2 f hfind, ?_, ?_, ?_, ?_, ?_, ?_, ?_, ?_, ?_, ?_, rfl, ?_, ?_⟩
    · have := flushFrame_disk { s with latch_ := true } f
      simp only at this
      rw [hpf] at this
      exact this
    · exact hclean
    · show (pageAt _ f).pin_count_ = _
      rw [hpage f, if_pos hc]; rfl
    · show (pageAt _ f).data_ = _
      rw [hpage f, if_pos hc]; rfl
    · show (pageAt _ f).page_id_ = _
      rw [hpage f, if_pos hc]; rfl
    · intro g hg0 hg
      show pageAt _ g = _
      rw [hpage g, if_neg (toNat_ne_of_ne hf0 hg0 hg)]; rfl
    · exact flushFrame_page_table _ f
    · exact flushFrame_replacer _ f
    · exact flushFrame_free_list _ f
    · exact flushFrame_next_page_id _ f
    · intro hd
      have hd2 : (({ s with latch_ := true } : BufferPoolManager).page f).is_dirty_ = false := hd
      rw [flushFrame_clean _ f hd2]
      exact latch_cycle s hl
    · have hfind2 : ({ (({ s with latch_ := true } : BufferPoolManager).flushFrame f) with
          latch_ := false } : BufferPoolManager).page_table_.find p = some f := by
        show (({ s with latch_ := true } : BufferPoolManager).flushFrame f).page_table_.find p = _
        rw [flushFrame_page_table]
        exact hfind
      rw [(FlushPage_shape _ p rfl).2 f hfind2]
      have h3 : ({ ({ (({ s with latch_ := true } : BufferPoolManager).flushFrame f) with
          latch_ := false } : BufferPoolManager) with latch_ := true } : BufferPoolManager)
          = ({ s with latch_ := true } : BufferPoolManager).flushFrame f := by
        have hlt : (({ s with latch_ := true } : BufferPoolManager).flushFrame f).latch_ = true :=
          flushFrame_latch _ f
        generalize ({ s with latch_ := true } : BufferPoolManager).flushFrame f = t at hlt
        cases t
        simp only at hlt
        subst hlt
        rfl
      rw [h3, flushFrame_clean _ f hclean]

/-- A pool of two frames after `new_page` and `unpin_page(0, true)`: page 0 is resident
and dirty. The first flush writes it once; the second flush returns true and leaves the
state, with its single write, as it is. -/
theorem FlushPage_contract_example :
    (BufferPoolManager.new 2 ⟨[]⟩ 2).run [.new_page, .unpin_page 0 true]
      = some (BufferPoolManager.afterCalls 2 2 [.new_page, .unpin_page 0 true]) ∧
    (BufferPoolManager.afterCalls 2 2 [.new_page, .unpin_page 0 true]).latch_ = false ∧
    (BufferPoolManager.afterCalls 2 2 [.new_page, .unpin_page 0 true]).page_table_.find 0
      = some 0 ∧
    (∃ s2, (BufferPoolManager.afterCalls 2 2 [.new_page, .unpin_page 0 true]).FlushPage 0
        = .returned true s2 ∧
      s2.disk_manager_.log = [DiskOp.write 0 zeroPayload] ∧
      (s2.page 0).is_dirty_ = false ∧
      s2.FlushPage 0 = .returned true s2) := by
  refine ⟨rfl, by decide, by decide, ?_⟩
  obtain ⟨s2, h1, h2, h3, _, _, _, _, _, _, _, _, _, _, h14⟩ :=
    (FlushPage_contract 2 2 ⟨[]⟩ [.new_page, .unpin_page 0 true]
      (BufferPoolManager.afterCalls 2 2 [.new_page, .unpin_page 0 true])
      (by norm_num) rfl (by decide) 0).2.2 0 (by decide)
  exact ⟨s2, h1, h2, h3, h14⟩

/-! ## Replacer: the evictable count, the contract of `Remove`, the order of `over_k_nodes_` -/

theorem filter_fid_of_not_mem {l : List LRUKNode} {f : Int} (h : ∀ n ∈ l, n.fid_ ≠ f) :
    l.filter (fun m => m.fid_ != f) = l := by
  rw [List.filter_eq_self]
  intro n hn
  simpa using h n hn

/-- In a list without two nodes of one frame, erasing the first node of frame `f` leaves
the nodes of the other frames, in their order. -/
theorem eraseP_fid_eq_filter {l : List LRUKNode} (f : Int)
    (hnd : (l.map (fun n => n.fid_)).Nodup) :
    l.eraseP (fun m => m.fid_ == f) = l.filter (fun m => m.fid_ != f) := by
  induction l with
  | nil => rfl
  | cons a l ih =>
    simp only [List.map_cons, List.nodup_cons, List.mem_map, not_exists, not_and] at hnd
    by_cases ha : a.fid_ = f
    · have hrest : ∀ n ∈ l, n.fid_ ≠ f := fun n hn hf => hnd.1 n hn (hf.trans ha.symm)
      simp [List.eraseP_cons, List.filter_cons, ha, filter_fid_of_not_mem hrest]
    · simp [List.eraseP_cons, List.filter_cons, ha, ih hnd.2]

theorem countP_filter_fid_of_mem {l : List LRUKNode} (p : LRUKNode → Bool)
    (hnd : (l.map (fun n => n.fid_)).Nodup) {n : LRUKNode} (hn : n ∈ l) :
    (l.filter (fun m => m.fid_ != n.fid_)).countP p + (if p n then 1 else 0) = l.countP p := by
  induction l with
  | nil => cases hn
  | cons a l ih =>
    simp only [List.map_cons, List.nodup_cons, List.mem_map, not_exists, not_and] at hnd
    rcases List.mem_cons.mp hn with rfl | h2
    · have hrest : ∀ m ∈ l, m.fid_ ≠ n.fid_ := fun m hm hf => hnd.1 m hm hf
      simp [List.filter_cons, filter_fid_of_not_mem hrest, List.countP_cons]
    · have hne : a.fid_ ≠ n.fid_ := fun hf => hnd.1 n h2 hf.symm
      have := ih hnd.2 h2
      simp only [List.filter_cons, bne_iff_ne, ne_eq, hne, not_false_eq_true, decide_True,
        if_true, List.countP_cons]
      omega

theorem nodes_nodup {r : LRUKReplacer} (h : r.Inv) : r.nodes.Nodup :=
  List.Nodup.of_map _ h.nodup

/-- The nodes after an operation that replaces the node of `f` by `node`, as a
permutation. -/
theorem ReplacedBy.nodes_perm {r r2 : LRUKReplacer} {f : Int} {node : LRUKNode} (hinv : r.Inv)
    (hinv2 : r2.Inv) (h : ReplacedBy r r2 f node) :
    r2.nodes.Perm (node :: r.nodes.filter (fun m => m.fid_ != f)) := by
  obtain ⟨hf, hmem⟩ := h
  rw [List.perm_ext_iff_of_nodup (nodes_nodup hinv2)]
  · intro m
    rw [hmem m]
    simp [List.mem_filter]
  · rw [List.nodup_cons]
    refine ⟨?_, (nodes_nodup hinv).filter _⟩
    simp [List.mem_filter, hf]

/-- The nodes after an operation that removes the node of `f`, as a permutation. -/
theorem RemovedFrom.rest_perm {r r2 : LRUKReplacer} {f : Int} (hinv : r.Inv)
    (hinv2 : r2.Inv) (h : RemovedFrom r r2 f) :
    r2.nodes.Perm (r.nodes.filter (fun m => m.fid_ != f)) := by
  rw [List.perm_ext_iff_of_nodup (nodes_nodup hinv2) ((nodes_nodup hinv).filter _)]
  intro m
  rw [h m]
  simp [List.mem_filter]

/-- Counting the nodes that satisfy `p` once the node of `f` is taken out. -/
theorem countP_without {r : LRUKReplacer} (hinv : r.Inv) (p : LRUKNode → Bool) (f : Int) :
    ((∀ n ∈ r.nodes, n.fid_ = f → p n = false) →
      (r.nodes.filter (fun m => m.fid_ != f)).countP p = r.nodes.countP p) ∧
    (∀ n ∈ r.nodes, n.fid_ = f → p n = true →
      (r.nodes.filter (fun m => m.fid_ != f)).countP p + 1 = r.nodes.countP p) := by
  constructor
  · intro h
    by_cases ht : ∃ n ∈ r.nodes, n.fid_ = f
    · obtain ⟨n, hn, hf⟩ := ht
      have := countP_filter_fid_of_mem p hinv.nodup hn
      rw [hf, h n hn hf] at this
      simpa using this
    · rw [filter_fid_of_not_mem]
      intro n hn hf
      exact ht ⟨n, hn, hf⟩
  · intro n hn hf hp
    have := countP_filter_fid_of_mem p hinv.nodup hn
    rw [hf, hp] at this
    simpa using this

theorem LRUKReplacer.SizeInv.mono {r : LRUKReplacer} {n m : Nat} (h : r.SizeInv n) (hnm : n ≤ m) :
    r.SizeInv m :=
  ⟨h.size_eq, h.nodes_le, h.ts_le.trans hnm⟩

theorem LRUKReplacer.SizeInv.size_le {r : LRUKReplacer} {n : Nat} (h : r.SizeInv n) :
    r.evictable_size_ ≤ n := by
  have h1 : r.evictableCount ≤ r.nodes.length := List.countP_le_length _
  have := h.size_eq
  have := h.nodes_le
  have := h.ts_le
  omega

theorem length_filter_fid_of_mem {l : List LRUKNode}
    (hnd : (l.map (fun n => n.fid_)).Nodup) {n : LRUKNode} (hn : n ∈ l) :
    (l.filter (fun m => m.fid_ != n.fid_)).length + 1 = l.length := by
  have := countP_filter_fid_of_mem (fun _ => true) hnd hn
  simpa [List.countP_eq_length] using this

theorem RecordAccess_fields {r r2 : LRUKReplacer} {f : Int} (hinv : r.Inv)
    (h : r.RecordAccess f = .ok r2) :
    r2.evictable_size_ = r.evictable_size_ ∧
      r2.current_timestamp_ = r.current_timestamp_ + 1 := by
  rcases RecordAccess_ok_cases hinv h with ⟨_, rfl⟩ | ⟨_, _, _, rfl⟩ | ⟨_, _, _, _, rfl⟩ |
    ⟨_, _, _, _, rfl⟩ <;> exact ⟨rfl, rfl⟩

/-- Operation `RecordAccess` keeps the counting invariant and does not change `Size`. -/
theorem SizeInv_RecordAccess {r r2 : LRUKReplacer} {f : Int} {n : Nat} (hinv : r.Inv)
    (hs : r.SizeInv n) (h : r.RecordAccess f = .ok r2) :
    r2.SizeInv (n + 1) ∧ r2.Size = r.Size := by
  obtain ⟨hinv2, _, _, node, hrep, hnode⟩ := RecordAccess_nodes hinv h
  obtain ⟨hsz, hts⟩ := RecordAccess_fields hinv h
  have hperm := hrep.nodes_perm hinv hinv2
  obtain ⟨hc0, hc1⟩ := countP_without hinv (fun n => n.is_evictable_) f
  have hlen : r2.nodes.length ≤ r.nodes.length + 1 := by
    rw [hperm.length_eq, List.length_cons]
    exact Nat.succ_le_succ (List.length_filter_le _ _)
  refine ⟨⟨?_, ?_, ?_⟩, hsz⟩
  · rw [hsz, hs.size_eq]
    unfold LRUKReplacer.evictableCount
    rw [hperm.countP_eq, List.countP_cons]
    by_cases hev : r.evictable f
    · obtain ⟨m, hm, hmf, hme⟩ := hev
      have := hc1 m hm hmf hme
      have hne : node.is_evictable_ = true := hnode.mpr ⟨m, hm, hmf, hme⟩
      simp only [hne, if_true]
      omega
    · have hne : node.is_evictable_ = false := by
        cases hb : node.is_evictable_
        · rfl
        · exact absurd (hnode.mp hb) hev
      have := hc0 (fun m hm hmf => by
        cases hb : m.is_evictable_
        · rfl
        · exact absurd ⟨m, hm, hmf, hb⟩ hev)
      simp only [hne, Bool.false_eq_true, if_false]
      omega
  · have := hs.nodes_le
    omega
  · have := hs.ts_le
    omega

/-- Operation `SetEvictable` keeps the counting invariant and moves `Size` by the flag transition. -/
theorem SizeInv_SetEvictable {r r2 : LRUKReplacer} {f : Int} {b : Bool} {n : Nat}
    (hinv : r.Inv) (hs : r.SizeInv n) (hn : n < 2 ^ 64) (h : r.SetEvictable f b = .ok r2) :
    r2.SizeInv n ∧
      r2.Size + (if r.evictable f ∧ b = false then 1 else 0)
        = r.Size + (if ¬ r.evictable f ∧ b = true then 1 else 0) := by
  obtain ⟨hinv2, _, _, _, node, hrep, hnode⟩ := SetEvictable_nodes hinv h
  obtain ⟨m, hm, hmf, _, _, hts, _, _, _, hsz⟩ := SetEvictable_ok_shape hinv h
  have hperm := hrep.nodes_perm hinv hinv2
  have hcnt := countP_filter_fid_of_mem (fun n => n.is_evictable_) hinv.nodup hm
  have hlen := length_filter_fid_of_mem hinv.nodup hm
  rw [hmf] at hcnt hlen
  have hle := hs.size_le
  have hseq := hs.size_eq
  unfold LRUKReplacer.evictableCount at hseq
  have hev : r.evictable f ↔ m.is_evictable_ = true := by
    constructor
    · rintro ⟨m2, hm2, hmf2, hme2⟩
      rw [hinv.eq_of_fid hm hm2 (hmf.trans hmf2.symm)]
      exact hme2
    · intro hme
      exact ⟨m, hm, hmf, hme⟩
  have hcount2 : r2.evictableCount
      = (r.nodes.filter (fun m => m.fid_ != f)).countP (fun n => n.is_evictable_)
        + (if b then 1 else 0) := by
    unfold LRUKReplacer.evictableCount
    rw [hperm.countP_eq, List.countP_cons, hnode]
  have hsize2 : r2.evictable_size_ = r2.evictableCount ∧
      r2.evictable_size_ + (if r.evictable f ∧ b = false then 1 else 0)
        = r.evictable_size_ + (if ¬ r.evictable f ∧ b = true then 1 else 0) := by
    rw [hsz, hcount2]
    cases hme : m.is_evictable_ <;> cases b
    · have hnev : ¬ r.evictable f := fun h => by rw [hev.mp h] at hme; cases hme
      simp [hme, hnev] at hcnt ⊢
      omega
    · have hnev : ¬ r.evictable f := fun h => by rw [hev.mp h] at hme; cases hme
      simp [hme, hnev] at hcnt ⊢
      omega
    · have hyes : r.evictable f := hev.mpr hme
      have hpos : 1 ≤ r.evictable_size_ := by
        simp [hme] at hcnt
        omega
      simp [hme, hyes, decSizeT_of_pos hpos (by omega)] at hcnt ⊢
      omega
    · have hyes : r.evictable f := hev.mpr hme
      simp [hme, hyes] at hcnt ⊢
      omega
  refine ⟨⟨hsize2.1, ?_, ?_⟩, hsize2.2⟩
  · rw [hts, hperm.length_eq, List.length_cons, hlen]
    exact hs.nodes_le
  · rw [hts]
    exact hs.ts_le

/-- The state left by an erasure of the evictable node of `f` keeps the counting
invariant, and `Size` is one less. -/
theorem SizeInv_erase {r r2 : LRUKReplacer} {f : Int} {n : Nat} (hinv : r.Inv)
    (hinv2 : r2.Inv) (hs : r.SizeInv n) (hn : n < 2 ^ 64) (hev : r.evictable f)
    (hrem : RemovedFrom r r2 f) (hsz : r2.evictable_size_ = decSizeT r.evictable_size_)
    (hts : r2.current_timestamp_ = r.current_timestamp_) :
    r2.SizeInv n ∧ r2.Size + 1 = r.Size := by
  have hperm := hrem.rest_perm hinv hinv2
  obtain ⟨m, hm, hmf, hme⟩ := hev
  have hcnt := (countP_without hinv (fun n => n.is_evictable_) f).2 m hm hmf hme
  have hle := hs.size_le
  have hseq := hs.size_eq
  unfold LRUKReplacer.evictableCount at hseq
  have hpos : 1 ≤ r.evictable_size_ := by omega
  have hdec := decSizeT_of_pos hpos (by omega)
  refine ⟨⟨?_, ?_, ?_⟩, ?_⟩
  · unfold LRUKReplacer.evictableCount
    rw [hsz, hdec, hperm.countP_eq]
    omega
  · rw [hts, hperm.length_eq]
    exact (List.length_filter_le _ _).trans hs.nodes_le
  · rw [hts]
    exact hs.ts_le
  · unfold LRUKReplacer.Size
    rw [hsz, hdec]
    omega

theorem SizeInv_Remove {r r2 : LRUKReplacer} {f : Int} {n : Nat} (hinv : r.Inv)
    (hs : r.SizeInv n) (hn : n < 2 ^ 64) (h : r.Remove f = .ok r2) :
    r2.SizeInv n ∧ r2.Size + 1 = r.Size := by
  obtain ⟨hinv2, _, _, hev, hrem⟩ := Remove_nodes hinv h
  obtain ⟨_, _, _, _, rfl⟩ := Remove_ok_shape hinv h
  exact SizeInv_erase hinv hinv2 hs hn hev hrem rfl rfl

theorem SizeInv_Evict {r r2 : LRUKReplacer} {f : Int} {n : Nat} (hinv : r.Inv)
    (hs : r.SizeInv n) (hn : n < 2 ^ 64) (h : r.Evict = (some f, r2)) :
    r2.SizeInv n ∧ r2.Size + 1 = r.Size := by
  obtain ⟨hinv2, _, _, hev, hrem⟩ := Evict_nodes hinv h
  obtain ⟨_, _, _, _, _, rfl⟩ := Evict_some_shape hinv h
  exact SizeInv_erase hinv hinv2 hs hn hev hrem rfl rfl

/-- Every call, failed or not, keeps the structural invariant of the replacer. -/
theorem Inv_replacer_step {r : LRUKReplacer} (hinv : r.Inv) (c : ReplacerCall) :
    (r.step c).Inv := by
  cases c with
  | record_access f =>
    simp only [LRUKReplacer.step]
    cases h : r.RecordAccess f with
    | error e => exact hinv
    | ok r2 => exact (RecordAccess_nodes hinv h).1
  | set_evictable f b =>
    simp only [LRUKReplacer.step]
    cases h : r.SetEvictable f b with
    | error e => exact hinv
    | ok r2 => exact (SetEvictable_nodes hinv h).1
  | evict => exact Inv_Evict hinv
  | remove f =>
    simp only [LRUKReplacer.step]
    cases h : r.Remove f with
    | error e => exact hinv
    | ok r2 => exact (Remove_nodes hinv h).1

/-- Every call, failed or not, keeps the counting invariant of the replacer. -/
theorem SizeInv_step {r : LRUKReplacer} {n : Nat} (hinv : r.Inv) (hs : r.SizeInv n)
    (hn : n < 2 ^ 64) (c : ReplacerCall) : (r.step c).SizeInv (n + 1) := by
  cases c with
  | record_access f =>
    simp only [LRUKReplacer.step]
    cases h : r.RecordAccess f with
    | error e => exact hs.mono (Nat.le_succ n)
    | ok r2 => exact (SizeInv_RecordAccess hinv hs h).1
  | set_evictable f b =>
    simp only [LRUKReplacer.step]
    cases h : r.SetEvictable f b with
    | error e => exact hs.mono (Nat.le_succ n)
    | ok r2 => exact ((SizeInv_SetEvictable hinv hs hn h).1).mono (Nat.le_succ n)
  | evict =>
    simp only [LRUKReplacer.step]
    cases h : r.Evict with
    | mk v r2 =>
      cases v with
      | none =>
        have h0 : r.Evict.1 = none := by rw [h]
        rw [Evict_none_state h0] at h
        injection h with _ h2
        subst h2
        exact hs.mono (Nat.le_succ n)
      | some f => exact ((SizeInv_Evict hinv hs hn h).1).mono (Nat.le_succ n)
  | remove f =>
    simp only [LRUKReplacer.step]
    cases h : r.Remove f with
    | error e => exact hs.mono (Nat.le_succ n)
    | ok r2 => exact ((SizeInv_Remove hinv hs hn h).1).mono (Nat.le_succ n)

theorem size_inv_run (calls : List ReplacerCall) :
    ∀ (r : LRUKReplacer) (n : Nat), r.Inv → r.SizeInv n → n + calls.length < 2 ^ 64 →
      (r.run calls).Inv ∧ (r.run calls).SizeInv (n + calls.length) := by
  induction calls with
  | nil =>
    intro r n hinv hs _
    exact ⟨hinv, hs⟩
  | cons c cs ih =>
    intro r n hinv hs hlen
    simp only [List.length_cons] at hlen
    have := ih (r.step c) (n + 1) (Inv_replacer_step hinv c)
      (SizeInv_step hinv hs (by omega) c) (by omega)
    simp only [LRUKReplacer.run, List.foldl_cons, List.length_cons] at this ⊢
    rw [show n + (cs.length + 1) = n + 1 + cs.length by omega]
    exact this

theorem SizeInv_new (num_frames k : Nat) : (LRUKReplacer.new num_frames k).SizeInv 0 :=
  ⟨rfl, Nat.le_refl _, Nat.le_refl _⟩

/-- C17. Operation `Size` counts the evictable frames. In every state reached from a new replacer
by a sequence of fewer than `2 ^ 64` calls of `RecordAccess`, `SetEvictable`, `Evict` and
`Remove`, failed calls included, `Size()` is the number of tracked nodes, over both
lists, whose `is_evictable_` flag is set. In such a state a successful `RecordAccess`
leaves `Size()` as it is, a successful `SetEvictable` lowers it by one when an evictable
frame is made non-evictable, raises it by one when a non-evictable frame is made
evictable and leaves it otherwise, and a successful `Evict` or `Remove` lowers it by
exactly one. -/
theorem size_counts_evictable_nodes (num_frames K : Nat) (calls : List ReplacerCall)
    (r : LRUKReplacer) (hlen : calls.length < 2 ^ 64)
    (hr : (LRUKReplacer.new num_frames K).run calls = r) :
    r.Size = r.nodes.countP (fun n => n.is_evictable_) ∧
    (∀ f r2, r.RecordAccess f = .ok r2 → r2.Size = r.Size) ∧
    (∀ f b r2, r.SetEvictable f b = .ok r2 →
      r2.Size + (if r.evictable f ∧ b = false then 1 else 0)
        = r.Size + (if ¬ r.evictable f ∧ b = true then 1 else 0)) ∧
    (∀ f r2, r.Evict = (some f, r2) → r2.Size + 1 = r.Size) ∧
    (∀ f r2, r.Remove f = .ok r2 → r2.Size + 1 = r.Size) := by
  subst hr
  obtain ⟨hinv, hs⟩ := size_inv_run calls _ 0 (Inv_new num_frames K)
    (SizeInv_new num_frames K) (by omega)
  rw [Nat.zero_add] at hs
  refine ⟨hs.size_eq, ?_, ?_, ?_, ?_⟩
  · intro f r2 h
    exact (SizeInv_RecordAccess hinv hs h).2
  · intro f b r2 h
    exact (SizeInv_SetEvictable hinv hs hlen h).2
  · intro f r2 h
    exact (SizeInv_Evict hinv hs hlen h).2
  · intro f r2 h
    exact (SizeInv_Remove hinv hs hlen h).2

/-- Frames 0, 1, 2 are accessed, 0 and 1 are made evictable, 1 is made non-evictable
again and a `SetEvictable` of the unknown frame 7 fails: one node is evictable and
`Size()` is 1; making frame 2 evictable raises it to 2. -/
theorem size_counts_evictable_nodes_witness :
    ([ReplacerCall.record_access 0, .record_access 1, .record_access 2,
      .set_evictable 0 true, .set_evictable 1 true, .set_evictable 1 false,
      .set_evictable 7 true].length < 2 ^ 64) ∧
    ((LRUKReplacer.new 3 2).run
      [.record_access 0, .record_access 1, .record_access 2,
       .set_evictable 0 true, .set_evictable 1 true, .set_evictable 1 false,
       .set_evictable 7 true]).nodes.countP (fun n => n.is_evictable_) = 1 ∧
    ((LRUKReplacer.new 3 2).run
      [.record_access 0, .record_access 1, .record_access 2,
       .set_evictable 0 true, .set_evictable 1 true, .set_evictable 1 false,
       .set_evictable 7 true]).Size
      = ((LRUKReplacer.new 3 2).run
        [.record_access 0, .record_access 1, .record_access 2,
         .set_evictable 0 true, .set_evictable 1 true, .set_evictable 1 false,
         .set_evictable 7 true]).nodes.countP (fun n => n.is_evictable_) :=
  ⟨by decide, by decide,
    (size_counts_evictable_nodes 3 2
      [.record_access 0, .record_access 1, .record_access 2,
       .set_evictable 0 true, .set_evictable 1 true, .set_evictable 1 false,
       .set_evictable 7 true] _ (by decide) rfl).1⟩

/-- C16. The contract of `Remove`. In every state reached from a new replacer by a
sequence of fewer than `2 ^ 64` calls, `Remove(f)` fails exactly when `f` is not tracked
or its node is not evictable (with `InvalidFrame` in the first case and `NotEvictable`
in the second), and a failing call leaves the state as it was; a succeeding call leaves
`f` untracked, absent from both lists and from the index, lowers `Size()` by exactly
one, and leaves each list as the nodes of the other frames, unchanged and in their
order. -/
theorem replacer_remove_contract (num_frames K : Nat) (calls : List ReplacerCall)
    (r : LRUKReplacer) (hlen : calls.length < 2 ^ 64)
    (hr : (LRUKReplacer.new num_frames K).run calls = r) (f : Int) :
    ((∃ e, r.Remove f = .error e) ↔ (¬ r.tracked f ∨ ¬ r.evictable f)) ∧
    (¬ r.tracked f → r.Remove f = .error .InvalidFrame) ∧
    (r.tracked f → ¬ r.evictable f → r.Remove f = .error .NotEvictable) ∧
    (∀ e, r.Remove f = .error e → r.step (.remove f) = r) ∧
    (∀ r2, r.Remove f = .ok r2 →
      r.step (.remove f) = r2 ∧
      ¬ r2.tracked f ∧ r2.find f = none ∧ r2.Size + 1 = r.Size ∧
      r2.less_k_nodes_ = r.less_k_nodes_.filter (fun n => n.fid_ != f) ∧
      r2.over_k_nodes_ = r.over_k_nodes_.filter (fun n => n.fid_ != f)) := by
  subst hr
  obtain ⟨hinv, hs⟩ := size_inv_run calls _ 0 (Inv_new num_frames K)
    (SizeInv_new num_frames K) (by omega)
  rw [Nat.zero_add] at hs
  generalize (LRUKReplacer.new num_frames K).run calls = r at hinv hs
  have h1 : ¬ r.tracked f → r.Remove f = .error .InvalidFrame := by
    intro ht
    simp [LRUKReplacer.Remove, find_none_iff.mpr ht]
  have h2 : r.tracked f → ¬ r.evictable f → r.Remove f = .error .NotEvictable := by
    intro ht hne
    cases hfind : r.find f with
    | none => exact absurd ht (find_none_iff.mp hfind)
    | some n =>
      obtain ⟨hn, hnf⟩ := find_some_mem hfind
      have hflag : n.is_evictable_ = false := by
        cases hb : n.is_evictable_
        · rfl
        · exact absurd ⟨n, hn, hnf, hb⟩ hne
      simp [LRUKReplacer.Remove, hfind, hflag]
  refine ⟨?_, h1, h2, ?_, ?_⟩
  · constructor
    · rintro ⟨e, he⟩
      by_contra hcon
      push_neg at hcon
      obtain ⟨r2, hr2⟩ := Remove_ok_of_evictable hinv hcon.2
      rw [hr2] at he
      cases he
    · rintro (ht | hne)
      · exact ⟨_, h1 ht⟩
      · by_cases ht : r.tracked f
        · exact ⟨_, h2 ht hne⟩
        · exact ⟨_, h1 ht⟩
  · intro e he
    simp [LRUKReplacer.step, he]
  · intro r2 hr2
    obtain ⟨hinv2, _, _, _, hrem⟩ := Remove_nodes hinv hr2
    have hnt : ¬ r2.tracked f := hrem.not_tracked_self
    have hsize := (SizeInv_Remove hinv hs hlen hr2).2
    obtain ⟨_, _, _, _, rfl⟩ := Remove_ok_shape hinv hr2
    refine ⟨by simp [LRUKReplacer.step, hr2], hnt, find_none_iff.mpr hnt, hsize, ?_, ?_⟩
    · exact eraseP_fid_eq_filter f hinv.less_nodup
    · exact eraseP_fid_eq_filter f hinv.over_nodup

/-- Frames 0, 1, 2 are accessed and frame 1 is made evictable: `Remove(1)` succeeds,
leaves frames 0 and 2 in their order and `Size()` at 0; `Remove(0)` fails because frame
0 is not evictable and `Remove(5)` because frame 5 is not tracked. -/
theorem replacer_remove_contract_witness :
    ([ReplacerCall.record_access 0, .record_access 1, .record_access 2,
      .set_evictable 1 true].length < 2 ^ 64) ∧
    (∃ r2, ((LRUKReplacer.new 3 2).run
        [.record_access 0, .record_access 1, .record_access 2,
         .set_evictable 1 true]).Remove 1 = .ok r2 ∧
      r2.Size + 1 = ((LRUKReplacer.new 3 2).run
        [.record_access 0, .record_access 1, .record_access 2,
         .set_evictable 1 true]).Size ∧
      r2.less_k_nodes_.map (fun n => n.fid_) = [0, 2]) := by
  refine ⟨by decide, ?_⟩
  obtain ⟨r2, hr2⟩ : ∃ r2, ((LRUKReplacer.new 3 2).run
      [.record_access 0, .record_access 1, .record_access 2,
       .set_evictable 1 true]).Remove 1 = .ok r2 := ⟨_, rfl⟩
  obtain ⟨_, _, _, h4, h5, _⟩ := (replacer_remove_contract 3 2
    [.record_access 0, .record_access 1, .record_access 2, .set_evictable 1 true] _
    (by decide) rfl 1).2.2.2.2 r2 hr2
  refine ⟨r2, hr2, h4, ?_⟩
  rw [h5]
  decide

/-- C19. The list `over_k_nodes_` stays sorted. For `1 ≤ K` (a `size_t`, so below
`2 ^ 64`) and every state reached from a new replacer by any sequence of calls, every
node of `over_k_nodes_` holds exactly `K` history entries, its cached timestamp
`min_history_size_` is the oldest of them, which is the timestamp of its `K`-th most
recent access, and the list ascends strictly in that timestamp from front to back. -/
theorem over_k_list_stays_sorted (num_frames K : Nat) (calls : List ReplacerCall)
    (r : LRUKReplacer) (hK : 1 ≤ K) (hK2 : K < 2 ^ 64)
    (hr : (LRUKReplacer.new num_frames K).run calls = r) :
    (∀ n ∈ r.over_k_nodes_,
      n.history_.length = K ∧ n.min_history_size_ = n.oldest ∧
        n.min_history_size_ = n.kthRecent K) ∧
    r.over_k_nodes_.Pairwise (fun a b => a.min_history_size_ < b.min_history_size_) := by
  subst hr
  obtain ⟨_, ho, hk⟩ := replacer_inv_run calls _ (Inv_new num_frames K)
    (OrdInv_new num_frames K hK hK2)
  have hk2 : ((LRUKReplacer.new num_frames K).run calls).k_ = K := hk
  refine ⟨?_, ho.over_sorted⟩
  intro n hn
  have hlen : n.history_.length = K := by rw [ho.over_len n hn, hk2]
  refine ⟨hlen, ho.over_min n hn, ?_⟩
  rw [ho.over_min n hn]
  exact (getD_last_of_length hK hlen).symm

/-- With `K = 2`, frames 0 and 1 are accessed alternately, five accesses in all: both
are in `over_k_nodes_`, frame 1 (accesses 2 and 4) in front of frame 0 (accesses 3 and
5). -/
theorem over_k_list_stays_sorted_witness :
    (1 ≤ 2) ∧ (2 < 2 ^ 64) ∧
    ((LRUKReplacer.new 2 2).run
      [.record_access 0, .record_access 1, .record_access 0, .record_access 1,
       .record_access 0]).over_k_nodes_.map (fun n => (n.fid_, n.history_)) =
      [(1, [4, 2]), (0, [5, 3])] ∧
    ((LRUKReplacer.new 2 2).run
      [.record_access 0, .record_access 1, .record_access 0, .record_access 1,
       .record_access 0]).over_k_nodes_.Pairwise
        (fun a b => a.min_history_size_ < b.min_history_size_) :=
  ⟨by norm_num, by norm_num, by decide,
    (over_k_list_stays_sorted 2 2
      [.record_access 0, .record_access 1, .record_access 0, .record_access 1,
       .record_access 0] _ (by norm_num) (by norm_num) rfl).2⟩
/-! ## Paths of the source that miss a check -/

/-- C18 fails on the code. `Trie::Get` walks from `root_` without testing it, so on the
empty trie a key with a first byte dereferences a null pointer (only the empty key
returns none); `Trie::Remove` starts with `root_->Clone()`, a null dereference on the
empty trie for every key; and on a trie with a root the loop bound `key.size() - 1` of
`Trie::Remove` wraps for the empty key, so `key[0]` is read out of bounds instead of the
root being replaced by a plain node. -/
theorem trie_get_remove_undefined_inputs :
    (Trie.Get (⟨none⟩ : Trie Nat Nat) 0 [] = .ok none) ∧
    (Trie.Get (⟨none⟩ : Trie Nat Nat) 0 ['a'] = .error .nullDeref) ∧
    (Trie.Remove (⟨none⟩ : Trie Nat Nat) ['a'] = .error .nullDeref) ∧
    (Trie.Remove (⟨none⟩ : Trie Nat Nat) [] = .error .nullDeref) ∧
    (Trie.Remove (Trie.Put (⟨none⟩ : Trie Nat Nat) 0 [] 7) [] = .error .outOfBounds) ∧
    (Trie.Get (Trie.Put (⟨none⟩ : Trie Nat Nat) 0 [] 7) 0 [] = .ok (some 7)) :=
  ⟨rfl, rfl, rfl, rfl, rfl, rfl⟩

/-- C20 fails on the code. `FlushPage` of a page id that is not resident returns false
through an early return that does not unlock `latch_`: started on a fresh pool with the
mutex free, the call returns with the mutex held, and the next public call blocks on
`latch_.lock()`. -/
theorem flush_page_absent_keeps_latch :
    (BufferPoolManager.new 1 ⟨[]⟩ 2).latch_ = false ∧
    (BufferPoolManager.new 1 ⟨[]⟩ 2).FlushPage 0
      = .returned false { BufferPoolManager.new 1 ⟨[]⟩ 2 with latch_ := true } ∧
    ({ BufferPoolManager.new 1 ⟨[]⟩ 2 with latch_ := true } : BufferPoolManager).NewPage
      = .blocked ∧
    (BufferPoolManager.new 1 ⟨[]⟩ 2).run [.flush_page 0, .new_page] = none :=
  ⟨rfl, rfl, rfl, rfl⟩

/-- C13 fails on the code for a page id that is not resident. On a fresh pool page 0 is
not resident: the first `FlushPage(0)` returns false, changes no frame and writes
nothing, but returns through the early return that does not unlock `latch_`; the second
`FlushPage(0)` right after it blocks on `latch_.lock()` and yields no state at all, so
the pair of calls never ends. -/
theorem flush_page_twice_blocks :
    (BufferPoolManager.new 1 ⟨[]⟩ 2).page_table_.find 0 = none ∧
    (BufferPoolManager.new 1 ⟨[]⟩ 2).FlushPage 0
      = .returned false { BufferPoolManager.new 1 ⟨[]⟩ 2 with latch_ := true } ∧
    ({ BufferPoolManager.new 1 ⟨[]⟩ 2 with latch_ := true } : BufferPoolManager).FlushPage 0
      = .blocked ∧
    (BufferPoolManager.new 1 ⟨[]⟩ 2).run [.flush_page 0, .flush_page 0] = none :=
  ⟨rfl, rfl, rfl, rfl⟩
/-! ## Buffer pool: the cases of `FetchPage` and `UnpinPage` on a pool that satisfies its invariant -/

/-- Operation `FetchPage` on a pool that satisfies its invariant, with the latch free: either the
page is not resident and the pool is full, and nothing changes, or the page ends
resident in the returned frame with one more pin than before (one pin if it was not
resident). -/
theorem FetchPage_cases {s : BufferPoolManager} (hinv : s.Inv) (hl : s.latch_ = false)
    (p : Int) :
    (s.FetchPage p = .returned none s ∧ s.page_table_.find p = none) ∨
    ∃ f s2, s.FetchPage p = .returned (some f) s2 ∧ s2.Inv ∧ s2.latch_ = false ∧
      s2.page_table_.find p = some f ∧
      (∀ f0, s.page_table_.find p = some f0 →
        f = f0 ∧ (s2.page f).pin_count_ = (s.page f).pin_count_ + 1) ∧
      (s.page_table_.find p = none → (s2.page f).pin_count_ = 1) := by
  obtain ⟨v, s3, hs3, hinv3, hl3, _, _⟩ := Inv_FetchPage hinv hl p
  cases hfind : s.page_table_.find p with
  | some f =>
    right
    obtain ⟨hf0, hf1, hnf, htrk, hiff⟩ := hinv.mapped_used (PageTable.find_some hfind)
    simp only at hf0 hf1 hnf htrk hiff
    have hle : f ≤ toInt32 s.replacer_.replacer_size_ := by
      rw [hinv.rsize]; exact frame_le_toInt32 hinv.size_lt hf1
    obtain ⟨r1, r2, h1, h2⟩ := touch_ok hinv.rinv hle
    obtain ⟨s2, hs2, e1, e2, e3, e4, e5, e6, e7, _, e9⟩ := FetchPage_hit s hl p f hfind r1 r2 h1 h2
    have hc := toNat_cond hf0 hf1 hinv.pages_len
    have h32 : s3 = s2 := by
      rw [hs2] at hs3
      injection hs3 with _ h
      exact h.symm
    subst h32
    refine ⟨f, s3, hs2, hinv3, hl3, by rw [e2]; exact hfind, ?_, ?_⟩
    · intro f0 hf0eq
      cases hf0eq
      refine ⟨rfl, ?_⟩
      rw [page_eq_pageAt, e9 f, if_pos hc]
      rfl
    · intro h
      cases h
  | none =>
    cases hfree : s.free_list_ with
    | cons f rest =>
      right
      have hfF : f ∈ s.free_list_ := by rw [hfree]; exact List.mem_cons_self _ _
      obtain ⟨hf0, hf1, ⟨hnt, hpin, hdirty, hTf⟩, _⟩ := hinv.free_idle hfF
      have hle : f ≤ toInt32 s.replacer_.replacer_size_ := by
        rw [hinv.rsize]; exact frame_le_toInt32 hinv.size_lt hf1
      obtain ⟨r1, r2, h1, h2⟩ := touch_ok hinv.rinv hle
      obtain ⟨s2, hs2, e1, e2, e3, e4, e5, e6, e7, _, e9⟩ :=
        FetchPage_free s hl p f hfind rest hfree r1 r2 h1 h2
      have hc := toNat_cond hf0 hf1 hinv.pages_len
      have h32 : s3 = s2 := by
        rw [hs2] at hs3
        injection hs3 with _ h
        exact h.symm
      subst h32
      refine ⟨f, s3, hs2, hinv3, hl3, ?_, ?_, ?_⟩
      · apply PageTable.find_of_entry hinv3.table_keys
        rw [e2]
        exact PageTable.mem_assign.mpr (Or.inl rfl)
      · intro f0 h
        cases h
      · intro _
        rw [page_eq_pageAt, e9 f, if_pos hc]
        simp only [hpin]
    | nil =>
      cases hev0 : s.replacer_.Evict with
      | mk v0 r0 =>
        cases v0 with
        | none =>
          have h0 : s.replacer_.Evict.1 = none := by rw [hev0]
          exact Or.inl ⟨FetchPage_full s hl p hfind hfree h0, rfl⟩
        | some f =>
          right
          obtain ⟨hi0, hs0, _, hevf, hrem⟩ := Evict_nodes hinv.rinv hev0
          obtain ⟨hf0, hf1, hnf, hiff⟩ := hinv.tracked_used (evictable_tracked hevf)
          have hle : f ≤ toInt32 r0.replacer_size_ := by
            rw [hs0, hinv.rsize]; exact frame_le_toInt32 hinv.size_lt hf1
          obtain ⟨r1, r2, h1, h2⟩ := touch_ok hi0 hle
          obtain ⟨s2, hs2, e1, e2, e3, e4, e5, e6, e7, _, e9⟩ :=
            FetchPage_evict s hl p f hfind hfree r0 r1 r2 hev0 h1 h2
          have hc := toNat_cond hf0 hf1 hinv.pages_len
          have h32 : s3 = s2 := by
            rw [hs2] at hs3
            injection hs3 with _ h
            exact h.symm
          subst h32
          refine ⟨f, s3, hs2, hinv3, hl3, ?_, ?_, ?_⟩
          · apply PageTable.find_of_entry hinv3.table_keys
            rw [e2]
            exact PageTable.mem_assign.mpr (Or.inl rfl)
          · intro f0 h
            cases h
          · intro _
            rw [page_eq_pageAt, e9 f, if_pos hc]
            simp only [hiff.mp hevf]

/-- Operation `UnpinPage` on a pool that satisfies its invariant, with the latch free: the call
returns, keeps the invariant, the latch free, the page table and the page id of every
frame; on a resident page with a pin it returns true and takes one pin off. -/
theorem UnpinPage_total {s : BufferPoolManager} (hinv : s.Inv) (hl : s.latch_ = false)
    (p : Int) (d : Bool) :
    ∃ v s2, s.UnpinPage p d = .returned v s2 ∧ s2.Inv ∧ s2.latch_ = false ∧
      s2.page_table_ = s.page_table_ ∧
      (∀ g, (s2.page g).page_id_ = (s.page g).page_id_) ∧
      (∀ f, s.page_table_.find p = some f → (s.page f).pin_count_ ≠ 0 →
        v = true ∧ (s2.page f).pin_count_ + 1 = (s.page f).pin_count_) := by
  obtain ⟨v, s3, hs3, hinv3, hl3, _, _⟩ := Inv_UnpinPage hinv hl p d
  obtain ⟨h1, h2, h3⟩ := UnpinPage_shape s p d hl
  cases hfind : s.page_table_.find p with
  | none =>
    refine ⟨false, s, h1 hfind, hinv, hl, rfl, fun _ => rfl, ?_⟩
    intro f hf
    cases hf
  | some f =>
    by_cases hpin : (s.page f).pin_count_ = 0
    · refine ⟨false, s, h2 f hfind hpin, hinv, hl, rfl, fun _ => rfl, ?_⟩
      intro f0 hf0 hne
      cases hf0
      exact absurd hpin hne
    · obtain ⟨hf0, hf1, hnf, htr, hev⟩ := hinv.mapped_used (PageTable.find_some hfind)
      simp only at hf0 hf1 hnf htr hev
      have hlen : f < s.pages_.length := by rw [hinv.pages_len]; exact hf1
      have hc := toNat_cond hf0 hf1 hinv.pages_len
      obtain ⟨h4, h5, _⟩ := h3 f hfind hpin hf0 hlen
      have hpages : ∀ g, pageAt (s.setPage f (fun q =>
            { q with is_dirty_ := q.is_dirty_ || d, pin_count_ := q.pin_count_ - 1 })).pages_ g
          = if g.toNat = f.toNat ∧ f.toNat < s.pages_.length then
              { pageAt s.pages_ f with
                is_dirty_ := (pageAt s.pages_ f).is_dirty_ || d
                pin_count_ := (pageAt s.pages_ f).pin_count_ - 1 }
            else pageAt s.pages_ g := fun g => pageAt_setPage_if s f g _
      have hpin2 : (pageAt s.pages_ f).pin_count_ ≠ 0 := hpin
      have hids : ∀ g, (pageAt (s.setPage f (fun q =>
            { q with is_dirty_ := q.is_dirty_ || d, pin_count_ := q.pin_count_ - 1 })).pages_
            g).page_id_ = (pageAt s.pages_ g).page_id_ := by
        intro g
        rw [hpages g]
        split
        · rename_i h
          rw [pageAt_eq_of_toNat h.1]
        · rfl
      have hpinf : (pageAt (s.setPage f (fun q =>
            { q with is_dirty_ := q.is_dirty_ || d, pin_count_ := q.pin_count_ - 1 })).pages_
            f).pin_count_ + 1 = (pageAt s.pages_ f).pin_count_ := by
        rw [hpages f, if_pos hc]
        simp only
        omega
      by_cases hone : (s.page f).pin_count_ = 1
      · obtain ⟨r2, hr2⟩ := SetEvictable_ok_of_tracked true htr
        have hs := h5 hone r2 hr2
        have hs0 := hs
        rw [hs3] at hs0
        injection hs0 with _ h32
        subst h32
        refine ⟨true, _, hs, hinv3, hl3, rfl, hids, ?_⟩
        intro f0 hf0eq _
        cases hf0eq
        exact ⟨rfl, hpinf⟩
      · have hs := h4 hone
        have hs0 := hs
        rw [hs3] at hs0
        injection hs0 with _ h32
        subst h32
        refine ⟨true, _, hs, hinv3, hl3, rfl, hids, ?_⟩
        intro f0 hf0eq _
        cases hf0eq
        exact ⟨rfl, hpinf⟩
/-! ## Page guards -/

/-- Operation `Drop` of a well-formed basic guard returns, leaves the guard empty and makes
exactly the calls of its release. -/
theorem BasicPageGuard.drop_releases {s : BufferPoolManager} {w : GuardWorld} (hw : w.Ok s)
    (g : BasicPageGuard) (extra : List GuardEvent)
    (hg : (Guard.basic g).wellFormed s = true) :
    ∃ w2, g.Drop (⟨w.bpm, w.trace ++ extra⟩ : GuardWorld)
        = some (⟨false, none, false⟩, w2) ∧ w2.Ok s ∧
      w2.trace = w.trace ++ extra ++ (Guard.basic g).release s := by
  obtain ⟨hinv, hl, hids⟩ := hw
  cases hp : g.page_ with
  | none =>
    refine ⟨⟨w.bpm, w.trace ++ extra⟩, ?_, ⟨hinv, hl, hids⟩, ?_⟩
    · simp [BasicPageGuard.Drop, hp]
    · simp [Guard.release, Guard.inner, hp]
  | some page =>
    simp only [Guard.wellFormed, Guard.inner, hp, Bool.and_eq_true, bne_iff_ne, ne_eq] at hg
    obtain ⟨hb, hne⟩ := hg
    have hid : (w.bpm.page page).page_id_ = (s.page page).page_id_ := hids page
    obtain ⟨v, s2, hs2, hinv2, hl2, _, hids2, _⟩ :=
      UnpinPage_total hinv hl (s.page page).page_id_ g.is_dirty_
    refine ⟨⟨s2, w.trace ++ extra ++ [.UnpinPage (s.page page).page_id_ g.is_dirty_]⟩, ?_,
      ⟨hinv2, hl2, fun f => (hids2 f).trans (hids f)⟩, ?_⟩
    · simp [BasicPageGuard.Drop, hp, GuardWorld.PageId, hid, hne, hb, hs2]
    · simp [Guard.release, Guard.inner, hp]

/-- Operation `Drop` of a basic guard that guards no page makes no call. -/
theorem BasicPageGuard.Drop_empty (g : BasicPageGuard) (w : GuardWorld) (hp : g.page_ = none) :
    g.Drop w = some (⟨false, none, false⟩, w) := by
  simp [BasicPageGuard.Drop, hp]

/-- Operation `Drop` of a well-formed guard returns, leaves the guard without a page and makes
exactly the calls of its release. -/
theorem Guard.drop_releases_guard {s : BufferPoolManager} {w : GuardWorld} (hw : w.Ok s) (g : Guard)
    (hg : g.wellFormed s = true) :
    ∃ g2 w2, g.Drop w = some (g2, w2) ∧ g2.holding = false ∧ w2.Ok s ∧
      w2.trace = w.trace ++ g.release s := by
  cases g with
  | basic b =>
    obtain ⟨w2, h1, h2, h3⟩ := BasicPageGuard.drop_releases hw b [] hg
    simp only [List.append_nil] at h1 h3
    have h1b : b.Drop w = some (⟨false, none, false⟩, w2) := h1
    exact ⟨.basic ⟨false, none, false⟩, w2, by simp [Guard.Drop, h1b], rfl, h2, h3⟩
  | read r =>
    cases hp : r.guard_.page_ with
    | none =>
      obtain ⟨w2, h1, h2, h3⟩ := BasicPageGuard.drop_releases hw r.guard_ []
        (by simpa [Guard.wellFormed, Guard.inner] using hg)
      simp only [List.append_nil] at h1 h3
      have h1b : r.guard_.Drop w = some (⟨false, none, false⟩, w2) := h1
      refine ⟨.read ⟨⟨false, none, false⟩⟩, w2,
        by simp [Guard.Drop, ReadPageGuard.Drop, hp, h1b], rfl, h2, ?_⟩
      rw [h3]
      simp [Guard.release, Guard.inner, hp]
    | some page =>
      obtain ⟨w2, h1, h2, h3⟩ := BasicPageGuard.drop_releases hw r.guard_ [.RUnlatch page]
        (by simpa [Guard.wellFormed, Guard.inner] using hg)
      refine ⟨.read ⟨⟨false, none, false⟩⟩, w2,
        by simp [Guard.Drop, ReadPageGuard.Drop, hp, GuardWorld.emit, h1], rfl, h2, ?_⟩
      rw [h3]
      simp [Guard.release, Guard.inner, hp]
  | write r =>
    cases hp : r.guard_.page_ with
    | none =>
      obtain ⟨w2, h1, h2, h3⟩ := BasicPageGuard.drop_releases hw r.guard_ []
        (by simpa [Guard.wellFormed, Guard.inner] using hg)
      simp only [List.append_nil] at h1 h3
      have h1b : r.guard_.Drop w = some (⟨false, none, false⟩, w2) := h1
      refine ⟨.write ⟨⟨false, none, false⟩⟩, w2,
        by simp [Guard.Drop, WritePageGuard.Drop, hp, h1b], rfl, h2, ?_⟩
      rw [h3]
      simp [Guard.release, Guard.inner, hp]
    | some page =>
      obtain ⟨w2, h1, h2, h3⟩ := BasicPageGuard.drop_releases hw r.guard_ [.WUnlatch page]
        (by simpa [Guard.wellFormed, Guard.inner] using hg)
      refine ⟨.write ⟨⟨false, none, false⟩⟩, w2,
        by simp [Guard.Drop, WritePageGuard.Drop, hp, GuardWorld.emit, h1], rfl, h2, ?_⟩
      rw [h3]
      simp [Guard.release, Guard.inner, hp]

theorem heldGuards_append (l m : List (Option Guard)) :
    heldGuards (l ++ m) = heldGuards l ++ heldGuards m := by
  induction l with
  | nil => rfl
  | cons o l ih => simp [heldGuards, ih]

theorem heldGuards_singleton (o : Option Guard) : heldGuards [o] = heldOf o := by
  simp [heldGuards]

/-- Replacing the guard of one variable replaces it among the guards that hold a page. -/
theorem count_heldGuards_set (x : Guard) (o2 : Option Guard) :
    ∀ (vars : List (Option Guard)) (i : Nat) (g : Guard), vars.getD i none = some g →
      (heldGuards (vars.set i o2)).count x + (heldOf (some g)).count x
        = (heldGuards vars).count x + (heldOf o2).count x := by
  intro vars
  induction vars with
  | nil =>
    intro i g h
    simp at h
  | cons o vars ih =>
    intro i g h
    cases i with
    | zero =>
      simp only [List.getD_cons_zero] at h
      subst h
      simp only [List.set_cons_zero, heldGuards, List.count_append]
      omega
    | succ i =>
      simp only [List.getD_cons_succ] at h
      have := ih i g h
      simp only [List.set_cons_succ, heldGuards, List.count_append]
      omega

theorem getD_set_ne (vars : List (Option Guard)) {i j : Nat} (h : i ≠ j) (o : Option Guard) :
    (vars.set i o).getD j none = vars.getD j none := by
  simp [List.getD_eq_getElem?_getD, List.getElem?_set_ne h]

theorem releaseAll_append (s : BufferPoolManager) (l m : List Guard) :
    releaseAll s (l ++ m) = releaseAll s l ++ releaseAll s m := by
  induction l with
  | nil => rfl
  | cons g l ih => simp [releaseAll, ih]

theorem release_of_not_holding (s : BufferPoolManager) {g : Guard} (h : g.holding = false) :
    g.release s = [] := by
  unfold Guard.holding at h
  cases hp : g.inner.page_ with
  | none => simp [Guard.release, hp]
  | some page => simp [hp] at h

theorem releaseAll_heldOf (s : BufferPoolManager) (g : Guard) :
    releaseAll s (heldOf (some g)) = g.release s := by
  cases h : g.holding with
  | true => simp [heldOf, h, releaseAll]
  | false => simp [heldOf, h, releaseAll, release_of_not_holding s h]

theorem heldOf_of_not_holding {g : Guard} (h : g.holding = false) : heldOf (some g) = [] := by
  simp [heldOf, h]

theorem wellFormed_of_not_holding (s : BufferPoolManager) {g : Guard} (h : g.holding = false) :
    g.wellFormed s = true := by
  unfold Guard.holding at h
  cases hp : g.inner.page_ with
  | none => simp [Guard.wellFormed, hp]
  | some page => simp [hp] at h

/-- Move construction hands the guard over unchanged and leaves the source without a
page. -/
theorem Guard.moveConstruct_spec (g : Guard) :
    g.moveConstruct.1 = g ∧ g.moveConstruct.2.holding = false := by
  cases g <;> exact ⟨rfl, rfl⟩

/-- The destructor of a well-formed guard returns and makes exactly the calls of its
release. -/
theorem Guard.destroy_spec {s : BufferPoolManager} {w : GuardWorld} (hw : w.Ok s) (g : Guard)
    (hg : g.wellFormed s = true) :
    ∃ w2, g.destroy w = some w2 ∧ w2.Ok s ∧ w2.trace = w.trace ++ g.release s := by
  obtain ⟨g2, w2, h1, h2, h3, h4⟩ := Guard.drop_releases_guard hw g hg
  cases g with
  | basic b =>
    refine ⟨w2, ?_, h3, h4⟩
    simp only [Guard.Drop, Option.map_eq_some'] at h1
    obtain ⟨r, hr, hr2⟩ := h1
    simp only [Guard.destroy, BasicPageGuard.destroy, hr, Option.map_some']
    injection hr2 with _ h
    rw [h]
  | read r =>
    simp only [Guard.Drop, Option.map_eq_some'] at h1
    obtain ⟨q, hq, hq2⟩ := h1
    injection hq2 with hq3 hq4
    subst hq3 hq4
    cases hp : r.guard_.page_ with
    | none =>
      have hrel : (Guard.read r).release s = [] := release_of_not_holding s (by
        simp [Guard.holding, Guard.inner, hp])
      rw [hrel, List.append_nil] at h4
      refine ⟨w, ?_, hw, by rw [hrel, List.append_nil]⟩
      simp [Guard.destroy, ReadPageGuard.destroy, hp, BasicPageGuard.destroy,
        BasicPageGuard.Drop_empty _ _ hp]
    | some page =>
      have hq1 : q.1.guard_.page_ = none := by
        simpa [Guard.holding, Guard.inner] using h2
      refine ⟨q.2, ?_, h3, h4⟩
      simp [Guard.destroy, ReadPageGuard.destroy, hp, hq, BasicPageGuard.destroy,
        BasicPageGuard.Drop_empty _ _ hq1]
  | write r =>
    simp only [Guard.Drop, Option.map_eq_some'] at h1
    obtain ⟨q, hq, hq2⟩ := h1
    injection hq2 with hq3 hq4
    subst hq3 hq4
    cases hp : r.guard_.page_ with
    | none =>
      have hrel : (Guard.write r).release s = [] := release_of_not_holding s (by
        simp [Guard.holding, Guard.inner, hp])
      rw [hrel, List.append_nil] at h4
      refine ⟨w, ?_, hw, by rw [hrel, List.append_nil]⟩
      simp [Guard.destroy, WritePageGuard.destroy, hp, BasicPageGuard.destroy,
        BasicPageGuard.Drop_empty _ _ hp]
    | some page =>
      have hq1 : q.1.guard_.page_ = none := by
        simpa [Guard.holding, Guard.inner] using h2
      refine ⟨q.2, ?_, h3, h4⟩
      simp [Guard.destroy, WritePageGuard.destroy, hp, hq, BasicPageGuard.destroy,
        BasicPageGuard.Drop_empty _ _ hq1]

theorem mem_of_getD_some {vars : List (Option Guard)} {i : Nat} {g : Guard}
    (h : vars.getD i none = some g) : some g ∈ vars := by
  rw [List.getD_eq_getElem?_getD] at h
  cases hi : vars[i]? with
  | none => simp [hi] at h
  | some o =>
    simp only [hi, Option.getD_some] at h
    subst h
    exact List.getElem?_mem hi

/-- Move assignment between two distinct guards: the destination, if well formed,
releases what it holds and takes over the source, which is left without a page. -/
theorem Guard.moveAssign_spec {s : BufferPoolManager} {w : GuardWorld} (hw : w.Ok s)
    (this that : Guard) (hg : this.wellFormed s = true) (hg2 : that.wellFormed s = true) :
    ∃ a b w2 rel, this.moveAssign that w = some (a, b, w2) ∧ w2.Ok s ∧
      a.wellFormed s = true ∧ b.wellFormed s = true ∧
      w2.trace = w.trace ++ releaseAll s rel ∧
      ∀ x, (heldOf (some a)).count x + (heldOf (some b)).count x + rel.count x
        = (heldOf (some this)).count x + (heldOf (some that)).count x := by
  have hskip : ∃ a b w2 rel, some (this, that, w) = some (a, b, w2) ∧ w2.Ok s ∧
      a.wellFormed s = true ∧ b.wellFormed s = true ∧
      w2.trace = w.trace ++ releaseAll s rel ∧
      ∀ x, (heldOf (some a)).count x + (heldOf (some b)).count x + rel.count x
        = (heldOf (some this)).count x + (heldOf (some that)).count x :=
    ⟨this, that, w, [], rfl, hw, hg, hg2, by simp [releaseAll], fun x => by simp⟩
  cases this with
  | basic r1 =>
    cases that with
    | basic r2 =>
      obtain ⟨w2, h1, h2, h3⟩ := BasicPageGuard.drop_releases hw r1 [] hg
      simp only [List.append_nil] at h1 h3
      have h1b : r1.Drop w = some (⟨false, none, false⟩, w2) := h1
      refine ⟨.basic r2, .basic ⟨false, none, false⟩, w2, heldOf (some (.basic r1)), ?_, h2,
        hg2, rfl, ?_, ?_⟩
      · simp [Guard.moveAssign, BasicPageGuard.moveAssign, h1b]
      · rw [h3, releaseAll_heldOf]
      · intro x
        have : heldOf (some (Guard.basic ⟨false, none, false⟩)) = [] := rfl
        rw [this]
        simp only [List.count_nil]
        omega
    | read r2 => exact hskip
    | write r2 => exact hskip
  | read r1 =>
    cases that with
    | basic r2 => exact hskip
    | write r2 => exact hskip
    | read r2 =>
      have hrel : ∃ extra, (match r1.guard_.page_ with
            | some page => w.emit (.RUnlatch page)
            | none => w) = ⟨w.bpm, w.trace ++ extra⟩ ∧
          (Guard.read r1).release s = extra ++ (Guard.basic r1.guard_).release s := by
        cases hp : r1.guard_.page_ with
        | none => exact ⟨[], by simp, by simp [Guard.release, Guard.inner, hp]⟩
        | some page =>
          exact ⟨[.RUnlatch page], by simp [GuardWorld.emit],
            by simp [Guard.release, Guard.inner, hp]⟩
      obtain ⟨extra, he1, he2⟩ := hrel
      obtain ⟨w2, h1, h2, h3⟩ := BasicPageGuard.drop_releases hw r1.guard_ extra
        (by simpa [Guard.wellFormed, Guard.inner] using hg)
      refine ⟨.read r2, .read ⟨⟨false, none, false⟩⟩, w2, heldOf (some (.read r1)), ?_, h2,
        hg2, rfl, ?_, ?_⟩
      · simp only [Guard.moveAssign, ReadPageGuard.moveAssign, he1,
          BasicPageGuard.moveAssign, h1]
        rfl
      · rw [h3, releaseAll_heldOf, he2, List.append_assoc]
      · intro x
        have : heldOf (some (Guard.read ⟨⟨false, none, false⟩⟩)) = [] := rfl
        rw [this]
        simp only [List.count_nil]
        omega
  | write r1 =>
    cases that with
    | basic r2 => exact hskip
    | read r2 => exact hskip
    | write r2 =>
      have hrel : ∃ extra, (match r1.guard_.page_ with
            | some page => w.emit (.WUnlatch page)
            | none => w) = ⟨w.bpm, w.trace ++ extra⟩ ∧
          (Guard.write r1).release s = extra ++ (Guard.basic r1.guard_).release s := by
        cases hp : r1.guard_.page_ with
        | none => exact ⟨[], by simp, by simp [Guard.release, Guard.inner, hp]⟩
        | some page =>
          exact ⟨[.WUnlatch page], by simp [GuardWorld.emit],
            by simp [Guard.release, Guard.inner, hp]⟩
      obtain ⟨extra, he1, he2⟩ := hrel
      obtain ⟨w2, h1, h2, h3⟩ := BasicPageGuard.drop_releases hw r1.guard_ extra
        (by simpa [Guard.wellFormed, Guard.inner] using hg)
      refine ⟨.write r2, .write ⟨⟨false, none, false⟩⟩, w2, heldOf (some (.write r1)), ?_, h2,
        hg2, rfl, ?_, ?_⟩
      · simp only [Guard.moveAssign, WritePageGuard.moveAssign, he1,
          BasicPageGuard.moveAssign, h1]
        rfl
      · rw [h3, releaseAll_heldOf, he2, List.append_assoc]
      · intro x
        have : heldOf (some (Guard.write ⟨⟨false, none, false⟩⟩)) = [] := rfl
        rw [this]
        simp only [List.count_nil]
        omega

theorem wf_of_mem_set {s : BufferPoolManager} {vars : List (Option Guard)} {i : Nat}
    {o : Option Guard} (hall : ∀ g, some g ∈ vars → g.wellFormed s = true)
    (ho : ∀ g, o = some g → g.wellFormed s = true) :
    ∀ g, some g ∈ vars.set i o → g.wellFormed s = true := by
  intro g hg
  rcases List.mem_or_eq_of_mem_set hg with h | h
  · exact hall g h
  · exact ho g h.symm

/-- One statement over well-formed guards returns; the calls it makes are the releases
of the guards it takes out of the variables, and every other guard that holds a page
stays in one variable. -/
theorem GuardState.step_spec {s : BufferPoolManager} {st : GuardState} (hw : st.world.Ok s)
    (hall : ∀ g, some g ∈ st.vars → g.wellFormed s = true) (op : GuardOp) :
    ∃ st2 rel, st.step op = some st2 ∧ st2.world.Ok s ∧
      (∀ g, some g ∈ st2.vars → g.wellFormed s = true) ∧
      st2.world.trace = st.world.trace ++ releaseAll s rel ∧
      ∀ x, (heldGuards st2.vars).count x + rel.count x = (heldGuards st.vars).count x := by
  have hskip : ∃ st2 rel, some st = some st2 ∧ st2.world.Ok s ∧
      (∀ g, some g ∈ st2.vars → g.wellFormed s = true) ∧
      st2.world.trace = st.world.trace ++ releaseAll s rel ∧
      ∀ x, (heldGuards st2.vars).count x + rel.count x = (heldGuards st.vars).count x :=
    ⟨st, [], rfl, hw, hall, by simp [releaseAll], fun x => by simp⟩
  cases op with
  | move_construct src =>
    cases h : st.vars.getD src none with
    | none =>
      have hstep : st.step (.move_construct src) = some st := by
        simp only [GuardState.step, h]
      rw [hstep]
      exact hskip
    | some that =>
      obtain ⟨hm1, hm2⟩ := Guard.moveConstruct_spec that
      have hwf := hall that (mem_of_getD_some h)
      refine ⟨{ st with
          vars := st.vars.set src (some that.moveConstruct.2) ++ [some that.moveConstruct.1] },
        [], by simp only [GuardState.step, h], hw, ?_, by simp [releaseAll], ?_⟩
      · intro g hg
        simp only [List.mem_append, List.mem_singleton] at hg
        rcases hg with hg | hg
        · exact wf_of_mem_set hall (fun g2 h2 => by
            injection h2 with h2
            rw [← h2]
            exact wellFormed_of_not_holding s hm2) g hg
        · injection hg with hg
          rw [hg, hm1]
          exact hwf
      · intro x
        have hc := count_heldGuards_set x (some that.moveConstruct.2) st.vars src that h
        rw [heldOf_of_not_holding hm2] at hc
        simp only [heldGuards_append, heldGuards_singleton, hm1, List.count_append,
          List.count_nil] at hc ⊢
        omega
  | move_assign dst src =>
    by_cases hds : dst = src
    · have hstep : st.step (.move_assign dst src) = some st := by
        simp only [GuardState.step, hds, if_true]
      rw [hstep]
      exact hskip
    · cases h1 : st.vars.getD dst none with
      | none =>
        have hstep : st.step (.move_assign dst src) = some st := by
          simp only [GuardState.step, hds, if_false, h1]
        rw [hstep]
        exact hskip
      | some this =>
        cases h2 : st.vars.getD src none with
        | none =>
          have hstep : st.step (.move_assign dst src) = some st := by
            simp only [GuardState.step, hds, if_false, h1, h2]
          rw [hstep]
          exact hskip
        | some that =>
          obtain ⟨a, b, w2, rel, hm, hok, hwa, hwb, htr, hcnt⟩ :=
            Guard.moveAssign_spec hw this that (hall this (mem_of_getD_some h1))
              (hall that (mem_of_getD_some h2))
          refine ⟨{ vars := (st.vars.set dst (some a)).set src (some b), world := w2 }, rel,
            by simp only [GuardState.step, hds, if_false, h1, h2, hm], hok, ?_, htr, ?_⟩
          · exact wf_of_mem_set (wf_of_mem_set hall (fun g hg => by
              injection hg with hg
              rw [← hg]
              exact hwa)) (fun g hg => by
              injection hg with hg
              rw [← hg]
              exact hwb)
          · intro x
            have hc1 := count_heldGuards_set x (some a) st.vars dst this h1
            have h2b : (st.vars.set dst (some a)).getD src none = some that := by
              rw [getD_set_ne st.vars hds]
              exact h2
            have hc2 := count_heldGuards_set x (some b) (st.vars.set dst (some a)) src that h2b
            have hc3 := hcnt x
            simp only at hc1 hc2 hc3 ⊢
            omega
  | drop i =>
    cases h : st.vars.getD i none with
    | none =>
      have hstep : st.step (.drop i) = some st := by
        simp only [GuardState.step, h]
      rw [hstep]
      exact hskip
    | some g =>
      obtain ⟨g2, w2, hd, hnh, hok, htr⟩ := Guard.drop_releases_guard hw g (hall g (mem_of_getD_some h))
      refine ⟨{ vars := st.vars.set i (some g2), world := w2 }, heldOf (some g),
        by simp only [GuardState.step, h, hd], hok, ?_, ?_, ?_⟩
      · exact wf_of_mem_set hall (fun g3 hg => by
          injection hg with hg
          rw [← hg]
          exact wellFormed_of_not_holding s hnh)
      · rw [releaseAll_heldOf]
        exact htr
      · intro x
        have hc := count_heldGuards_set x (some g2) st.vars i g h
        rw [heldOf_of_not_holding hnh] at hc
        simp only [List.count_nil] at hc ⊢
        omega
  | destroy i =>
    cases h : st.vars.getD i none with
    | none =>
      have hstep : st.step (.destroy i) = some st := by
        simp only [GuardState.step, h]
      rw [hstep]
      exact hskip
    | some g =>
      obtain ⟨w2, hd, hok, htr⟩ := Guard.destroy_spec hw g (hall g (mem_of_getD_some h))
      refine ⟨{ vars := st.vars.set i none, world := w2 }, heldOf (some g),
        by simp only [GuardState.step, h, hd], hok, ?_, ?_, ?_⟩
      · exact wf_of_mem_set hall (fun g3 hg => by cases hg)
      · rw [releaseAll_heldOf]
        exact htr
      · intro x
        have hc := count_heldGuards_set x none st.vars i g h
        simp only [heldOf, List.count_nil] at hc ⊢
        omega

/-- A sequence of statements over well-formed guards returns; the calls it makes are the
releases of the guards it takes out of the variables. -/
theorem GuardState.run_spec {s : BufferPoolManager} (ops : List GuardOp) :
    ∀ st : GuardState, st.world.Ok s →
      (∀ g, some g ∈ st.vars → g.wellFormed s = true) →
      ∃ st2 rel, st.run ops = some st2 ∧ st2.world.Ok s ∧
        (∀ g, some g ∈ st2.vars → g.wellFormed s = true) ∧
        st2.world.trace = st.world.trace ++ releaseAll s rel ∧
        ∀ x, (heldGuards st2.vars).count x + rel.count x = (heldGuards st.vars).count x := by
  induction ops with
  | nil =>
    intro st hw hall
    exact ⟨st, [], rfl, hw, hall, by simp [releaseAll], fun x => by simp⟩
  | cons op ops ih =>
    intro st hw hall
    obtain ⟨st1, rel1, h1, hw1, hall1, htr1, hc1⟩ := GuardState.step_spec hw hall op
    obtain ⟨st2, rel2, h2, hw2, hall2, htr2, hc2⟩ := ih st1 hw1 hall1
    refine ⟨st2, rel1 ++ rel2, by simp [GuardState.run, h1, h2], hw2, hall2, ?_, ?_⟩
    · rw [htr2, htr1, releaseAll_append, List.append_assoc]
    · intro x
      have := hc1 x
      have := hc2 x
      simp only [List.count_append]
      omega

/-- The destructors of well-formed guards return and make the releases of the guards
that hold a page, in the order of the list. -/
theorem destroyAll_spec {s : BufferPoolManager} (vars : List (Option Guard)) :
    ∀ w : GuardWorld, w.Ok s → (∀ g, some g ∈ vars → g.wellFormed s = true) →
      ∃ w2, destroyAll vars w = some w2 ∧ w2.Ok s ∧
        w2.trace = w.trace ++ releaseAll s (heldGuards vars) := by
  induction vars with
  | nil =>
    intro w hw _
    exact ⟨w, rfl, hw, by simp [heldGuards, releaseAll]⟩
  | cons o vars ih =>
    intro w hw hall
    have hrest : ∀ g, some g ∈ vars → g.wellFormed s = true :=
      fun g hg => hall g (List.mem_cons_of_mem _ hg)
    cases o with
    | none =>
      obtain ⟨w2, h1, h2, h3⟩ := ih w hw hrest
      exact ⟨w2, by simpa [destroyAll] using h1, h2, by simpa [heldGuards, heldOf] using h3⟩
    | some g =>
      obtain ⟨w1, hd, hw1, htr1⟩ := Guard.destroy_spec hw g (hall g (List.mem_cons_self _ _))
      obtain ⟨w2, h1, h2, h3⟩ := ih w1 hw1 hrest
      refine ⟨w2, by simp [destroyAll, hd, h1], h2, ?_⟩
      rw [h3, htr1, heldGuards, releaseAll_append, releaseAll_heldOf, List.append_assoc]

theorem count_heldGuards_reverse (x : Guard) (vars : List (Option Guard)) :
    (heldGuards vars.reverse).count x = (heldGuards vars).count x := by
  induction vars with
  | nil => rfl
  | cons o vars ih =>
    rw [List.reverse_cons, heldGuards_append, heldGuards_singleton]
    simp only [heldGuards, List.count_append, ih]
    omega

theorem heldGuards_map_some (guards : List Guard) :
    heldGuards (guards.map some) = guards.filter Guard.holding := by
  induction guards with
  | nil => rfl
  | cons g guards ih =>
    cases h : g.holding <;> simp [heldGuards, heldOf, List.filter_cons, h, ih]

/-- Operation `Drop` of a basic guard, when it returns, leaves the guard empty. -/
theorem BasicPageGuard.drop_leaves_empty {g g2 : BasicPageGuard} {w w2 : GuardWorld}
    (h : g.Drop w = some (g2, w2)) : g2 = ⟨false, none, false⟩ := by
  unfold BasicPageGuard.Drop at h
  simp only at h
  split at h
  · split at h
    · split at h
      · split at h
        · injection h with h
          injection h with h _
          exact h.symm
        · cases h
      · cases h
    · injection h with h
      injection h with h _
      exact h.symm
  · injection h with h
    injection h with h _
    exact h.symm

/-- Operation `Drop` of a guard, when it returns, leaves the guard without a page. -/
theorem Guard.drop_leaves_no_page {g g2 : Guard} {w w2 : GuardWorld} (h : g.Drop w = some (g2, w2)) :
    g2.holding = false := by
  cases g with
  | basic b =>
    simp only [Guard.Drop, Option.map_eq_some'] at h
    obtain ⟨r, hr, hr2⟩ := h
    injection hr2 with h1 _
    have hr3 : b.Drop w = some (r.1, r.2) := hr
    rw [← h1, BasicPageGuard.drop_leaves_empty hr3]
    rfl
  | read b =>
    simp only [Guard.Drop, Option.map_eq_some'] at h
    obtain ⟨r, hr, hr2⟩ := h
    injection hr2 with h1 _
    rw [← h1]
    unfold ReadPageGuard.Drop at hr
    simp only at hr
    split at hr
    · cases hr
    · rename_i b2 w3 hd
      injection hr with hr
      rw [← hr, BasicPageGuard.drop_leaves_empty hd]
      rfl
  | write b =>
    simp only [Guard.Drop, Option.map_eq_some'] at h
    obtain ⟨r, hr, hr2⟩ := h
    injection hr2 with h1 _
    rw [← h1]
    unfold WritePageGuard.Drop at hr
    simp only at hr
    split at hr
    · cases hr
    · rename_i b2 w3 hd
      injection hr with hr
      rw [← hr, BasicPageGuard.drop_leaves_empty hd]
      rfl

/-- Operation `Drop` of a guard without a page returns and makes no call. -/
theorem Guard.Drop_of_not_holding (g : Guard) (w : GuardWorld) (h : g.holding = false) :
    ∃ g2, g.Drop w = some (g2, w) ∧ g2.holding = false := by
  have hp : g.inner.page_ = none := by
    unfold Guard.holding at h
    cases hq : g.inner.page_ with
    | none => rfl
    | some page => simp [hq] at h
  cases g with
  | basic b =>
    exact ⟨.basic ⟨false, none, false⟩,
      by simp [Guard.Drop, BasicPageGuard.Drop_empty b w hp], rfl⟩
  | read b =>
    have hp2 : b.guard_.page_ = none := hp
    exact ⟨.read ⟨⟨false, none, false⟩⟩,
      by simp [Guard.Drop, ReadPageGuard.Drop, hp2, BasicPageGuard.Drop_empty b.guard_ w hp2],
      rfl⟩
  | write b =>
    have hp2 : b.guard_.page_ = none := hp
    exact ⟨.write ⟨⟨false, none, false⟩⟩,
      by simp [Guard.Drop, WritePageGuard.Drop, hp2, BasicPageGuard.Drop_empty b.guard_ w hp2],
      rfl⟩

/-- Move assignment between two guards of one class, when it returns, hands the source
over unchanged and leaves it without a page. -/
theorem Guard.moveAssign_result :
    (∀ (a b : BasicPageGuard) (w : GuardWorld) r, a.moveAssign b w = some r →
      r.1 = b ∧ r.2.1.page_ = none) ∧
    (∀ (a b : ReadPageGuard) (w : GuardWorld) r, a.moveAssign b w = some r →
      r.1 = b ∧ r.2.1.guard_.page_ = none) ∧
    (∀ (a b : WritePageGuard) (w : GuardWorld) r, a.moveAssign b w = some r →
      r.1 = b ∧ r.2.1.guard_.page_ = none) := by
  have hb : ∀ (a b : BasicPageGuard) (w : GuardWorld) r, a.moveAssign b w = some r →
      r.1 = b ∧ r.2.1.page_ = none := by
    intro a b w r h
    unfold BasicPageGuard.moveAssign at h
    split at h
    · cases h
    · injection h with h
      subst h
      exact ⟨rfl, rfl⟩
  refine ⟨hb, ?_, ?_⟩
  · intro a b w r h
    unfold ReadPageGuard.moveAssign at h
    simp only at h
    split at h
    · cases h
    · rename_i a2 b2 w2 hm
      injection h with h
      subst h
      obtain ⟨h1, h2⟩ := hb _ _ _ _ hm
      simp only at h1 h2
      exact ⟨by simp only [h1], h2⟩
  · intro a b w r h
    unfold WritePageGuard.moveAssign at h
    simp only at h
    split at h
    · cases h
    · rename_i a2 b2 w2 hm
      injection h with h
      subst h
      obtain ⟨h1, h2⟩ := hb _ _ _ _ hm
      simp only at h1 h2
      exact ⟨by simp only [h1], h2⟩

/-- C14 fails on the code for a guard over a page whose page id is `INVALID_PAGE_ID`:
`FetchPageBasic(INVALID_PAGE_ID)` on a fresh pool of one frame returns a guard over the
non-null page of frame 0, pinned once; `Drop()` skips `UnpinPage` because of its test
`page_id != INVALID_PAGE_ID`, and so do the statements `Drop()` and the end of the
scope: no call is traced, the pool is as it was, and the pin count of frame 0 stays
1. -/
theorem guard_drop_skips_invalid_page_id :
    (GuardWorld.mk (BufferPoolManager.new 1 ⟨[]⟩ 2) []).FetchPageBasic INVALID_PAGE_ID
      = some (BasicPageGuard.new (some 0),
          ⟨BufferPoolManager.afterCalls 1 2 [.fetch_page INVALID_PAGE_ID], []⟩) ∧
    ((BufferPoolManager.afterCalls 1 2 [.fetch_page INVALID_PAGE_ID]).page 0).pin_count_ = 1 ∧
    (BasicPageGuard.new (some 0)).Drop
        ⟨BufferPoolManager.afterCalls 1 2 [.fetch_page INVALID_PAGE_ID], []⟩
      = some (⟨false, none, false⟩,
          ⟨BufferPoolManager.afterCalls 1 2 [.fetch_page INVALID_PAGE_ID], []⟩) ∧
    ((GuardState.mk [some (.basic (BasicPageGuard.new (some 0)))]
        ⟨BufferPoolManager.afterCalls 1 2 [.fetch_page INVALID_PAGE_ID], []⟩).run
          [.drop 0]).bind GuardState.exitScope
      = some ⟨BufferPoolManager.afterCalls 1 2 [.fetch_page INVALID_PAGE_ID], []⟩ := by
  refine ⟨by decide!, by decide!, by decide!, by decide!⟩

/-- C14, amended. Guards release exactly once. Let the pool be in a state reached from a
freshly constructed pool (of a size below `2 ^ 31`) by public calls, with the mutex
free, and take any Basic, Read and Write guards over it, each of them empty or created
over a non-null page whose page id is not `INVALID_PAGE_ID`. Then every sequence of move
constructions, move assignments (self-assignment and assignment onto a guard that holds
another page included), `Drop()` calls and destructions, followed by the destruction of
the guards still alive at the end of the scope, returns, and the calls it makes are, for
the guards that held a page taken in some order, the release of each exactly once: for a
Read or Write guard the release of the page latch, directly followed by
`UnpinPage(page_id, is_dirty)`; for a Basic guard that `UnpinPage` alone. `Drop()` on a
guard without a page makes no call, and a guard is without a page once it has been
moved from or dropped. -/
theorem guards_release_exactly_once (pool_size k : Nat) (dm : DiskManager)
    (calls : List Call) (s : BufferPoolManager) (hsize : pool_size < 2 ^ 31)
    (hrun : (BufferPoolManager.new pool_size dm k).run calls = some s)
    (hl : s.latch_ = false) (trace : List GuardEvent) (guards : List Guard)
    (hwf : ∀ g ∈ guards, g.wellFormed s = true) (ops : List GuardOp) :
    (∃ st w released,
      (GuardState.mk (guards.map some) ⟨s, trace⟩).run ops = some st ∧
      st.exitScope = some w ∧
      released.Perm (guards.filter Guard.holding) ∧
      w.trace = trace ++ releaseAll s released) ∧
    (∀ (g : Guard) (w : GuardWorld), g.holding = false →
      ∃ g2, g.Drop w = some (g2, w) ∧ g2.holding = false) ∧
    (∀ (g g2 : Guard) (w w2 : GuardWorld), g.Drop w = some (g2, w2) → g2.holding = false) ∧
    (∀ g : Guard, g.moveConstruct.1 = g ∧ g.moveConstruct.2.holding = false) ∧
    ((∀ (a b : BasicPageGuard) (w : GuardWorld) r, a.moveAssign b w = some r →
        r.1 = b ∧ r.2.1.page_ = none) ∧
     (∀ (a b : ReadPageGuard) (w : GuardWorld) r, a.moveAssign b w = some r →
        r.1 = b ∧ r.2.1.guard_.page_ = none) ∧
     (∀ (a b : WritePageGuard) (w : GuardWorld) r, a.moveAssign b w = some r →
        r.1 = b ∧ r.2.1.guard_.page_ = none)) := by
  obtain ⟨hinv, _, _⟩ := Inv_run calls _ s (Inv_new_pool pool_size dm k hsize).1 hrun
  refine ⟨?_, Guard.Drop_of_not_holding, fun g g2 w w2 h => Guard.drop_leaves_no_page h,
    Guard.moveConstruct_spec, Guard.moveAssign_result⟩
  have hw0 : (GuardWorld.mk s trace).Ok s := ⟨hinv, hl, fun _ => rfl⟩
  have hall0 : ∀ g, some g ∈ (GuardState.mk (guards.map some) ⟨s, trace⟩).vars →
      g.wellFormed s = true := by
    intro g hg
    simp only [List.mem_map] at hg
    obtain ⟨g2, hg2, heq⟩ := hg
    injection heq with heq
    rw [← heq]
    exact hwf g2 hg2
  obtain ⟨st, rel, h1, hw1, hall1, htr1, hc1⟩ :=
    GuardState.run_spec ops (GuardState.mk (guards.map some) ⟨s, trace⟩) hw0 hall0
  obtain ⟨w, h2, _, htr2⟩ := destroyAll_spec st.vars.reverse st.world hw1
    (fun g hg => hall1 g (List.mem_reverse.mp hg))
  refine ⟨st, w, rel ++ heldGuards st.vars.reverse, h1, h2, ?_, ?_⟩
  · rw [List.perm_iff_count]
    intro x
    have := hc1 x
    simp only [heldGuards_map_some] at this
    rw [List.count_append, count_heldGuards_reverse]
    omega
  · rw [htr2, htr1, releaseAll_append, List.append_assoc]

/-- The two guards of `guardScenario` under `guardProgram`: the read guard is released
once, latch first, when it is dropped; the basic guard once, at the end of the scope;
the self-assignment, the second `Drop()` and the destructors of the emptied guards make
no call. -/
theorem guards_release_exactly_once_witness :
    (BufferPoolManager.new 2 ⟨[]⟩ 2).run [.fetch_page 5, .fetch_page 6]
      = some (BufferPoolManager.afterCalls 2 2 [.fetch_page 5, .fetch_page 6]) ∧
    (BufferPoolManager.afterCalls 2 2 [.fetch_page 5, .fetch_page 6]).latch_ = false ∧
    (∀ g ∈ guardScenario,
      g.wellFormed (BufferPoolManager.afterCalls 2 2 [.fetch_page 5, .fetch_page 6]) = true) ∧
    (((GuardState.mk (guardScenario.map some)
        ⟨BufferPoolManager.afterCalls 2 2 [.fetch_page 5, .fetch_page 6], []⟩).run
          guardProgram).bind GuardState.exitScope).map (fun w => w.trace)
      = some [.RUnlatch 0, .UnpinPage 5 false, .UnpinPage 6 true] ∧
    (∃ st w released,
      (GuardState.mk (guardScenario.map some)
        ⟨BufferPoolManager.afterCalls 2 2 [.fetch_page 5, .fetch_page 6], []⟩).run
          guardProgram = some st ∧
      st.exitScope = some w ∧
      released.Perm (guardScenario.filter Guard.holding) ∧
      w.trace = [] ++ releaseAll
        (BufferPoolManager.afterCalls 2 2 [.fetch_page 5, .fetch_page 6]) released) :=
  ⟨rfl, by decide!, by decide!, by decide!,
    (guards_release_exactly_once 2 2 ⟨[]⟩ [.fetch_page 5, .fetch_page 6]
      (BufferPoolManager.afterCalls 2 2 [.fetch_page 5, .fetch_page 6])
      (by norm_num) rfl (by decide!) [] guardScenario (by decide!) guardProgram).1⟩
/-! ## Pin and unpin balance -/

/-- A further `FetchPage` of a resident page returns its frame with one more pin. -/
theorem Pinned_fetch {s s2 : BufferPoolManager} {p f f2 : Int} {c : Nat}
    (h : s.Pinned p f c) (hf : s.FetchPage p = .returned (some f2) s2) :
    f2 = f ∧ s2.Pinned p f (c + 1) := by
  obtain ⟨hinv, hl, hfind, hpin⟩ := h
  rcases FetchPage_cases hinv hl p with ⟨h1, _⟩ | ⟨f3, s3, h1, h2, h3, h4, h5, _⟩
  · rw [h1] at hf
    cases hf
  · rw [h1] at hf
    injection hf with hv hs
    injection hv with hv
    subst hv hs
    obtain ⟨h6, h7⟩ := h5 f hfind
    subst h6
    exact ⟨rfl, h2, h3, h4, by rw [h7, hpin]⟩

/-- A `FetchPage` of a page that is not resident, or resident and not pinned, that
returns a frame leaves the page resident there with one pin. -/
theorem Pinned_first_fetch {s s2 : BufferPoolManager} {p f : Int} (hinv : s.Inv)
    (hl : s.latch_ = false)
    (hstart : s.page_table_.find p = none ∨
      ∃ f0, s.page_table_.find p = some f0 ∧ (s.page f0).pin_count_ = 0)
    (hf : s.FetchPage p = .returned (some f) s2) : s2.Pinned p f 1 := by
  rcases hstart with hnone | ⟨f0, hfind, hpin⟩
  · rcases FetchPage_cases hinv hl p with ⟨h1, _⟩ | ⟨f3, s3, h1, h2, h3, h4, _, h6⟩
    · rw [h1] at hf
      cases hf
    · rw [h1] at hf
      injection hf with hv hs
      injection hv with hv
      subst hv hs
      exact ⟨h2, h3, h4, h6 hnone⟩
  · have hP : s.Pinned p f0 0 := ⟨hinv, hl, hfind, hpin⟩
    have := Pinned_fetch hP hf
    obtain ⟨h1, h2⟩ := this
    subst h1
    exact h2

theorem Pinned_fetchTimes {p f : Int} (n : Nat) :
    ∀ (s s1 : BufferPoolManager) (c : Nat), s.Pinned p f c → s.fetchTimes p n = some s1 →
      s1.Pinned p f (c + n) := by
  induction n with
  | zero =>
    intro s s1 c h hf
    simp only [BufferPoolManager.fetchTimes, Option.some.injEq] at hf
    subst hf
    exact h
  | succ n ih =>
    intro s s1 c h hf
    unfold BufferPoolManager.fetchTimes at hf
    split at hf
    · rename_i f2 s2 hfetch
      obtain ⟨_, h2⟩ := Pinned_fetch h hfetch
      have := ih s2 s1 (c + 1) h2 hf
      rw [show c + (n + 1) = c + 1 + n by omega]
      exact this
    · cases hf

/-- As many `UnpinPage` calls as the page has pins, or fewer, all return true and take
one pin off each. -/
theorem Pinned_unpinAll {p f : Int} (ds : List Bool) :
    ∀ (s : BufferPoolManager) (c : Nat), s.Pinned p f c → ds.length ≤ c →
      ∃ s2, s.unpinAll p ds = some s2 ∧ s2.Pinned p f (c - ds.length) := by
  induction ds with
  | nil =>
    intro s c h _
    exact ⟨s, rfl, h⟩
  | cons d ds ih =>
    intro s c h hlen
    simp only [List.length_cons] at hlen
    obtain ⟨hinv, hl, hfind, hpin⟩ := h
    obtain ⟨v, s1, hs1, hinv1, hl1, htab, _, hdec⟩ := UnpinPage_total hinv hl p d
    obtain ⟨hv, hpin1⟩ := hdec f hfind (by omega)
    subst hv
    have hP1 : s1.Pinned p f (c - 1) := ⟨hinv1, hl1, by rw [htab]; exact hfind, by omega⟩
    obtain ⟨s2, hs2, hP2⟩ := ih s1 (c - 1) hP1 (by omega)
    refine ⟨s2, by simp only [BufferPoolManager.unpinAll, hs1, hs2], ?_⟩
    rw [List.length_cons, show c - (ds.length + 1) = c - 1 - ds.length by omega]
    exact hP2

/-- A resident page without a pin is in a frame the replacer may evict. -/
theorem Pinned_zero_evictable {s : BufferPoolManager} {p f : Int} (h : s.Pinned p f 0) :
    s.replacer_.evictable f := by
  obtain ⟨hinv, _, hfind, hpin⟩ := h
  obtain ⟨_, _, _, _, hev⟩ := hinv.mapped_used (PageTable.find_some hfind)
  exact hev.mpr hpin

/-- Operation `FetchPageRead` that returns a guard of a page is a `FetchPage` that returns the
frame of that page. -/
theorem FetchPageRead_some {w w2 : GuardWorld} {p : Int} {g : ReadPageGuard}
    (h : w.FetchPageRead p = some (g, w2)) (hg : g.guard_.page_.isSome = true) :
    ∃ f, w.bpm.FetchPage p = .returned (some f) w2.bpm ∧ g = ⟨BasicPageGuard.new (some f)⟩ := by
  unfold GuardWorld.FetchPageRead at h
  split at h
  · injection h with h
    injection h with h1 h2
    subst h1
    simp [BasicPageGuard.new] at hg
  · rename_i page s hfetch
    injection h with h
    injection h with h1 h2
    subst h1 h2
    exact ⟨page, hfetch, rfl⟩
  · cases h

theorem Pinned_fetchReads {p f : Int} (n : Nat) :
    ∀ (w w1 : GuardWorld) (gs : List ReadPageGuard) (c : Nat), w.bpm.Pinned p f c →
      w.fetchReads p n = some (gs, w1) →
      w1.bpm.Pinned p f (c + n) ∧ gs = List.replicate n ⟨BasicPageGuard.new (some f)⟩ := by
  induction n with
  | zero =>
    intro w w1 gs c h hf
    simp only [GuardWorld.fetchReads, Option.some.injEq, Prod.mk.injEq] at hf
    obtain ⟨h1, h2⟩ := hf
    subst h1 h2
    exact ⟨h, rfl⟩
  | succ n ih =>
    intro w w1 gs c h hf
    unfold GuardWorld.fetchReads at hf
    split at hf
    · rename_i g w2 hfetch
      split at hf
      · rename_i hg
        split at hf
        · rename_i gs2 w3 hrest
          injection hf with hf
          injection hf with h1 h2
          subst h1 h2
          obtain ⟨f2, hf2, hg2⟩ := FetchPageRead_some hfetch hg
          obtain ⟨h3, h4⟩ := Pinned_fetch h hf2
          subst h3
          obtain ⟨h5, h6⟩ := ih w2 _ gs2 (c + 1) h4 hrest
          refine ⟨?_, by rw [hg2, h6, List.replicate_succ]⟩
          rw [show c + (n + 1) = c + 1 + n by omega]
          exact h5
        · cases hf
      · cases hf
    · cases hf

/-- Dropping read guards of a resident page whose page id is not `INVALID_PAGE_ID`, no
more of them than the page has pins: every `Drop()` returns, and the pool goes through
the `UnpinPage(p, false)` calls, each of which returns true. -/
theorem Pinned_dropReads {p f : Int} (hp : p ≠ INVALID_PAGE_ID) (m : Nat) :
    ∀ (w : GuardWorld) (c : Nat), w.bpm.Pinned p f c → m ≤ c →
      ∃ w2, w.dropReads (List.replicate m ⟨BasicPageGuard.new (some f)⟩) = some w2 ∧
        w.bpm.unpinAll p (List.replicate m false) = some w2.bpm := by
  induction m with
  | zero =>
    intro w c _ _
    exact ⟨w, rfl, rfl⟩
  | succ m ih =>
    intro w c h hlen
    obtain ⟨hinv, hl, hfind, hpin⟩ := h
    obtain ⟨v, s1, hs1, hinv1, hl1, htab, _, hdec⟩ := UnpinPage_total hinv hl p false
    obtain ⟨hv, hpin1⟩ := hdec f hfind (by omega)
    subst hv
    have hP1 : s1.Pinned p f (c - 1) := ⟨hinv1, hl1, by rw [htab]; exact hfind, by omega⟩
    have hid : (w.bpm.page f).page_id_ = p := hinv.table_page _ (PageTable.find_some hfind)
    obtain ⟨w2, hw2, hu2⟩ := ih ⟨s1, w.trace ++ [.RUnlatch f] ++ [.UnpinPage p false]⟩ (c - 1)
      hP1 (by omega)
    have hdrop : (⟨BasicPageGuard.new (some f)⟩ : ReadPageGuard).Drop w
        = some (⟨⟨false, none, false⟩⟩,
            ⟨s1, w.trace ++ [.RUnlatch f] ++ [.UnpinPage p false]⟩) := by
      simp [ReadPageGuard.Drop, BasicPageGuard.Drop, BasicPageGuard.new, GuardWorld.emit,
        GuardWorld.PageId, hid, hp, hs1]
    refine ⟨w2, ?_, ?_⟩
    · simp only [List.replicate_succ, GuardWorld.dropReads, hdrop]
      exact hw2
    · simp only [List.replicate_succ, BufferPoolManager.unpinAll, hs1]
      exact hu2

/-- C15 fails on the code for the page id `INVALID_PAGE_ID` when the pair is a read guard
obtained and dropped: on a fresh pool of one frame `FetchPageRead(INVALID_PAGE_ID)`
succeeds, with the page pinned once in frame 0 and the reader latch taken; `Drop()`
releases the latch but skips `UnpinPage` because of its test
`page_id != INVALID_PAGE_ID`, so the pin count of frame 0 stays 1 and the frame is not
evictable. -/
theorem read_guard_of_invalid_page_id_keeps_pin :
    (BufferPoolManager.new 1 ⟨[]⟩ 2).page_table_.find INVALID_PAGE_ID = none ∧
    (GuardWorld.mk (BufferPoolManager.new 1 ⟨[]⟩ 2) []).fetchReads INVALID_PAGE_ID 1
      = some ([⟨BasicPageGuard.new (some 0)⟩],
          ⟨BufferPoolManager.afterCalls 1 2 [.fetch_page INVALID_PAGE_ID], [.RLatch 0]⟩) ∧
    (GuardWorld.mk (BufferPoolManager.afterCalls 1 2 [.fetch_page INVALID_PAGE_ID])
        [.RLatch 0]).dropReads [⟨BasicPageGuard.new (some 0)⟩]
      = some ⟨BufferPoolManager.afterCalls 1 2 [.fetch_page INVALID_PAGE_ID],
          [.RLatch 0, .RUnlatch 0]⟩ ∧
    (BufferPoolManager.afterCalls 1 2 [.fetch_page INVALID_PAGE_ID]).page_table_.find
      INVALID_PAGE_ID = some 0 ∧
    ((BufferPoolManager.afterCalls 1 2 [.fetch_page INVALID_PAGE_ID]).page 0).pin_count_ = 1 ∧
    ¬ (BufferPoolManager.afterCalls 1 2 [.fetch_page INVALID_PAGE_ID]).replacer_.evictable 0 := by
  refine ⟨by decide!, by decide!, by decide!, by decide!, by decide!, by decide!⟩

/-- C15, amended. Pin/unpin balance. In a state reached from a freshly constructed pool
(of a size below `2 ^ 31`) by public calls, with the mutex free, in which page `p` is
not resident or is resident with pin count 0: if `FetchPage(p)` returns a page `n ≥ 1`
times and `UnpinPage(p, d)` is then called for `n` flags `d`, every `UnpinPage` returns
true, and in the end the page is resident in a frame whose pin count is 0 and which is
evictable in the replacer. For `p` other than `INVALID_PAGE_ID` the same holds when the
pairs are read guards: if `FetchPageRead(p)` returns a guard of a page `n` times and
`Drop()` is then called on each of the guards, every `Drop()` returns, the pool goes
through `n` calls `UnpinPage(p, false)` that each return true, and in the end the pin
count of the frame of `p` is 0 and the frame is evictable. -/
theorem pin_unpin_balance (pool_size k : Nat) (dm : DiskManager) (calls : List Call)
    (s : BufferPoolManager) (hsize : pool_size < 2 ^ 31)
    (hrun : (BufferPoolManager.new pool_size dm k).run calls = some s)
    (hl : s.latch_ = false) (p : Int)
    (hstart : s.page_table_.find p = none ∨
      ∃ f0, s.page_table_.find p = some f0 ∧ (s.page f0).pin_count_ = 0)
    (n : Nat) (hn : 1 ≤ n) :
    (∀ s1 ds, s.fetchTimes p n = some s1 → ds.length = n →
      ∃ s2 f, s1.unpinAll p ds = some s2 ∧ s2.page_table_.find p = some f ∧
        (s2.page f).pin_count_ = 0 ∧ s2.replacer_.evictable f) ∧
    (p ≠ INVALID_PAGE_ID → ∀ trace gs w1,
      (GuardWorld.mk s trace).fetchReads p n = some (gs, w1) →
      ∃ w2 f, gs.length = n ∧ w1.dropReads gs = some w2 ∧
        w1.bpm.unpinAll p (List.replicate n false) = some w2.bpm ∧
        w2.bpm.page_table_.find p = some f ∧
        (w2.bpm.page f).pin_count_ = 0 ∧ w2.bpm.replacer_.evictable f) := by
  obtain ⟨hinv, _, _⟩ := Inv_run calls _ s (Inv_new_pool pool_size dm k hsize).1 hrun
  obtain ⟨m, rfl⟩ : ∃ m, n = m + 1 := ⟨n - 1, by omega⟩
  constructor
  · intro s1 ds hfetch hlen
    unfold BufferPoolManager.fetchTimes at hfetch
    split at hfetch
    · rename_i f s0 hfirst
      have h1 := Pinned_first_fetch hinv hl hstart hfirst
      have h2 := Pinned_fetchTimes m s0 s1 1 h1 hfetch
      obtain ⟨s2, h3, h4⟩ := Pinned_unpinAll ds s1 (1 + m) h2 (by omega)
      rw [show 1 + m - ds.length = 0 by omega] at h4
      exact ⟨s2, f, h3, h4.2.2.1, h4.2.2.2, Pinned_zero_evictable h4⟩
    · cases hfetch
  · intro hp trace gs w1 hfetch
    unfold GuardWorld.fetchReads at hfetch
    split at hfetch
    · rename_i g w0 hfirst
      split at hfetch
      · rename_i hg
        split at hfetch
        · rename_i gs2 w3 hrest
          injection hfetch with hfetch
          injection hfetch with e1 e2
          subst e1 e2
          obtain ⟨f, hf, hgf⟩ := FetchPageRead_some hfirst hg
          have h1 := Pinned_first_fetch hinv hl hstart hf
          obtain ⟨h2, h3⟩ := Pinned_fetchReads m w0 _ gs2 1 h1 hrest
          obtain ⟨w2, h4, h5⟩ := Pinned_dropReads hp (m + 1) _ (1 + m) h2 (by omega)
          obtain ⟨s2, h6, h7⟩ := Pinned_unpinAll (List.replicate (m + 1) false) _ (1 + m) h2
            (by simp; omega)
          rw [h5] at h6
          injection h6 with h6
          rw [show 1 + m - (List.replicate (m + 1) false).length = 0 by simp; omega,
            ← h6] at h7
          refine ⟨w2, f, by rw [h3]; simp, ?_, h5, h7.2.2.1, h7.2.2.2,
            Pinned_zero_evictable h7⟩
          rw [hgf, h3, ← List.replicate_succ]
          exact h4
        · cases hfetch
      · cases hfetch
    · cases hfetch

/-- A fresh pool of two frames: page 3 is fetched twice and unpinned twice, the first
time as dirty; both unpins return true, the pin count is back at 0 and the frame is
evictable. With two read guards of page 3, obtained and then dropped, the same holds. -/
theorem pin_unpin_balance_witness :
    (BufferPoolManager.new 2 ⟨[]⟩ 2).run [] = some (BufferPoolManager.new 2 ⟨[]⟩ 2) ∧
    (BufferPoolManager.new 2 ⟨[]⟩ 2).page_table_.find 3 = none ∧
    (BufferPoolManager.new 2 ⟨[]⟩ 2).fetchTimes 3 2
      = some (BufferPoolManager.afterCalls 2 2 [.fetch_page 3, .fetch_page 3]) ∧
    (∃ s2 f, (BufferPoolManager.afterCalls 2 2 [.fetch_page 3, .fetch_page 3]).unpinAll 3
        [true, false] = some s2 ∧
      s2.page_table_.find 3 = some f ∧ (s2.page f).pin_count_ = 0 ∧
      s2.replacer_.evictable f) ∧
    (∃ w2 f, (List.replicate 2 (⟨BasicPageGuard.new (some 0)⟩ : ReadPageGuard)).length = 2 ∧
      (GuardWorld.mk (BufferPoolManager.afterCalls 2 2 [.fetch_page 3, .fetch_page 3])
        [.RLatch 0, .RLatch 0]).dropReads (List.replicate 2 ⟨BasicPageGuard.new (some 0)⟩)
          = some w2 ∧
      (BufferPoolManager.afterCalls 2 2 [.fetch_page 3, .fetch_page 3]).unpinAll 3
        (List.replicate 2 false) = some w2.bpm ∧
      w2.bpm.page_table_.find 3 = some f ∧
      (w2.bpm.page f).pin_count_ = 0 ∧ w2.bpm.replacer_.evictable f) :=
  ⟨rfl, by decide!, by decide!,
    (pin_unpin_balance 2 2 ⟨[]⟩ [] (BufferPoolManager.new 2 ⟨[]⟩ 2) (by norm_num) rfl rfl 3
      (Or.inl (by decide!)) 2 (by norm_num)).1
      (BufferPoolManager.afterCalls 2 2 [.fetch_page 3, .fetch_page 3]) [true, false]
      (by decide!) rfl,
    (pin_unpin_balance 2 2 ⟨[]⟩ [] (BufferPoolManager.new 2 ⟨[]⟩ 2) (by norm_num) rfl rfl 3
      (Or.inl (by decide!)) 2 (by norm_num)).2 (by decide) []
      (List.replicate 2 ⟨BasicPageGuard.new (some 0)⟩)
      ⟨BufferPoolManager.afterCalls 2 2 [.fetch_page 3, .fetch_page 3], [.RLatch 0, .RLatch 0]⟩
      (by decide!)⟩
/-! ## Buffer pool: no call on the replacer fails -/

/-- The frame `NewPage` acquires is a frame of the pool, and the replacer it is about to
call satisfies its invariant and has the size of the pool. -/
theorem newFrame_ok {s s1 : BufferPoolManager} {f : Int} (hinv : s.Inv)
    (h : s.newFrame = (some f, s1)) :
    0 ≤ f ∧ f < s.pool_size_ ∧ s1.replacer_.Inv ∧ s1.replacer_.replacer_size_ = s.pool_size_ := by
  unfold BufferPoolManager.newFrame at h
  split at h
  · rename_i g rest hfree
    injection h with h1 h2
    injection h1 with h1
    subst h1 h2
    have hmem : g ∈ s.free_list_ := by rw [hfree]; exact List.mem_cons_self _ _
    obtain ⟨h0, hlt⟩ := hinv.free_range g hmem
    exact ⟨h0, hlt, hinv.rinv, hinv.rsize⟩
  · split at h
    · rename_i g r hev
      injection h with h1 h2
      injection h1 with h1
      subst h1 h2
      obtain ⟨hi0, hs0, _, hevf, _⟩ := Evict_nodes hinv.rinv hev
      obtain ⟨h0, hlt⟩ := hinv.tracked_range g (evictable_tracked hevf)
      refine ⟨h0, hlt, ?_, ?_⟩
      · simpa [setPage_replacer, writeBack_replacer] using hi0
      · simpa [setPage_replacer, writeBack_replacer, hinv.rsize] using hs0
    · injection h with h1 _
      cases h1

/-- The frame a `FetchPage` miss acquires is a frame of the pool, and the replacer it is
about to call satisfies its invariant and has the size of the pool. -/
theorem fetchFrame_ok {s s1 : BufferPoolManager} {f : Int} (hinv : s.Inv)
    (h : s.fetchFrame = (some f, s1)) :
    0 ≤ f ∧ f < s.pool_size_ ∧ s1.replacer_.Inv ∧ s1.replacer_.replacer_size_ = s.pool_size_ := by
  unfold BufferPoolManager.fetchFrame at h
  split at h
  · rename_i g rest hfree
    injection h with h1 h2
    injection h1 with h1
    subst h1 h2
    have hmem : g ∈ s.free_list_ := by rw [hfree]; exact List.mem_cons_self _ _
    obtain ⟨h0, hlt⟩ := hinv.free_range g hmem
    exact ⟨h0, hlt, hinv.rinv, hinv.rsize⟩
  · split at h
    · rename_i g r hev
      injection h with h1 h2
      injection h1 with h1
      subst h1 h2
      obtain ⟨hi0, hs0, _, hevf, _⟩ := Evict_nodes hinv.rinv hev
      obtain ⟨h0, hlt⟩ := hinv.tracked_range g (evictable_tracked hevf)
      refine ⟨h0, hlt, ?_, ?_⟩
      · simpa [setPage_replacer, writeBack_replacer] using hi0
      · simpa [setPage_replacer, writeBack_replacer, hinv.rsize] using hs0
    · injection h with h1 _
      cases h1

/-- On a replacer of the size of the pool that satisfies its invariant, `RecordAccess` of
a frame of the pool succeeds and leaves the frame tracked, and the `SetEvictable` that
follows succeeds. -/
theorem touch_calls_ok {r : LRUKReplacer} {P : Nat} {f : Int} (hinv : r.Inv)
    (hsize : r.replacer_size_ = P) (hP : P < 2 ^ 31) (hlt : f < P) :
    ∃ r1 r2, r.RecordAccess f = .ok r1 ∧ r1.tracked f ∧ r1.SetEvictable f false = .ok r2 := by
  have hle : f ≤ toInt32 r.replacer_size_ := by
    rw [hsize]; exact frame_le_toInt32 hP hlt
  obtain ⟨r1, r2, h1, h2⟩ := touch_ok hinv hle
  obtain ⟨_, _, _, node, hrep, _⟩ := RecordAccess_nodes hinv h1
  exact ⟨r1, r2, h1, hrep.tracked_self, h2⟩

/-- On a pool that satisfies its invariant no public call lets an exception of the
replacer escape, and with the mutex free every public call returns. -/
theorem Inv_no_throw {s : BufferPoolManager} (hinv : s.Inv) (c : Call) :
    s.throws c = false ∧ (s.latch_ = false → ∃ s2, s.step c = some s2) := by
  cases hl : s.latch_ with
  | true =>
    refine ⟨?_, fun h => by cases h⟩
    cases c <;>
      simp [BufferPoolManager.throws, BufferPoolManager.NewPage, BufferPoolManager.FetchPage,
        BufferPoolManager.UnpinPage, BufferPoolManager.FlushPage,
        BufferPoolManager.FlushAllPages, BufferPoolManager.DeletePage, hl,
        Outcome.threwException]
  | false =>
    cases c with
    | new_page =>
      obtain ⟨v, s2, h, _⟩ := Inv_NewPage hinv hl
      exact ⟨by simp [BufferPoolManager.throws, h, Outcome.threwException],
        fun _ => ⟨s2, by simp [BufferPoolManager.step, h, Outcome.post]⟩⟩
    | fetch_page p =>
      obtain ⟨v, s2, h, _⟩ := Inv_FetchPage hinv hl p
      exact ⟨by simp [BufferPoolManager.throws, h, Outcome.threwException],
        fun _ => ⟨s2, by simp [BufferPoolManager.step, h, Outcome.post]⟩⟩
    | unpin_page p d =>
      obtain ⟨v, s2, h, _⟩ := Inv_UnpinPage hinv hl p d
      exact ⟨by simp [BufferPoolManager.throws, h, Outcome.threwException],
        fun _ => ⟨s2, by simp [BufferPoolManager.step, h, Outcome.post]⟩⟩
    | flush_page p =>
      obtain ⟨v, s2, h, _⟩ := Inv_FlushPage hinv hl p
      exact ⟨by simp [BufferPoolManager.throws, h, Outcome.threwException],
        fun _ => ⟨s2, by simp [BufferPoolManager.step, h, Outcome.post]⟩⟩
    | flush_all_pages =>
      obtain ⟨s2, h, _⟩ := Inv_FlushAllPages hinv hl
      exact ⟨by simp [BufferPoolManager.throws, h, Outcome.threwException],
        fun _ => ⟨s2, by simp [BufferPoolManager.step, h, Outcome.post]⟩⟩
    | delete_page p =>
      obtain ⟨v, s2, h, _⟩ := Inv_DeletePage hinv hl p
      exact ⟨by simp [BufferPoolManager.throws, h, Outcome.threwException],
        fun _ => ⟨s2, by simp [BufferPoolManager.step, h, Outcome.post]⟩⟩

/-- C21. The buffer pool never trips a failure of the replacer. In every state reached
from a freshly constructed pool (of a size below `2 ^ 31`, with a replacer of the same
size) by any sequence of public calls: every frame that is not on the free list is
tracked by the replacer and is evictable there exactly when its pin count is 0; the
frame that `NewPage` or a `FetchPage` miss acquires (the front of the free list or the
victim of the replacer) has an id below `replacer_size_`, so the `RecordAccess` issued
on it succeeds, leaves it tracked, and the `SetEvictable` that follows succeeds; for
every resident page the frame has an id below `replacer_size_` and is tracked, so the
`RecordAccess` and `SetEvictable` of a `FetchPage` hit and the `SetEvictable` of
`UnpinPage` succeed, and if its pin count is 0 it is evictable, so the `Remove` of
`DeletePage` succeeds; no public call lets an exception of the replacer escape, and
with the mutex free every public call returns. -/
theorem pool_never_trips_replacer (pool_size k : Nat) (dm : DiskManager)
    (calls : List Call) (s : BufferPoolManager) (hsize : pool_size < 2 ^ 31)
    (hrun : (BufferPoolManager.new pool_size dm k).run calls = some s) :
    s.replacer_.replacer_size_ = pool_size ∧
    (∀ f : Int, 0 ≤ f → f < pool_size → f ∉ s.free_list_ →
      s.replacer_.tracked f ∧ (s.replacer_.evictable f ↔ (s.page f).pin_count_ = 0)) ∧
    (∀ f s1, ({ s with latch_ := true } : BufferPoolManager).newFrame = (some f, s1) →
      0 ≤ f ∧ f < s1.replacer_.replacer_size_ ∧
      ∃ r1 r2, s1.replacer_.RecordAccess f = .ok r1 ∧ r1.tracked f ∧
        r1.SetEvictable f false = .ok r2) ∧
    (∀ f s1, ({ s with latch_ := true } : BufferPoolManager).fetchFrame = (some f, s1) →
      0 ≤ f ∧ f < s1.replacer_.replacer_size_ ∧
      ∃ r1 r2, s1.replacer_.RecordAccess f = .ok r1 ∧ r1.tracked f ∧
        r1.SetEvictable f false = .ok r2) ∧
    (∀ p f, s.page_table_.find p = some f →
      0 ≤ f ∧ f < s.replacer_.replacer_size_ ∧ s.replacer_.tracked f ∧
      (∃ r1 r2, s.replacer_.RecordAccess f = .ok r1 ∧ r1.tracked f ∧
        r1.SetEvictable f false = .ok r2) ∧
      (∃ r2, s.replacer_.SetEvictable f true = .ok r2) ∧
      ((s.page f).pin_count_ = 0 →
        s.replacer_.evictable f ∧ ∃ r2, s.replacer_.Remove f = .ok r2)) ∧
    (∀ c : Call, s.throws c = false) ∧
    (s.latch_ = false → ∀ c : Call, ∃ s2, s.step c = some s2) := by
  obtain ⟨hinv, hps, _⟩ := Inv_run calls _ s (Inv_new_pool pool_size dm k hsize).1 hrun
  have hps2 : s.pool_size_ = pool_size := hps
  have hlock : ({ s with latch_ := true } : BufferPoolManager).Inv := hinv
  refine ⟨by rw [hinv.rsize, hps2], ?_, ?_, ?_, ?_, fun c => (Inv_no_throw hinv c).1,
    fun hl c => (Inv_no_throw hinv c).2 hl⟩
  · intro f h0 h1 hnf
    rw [← hps2] at h1
    rcases hinv.frame f h0 h1 (by simp) with ⟨h2, _⟩ | ⟨_, h3, h4⟩
    · exact absurd h2 hnf
    · exact ⟨h3, h4⟩
  · intro f s1 h
    obtain ⟨h0, h1, h2, h3⟩ := newFrame_ok hlock h
    have h1b : f < s.pool_size_ := h1
    have h3b : s1.replacer_.replacer_size_ = s.pool_size_ := h3
    refine ⟨h0, by rw [h3b]; exact h1b, touch_calls_ok h2 h3b hinv.size_lt h1b⟩
  · intro f s1 h
    obtain ⟨h0, h1, h2, h3⟩ := fetchFrame_ok hlock h
    have h1b : f < s.pool_size_ := h1
    have h3b : s1.replacer_.replacer_size_ = s.pool_size_ := h3
    refine ⟨h0, by rw [h3b]; exact h1b, touch_calls_ok h2 h3b hinv.size_lt h1b⟩
  · intro p f hfind
    obtain ⟨hf0, hf1, _, htr, hev⟩ := hinv.mapped_used (PageTable.find_some hfind)
    simp only at hf0 hf1 htr hev
    refine ⟨hf0, by rw [hinv.rsize]; exact hf1,
      htr, touch_calls_ok hinv.rinv hinv.rsize hinv.size_lt hf1,
      SetEvictable_ok_of_tracked true htr, ?_⟩
    intro hpin
    have hevict : s.replacer_.evictable f := hev.mpr hpin
    exact ⟨hevict, Remove_ok_of_evictable hinv.rinv hevict⟩

/-- A pool of two frames after `new_page`, `unpin_page(0)`, `new_page`, `new_page` (the
third call evicts frame 0): frames 0 and 1 hold pages 2 and 1, both pinned, tracked and
not evictable; neither `delete_page(1)` nor a further `new_page` throws. -/
theorem pool_never_trips_replacer_witness :
    (BufferPoolManager.new 2 ⟨[]⟩ 2).run
        [.new_page, .unpin_page 0 false, .new_page, .new_page]
      = some (BufferPoolManager.afterCalls 2 2
          [.new_page, .unpin_page 0 false, .new_page, .new_page]) ∧
    (BufferPoolManager.afterCalls 2 2
      [.new_page, .unpin_page 0 false, .new_page, .new_page]).free_list_ = [] ∧
    (BufferPoolManager.afterCalls 2 2
      [.new_page, .unpin_page 0 false, .new_page, .new_page]).page_table_.find 2 = some 0 ∧
    ((BufferPoolManager.afterCalls 2 2
        [.new_page, .unpin_page 0 false, .new_page, .new_page]).replacer_.tracked 0 ∧
      ((BufferPoolManager.afterCalls 2 2
          [.new_page, .unpin_page 0 false, .new_page, .new_page]).replacer_.evictable 0 ↔
        ((BufferPoolManager.afterCalls 2 2
          [.new_page, .unpin_page 0 false, .new_page, .new_page]).page 0).pin_count_ = 0)) ∧
    (BufferPoolManager.afterCalls 2 2
      [.new_page, .unpin_page 0 false, .new_page, .new_page]).throws (.delete_page 1)
        = false ∧
    (BufferPoolManager.afterCalls 2 2
      [.new_page, .unpin_page 0 false, .new_page, .new_page]).throws .new_page = false :=
  ⟨rfl, by decide!, by decide!,
    (pool_never_trips_replacer 2 2 ⟨[]⟩ [.new_page, .unpin_page 0 false, .new_page, .new_page]
      (BufferPoolManager.afterCalls 2 2 [.new_page, .unpin_page 0 false, .new_page, .new_page])
      (by norm_num) rfl).2.1 0 (by norm_num) (by norm_num) (by decide!),
    (pool_never_trips_replacer 2 2 ⟨[]⟩ [.new_page, .unpin_page 0 false, .new_page, .new_page]
      (BufferPoolManager.afterCalls 2 2 [.new_page, .unpin_page 0 false, .new_page, .new_page])
      (by norm_num) rfl).2.2.2.2.2.1 (.delete_page 1),
    (pool_never_trips_replacer 2 2 ⟨[]⟩ [.new_page, .unpin_page 0 false, .new_page, .new_page]
      (BufferPoolManager.afterCalls 2 2 [.new_page, .unpin_page 0 false, .new_page, .new_page])
      (by norm_num) rfl).2.2.2.2.2.1 .new_page⟩
/-! ## Buffer pool: the frame partition -/

/-- Installing a page id that no other frame holds in frame `f` keeps every other in-use
frame mapped. -/
theorem Covered_install {T T0 : PageTable} {F F2 : List Int} {P : Nat} {pid f : Int}
    (hm2 : ∀ g : Int, 0 ≤ g → g < P → g ∉ F → ∃ e ∈ T, e.2 = g)
    (hkeep : ∀ e ∈ T, e.2 ≠ f → e ∈ T0)
    (hpid : ∀ e ∈ T0, e.2 ≠ f → e.1 ≠ pid)
    (hF2 : ∀ g, g ≠ f → g ∉ F2 → g ∉ F) :
    ∀ g : Int, 0 ≤ g → g < P → g ∉ F2 → ∃ e ∈ T0.assign pid f, e.2 = g := by
  intro g hg0 hg1 hgF
  by_cases hgf : g = f
  · exact ⟨(pid, f), PageTable.mem_assign.mpr (Or.inl rfl), hgf.symm⟩
  · obtain ⟨e, he, heg⟩ := hm2 g hg0 hg1 (hF2 g hgf hgF)
    have hef : e.2 ≠ f := fun h => hgf (heg.symm.trans h)
    have he0 := hkeep e he hef
    exact ⟨e, PageTable.mem_assign.mpr (Or.inr ⟨he0, hpid e he0 hef⟩), heg⟩

theorem UnpinPage_tables {s s2 : BufferPoolManager} {p : Int} {d : Bool}
    (h : (s.UnpinPage p d).post = some s2) :
    s2.page_table_ = s.page_table_ ∧ s2.free_list_ = s.free_list_ ∧
      s2.pool_size_ = s.pool_size_ := by
  unfold BufferPoolManager.UnpinPage at h
  split at h
  · simp [Outcome.post] at h
  · cases d <;> simp only [if_true, Bool.false_eq_true, if_false] at h <;>
      (repeat' split at h) <;>
      (simp only [Outcome.post, Option.some.injEq] at h; subst h
       simp [setPage_page_table, setPage_free_list, setPage_pool_size])

theorem FlushPage_tables {s s2 : BufferPoolManager} {p : Int}
    (h : (s.FlushPage p).post = some s2) :
    s2.page_table_ = s.page_table_ ∧ s2.free_list_ = s.free_list_ ∧
      s2.pool_size_ = s.pool_size_ := by
  unfold BufferPoolManager.FlushPage at h
  split at h
  · simp [Outcome.post] at h
  · simp only at h
    split at h
    · simp only [Outcome.post, Option.some.injEq] at h; subst h; exact ⟨rfl, rfl, rfl⟩
    · simp only [Outcome.post, Option.some.injEq] at h; subst h
      simp [flushFrame_page_table, flushFrame_free_list, flushFrame_pool_size]

theorem FlushAllPages_tables {s s2 : BufferPoolManager}
    (h : s.FlushAllPages.post = some s2) :
    s2.page_table_ = s.page_table_ ∧ s2.free_list_ = s.free_list_ ∧
      s2.pool_size_ = s.pool_size_ := by
  unfold BufferPoolManager.FlushAllPages at h
  split at h
  · simp [Outcome.post] at h
  · simp only [Outcome.post, Option.some.injEq] at h; subst h
    obtain ⟨h1, h2, h3, _⟩ := flushAll_fields s.page_table_ { s with latch_ := true }
    exact ⟨h2, h3, h1⟩

theorem Covered_of_tables {s s2 : BufferPoolManager} (hc : s.Covered)
    (h : s2.page_table_ = s.page_table_ ∧ s2.free_list_ = s.free_list_ ∧
      s2.pool_size_ = s.pool_size_) : s2.Covered := by
  obtain ⟨h1, h2, h3⟩ := h
  unfold BufferPoolManager.Covered
  rw [h1, h2, h3]
  exact hc

/-- Operation `DeletePage` keeps every in-use frame mapped. -/
theorem Covered_DeletePage {s s2 : BufferPoolManager} (hinv : s.Inv) (hc : s.Covered)
    (p : Int) (h : (s.DeletePage p).post = some s2) : s2.Covered := by
  have hl : s.latch_ = false := by
    cases hl : s.latch_ with
    | false => rfl
    | true => simp [BufferPoolManager.DeletePage, hl, Outcome.post] at h
  obtain ⟨h1, h2, h3⟩ := DeletePage_shape s p hl
  cases hfind : s.page_table_.find p with
  | none =>
    rw [h1 hfind] at h
    simp only [Outcome.post, Option.some.injEq] at h
    subst h
    exact hc
  | some f =>
    by_cases hpin : (s.page f).pin_count_ = 0
    · obtain ⟨_, _, _, _, hev⟩ := hinv.mapped_used (PageTable.find_some hfind)
      have hevict : s.replacer_.evictable f := hev.mpr hpin
      obtain ⟨r2, hr2⟩ := Remove_ok_of_evictable hinv.rinv hevict
      obtain ⟨s3, hs3, e1, e2, e3, _⟩ := (h3 f hfind hpin).2 r2 hr2
      rw [hs3] at h
      simp only [Outcome.post, Option.some.injEq] at h
      subst h
      unfold BufferPoolManager.Covered
      rw [e1, e2, e3]
      intro g hg0 hg1 hgF
      have hgf : g ≠ f := fun h => hgF (by simp [h])
      have hgF2 : g ∉ s.free_list_ := fun h => hgF (by simp [h])
      obtain ⟨e, he, heg⟩ := hc g hg0 hg1 hgF2
      refine ⟨e, PageTable.mem_erase.mpr ⟨he, ?_⟩, heg⟩
      intro hep
      have h4 := PageTable.find_of_entry hinv.table_keys e.1 e.2 he
      rw [hep, hfind] at h4
      exact hgf (heg.symm.trans (Option.some.inj h4).symm)
    · rw [h2 f hfind hpin] at h
      simp only [Outcome.post, Option.some.injEq] at h
      subst h
      exact hc

/-- Operation `FetchPage` keeps every in-use frame mapped. -/
theorem Covered_FetchPage {s s2 : BufferPoolManager} (hinv : s.Inv) (hc : s.Covered)
    (p : Int) (h : (s.FetchPage p).post = some s2) : s2.Covered := by
  have hl : s.latch_ = false := by
    cases hl : s.latch_ with
    | false => rfl
    | true => simp [BufferPoolManager.FetchPage, hl, Outcome.post] at h
  cases hfind : s.page_table_.find p with
  | some f =>
    obtain ⟨_, hf1, _, _, _⟩ := hinv.mapped_used (PageTable.find_some hfind)
    simp only at hf1
    have hle : f ≤ toInt32 s.replacer_.replacer_size_ := by
      rw [hinv.rsize]; exact frame_le_toInt32 hinv.size_lt hf1
    obtain ⟨r1, r2, h1, h2⟩ := touch_ok hinv.rinv hle
    obtain ⟨s3, hs3, e1, e2, e3, _⟩ := FetchPage_hit s hl p f hfind r1 r2 h1 h2
    rw [hs3] at h
    simp only [Outcome.post, Option.some.injEq] at h
    subst h
    exact Covered_of_tables hc ⟨e2, e3, e1⟩
  | none =>
    cases hfree : s.free_list_ with
    | cons f rest =>
      have hfF : f ∈ s.free_list_ := by rw [hfree]; exact List.mem_cons_self _ _
      obtain ⟨hf0, hf1, _, _⟩ := hinv.free_idle hfF
      have hle : f ≤ toInt32 s.replacer_.replacer_size_ := by
        rw [hinv.rsize]; exact frame_le_toInt32 hinv.size_lt hf1
      obtain ⟨r1, r2, h1, h2⟩ := touch_ok hinv.rinv hle
      obtain ⟨s3, hs3, e1, e2, e3, _⟩ := FetchPage_free s hl p f hfind rest hfree r1 r2 h1 h2
      rw [hs3] at h
      simp only [Outcome.post, Option.some.injEq] at h
      subst h
      unfold BufferPoolManager.Covered
      rw [e1, e2, e3]
      apply Covered_install hc (fun e he _ => he)
        (fun e he _ => PageTable.find_none hfind e he)
      intro g hg hgr hgF
      rw [hfree] at hgF
      rcases List.mem_cons.mp hgF with h | h
      · exact hg h
      · exact hgr h
    | nil =>
      cases hev0 : s.replacer_.Evict with
      | mk v r0 =>
        cases v with
        | none =>
          have h0 : s.replacer_.Evict.1 = none := by rw [hev0]
          rw [FetchPage_full s hl p hfind hfree h0] at h
          simp only [Outcome.post, Option.some.injEq] at h
          subst h
          exact hc
        | some f =>
          obtain ⟨hi0, hs0, _, hevf, _⟩ := Evict_nodes hinv.rinv hev0
          obtain ⟨hf0, hf1, hnf, _⟩ := hinv.tracked_used (evictable_tracked hevf)
          have hle : f ≤ toInt32 r0.replacer_size_ := by
            rw [hs0, hinv.rsize]; exact frame_le_toInt32 hinv.size_lt hf1
          obtain ⟨r1, r2, h1, h2⟩ := touch_ok hi0 hle
          obtain ⟨s3, hs3, e1, e2, e3, _⟩ :=
            FetchPage_evict s hl p f hfind hfree r0 r1 r2 hev0 h1 h2
          rw [hs3] at h
          simp only [Outcome.post, Option.some.injEq] at h
          subst h
          unfold BufferPoolManager.Covered
          rw [e1, e2, e3]
          apply Covered_install hc (erase_keeps_others hinv (hc f hf0 hf1 hnf))
            (fun e he _ => PageTable.find_none hfind e (PageTable.mem_erase.mp he).1)
          intro g _ _
          rw [hfree]
          simp

/-- Operation `NewPage` keeps every in-use frame mapped, unless it takes a frame while the page id
it allocates is resident in another frame. -/
theorem Covered_NewPage {s s2 : BufferPoolManager} (hinv : s.Inv) (hc : s.Covered)
    (hok : Call.allocatesUnmapped .new_page s = true)
    (h : s.NewPage.post = some s2) : s2.Covered := by
  have hl : s.latch_ = false := by
    cases hl : s.latch_ with
    | false => rfl
    | true => simp [BufferPoolManager.NewPage, hl, Outcome.post] at h
  have hclash : ∀ f, ({ s with latch_ := true } : BufferPoolManager).newFrame.1 = some f →
      ∀ e ∈ s.page_table_, e.2 ≠ f → e.1 ≠ s.next_page_id_ := by
    intro f hf e he hef hkey
    have hfe := PageTable.find_of_entry hinv.table_keys e.1 e.2 he
    rw [hkey] at hfe
    simp only [Call.allocatesUnmapped, hf, hfe, beq_iff_eq] at hok
    exact hef hok
  cases hfree : s.free_list_ with
  | cons f rest =>
    have hfF : f ∈ s.free_list_ := by rw [hfree]; exact List.mem_cons_self _ _
    obtain ⟨hf0, hf1, _, _⟩ := hinv.free_idle hfF
    have hle : f ≤ toInt32 s.replacer_.replacer_size_ := by
      rw [hinv.rsize]; exact frame_le_toInt32 hinv.size_lt hf1
    obtain ⟨r1, r2, h1, h2⟩ := touch_ok hinv.rinv hle
    obtain ⟨s3, hs3, e1, e2, e3, _⟩ := NewPage_free s hl f rest hfree r1 r2 h1 h2
    rw [hs3] at h
    simp only [Outcome.post, Option.some.injEq] at h
    subst h
    have hnf : ({ s with latch_ := true } : BufferPoolManager).newFrame.1 = some f := by
      simp [BufferPoolManager.newFrame, hfree]
    unfold BufferPoolManager.Covered
    rw [e1, e2, e3]
    apply Covered_install hc (fun e he _ => he) (hclash f hnf)
    intro g hg hgr hgF
    rw [hfree] at hgF
    rcases List.mem_cons.mp hgF with h | h
    · exact hg h
    · exact hgr h
  | nil =>
    cases hev0 : s.replacer_.Evict with
    | mk v r0 =>
      cases v with
      | none =>
        have h0 : s.replacer_.Evict.1 = none := by rw [hev0]
        rw [NewPage_full s hl hfree h0] at h
        simp only [Outcome.post, Option.some.injEq] at h
        subst h
        exact hc
      | some f =>
        obtain ⟨hi0, hs0, _, hevf, _⟩ := Evict_nodes hinv.rinv hev0
        obtain ⟨hf0, hf1, hnf, _⟩ := hinv.tracked_used (evictable_tracked hevf)
        have hle : f ≤ toInt32 r0.replacer_size_ := by
          rw [hs0, hinv.rsize]; exact frame_le_toInt32 hinv.size_lt hf1
        obtain ⟨r1, r2, h1, h2⟩ := touch_ok hi0 hle
        obtain ⟨s3, hs3, e1, e2, e3, _⟩ := NewPage_evict s hl f hfree r0 r1 r2 hev0 h1 h2
        rw [hs3] at h
        simp only [Outcome.post, Option.some.injEq] at h
        subst h
        have hnew : ({ s with latch_ := true } : BufferPoolManager).newFrame.1 = some f := by
          simp [BufferPoolManager.newFrame, hfree, hev0]
        unfold BufferPoolManager.Covered
        rw [e1, e2, e3]
        apply Covered_install hc (erase_keeps_others hinv (hc f hf0 hf1 hnf))
          (fun e he hef => hclash f hnew e (PageTable.mem_erase.mp he).1 hef)
        intro g _ _
        rw [hfree]
        simp

/-- A call that ends keeps every in-use frame mapped, unless it is a `NewPage` that
takes a frame while the page id it allocates is resident in another frame. -/
theorem Covered_step {s s2 : BufferPoolManager} (hinv : s.Inv) (hc : s.Covered) (c : Call)
    (hok : c.allocatesUnmapped s = true) (h : s.step c = some s2) : s2.Covered := by
  cases c with
  | new_page => exact Covered_NewPage hinv hc hok h
  | fetch_page p => exact Covered_FetchPage hinv hc p h
  | unpin_page p d => exact Covered_of_tables hc (UnpinPage_tables h)
  | flush_page p => exact Covered_of_tables hc (FlushPage_tables h)
  | flush_all_pages => exact Covered_of_tables hc (FlushAllPages_tables h)
  | delete_page p => exact Covered_DeletePage hinv hc p h

theorem Covered_run (calls : List Call) :
    ∀ s s2 : BufferPoolManager, s.Inv → s.Covered → s.allocatesUnmapped calls = true →
      s.run calls = some s2 → s2.Covered := by
  induction calls with
  | nil =>
    intro s s2 _ hc _ h
    simp only [BufferPoolManager.run, Option.some.injEq] at h
    subst h
    exact hc
  | cons c cs ih =>
    intro s s2 hinv hc hok h
    simp only [BufferPoolManager.run] at h
    cases hstep : s.step c with
    | none => simp [hstep] at h
    | some s1 =>
      simp only [hstep, Option.some_bind] at h
      simp only [BufferPoolManager.allocatesUnmapped, hstep, Bool.and_eq_true] at hok
      obtain ⟨h1, _, _⟩ := Inv_step hinv c hstep
      exact ih s1 s2 h1 (Covered_step hinv hc c hok.1 hstep) hok.2 h

/-- A `NewPage` that takes frame `f` while the page id it allocates is resident in another
frame `g` leaves `g` neither free nor mapped. -/
theorem Covered_lost_on_clash {s s2 : BufferPoolManager} (hinv : s.Inv)
    (hok : Call.allocatesUnmapped .new_page s = false)
    (h : s.NewPage.post = some s2) : ¬ s2.Covered := by
  have hl : s.latch_ = false := by
    cases hl : s.latch_ with
    | false => rfl
    | true => simp [BufferPoolManager.NewPage, hl, Outcome.post] at h
  have key : ∀ (f g : Int) (T0 : PageTable), s.page_table_.find s.next_page_id_ = some g →
      g ≠ f → (∀ e ∈ T0, e ∈ s.page_table_) → s2.pool_size_ = s.pool_size_ →
      s2.page_table_ = T0.assign s.next_page_id_ f →
      (∀ x ∈ s2.free_list_, x ∈ s.free_list_) → ¬ s2.Covered := by
    intro f g T0 hfind hgf hsub e1 e2 e3 hc
    have hg := PageTable.find_some hfind
    obtain ⟨hg0, hg1⟩ := hinv.table_range _ hg
    obtain ⟨_, _, hgF, _⟩ := hinv.mapped_used hg
    simp only at hg0 hg1 hgF
    obtain ⟨e, he, heg⟩ := hc g hg0 (by rw [e1]; exact hg1) (fun hx => hgF (e3 g hx))
    rw [e2] at he
    rcases PageTable.mem_assign.mp he with h1 | ⟨h1, h2⟩
    · rw [h1] at heg
      exact hgf heg.symm
    · have h3 := hinv.table_page e (hsub e h1)
      have h4 := hinv.table_page _ hg
      simp only at h4
      rw [heg, h4] at h3
      exact h2 h3.symm
  cases hfree : s.free_list_ with
  | cons f rest =>
    have hfF : f ∈ s.free_list_ := by rw [hfree]; exact List.mem_cons_self _ _
    obtain ⟨hf0, hf1, _, _⟩ := hinv.free_idle hfF
    have hle : f ≤ toInt32 s.replacer_.replacer_size_ := by
      rw [hinv.rsize]; exact frame_le_toInt32 hinv.size_lt hf1
    obtain ⟨r1, r2, h1, h2⟩ := touch_ok hinv.rinv hle
    obtain ⟨s3, hs3, e1, e2, e3, _⟩ := NewPage_free s hl f rest hfree r1 r2 h1 h2
    rw [hs3] at h
    simp only [Outcome.post, Option.some.injEq] at h
    subst h
    have hnf : ({ s with latch_ := true } : BufferPoolManager).newFrame.1 = some f := by
      simp [BufferPoolManager.newFrame, hfree]
    cases hfind : s.page_table_.find s.next_page_id_ with
    | none => simp [Call.allocatesUnmapped, hnf, hfind] at hok
    | some g =>
      simp only [Call.allocatesUnmapped, hnf, hfind, beq_eq_false_iff_ne, ne_eq] at hok
      refine key f g s.page_table_ hfind hok (fun e he => he) e1 e2 ?_
      intro x hx
      rw [e3] at hx
      rw [hfree]
      exact List.mem_cons_of_mem _ hx
  | nil =>
    cases hev0 : s.replacer_.Evict with
    | mk v r0 =>
      cases v with
      | none =>
        have hnew : ({ s with latch_ := true } : BufferPoolManager).newFrame.1 = none := by
          simp [BufferPoolManager.newFrame, hfree, hev0]
        simp [Call.allocatesUnmapped, hnew] at hok
      | some f =>
        obtain ⟨hi0, hs0, _, hevf, _⟩ := Evict_nodes hinv.rinv hev0
        obtain ⟨hf0, hf1, hnf, _⟩ := hinv.tracked_used (evictable_tracked hevf)
        have hle : f ≤ toInt32 r0.replacer_size_ := by
          rw [hs0, hinv.rsize]; exact frame_le_toInt32 hinv.size_lt hf1
        obtain ⟨r1, r2, h1, h2⟩ := touch_ok hi0 hle
        obtain ⟨s3, hs3, e1, e2, e3, _⟩ := NewPage_evict s hl f hfree r0 r1 r2 hev0 h1 h2
        rw [hs3] at h
        simp only [Outcome.post, Option.some.injEq] at h
        subst h
        have hnew : ({ s with latch_ := true } : BufferPoolManager).newFrame.1 = some f := by
          simp [BufferPoolManager.newFrame, hfree, hev0]
        cases hfind : s.page_table_.find s.next_page_id_ with
        | none => simp [Call.allocatesUnmapped, hnew, hfind] at hok
        | some g =>
          simp only [Call.allocatesUnmapped, hnew, hfind, beq_eq_false_iff_ne, ne_eq] at hok
          refine key f g _ hfind hok (fun e he => (PageTable.mem_erase.mp he).1) e1 e2 ?_
          intro x hx
          rw [e3] at hx
          simp at hx

/-- In a state that satisfies the pool invariant and has every in-use frame mapped, the
free list and the page table partition the frames of the pool. -/
theorem partition_of_covered {s : BufferPoolManager} (hinv : s.Inv) (hc : s.Covered) :
    (∀ f ∈ s.free_list_, ∀ e ∈ s.page_table_, e.2 ≠ f) ∧
    (∀ f : Int, (f ∈ s.free_list_ ∨ ∃ e ∈ s.page_table_, e.2 = f) ↔
      (0 ≤ f ∧ f < s.pool_size_)) ∧
    s.free_list_.length + s.page_table_.length = s.pool_size_ := by
  have hdisj : ∀ f ∈ s.free_list_, ∀ e ∈ s.page_table_, e.2 ≠ f := by
    intro f hf e he hef
    obtain ⟨_, _, h3, _⟩ := hinv.mapped_used he
    exact h3 (hef ▸ hf)
  have hcover : ∀ f : Int, (f ∈ s.free_list_ ∨ ∃ e ∈ s.page_table_, e.2 = f) ↔
      (0 ≤ f ∧ f < s.pool_size_) := by
    intro f
    constructor
    · rintro (hf | ⟨e, he, rfl⟩)
      · exact hinv.free_range f hf
      · exact hinv.table_range e he
    · rintro ⟨h0, h1⟩
      by_cases hf : f ∈ s.free_list_
      · exact Or.inl hf
      · exact Or.inr (hc f h0 h1 hf)
  refine ⟨hdisj, hcover, ?_⟩
  have hnd : (s.free_list_ ++ s.page_table_.map Prod.snd).Nodup := by
    rw [List.nodup_append]
    refine ⟨hinv.free_nodup, hinv.table_values_nodup, ?_⟩
    intro f hf hf2
    obtain ⟨e, he, hef⟩ := List.mem_map.mp hf2
    exact hdisj f hf e he hef
  have hmem : ∀ f : Int, f ∈ s.free_list_ ++ s.page_table_.map Prod.snd ↔
      0 ≤ f ∧ f < s.pool_size_ := by
    intro f
    rw [← hcover f, List.mem_append, List.mem_map]
  have hlen := length_of_nodup_range hnd hmem
  simpa using hlen

theorem Covered_new_pool (pool_size : Nat) (dm : DiskManager) (k : Nat)
    (hsize : pool_size < 2 ^ 31) : (BufferPoolManager.new pool_size dm k).Covered :=
  (Inv_new_pool pool_size dm k hsize).2.2

/-- C3, amended. In every state reached from a freshly constructed pool (of a size below
`2 ^ 31`) by a sequence of `new_page`, `fetch_page` (of any page id), `unpin_page`,
`flush_page`, `flush_all_pages` and `delete_page` calls in which no `new_page` takes a
frame while the page id it allocates is resident in another frame, the frames on the
free list and the frames mapped by the page table are disjoint, together they are
exactly the frames `0 .. pool_size - 1`, and
`free_list.len() + page_table.len() = pool_size`. -/
theorem frame_partition_without_id_clash (pool_size k : Nat) (dm : DiskManager)
    (calls : List Call) (s : BufferPoolManager) (hsize : pool_size < 2 ^ 31)
    (hclash : (BufferPoolManager.new pool_size dm k).allocatesUnmapped calls = true)
    (hrun : (BufferPoolManager.new pool_size dm k).run calls = some s) :
    (∀ f ∈ s.free_list_, ∀ e ∈ s.page_table_, e.2 ≠ f) ∧
    (∀ f : Int, (f ∈ s.free_list_ ∨ ∃ e ∈ s.page_table_, e.2 = f) ↔ (0 ≤ f ∧ f < pool_size)) ∧
    s.free_list_.length + s.page_table_.length = pool_size := by
  obtain ⟨hinv0, _⟩ := Inv_new_pool pool_size dm k hsize
  obtain ⟨hinv, hps, _⟩ := Inv_run calls _ s hinv0 hrun
  have hps2 : s.pool_size_ = pool_size := hps
  have hc := Covered_run calls _ s hinv0 (Covered_new_pool pool_size dm k hsize) hclash hrun
  have h := partition_of_covered hinv hc
  rw [hps2] at h
  exact h

/-- The first scenario of the specification in a pool of three frames (fetch pages 1, 2, 3
and unpin each, fetch 1 again, fetch 4, which evicts), followed by a `new_page` that
evicts again and allocates page id 0: the fetches ask for page ids above the allocation
counter, no `new_page` allocates an id resident in another frame, and the theorem applies
to the state reached. -/
theorem frame_partition_without_id_clash_witness :
    (3 : Nat) < 2 ^ 31 ∧
    (BufferPoolManager.new 3 ⟨[]⟩ 2).allocatesUnmapped
      [.fetch_page 1, .unpin_page 1 false, .fetch_page 2, .unpin_page 2 false,
        .fetch_page 3, .unpin_page 3 false, .fetch_page 1, .fetch_page 4, .new_page] = true ∧
    (BufferPoolManager.new 3 ⟨[]⟩ 2).run
      [.fetch_page 1, .unpin_page 1 false, .fetch_page 2, .unpin_page 2 false,
        .fetch_page 3, .unpin_page 3 false, .fetch_page 1, .fetch_page 4, .new_page]
      = some (BufferPoolManager.afterCalls 3 2
      [.fetch_page 1, .unpin_page 1 false, .fetch_page 2, .unpin_page 2 false,
        .fetch_page 3, .unpin_page 3 false, .fetch_page 1, .fetch_page 4, .new_page]) ∧
    (BufferPoolManager.afterCalls 3 2
      [.fetch_page 1, .unpin_page 1 false, .fetch_page 2, .unpin_page 2 false,
        .fetch_page 3, .unpin_page 3 false, .fetch_page 1, .fetch_page 4, .new_page]).page_table_
      = [(1, 0), (4, 1), (0, 2)] ∧
    (BufferPoolManager.afterCalls 3 2
      [.fetch_page 1, .unpin_page 1 false, .fetch_page 2, .unpin_page 2 false,
        .fetch_page 3, .unpin_page 3 false, .fetch_page 1, .fetch_page 4, .new_page]).free_list_.length
      + (BufferPoolManager.afterCalls 3 2
      [.fetch_page 1, .unpin_page 1 false, .fetch_page 2, .unpin_page 2 false,
        .fetch_page 3, .unpin_page 3 false, .fetch_page 1, .fetch_page 4, .new_page]).page_table_.length = 3 :=
  ⟨by norm_num, by decide, rfl, by decide,
    (frame_partition_without_id_clash 3 2 ⟨[]⟩
      [.fetch_page 1, .unpin_page 1 false, .fetch_page 2, .unpin_page 2 false,
        .fetch_page 3, .unpin_page 3 false, .fetch_page 1, .fetch_page 4, .new_page]
      (BufferPoolManager.afterCalls 3 2
      [.fetch_page 1, .unpin_page 1 false, .fetch_page 2, .unpin_page 2 false,
        .fetch_page 3, .unpin_page 3 false, .fetch_page 1, .fetch_page 4, .new_page])
      (by norm_num) (by decide) rfl).2.2⟩
/-! ## Replacer: victim selection over the recorded accesses -/

/-- The node that a `RecordAccess` that returns leaves for its frame: a first access
makes a node that is not evictable and holds this access; a later access keeps the flag
and holds the `k_` most recent accesses. -/
theorem RecordAccess_node {r r2 : LRUKReplacer} {f : Int} (hinv : r.Inv) (ho : r.OrdInv)
    (hk : 2 ≤ r.k_) (h : r.RecordAccess f = .ok r2) :
    r2.current_timestamp_ = r.current_timestamp_ + 1 ∧
    ∃ node, ReplacedBy r r2 f node ∧
      ((¬ r.tracked f ∧ node.history_ = [r.current_timestamp_ + 1] ∧
          node.is_evictable_ = false) ∨
        (∃ n ∈ r.nodes, n.fid_ = f ∧ node.is_evictable_ = n.is_evictable_ ∧
          node.history_ = ((r.current_timestamp_ + 1) :: n.history_).take r.k_)) := by
  obtain ⟨hinv2, _, _, node, hrep, _⟩ := RecordAccess_nodes hinv h
  refine ⟨(RecordAccess_fields hinv h).2, node, hrep, ?_⟩
  have huniq : ∀ x : LRUKNode, x ∈ r2.nodes → x.fid_ = f → node = x := by
    intro x hx hxf
    exact hinv2.eq_of_fid ((hrep.2 node).mpr (Or.inl rfl)) hx (hrep.1.trans hxf.symm)
  rcases RecordAccess_ok_cases hinv h with ⟨hnt, rfl⟩ | ⟨n, hn, hnf, rfl⟩ |
      ⟨n, hn, hnf, hlen, rfl⟩ | ⟨n, hn, hnf, hlen, rfl⟩
  · left
    have := huniq { LRUKNode.fresh with fid_ := f, history_ := [r.current_timestamp_ + 1] }
      (by simp [LRUKReplacer.nodes]) rfl
    subst this
    exact ⟨hnt, rfl, rfl⟩
  · right
    have := huniq { n with
        history_ := ((r.current_timestamp_ + 1) :: n.history_).dropLast
        min_history_size_ := (((r.current_timestamp_ + 1) :: n.history_).dropLast).getLastD 0 }
      (by
        apply mem_nodes.mpr
        right
        exact (mem_InsertOrder _ _ _).mpr (Or.inl rfl)) hnf
    subst this
    refine ⟨n, mem_nodes.mpr (Or.inr hn), hnf, rfl, ?_⟩
    have hl := ho.over_len n hn
    simp only
    rw [List.dropLast_eq_take, List.length_cons, hl]
    rfl
  · right
    have := huniq { n with
        history_ := (r.current_timestamp_ + 1) :: n.history_
        over_k_ := true
        min_history_size_ := ((r.current_timestamp_ + 1) :: n.history_).getLastD 0 }
      (by
        apply mem_nodes.mpr
        right
        exact (mem_InsertOrder _ _ _).mpr (Or.inl rfl)) hnf
    subst this
    refine ⟨n, mem_nodes.mpr (Or.inl hn), hnf, rfl, ?_⟩
    simp only
    rw [decSizeT_of_pos ho.k_pos ho.k_lt] at hlen
    rw [List.take_of_length_le]
    rw [List.length_cons, hlen]
    omega
  · right
    have := huniq { n with history_ := (r.current_timestamp_ + 1) :: n.history_ }
      (by
        apply mem_nodes.mpr
        left
        simp only
        exact List.mem_map.mpr ⟨n, hn, by simp [hnf]⟩) hnf
    subst this
    refine ⟨n, mem_nodes.mpr (Or.inl hn), hnf, rfl, ?_⟩
    simp only
    have := ho.less_len n hn hk
    rw [List.take_of_length_le]
    rw [List.length_cons]
    omega

theorem take_cons_take (K : Nat) (hK : 1 ≤ K) (x : Nat) (a : List Nat) :
    (x :: a.take K).take K = (x :: a).take K := by
  obtain ⟨j, rfl⟩ : ∃ j, K = j + 1 := ⟨K - 1, by omega⟩
  simp only [List.take_succ_cons, List.take_take]
  congr 2
  omega

theorem LogInv_RecordAccess {r r2 : LRUKReplacer} {g : AccessLog} {f : Int} (hinv : r.Inv)
    (ho : r.OrdInv) (hk : 2 ≤ r.k_) (hl : LogInv r g) (h : r.RecordAccess f = .ok r2) :
    LogInv r2 (g.record f) := by
  obtain ⟨hts, node, ⟨hnf, hmem⟩, hnode⟩ := RecordAccess_node hinv ho hk h
  have hk2 := k_RecordAccess h
  have hnodeok : node.history_ = ((g.count + 1) :: g.accesses f).take r.k_ ∧
      node.is_evictable_ = g.evictable f := by
    rcases hnode with ⟨hnt, h1, h2⟩ | ⟨n, hn, hnf2, h1, h2⟩
    · obtain ⟨ha, he⟩ := hl.untracked f hnt
      rw [h1, h2, ha, he, hl.clock]
      refine ⟨?_, rfl⟩
      rw [List.take_of_length_le]
      simp only [List.length_singleton]
      omega
    · rw [h2, h1, hl.hist n hn, hl.flag_eq n hn, hnf2, hl.clock]
      exact ⟨take_cons_take r.k_ (by omega) _ _, rfl⟩
  constructor
  · rw [hts, hl.clock]; rfl
  · intro m hm
    rw [hk2]
    rcases (hmem m).mp hm with rfl | ⟨h1, h2⟩
    · simp only [AccessLog.record, hnf, if_true]
      exact hnodeok.1
    · simp only [AccessLog.record, h2, if_false]
      exact hl.hist m h1
  · intro m hm
    rcases (hmem m).mp hm with rfl | ⟨h1, h2⟩
    · simp only [AccessLog.record, hnf]
      exact hnodeok.2
    · simp only [AccessLog.record]
      exact hl.flag_eq m h1
  · intro x hx
    have hxf : x ≠ f := fun hxf => hx ⟨node, (hmem node).mpr (Or.inl rfl), hnf.trans hxf.symm⟩
    have hxr : ¬ r.tracked x := by
      rintro ⟨m, hm, hmx⟩
      exact hx ⟨m, (hmem m).mpr (Or.inr ⟨hm, fun h => hxf (hmx.symm.trans h)⟩), hmx⟩
    simp only [AccessLog.record, hxf, if_false]
    exact hl.untracked x hxr

theorem LogInv_SetEvictable {r r2 : LRUKReplacer} {g : AccessLog} {f : Int} {b : Bool}
    (hinv : r.Inv) (hl : LogInv r g) (h : r.SetEvictable f b = .ok r2) :
    LogInv r2 (g.flag f b) := by
  obtain ⟨n, hn, hnf, e1, e2, hts, hk, _⟩ := SetEvictable_ok_shape hinv h
  have hmem : ∀ m ∈ r2.nodes, ∃ m0 ∈ r.nodes, m.fid_ = m0.fid_ ∧ m.history_ = m0.history_ ∧
      m.is_evictable_ = if m0.fid_ = f then b else m0.is_evictable_ := by
    intro m hm
    rcases mem_nodes.mp hm with hm | hm
    · rw [e1] at hm
      obtain ⟨m0, hm0, rfl⟩ := List.mem_map.mp hm
      refine ⟨m0, mem_nodes.mpr (Or.inl hm0), ?_⟩
      by_cases hf : m0.fid_ = f <;> simp [hf]
    · rw [e2] at hm
      obtain ⟨m0, hm0, rfl⟩ := List.mem_map.mp hm
      refine ⟨m0, mem_nodes.mpr (Or.inr hm0), ?_⟩
      by_cases hf : m0.fid_ = f <;> simp [hf]
  have hback : ∀ m0 ∈ r.nodes, ∃ m ∈ r2.nodes, m.fid_ = m0.fid_ := by
    intro m0 hm0
    rcases mem_nodes.mp hm0 with hm | hm
    · refine ⟨_, mem_nodes.mpr (Or.inl (by rw [e1]; exact List.mem_map_of_mem _ hm)), ?_⟩
      by_cases hf : m0.fid_ = f <;> simp [hf]
    · refine ⟨_, mem_nodes.mpr (Or.inr (by rw [e2]; exact List.mem_map_of_mem _ hm)), ?_⟩
      by_cases hf : m0.fid_ = f <;> simp [hf]
  constructor
  · rw [hts, hl.clock]; rfl
  · intro m hm
    obtain ⟨m0, hm0, h1, h2, _⟩ := hmem m hm
    rw [hk, h1, h2]
    exact hl.hist m0 hm0
  · intro m hm
    obtain ⟨m0, hm0, h1, _, h3⟩ := hmem m hm
    rw [h3, h1]
    simp only [AccessLog.flag]
    by_cases hf : m0.fid_ = f
    · simp [hf]
    · simp only [hf, if_false]
      exact hl.flag_eq m0 hm0
  · intro x hx
    have hxr : ¬ r.tracked x := by
      rintro ⟨m0, hm0, hmx⟩
      obtain ⟨m, hm, hmf⟩ := hback m0 hm0
      exact hx ⟨m, hm, hmf.trans hmx⟩
    have hxf : x ≠ f := fun hxf => hxr ⟨n, hn, hnf.trans hxf.symm⟩
    simp only [AccessLog.flag, hxf, if_false]
    exact hl.untracked x hxr

theorem LogInv_erase {r r2 : LRUKReplacer} {g : AccessLog} {f : Int}
    (hl : LogInv r g) (hrm : RemovedFrom r r2 f) (hk : r2.k_ = r.k_)
    (hts : r2.current_timestamp_ = r.current_timestamp_) : LogInv r2 (g.forget f) := by
  constructor
  · rw [hts, hl.clock]; rfl
  · intro m hm
    obtain ⟨h1, h2⟩ := (hrm m).mp hm
    rw [hk]
    simp only [AccessLog.forget, h2, if_false]
    exact hl.hist m h1
  · intro m hm
    obtain ⟨h1, h2⟩ := (hrm m).mp hm
    simp only [AccessLog.forget, h2, if_false]
    exact hl.flag_eq m h1
  · intro x hx
    by_cases hxf : x = f
    · simp [AccessLog.forget, hxf]
    · have hxr : ¬ r.tracked x := by
        rintro ⟨m, hm, hmx⟩
        exact hx ⟨m, (hrm m).mpr ⟨hm, fun h => hxf (hmx.symm.trans h)⟩, hmx⟩
      simp only [AccessLog.forget, hxf, if_false]
      exact hl.untracked x hxr

/-- Every call keeps the replacer in agreement with the record of the run. -/
theorem LogInv_step {r : LRUKReplacer} {g : AccessLog} (hinv : r.Inv) (ho : r.OrdInv)
    (hk : 2 ≤ r.k_) (hl : LogInv r g) (c : ReplacerCall) :
    LogInv (r.step c) (g.step r c) := by
  cases c with
  | record_access f =>
    cases h : r.RecordAccess f with
    | error e => simp only [LRUKReplacer.step, AccessLog.step, h]; exact hl
    | ok r2 =>
      simp only [LRUKReplacer.step, AccessLog.step, h]
      exact LogInv_RecordAccess hinv ho hk hl h
  | set_evictable f b =>
    cases h : r.SetEvictable f b with
    | error e => simp only [LRUKReplacer.step, AccessLog.step, h]; exact hl
    | ok r2 =>
      simp only [LRUKReplacer.step, AccessLog.step, h]
      exact LogInv_SetEvictable hinv hl h
  | evict =>
    cases h : r.Evict with
    | mk v r2 =>
      cases v with
      | none =>
        have h1 : r.Evict.1 = none := by rw [h]
        have h2 := Evict_none_state h1
        simp only [LRUKReplacer.step, AccessLog.step, h2]
        exact hl
      | some f =>
        obtain ⟨_, _, _, _, _, hr2⟩ := Evict_some_shape hinv h
        obtain ⟨_, _, hk2, _, hrm⟩ := Evict_nodes hinv h
        simp only [LRUKReplacer.step, AccessLog.step, h]
        exact LogInv_erase hl hrm hk2 (by rw [hr2])
  | remove f =>
    cases h : r.Remove f with
    | error e => simp only [LRUKReplacer.step, AccessLog.step, h]; exact hl
    | ok r2 =>
      obtain ⟨_, _, _, _, hr2⟩ := Remove_ok_shape hinv h
      obtain ⟨_, _, hk2, _, hrm⟩ := Remove_nodes hinv h
      simp only [LRUKReplacer.step, AccessLog.step, h]
      exact LogInv_erase hl hrm hk2 (by rw [hr2])

theorem LogInv_run (calls : List ReplacerCall) :
    ∀ (r : LRUKReplacer) (g : AccessLog), r.Inv → r.OrdInv → 2 ≤ r.k_ → LogInv r g →
      LogInv (r.run calls) (r.accessLog g calls) := by
  induction calls with
  | nil => intro r g _ _ _ hl; exact hl
  | cons c cs ih =>
    intro r g hinv ho hk hl
    obtain ⟨h1, h2, h3⟩ := replacer_inv_step hinv ho c
    have := ih (r.step c) (g.step r c) h1 h2 (by rw [h3]; exact hk) (LogInv_step hinv ho hk hl c)
    simpa [LRUKReplacer.run, LRUKReplacer.accessLog] using this

theorem LogInv_new (num_frames k : Nat) : LogInv (LRUKReplacer.new num_frames k) AccessLog.empty := by
  constructor
  · rfl
  · intro n hn; simp [LRUKReplacer.new, LRUKReplacer.nodes] at hn
  · intro n hn; simp [LRUKReplacer.new, LRUKReplacer.nodes] at hn
  · intro f _; exact ⟨rfl, rfl⟩

theorem getD_take_of_lt (l : List Nat) {i K : Nat} (h : i < K) :
    (l.take K).getD i 0 = l.getD i 0 := by
  simp [List.getD_eq_getElem?_getD, List.getElem?_take, h]

theorem take_eq_self_of_length_take_lt {l : List Nat} {K : Nat} (h : (l.take K).length < K) :
    l.take K = l ∧ l.length < K := by
  rw [List.length_take] at h
  have : l.length < K := by omega
  exact ⟨List.take_of_length_le (by omega), this⟩

/-- In a state that agrees with the record of the run, a frame is tracked exactly when
accesses are recorded for it, and evictable exactly when its recorded flag is set. -/
theorem LogInv.tracked_iff {r : LRUKReplacer} {g : AccessLog} (hl : LogInv r g) (ho : r.OrdInv)
    (f : Int) : (r.tracked f ↔ g.accesses f ≠ []) ∧ (r.evictable f ↔ g.evictable f = true) := by
  constructor
  · constructor
    · rintro ⟨n, hn, rfl⟩ ha
      have h1 := hl.hist n hn
      rw [ha] at h1
      exact ho.hist_ne n hn (by simpa using h1)
    · intro ha
      by_contra hnt
      exact ha (hl.untracked f hnt).1
  · constructor
    · rintro ⟨n, hn, rfl, he⟩
      rw [← hl.flag_eq n hn]
      exact he
    · intro he
      by_cases ht : r.tracked f
      · obtain ⟨n, hn, rfl⟩ := ht
        exact ⟨n, hn, rfl, by rw [hl.flag_eq n hn]; exact he⟩
      · rw [(hl.untracked f ht).2] at he
        cases he

/-- C1. LRU-K victim selection over the recorded accesses. Let `r` be the state and `g`
the record (`AccessLog`) of a run of `RecordAccess`, `SetEvictable`, `Evict` and `Remove`
calls on a new replacer with `2 ≤ K` (a `size_t`, so below `2 ^ 64`); `g` is kept from
the calls and their results alone. The state agrees with the record: a frame is tracked
exactly when accesses are recorded for it, evictable exactly when the last `SetEvictable`
on it set the flag, and the history of its node is its `K` most recent recorded
accesses. `Evict` returns nothing exactly when no frame is evictable. If some evictable
frame has fewer than `K` recorded accesses, `Evict` returns the evictable frame with
fewer than `K` recorded accesses whose first recorded access is strictly the earliest.
Otherwise, if some frame is evictable, `Evict` returns the evictable frame whose `K`-th
most recent recorded access is strictly the earliest. -/
theorem evict_selects_lru_k_victim (num_frames K : Nat) (calls : List ReplacerCall)
    (r : LRUKReplacer) (g : AccessLog) (hK : 2 ≤ K) (hK2 : K < 2 ^ 64)
    (hr : (LRUKReplacer.new num_frames K).run calls = r)
    (hg : (LRUKReplacer.new num_frames K).accessLog AccessLog.empty calls = g) :
    (∀ f, (r.tracked f ↔ g.accesses f ≠ []) ∧ (r.evictable f ↔ g.evictable f = true)) ∧
    (∀ n ∈ r.nodes, n.history_ = (g.accesses n.fid_).take K) ∧
    (r.Evict.1 = none ↔ ∀ f, g.evictable f = false) ∧
    ((∃ f, g.evictable f = true ∧ (g.accesses f).length < K) →
      ∃ v, r.Evict.1 = some v ∧ g.evictable v = true ∧ (g.accesses v).length < K ∧
        ∀ w, g.evictable w = true → (g.accesses w).length < K → w ≠ v →
          (g.accesses v).getLastD 0 < (g.accesses w).getLastD 0) ∧
    ((∃ f, g.evictable f = true) →
      (∀ f, g.evictable f = true → K ≤ (g.accesses f).length) →
      ∃ v, r.Evict.1 = some v ∧ g.evictable v = true ∧
        ∀ w, g.evictable w = true → w ≠ v →
          (g.accesses v).getD (K - 1) 0 < (g.accesses w).getD (K - 1) 0) := by
  obtain ⟨_, ho, hk⟩ := replacer_inv_run calls _ (Inv_new num_frames K)
    (OrdInv_new num_frames K (by omega) hK2)
  have hl := LogInv_run calls _ _ (Inv_new num_frames K)
    (OrdInv_new num_frames K (by omega) hK2) hK (LogInv_new num_frames K)
  rw [hr] at ho hk hl
  rw [hg] at hl
  have hk2 : r.k_ = K := hk
  obtain ⟨hnone, hless, hover⟩ := Evict_selects_among_nodes num_frames K calls r hK hK2 hr
  have hhist : ∀ n ∈ r.nodes, n.history_ = (g.accesses n.fid_).take K := by
    intro n hn
    rw [← hk2]
    exact hl.hist n hn
  have hnode : ∀ f, g.evictable f = true → ∃ n ∈ r.nodes, n.fid_ = f ∧ n.is_evictable_ = true :=
    fun f hf => ((hl.tracked_iff ho f).2).mpr hf
  refine ⟨fun f => hl.tracked_iff ho f, hhist, ?_, ?_, ?_⟩
  · rw [hnone]
    constructor
    · intro h f
      cases hf : g.evictable f with
      | false => rfl
      | true =>
        obtain ⟨n, hn, _, he⟩ := hnode f hf
        rw [h n hn] at he
        cases he
    · intro h n hn
      rw [hl.flag_eq n hn]
      exact h n.fid_
  · rintro ⟨f, hf, hlen⟩
    obtain ⟨n, hn, rfl, he⟩ := hnode f hf
    have hnlen : n.history_.length < K := by
      rw [hhist n hn, List.length_take]
      omega
    obtain ⟨v, hv, hev, hvev, hvlen, hmin⟩ := hless ⟨n, hn, he, hnlen⟩
    rw [hhist v hv] at hvlen
    obtain ⟨hvt, hvl⟩ := take_eq_self_of_length_take_lt hvlen
    refine ⟨v.fid_, hev, by rw [← hl.flag_eq v hv]; exact hvev, hvl, ?_⟩
    intro w hw hwlen hwv
    obtain ⟨m, hm, rfl, hme⟩ := hnode w hw
    have hmt : m.history_ = g.accesses m.fid_ := by
      rw [hhist m hm]
      exact List.take_of_length_le (by omega)
    have hmv : m ≠ v := fun h => hwv (by rw [h])
    have := hmin m hm hme (by rw [hmt]; exact hwlen) hmv
    simp only [LRUKNode.oldest] at this
    rw [hmt, hhist v hv, hvt] at this
    exact this
  · rintro ⟨f, hf⟩ hall
    obtain ⟨n, hn, rfl, he⟩ := hnode f hf
    have hfull : ∀ m ∈ r.nodes, m.is_evictable_ = true → ¬ m.history_.length < K := by
      intro m hm hme
      have := hall m.fid_ (by rw [← hl.flag_eq m hm]; exact hme)
      rw [hhist m hm, List.length_take]
      omega
    obtain ⟨v, hv, hev, hvev, _, hmin⟩ := hover ⟨n, hn, he⟩ hfull
    refine ⟨v.fid_, hev, by rw [← hl.flag_eq v hv]; exact hvev, ?_⟩
    intro w hw hwv
    obtain ⟨m, hm, rfl, hme⟩ := hnode w hw
    have hmv : m ≠ v := fun h => hwv (by rw [h])
    have := (hmin m hm hme hmv).2
    simp only [LRUKNode.kthRecent] at this
    rw [hhist m hm, hhist v hv, getD_take_of_lt _ (by omega), getD_take_of_lt _ (by omega)]
      at this
    exact this

/-- The scenario of the specification: a pool of three frames with `K = 2` fetches pages
1, 2, 3, unpins each and fetches page 1 again. Its replacer is then in the state that
`lruKScenario` reaches. The record of that run holds the accesses 4 and 1 for frame 0,
which is not evictable, the access 2 for frame 1 and the access 3 for frame 2, both
evictable; frame 1, which holds page 2, is the evictable frame with fewer than `K`
recorded accesses whose first access is the earliest, and `Evict` returns it; the fetch
of page 4 puts page 4 in that frame. -/
theorem evict_selects_lru_k_victim_witness :
    (2 ≤ 2) ∧ (2 < 2 ^ 64) ∧
    (BufferPoolManager.afterCalls 3 2 lruKPoolScenario).replacer_
      = (LRUKReplacer.new 3 2).run lruKScenario ∧
    (BufferPoolManager.afterCalls 3 2 lruKPoolScenario).page_table_.find 2 = some 1 ∧
    [0, 1, 2].map ((LRUKReplacer.new 3 2).accessLog AccessLog.empty lruKScenario).accesses
      = [[4, 1], [2], [3]] ∧
    [0, 1, 2].map ((LRUKReplacer.new 3 2).accessLog AccessLog.empty lruKScenario).evictable
      = [false, true, true] ∧
    ((LRUKReplacer.new 3 2).run lruKScenario).Evict.1 = some 1 ∧
    (BufferPoolManager.afterCalls 3 2 (lruKPoolScenario ++ [.fetch_page 4])).page_table_.find 4
      = some 1 ∧
    (∃ v, ((LRUKReplacer.new 3 2).run lruKScenario).Evict.1 = some v ∧
      ((LRUKReplacer.new 3 2).accessLog AccessLog.empty lruKScenario).evictable v = true ∧
      (((LRUKReplacer.new 3 2).accessLog AccessLog.empty lruKScenario).accesses v).length < 2 ∧
      ∀ w, ((LRUKReplacer.new 3 2).accessLog AccessLog.empty lruKScenario).evictable w = true →
        (((LRUKReplacer.new 3 2).accessLog AccessLog.empty lruKScenario).accesses w).length < 2 →
        w ≠ v →
        (((LRUKReplacer.new 3 2).accessLog AccessLog.empty lruKScenario).accesses v).getLastD 0
          < (((LRUKReplacer.new 3 2).accessLog AccessLog.empty lruKScenario).accesses w).getLastD
              0) :=
  ⟨by norm_num, by norm_num, by decide!, by decide!, by decide!, by decide!, by decide!,
    by decide!,
    (evict_selects_lru_k_victim 3 2 lruKScenario ((LRUKReplacer.new 3 2).run lruKScenario)
      ((LRUKReplacer.new 3 2).accessLog AccessLog.empty lruKScenario)
      (by norm_num) (by norm_num) rfl rfl).2.2.2.1 ⟨1, by decide!, by decide!⟩⟩

/-- A re-access counts. With `K = 2`, after the accesses 0, 1, 0 with both frames
evictable, the record holds the accesses 3 and 1 for frame 0 and the access 2 for frame
1; frame 1 is the only evictable frame with fewer than `K` recorded accesses, and `Evict`
returns it. -/
theorem reaccess_is_recorded :
    [0, 1].map ((LRUKReplacer.new 2 2).accessLog AccessLog.empty
      [.record_access 0, .record_access 1, .record_access 0, .set_evictable 0 true,
        .set_evictable 1 true]).accesses = [[3, 1], [2]] ∧
    [0, 1].map ((LRUKReplacer.new 2 2).accessLog AccessLog.empty
      [.record_access 0, .record_access 1, .record_access 0, .set_evictable 0 true,
        .set_evictable 1 true]).evictable = [true, true] ∧
    ((LRUKReplacer.new 2 2).run
      [.record_access 0, .record_access 1, .record_access 0, .set_evictable 0 true,
        .set_evictable 1 true]).Evict.1 = some 1 := by
  decide!

end bustub
